import Mathlib


/-! A bytecode compiler and stack VM for a small Lua-flavoured language.

Shallow embedding of `Value.h`, `Token.h`, `AST.h`, `Lexer.cpp`, `Parser.cpp`,
`Chunk.h`, `Compiler.cpp`, `VM.cpp` and the function `run` of `main.cpp`, followed
by theorems about the scanner, the parser, the compiler and the virtual machine.

Conventions of the embedding.

* A `std::string` is a Lean `String`, a `std::vector` a `List`, a byte a `Nat`
  (reduced modulo 256 where a wider integer is converted to `uint8_t`).
* The C++ `double` is a type parameter `D` carrying the operations the program
  uses (`DoubleModel`); the general theorems hold for every such model, and the
  examples are evaluated in the integer model or in the model `ExtDouble`, which
  adds the infinities and NaN.
* `Compiler` methods take the current chunk and return the updated chunk.
* The operand stack is a list whose head is the top of the stack.
* Undefined behaviour of the C++ program (reading past the end of the code,
  popping an empty stack, dereferencing a null statement) and exceptions that
  escape `VM::run` are explicit results (`none`, `StepResult.fault`).
* A `char` of the source text is a character of the string, and `isdigit`,
  `isalpha` and `isalnum` are the tests of the C locale.
* The `int` fields of the scanner (`start`, `current`, `line`, `column`) and the
  `int` distances the compiler computes are numbers without overflow: a source
  text and a chunk hold fewer than `2 ^ 31` characters or bytes.
* A method of `Parser` is a function of the token vector and of the cursor; a
  thrown `ParseError` is a result that carries the cursor. The recursive methods
  take a budget for the depth of the recursion and the dispatch loop of the VM a
  budget of iterations: running out of either is the result `timeout`.
-/

namespace LuaProj

/-! ## Value.h -/

/-- Operations on the C++ `double` type used by the program: the arithmetic and
comparison operators, `std::stod` (the parsed number and the count of characters
consumed, `none` when it throws) and the text `std::cout` writes for a number. -/
class DoubleModel (D : Type) where
  add : D → D → D
  sub : D → D → D
  mul : D → D → D
  div : D → D → D
  neg : D → D
  lt : D → D → Bool
  gt : D → D → Bool
  eq : D → D → Bool
  stod : String → Option (D × Nat)
  fmt : D → String

/-- The variant `std::variant<Nil, bool, double, std::string>`. -/
inductive Value (D : Type) where
  | Nil
  | Boolean (b : Bool)
  | Number (d : D)
  | Str (s : String)
  deriving DecidableEq, Repr

/-- Index of the active alternative, as `std::variant::index`. -/
def Value.index {D : Type} : Value D → Nat
  | .Nil => 0
  | .Boolean _ => 1
  | .Number _ => 2
  | .Str _ => 3

/-- Test `std::holds_alternative<double>`. -/
def Value.isNumber {D : Type} : Value D → Bool
  | .Number _ => true
  | _ => false

/-- Text written by `printValue`. -/
def printValue {D : Type} [DoubleModel D] : Value D → String
  | .Nil => "nil"
  | .Boolean b => if b then "true" else "false"
  | .Number d => DoubleModel.fmt d
  | .Str s => s

/-- Truthiness test of `Value.h`: only `nil` and `false` are falsey. -/
def isFalsey {D : Type} : Value D → Bool
  | .Nil => true
  | .Boolean b => !b
  | _ => false

/-! ## Token.h -/

/-- The enumeration `TokenType`. -/
inductive TokenType where
  | LEFT_PAREN | RIGHT_PAREN | LEFT_BRACE | RIGHT_BRACE
  | COMMA | DOT | MINUS | PLUS | SEMICOLON | SLASH | STAR
  | BANG | BANG_EQUAL
  | EQUAL | EQUAL_EQUAL
  | GREATER | GREATER_EQUAL
  | LESS | LESS_EQUAL
  | IDENTIFIER | STRING | NUMBER
  | AND | BREAK | DO | ELSE | ELSEIF | END | FALSE | FOR | FUNCTION
  | IF | IN | LOCAL | NIL | NOT | OR | REPEAT | RETURN | THEN
  | TRUE | UNTIL | WHILE
  | TOKEN_EOF
  deriving DecidableEq, Repr

/-- The struct `Token`. -/
structure Token where
  type : TokenType
  lexeme : String
  line : Int
  column : Int
  deriving DecidableEq, Repr

/-! ## AST.h -/

/-- Expression nodes. -/
inductive Expr where
  | Binary (left : Expr) (op : Token) (right : Expr)
  | Grouping (expression : Expr)
  | Literal (value : String)
  | Unary (op : Token) (right : Expr)
  | Variable (name : Token)
  | Assignment (name : Token) (value : Expr)
  | Call (callee : Expr) (paren : Token) (arguments : List Expr)

/-- Statement nodes. An entry of a statement vector is a `std::unique_ptr<Stmt>`
that may be null (`none`); so is an absent initializer, else branch or return
value. -/
inductive Stmt where
  | Expression (expression : Expr)
  | Print (expression : Expr)
  | VarDecl (name : Token) (initializer : Option Expr)
  | Block (statements : List (Option Stmt))
  | If (condition : Expr) (thenBranch : Stmt) (elseBranch : Option Stmt)
  | While (condition : Expr) (body : Stmt)
  | Function (name : Token) (params : List Token) (body : List (Option Stmt))
  | Return (keyword : Token) (value : Option Expr)

/-! ## Lexer.h, Lexer.cpp -/

/-- The state of a `Lexer`: the fields of the class, and the messages the
scanner writes to `std::cerr`. A `char` of the source is a character of the
string. -/
structure Lexer where
  source : List Char
  tokens : List Token := []
  start : Nat := 0
  current : Nat := 0
  line : Int := 1
  column : Int := 1
  errors : List String := []

/-- The character `source[i]`; reading at the end of a `std::string` gives the
terminating null character. -/
def Lexer.charAt (lx : Lexer) (i : Nat) : Char :=
  lx.source.getD i (Char.ofNat 0)

/-- The method `Lexer::isAtEnd`. -/
def Lexer.isAtEnd (lx : Lexer) : Bool :=
  decide (lx.current ≥ lx.source.length)

/-- The method `Lexer::advance`: the character read and the updated state. -/
def Lexer.advance (lx : Lexer) : Char × Lexer :=
  (lx.charAt lx.current, { lx with column := lx.column + 1, current := lx.current + 1 })

/-- The method `Lexer::peek`. -/
def Lexer.peek (lx : Lexer) : Char :=
  if lx.isAtEnd then Char.ofNat 0 else lx.charAt lx.current

/-- The method `Lexer::peekNext`. -/
def Lexer.peekNext (lx : Lexer) : Char :=
  if lx.current + 1 ≥ lx.source.length then Char.ofNat 0 else lx.charAt (lx.current + 1)

/-- The method `Lexer::match`: the returned flag and the updated state. -/
def Lexer.matchChar (lx : Lexer) (expected : Char) : Bool × Lexer :=
  if lx.isAtEnd then (false, lx)
  else if lx.charAt lx.current ≠ expected then (false, lx)
  else (true, { lx with current := lx.current + 1, column := lx.column + 1 })

/-- The call `source.substr(pos, len)`. -/
def substr (source : List Char) (pos len : Nat) : String :=
  String.mk ((source.drop pos).take len)

/-- The method `Lexer::addToken(TokenType, std::string)`. -/
def Lexer.addTokenWith (lx : Lexer) (type : TokenType) (literal : String) : Lexer :=
  { lx with tokens := lx.tokens ++ [{ type := type, lexeme := literal, line := lx.line,
                                      column := lx.column }] }

/-- The method `Lexer::addToken(TokenType)`. -/
def Lexer.addToken (lx : Lexer) (type : TokenType) : Lexer :=
  lx.addTokenWith type (substr lx.source lx.start (lx.current - lx.start))

/-- The loop `while (peek() != '\n' && !isAtEnd()) advance()` of a comment. Every
iteration moves `current` forward and the loop stops at the end of the source,
so it runs at most `budget = source.length - current` times. -/
def Lexer.skipComment : Nat → Lexer → Lexer
  | 0, lx => lx
  | budget + 1, lx =>
    if lx.peek ≠ Char.ofNat 10 ∧ !lx.isAtEnd then Lexer.skipComment budget lx.advance.2 else lx

/-- The loop of `Lexer::string` up to the closing quote or the end of the
source, bounded like `skipComment`. -/
def Lexer.stringBody : Nat → Lexer → Lexer
  | 0, lx => lx
  | budget + 1, lx =>
    if lx.peek ≠ Char.ofNat 34 ∧ !lx.isAtEnd then
      let lx1 := if lx.peek = Char.ofNat 10 then { lx with line := lx.line + 1, column := 1 } else lx
      Lexer.stringBody budget lx1.advance.2
    else lx

/-- The method `Lexer::string`. -/
def Lexer.string (lx0 : Lexer) : Lexer :=
  let lx := Lexer.stringBody (lx0.source.length - lx0.current) lx0
  if lx.isAtEnd then
    { lx with errors := lx.errors ++ ["Unterminated string at line " ++ toString lx.line] }
  else
    let lx1 := lx.advance.2
    let value := substr lx1.source (lx1.start + 1) (lx1.current - lx1.start - 2)
    lx1.addTokenWith .STRING value

/-- The loop `while (isdigit(peek())) advance()`, bounded like `skipComment`. -/
def Lexer.digits : Nat → Lexer → Lexer
  | 0, lx => lx
  | budget + 1, lx => if lx.peek.isDigit then Lexer.digits budget lx.advance.2 else lx

/-- The method `Lexer::number`. -/
def Lexer.number (lx0 : Lexer) : Lexer :=
  let lx := Lexer.digits (lx0.source.length - lx0.current) lx0
  let lx1 :=
    if lx.peek = Char.ofNat 46 ∧ lx.peekNext.isDigit then
      let lx2 := lx.advance.2
      Lexer.digits (lx2.source.length - lx2.current) lx2
    else lx
  lx1.addToken .NUMBER

/-- The table `keywords` of `Lexer::identifier`. -/
def keywords : List (String × TokenType) :=
  [("and", .AND), ("break", .BREAK), ("do", .DO), ("else", .ELSE), ("elseif", .ELSEIF),
   ("end", .END), ("false", .FALSE), ("for", .FOR), ("function", .FUNCTION), ("if", .IF),
   ("in", .IN), ("local", .LOCAL), ("nil", .NIL), ("not", .NOT), ("or", .OR),
   ("repeat", .REPEAT), ("return", .RETURN), ("then", .THEN), ("true", .TRUE),
   ("until", .UNTIL), ("while", .WHILE)]

/-- The loop `while (isalnum(peek()) || peek() == '_') advance()`, bounded like
`skipComment`. -/
def Lexer.identifierBody : Nat → Lexer → Lexer
  | 0, lx => lx
  | budget + 1, lx =>
    if lx.peek.isAlphanum ∨ lx.peek = Char.ofNat 95 then Lexer.identifierBody budget lx.advance.2
    else lx

/-- The method `Lexer::identifier`. -/
def Lexer.identifier (lx0 : Lexer) : Lexer :=
  let lx := Lexer.identifierBody (lx0.source.length - lx0.current) lx0
  let text := substr lx.source lx.start (lx.current - lx.start)
  let type := (keywords.lookup text).getD .IDENTIFIER
  lx.addToken type

/-- The method `Lexer::scanToken`. -/
def Lexer.scanToken (lx0 : Lexer) : Lexer :=
  let c := lx0.advance.1
  let lx := lx0.advance.2
  if c = Char.ofNat 40 then lx.addToken .LEFT_PAREN
  else if c = Char.ofNat 41 then lx.addToken .RIGHT_PAREN
  else if c = Char.ofNat 123 then lx.addToken .LEFT_BRACE
  else if c = Char.ofNat 125 then lx.addToken .RIGHT_BRACE
  else if c = Char.ofNat 44 then lx.addToken .COMMA
  else if c = Char.ofNat 46 then lx.addToken .DOT
  else if c = Char.ofNat 45 then
    let m := lx.matchChar (Char.ofNat 45)
    if m.1 then Lexer.skipComment (m.2.source.length - m.2.current) m.2
    else m.2.addToken .MINUS
  else if c = Char.ofNat 43 then lx.addToken .PLUS
  else if c = Char.ofNat 59 then lx.addToken .SEMICOLON
  else if c = Char.ofNat 42 then lx.addToken .STAR
  else if c = Char.ofNat 33 then
    let m := lx.matchChar (Char.ofNat 61)
    m.2.addToken (if m.1 then .BANG_EQUAL else .BANG)
  else if c = Char.ofNat 61 then
    let m := lx.matchChar (Char.ofNat 61)
    m.2.addToken (if m.1 then .EQUAL_EQUAL else .EQUAL)
  else if c = Char.ofNat 60 then
    let m := lx.matchChar (Char.ofNat 61)
    m.2.addToken (if m.1 then .LESS_EQUAL else .LESS)
  else if c = Char.ofNat 62 then
    let m := lx.matchChar (Char.ofNat 61)
    m.2.addToken (if m.1 then .GREATER_EQUAL else .GREATER)
  else if c = Char.ofNat 47 then lx.addToken .SLASH
  else if c = Char.ofNat 32 ∨ c = Char.ofNat 13 ∨ c = Char.ofNat 9 then lx
  else if c = Char.ofNat 10 then { lx with line := lx.line + 1, column := 1 }
  else if c = Char.ofNat 34 then lx.string
  else if c.isDigit then lx.number
  else if c.isAlpha ∨ c = Char.ofNat 95 then lx.identifier
  else
    { lx with errors := lx.errors
        ++ ["Unexpected character at line " ++ toString lx.line ++ ": " ++ String.singleton c] }

/-- The loop of `Lexer::scanTokens`, bounded by a number of iterations: `none`
when the end of the source is not reached within the bound. -/
def Lexer.scanLoop : Nat → Lexer → Option Lexer
  | 0, lx => if lx.isAtEnd then some lx else none
  | budget + 1, lx =>
    if lx.isAtEnd then some lx
    else Lexer.scanLoop budget (Lexer.scanToken { lx with start := lx.current })

/-- The method `Lexer::scanTokens` on a fresh `Lexer(source)`: the final state
of the scanner, whose `tokens` is the returned vector. Every call of `scanToken`
reads at least one character, so the loop is given one iteration per character. -/
def Lexer.scan (source : String) : Option Lexer :=
  match Lexer.scanLoop source.length { source := source.toList } with
  | none => none
  | some lx =>
    some { lx with tokens := lx.tokens
      ++ [{ type := .TOKEN_EOF, lexeme := "", line := lx.line, column := lx.column }] }

/-- The token vector returned by `Lexer(source).scanTokens()`. -/
def scanTokens (source : String) : Option (List Token) :=
  (Lexer.scan source).map (fun lx => lx.tokens)


/-! ## Parser.h, Parser.cpp -/

/-- What a call of a `Parser` method produces: a returned value, a thrown
`ParseError`, undefined behaviour (a token read outside the vector), or no
result within the recursion budget. The field `current` of the parser is
carried in the first two. -/
inductive ParseResult (α : Type) where
  | ok (value : α) (current : Nat)
  | error (message : String) (current : Nat)
  | fault
  | timeout

/-- A `Parser` method: a function of the token vector (the constant reference
`tokens`) and of the field `current` on entry. -/
def ParserM (α : Type) : Type := List Token → Nat → ParseResult α

instance : Monad ParserM where
  pure a := fun _ current => .ok a current
  bind m f := fun tokens current =>
    match m tokens current with
    | .ok a current1 => f a tokens current1
    | .error message current1 => .error message current1
    | .fault => .fault
    | .timeout => .timeout

/-- The statement `throw ParseError(message)`. -/
def throwParseError {α : Type} (message : String) : ParserM α :=
  fun _ current => .error message current

/-- The recursion budget is used up. -/
def outOfBudget {α : Type} : ParserM α :=
  fun _ _ => .timeout

namespace Parser

/-- The method `Parser::peek`. -/
def peek : ParserM Token := fun tokens current =>
  match tokens[current]? with
  | some t => .ok t current
  | none => .fault

/-- The method `Parser::previous`. -/
def previous : ParserM Token := fun tokens current =>
  if current = 0 then .fault
  else
    match tokens[current - 1]? with
    | some t => .ok t current
    | none => .fault

/-- The method `Parser::isAtEnd`. -/
def isAtEnd : ParserM Bool := do
  let t ← peek
  pure (t.type == .TOKEN_EOF)

/-- The method `Parser::check`. -/
def check (type : TokenType) : ParserM Bool := do
  if (← isAtEnd) then pure false
  else
    let t ← peek
    pure (t.type == type)

/-- The method `Parser::advance`. -/
def advance : ParserM Token := do
  if !(← isAtEnd) then (fun _ current => .ok () (current + 1) : ParserM Unit)
  previous

/-- The method `Parser::match`. -/
def matchTypes : List TokenType → ParserM Bool
  | [] => pure false
  | type :: rest => do
    if (← check type) then
      let _ ← advance
      pure true
    else matchTypes rest

/-- The method `Parser::consume`. -/
def consume (type : TokenType) (message : String) : ParserM Token := do
  if (← check type) then advance
  else throwParseError message

/-- The token types at which `Parser::synchronize` stops. -/
def startsStatement : TokenType → Bool
  | .FUNCTION | .LOCAL | .FOR | .IF | .WHILE | .RETURN | .REPEAT => true
  | _ => false

/-- The loop of `Parser::synchronize`. Every iteration that does not return
advances `current`, and the loop stops at the end-of-input token, so it is given
`budget = tokens.size() - current` iterations. -/
def synchronizeLoop : Nat → ParserM Unit
  | 0 => outOfBudget
  | budget + 1 => do
    if (← isAtEnd) then pure ()
    else
      if (← previous).type == .SEMICOLON then pure ()
      else if startsStatement (← peek).type then pure ()
      else
        let _ ← advance
        synchronizeLoop budget

/-- The method `Parser::synchronize`. -/
def synchronize : ParserM Unit := fun tokens current =>
  (do let _ ← advance
      synchronizeLoop (tokens.length - current)) tokens current

/-- The parameter loop of `Parser::functionDeclaration`, a `do ... while`. -/
def parameters : Nat → List Token → ParserM (List Token)
  | 0, _ => outOfBudget
  | budget + 1, acc => do
    let name ← consume .IDENTIFIER "Expect parameter name."
    if (← matchTypes [.COMMA]) then parameters budget (acc ++ [name])
    else pure (acc ++ [name])

mutual
/-- The method `Parser::declaration`; the `catch` clause turns a `ParseError`
into a null statement after `synchronize`. -/
def declaration : Nat → ParserM (Option Stmt)
  | 0 => outOfBudget
  | budget + 1 => fun tokens current =>
    match (do
        if (← matchTypes [.FUNCTION]) then functionDeclaration budget
        else if (← matchTypes [.LOCAL]) then varDeclaration budget
        else statement budget : ParserM Stmt) tokens current with
    | .ok s current1 => .ok (some s) current1
    | .error _ current1 =>
      match synchronize tokens current1 with
      | .ok _ current2 => .ok none current2
      | .error message current2 => .error message current2
      | .fault => .fault
      | .timeout => .timeout
    | .fault => .fault
    | .timeout => .timeout
/-- The method `Parser::functionDeclaration`. -/
def functionDeclaration : Nat → ParserM Stmt
  | 0 => outOfBudget
  | budget + 1 => do
    let name ← consume .IDENTIFIER "Expect function name."
    let _ ← consume .LEFT_PAREN "Expect '(' after function name."
    let params ← (do
      if !(← check .RIGHT_PAREN) then parameters budget []
      else pure [] : ParserM (List Token))
    let _ ← consume .RIGHT_PAREN "Expect ')' after parameters."
    let body ← block budget []
    let _ ← consume .END "Expect 'end' after function body."
    pure (.Function name params body)
/-- The method `Parser::varDeclaration`. -/
def varDeclaration : Nat → ParserM Stmt
  | 0 => outOfBudget
  | budget + 1 => do
    let name ← consume .IDENTIFIER "Expect variable name."
    if (← matchTypes [.EQUAL]) then
      let initializer ← expression budget
      pure (.VarDecl name (some initializer))
    else pure (.VarDecl name none)
/-- The method `Parser::statement`. -/
def statement : Nat → ParserM Stmt
  | 0 => outOfBudget
  | budget + 1 => do
    if (← matchTypes [.IF]) then ifStatement budget
    else if (← matchTypes [.WHILE]) then whileStatement budget
    else if (← matchTypes [.DO]) then
      let stmts ← block budget []
      let _ ← consume .END "Expect 'end' after do block."
      pure (.Block stmts)
    else if (← matchTypes [.RETURN]) then returnStatement budget
    else expressionStatement budget
/-- The method `Parser::ifStatement`. -/
def ifStatement : Nat → ParserM Stmt
  | 0 => outOfBudget
  | budget + 1 => do
    let condition ← expression budget
    let _ ← consume .THEN "Expect 'then' after if condition."
    let thenStmts ← block budget []
    if (← matchTypes [.ELSE]) then
      let elseStmts ← block budget []
      let _ ← consume .END "Expect 'end' after if statement."
      pure (.If condition (.Block thenStmts) (some (.Block elseStmts)))
    else
      let _ ← consume .END "Expect 'end' after if statement."
      pure (.If condition (.Block thenStmts) none)
/-- The method `Parser::whileStatement`. -/
def whileStatement : Nat → ParserM Stmt
  | 0 => outOfBudget
  | budget + 1 => do
    let condition ← expression budget
    let _ ← consume .DO "Expect 'do' after while condition."
    let bodyStmts ← block budget []
    let _ ← consume .END "Expect 'end' after while loop."
    pure (.While condition (.Block bodyStmts))
/-- The method `Parser::returnStatement`. -/
def returnStatement : Nat → ParserM Stmt
  | 0 => outOfBudget
  | budget + 1 => do
    let keyword ← previous
    let value ← (do
      if !(← check .END) && !(← check .ELSE) && !(← check .ELSEIF) && !(← check .TOKEN_EOF) then
        if !(← check .SEMICOLON) then
          let e ← expression budget
          pure (some e)
        else pure none
      else pure none : ParserM (Option Expr))
    let _ ← matchTypes [.SEMICOLON]
    pure (.Return keyword value)
/-- The method `Parser::block`: the loop, with the statements read so far. -/
def block : Nat → List (Option Stmt) → ParserM (List (Option Stmt))
  | 0, _ => outOfBudget
  | budget + 1, statements => do
    if !(← check .END) && !(← check .ELSE) && !(← check .ELSEIF) && !(← check .UNTIL)
        && !(← isAtEnd) then
      let s ← declaration budget
      block budget (statements ++ [s])
    else pure statements
/-- The method `Parser::expressionStatement`. -/
def expressionStatement : Nat → ParserM Stmt
  | 0 => outOfBudget
  | budget + 1 => do
    let expr ← expression budget
    pure (.Expression expr)
/-- The method `Parser::expression`. -/
def expression : Nat → ParserM Expr
  | 0 => outOfBudget
  | budget + 1 => assignment budget
/-- The method `Parser::assignment`. -/
def assignment : Nat → ParserM Expr
  | 0 => outOfBudget
  | budget + 1 => do
    let expr ← orExpr budget
    if (← matchTypes [.EQUAL]) then
      let _ ← previous
      let value ← assignment budget
      match expr with
      | .Variable name => pure (.Assignment name value)
      | _ => throwParseError "Invalid assignment target."
    else pure expr
/-- The method `Parser::orExpr`. -/
def orExpr : Nat → ParserM Expr
  | 0 => outOfBudget
  | budget + 1 => do
    let expr ← andExpr budget
    orLoop budget expr
/-- The loop of `Parser::orExpr`. -/
def orLoop : Nat → Expr → ParserM Expr
  | 0, _ => outOfBudget
  | budget + 1, expr => do
    if (← matchTypes [.OR]) then
      let op ← previous
      let right ← andExpr budget
      orLoop budget (.Binary expr op right)
    else pure expr
/-- The method `Parser::andExpr`. -/
def andExpr : Nat → ParserM Expr
  | 0 => outOfBudget
  | budget + 1 => do
    let expr ← equality budget
    andLoop budget expr
/-- The loop of `Parser::andExpr`. -/
def andLoop : Nat → Expr → ParserM Expr
  | 0, _ => outOfBudget
  | budget + 1, expr => do
    if (← matchTypes [.AND]) then
      let op ← previous
      let right ← equality budget
      andLoop budget (.Binary expr op right)
    else pure expr
/-- The method `Parser::equality`. -/
def equality : Nat → ParserM Expr
  | 0 => outOfBudget
  | budget + 1 => do
    let expr ← comparison budget
    equalityLoop budget expr
/-- The loop of `Parser::equality`. -/
def equalityLoop : Nat → Expr → ParserM Expr
  | 0, _ => outOfBudget
  | budget + 1, expr => do
    if (← matchTypes [.BANG_EQUAL, .EQUAL_EQUAL]) then
      let op ← previous
      let right ← comparison budget
      equalityLoop budget (.Binary expr op right)
    else pure expr
/-- The method `Parser::comparison`. -/
def comparison : Nat → ParserM Expr
  | 0 => outOfBudget
  | budget + 1 => do
    let expr ← term budget
    comparisonLoop budget expr
/-- The loop of `Parser::comparison`. -/
def comparisonLoop : Nat → Expr → ParserM Expr
  | 0, _ => outOfBudget
  | budget + 1, expr => do
    if (← matchTypes [.GREATER, .GREATER_EQUAL, .LESS, .LESS_EQUAL]) then
      let op ← previous
      let right ← term budget
      comparisonLoop budget (.Binary expr op right)
    else pure expr
/-- The method `Parser::term`. -/
def term : Nat → ParserM Expr
  | 0 => outOfBudget
  | budget + 1 => do
    let expr ← factor budget
    termLoop budget expr
/-- The loop of `Parser::term`. -/
def termLoop : Nat → Expr → ParserM Expr
  | 0, _ => outOfBudget
  | budget + 1, expr => do
    if (← matchTypes [.MINUS, .PLUS]) then
      let op ← previous
      let right ← factor budget
      termLoop budget (.Binary expr op right)
    else pure expr
/-- The method `Parser::factor`. -/
def factor : Nat → ParserM Expr
  | 0 => outOfBudget
  | budget + 1 => do
    let expr ← unary budget
    factorLoop budget expr
/-- The loop of `Parser::factor`. -/
def factorLoop : Nat → Expr → ParserM Expr
  | 0, _ => outOfBudget
  | budget + 1, expr => do
    if (← matchTypes [.SLASH, .STAR]) then
      let op ← previous
      let right ← unary budget
      factorLoop budget (.Binary expr op right)
    else pure expr
/-- The method `Parser::unary`. -/
def unary : Nat → ParserM Expr
  | 0 => outOfBudget
  | budget + 1 => do
    if (← matchTypes [.BANG, .MINUS, .NOT]) then
      let op ← previous
      let right ← unary budget
      pure (.Unary op right)
    else call budget
/-- The method `Parser::call`. -/
def call : Nat → ParserM Expr
  | 0 => outOfBudget
  | budget + 1 => do
    let expr ← primary budget
    callLoop budget expr
/-- The loop of `Parser::call`. -/
def callLoop : Nat → Expr → ParserM Expr
  | 0, _ => outOfBudget
  | budget + 1, expr => do
    if (← matchTypes [.LEFT_PAREN]) then
      let expr1 ← finishCall budget expr
      callLoop budget expr1
    else pure expr
/-- The method `Parser::finishCall`. -/
def finishCall : Nat → Expr → ParserM Expr
  | 0, _ => outOfBudget
  | budget + 1, callee => do
    let arguments ← (do
      if !(← check .RIGHT_PAREN) then argumentsLoop budget []
      else pure [] : ParserM (List Expr))
    let paren ← consume .RIGHT_PAREN "Expect ')' after arguments."
    pure (.Call callee paren arguments)
/-- The argument loop of `Parser::finishCall`, a `do ... while`. -/
def argumentsLoop : Nat → List Expr → ParserM (List Expr)
  | 0, _ => outOfBudget
  | budget + 1, acc => do
    let e ← expression budget
    if (← matchTypes [.COMMA]) then argumentsLoop budget (acc ++ [e])
    else pure (acc ++ [e])
/-- The method `Parser::primary`. -/
def primary : Nat → ParserM Expr
  | 0 => outOfBudget
  | budget + 1 => do
    if (← matchTypes [.FALSE]) then pure (.Literal "false")
    else if (← matchTypes [.TRUE]) then pure (.Literal "true")
    else if (← matchTypes [.NIL]) then pure (.Literal "nil")
    else if (← matchTypes [.NUMBER, .STRING]) then pure (.Literal (← previous).lexeme)
    else if (← matchTypes [.IDENTIFIER]) then pure (.Variable (← previous))
    else if (← matchTypes [.LEFT_PAREN]) then
      let expr ← expression budget
      let _ ← consume .RIGHT_PAREN "Expect ')' after expression."
      pure (.Grouping expr)
    else throwParseError "Expect expression."
end

/-- The loop of `Parser::parse`, with the statements read so far. -/
def parseLoop : Nat → List (Option Stmt) → ParserM (List (Option Stmt))
  | 0, _ => outOfBudget
  | budget + 1, statements => do
    if !(← isAtEnd) then
      let s ← declaration budget
      parseLoop budget (statements ++ [s])
    else pure statements

/-- The method `Parser::parse` of a fresh `Parser(tokens)`, with a budget for
the depth of the recursion. -/
def parse (budget : Nat) (tokens : List Token) : ParseResult (List (Option Stmt)) :=
  parseLoop budget [] tokens 0

end Parser

/-! ## Chunk.h -/

/-- The enumeration `OpCode`. -/
inductive OpCode where
  | OP_CONSTANT
  | OP_NIL
  | OP_TRUE
  | OP_FALSE
  | OP_POP
  | OP_GET_GLOBAL
  | OP_SET_GLOBAL
  | OP_DEFINE_GLOBAL
  | OP_EQUAL
  | OP_GREATER
  | OP_LESS
  | OP_ADD
  | OP_SUBTRACT
  | OP_MULTIPLY
  | OP_DIVIDE
  | OP_NOT
  | OP_NEGATE
  | OP_PRINT
  | OP_JUMP
  | OP_JUMP_IF_FALSE
  | OP_LOOP
  | OP_RETURN
  deriving DecidableEq, Repr

/-- Numeric value of an opcode (`static_cast<uint8_t>`). -/
def OpCode.toByte : OpCode → Nat
  | .OP_CONSTANT => 0
  | .OP_NIL => 1
  | .OP_TRUE => 2
  | .OP_FALSE => 3
  | .OP_POP => 4
  | .OP_GET_GLOBAL => 5
  | .OP_SET_GLOBAL => 6
  | .OP_DEFINE_GLOBAL => 7
  | .OP_EQUAL => 8
  | .OP_GREATER => 9
  | .OP_LESS => 10
  | .OP_ADD => 11
  | .OP_SUBTRACT => 12
  | .OP_MULTIPLY => 13
  | .OP_DIVIDE => 14
  | .OP_NOT => 15
  | .OP_NEGATE => 16
  | .OP_PRINT => 17
  | .OP_JUMP => 18
  | .OP_JUMP_IF_FALSE => 19
  | .OP_LOOP => 20
  | .OP_RETURN => 21

/-- The case label of the dispatch switch that a byte selects, if any. -/
def OpCode.ofByte : Nat → Option OpCode
  | 0 => some .OP_CONSTANT
  | 1 => some .OP_NIL
  | 2 => some .OP_TRUE
  | 3 => some .OP_FALSE
  | 4 => some .OP_POP
  | 5 => some .OP_GET_GLOBAL
  | 6 => some .OP_SET_GLOBAL
  | 7 => some .OP_DEFINE_GLOBAL
  | 8 => some .OP_EQUAL
  | 9 => some .OP_GREATER
  | 10 => some .OP_LESS
  | 11 => some .OP_ADD
  | 12 => some .OP_SUBTRACT
  | 13 => some .OP_MULTIPLY
  | 14 => some .OP_DIVIDE
  | 15 => some .OP_NOT
  | 16 => some .OP_NEGATE
  | 17 => some .OP_PRINT
  | 18 => some .OP_JUMP
  | 19 => some .OP_JUMP_IF_FALSE
  | 20 => some .OP_LOOP
  | 21 => some .OP_RETURN
  | _ => none

/-- The class `Chunk`: bytecode, constant pool and line map. -/
structure Chunk (D : Type) where
  code : List Nat := []
  constants : List (Value D) := []
  lines : List Int := []

/-- The method `Chunk::write`; the parameter is a `uint8_t`, so a wider argument
is reduced modulo 256. -/
def Chunk.write {D : Type} (c : Chunk D) (byte : Nat) (line : Int) : Chunk D :=
  { c with code := c.code ++ [byte % 256], lines := c.lines ++ [line] }

/-- The method `Chunk::addConstant`: the updated chunk and the returned index. -/
def Chunk.addConstant {D : Type} (c : Chunk D) (value : Value D) : Chunk D × Nat :=
  let c1 : Chunk D := { c with constants := c.constants ++ [value] }
  (c1, c1.constants.length - 1)

/-! ## Compiler.cpp -/

/-- The method `Compiler::emitByte`. -/
def emitByte {D : Type} (c : Chunk D) (byte : Nat) : Chunk D :=
  c.write byte 0

/-- The method `Compiler::emitOp`. -/
def emitOp {D : Type} (c : Chunk D) (op : OpCode) : Chunk D :=
  emitByte c op.toByte

/-- The method `Compiler::emitBytes`. -/
def emitBytes {D : Type} (c : Chunk D) (byte1 byte2 : Nat) : Chunk D :=
  emitByte (emitByte c byte1) byte2

/-- The method `Compiler::emitLoop`. The test `offset > UINT16_MAX` has an empty
body in the source and so does not appear. -/
def emitLoop {D : Type} (c : Chunk D) (loopStart : Nat) : Chunk D :=
  let c1 := emitOp c .OP_LOOP
  let offset := c1.code.length - loopStart + 2
  let c2 := emitByte c1 ((offset >>> 8) &&& 0xff)
  emitByte c2 (offset &&& 0xff)

/-- The method `Compiler::emitJump`: the updated chunk and the offset of the
placeholder operand. -/
def emitJump {D : Type} (c : Chunk D) (instruction : Nat) : Chunk D × Nat :=
  let c1 := emitByte c instruction
  let c2 := emitByte c1 0xff
  let c3 := emitByte c2 0xff
  (c3, c3.code.length - 2)

/-- The method `Compiler::patchJump`. The test `jump > UINT16_MAX` has an empty
body in the source and so does not appear. -/
def patchJump {D : Type} (c : Chunk D) (offset : Nat) : Chunk D :=
  let jump := c.code.length - offset - 2
  { c with code := (c.code.set offset ((jump >>> 8) &&& 0xff)).set (offset + 1) (jump &&& 0xff) }

/-- The method `Compiler::makeConstant`. -/
def makeConstant {D : Type} (c : Chunk D) (value : Value D) : Chunk D × Nat :=
  c.addConstant value

/-- The method `Compiler::emitConstant`. -/
def emitConstant {D : Type} (c : Chunk D) (value : Value D) : Chunk D :=
  let r := makeConstant c value
  emitBytes r.1 OpCode.OP_CONSTANT.toByte r.2

/-- The `try` block of `visitLiteralExpr`: the number, when `std::stod` succeeds
and consumes the whole lexeme. -/
def parseWholeNumber {D : Type} [DoubleModel D] (val : String) : Option D :=
  match (DoubleModel.stod val : Option (D × Nat)) with
  | some (num, idx) => if idx = val.length then some num else none
  | none => none

/-- The string constant of `visitLiteralExpr`: the lexeme without one pair of
surrounding double quotes (character 34), when it has them. -/
def stripQuotes (val : String) : String :=
  if val.length ≥ 2 ∧ val.toList.head? = some (Char.ofNat 34)
      ∧ val.toList.getLast? = some (Char.ofNat 34) then
    String.mk ((val.toList.drop 1).take (val.length - 2))
  else val

/-- The method `Compiler::visitLiteralExpr`. -/
def visitLiteralExpr {D : Type} [DoubleModel D] (c : Chunk D) (val : String) : Chunk D :=
  if val = "nil" then emitOp c .OP_NIL
  else if val = "true" then emitOp c .OP_TRUE
  else if val = "false" then emitOp c .OP_FALSE
  else
    match (parseWholeNumber val : Option D) with
    | some num => emitConstant c (.Number num)
    | none => emitConstant c (.Str (stripQuotes val))

/-- The switch of `visitBinaryExpr`. -/
def binaryOpcode : TokenType → Option OpCode
  | .PLUS => some .OP_ADD
  | .MINUS => some .OP_SUBTRACT
  | .STAR => some .OP_MULTIPLY
  | .SLASH => some .OP_DIVIDE
  | .EQUAL_EQUAL => some .OP_EQUAL
  | .GREATER => some .OP_GREATER
  | .LESS => some .OP_LESS
  | _ => none

/-- The switch of `visitUnaryExpr`. -/
def unaryOpcode : TokenType → Option OpCode
  | .MINUS => some .OP_NEGATE
  | .NOT => some .OP_NOT
  | _ => none

/-- Emit the opcode a switch selected, or nothing on its `default` branch. -/
def emitSelected {D : Type} (c : Chunk D) : Option OpCode → Chunk D
  | some op => emitOp c op
  | none => c

/-- The test of `visitCallExpr`: the callee is a `VariableExpr` named `print`. -/
def isPrintCallee : Expr → Bool
  | .Variable name => name.lexeme == "print"
  | _ => false

mutual
/-- The expression visitors of `Compiler` (`expr->accept(this)`). -/
def visitExpr {D : Type} [DoubleModel D] : Expr → Chunk D → Chunk D
  | .Binary left op right, c =>
      emitSelected (visitExpr right (visitExpr left c)) (binaryOpcode op.type)
  | .Grouping expression, c => visitExpr expression c
  | .Literal value, c => visitLiteralExpr c value
  | .Unary op right, c => emitSelected (visitExpr right c) (unaryOpcode op.type)
  | .Variable name, c =>
      let r := makeConstant c (.Str name.lexeme)
      emitBytes r.1 OpCode.OP_GET_GLOBAL.toByte r.2
  | .Assignment name value, c =>
      let c1 := visitExpr value c
      let r := makeConstant c1 (.Str name.lexeme)
      emitBytes r.1 OpCode.OP_SET_GLOBAL.toByte r.2
  | .Call callee _ arguments, c =>
      if isPrintCallee callee then emitOp (visitPrintArgs arguments c) .OP_NIL
      else c
/-- The argument loop of `visitCallExpr`: each argument followed by `OP_PRINT`. -/
def visitPrintArgs {D : Type} [DoubleModel D] : List Expr → Chunk D → Chunk D
  | [], c => c
  | arg :: rest, c => visitPrintArgs rest (emitOp (visitExpr arg c) .OP_PRINT)
end

mutual
/-- The statement visitors of `Compiler` (`stmt->accept(this)`). -/
def visitStmt {D : Type} [DoubleModel D] : Stmt → Chunk D → Option (Chunk D)
  | .Expression expression, c => some (emitOp (visitExpr expression c) .OP_POP)
  | .Print _, c => some c
  | .VarDecl name initializer, c =>
      let c1 := match initializer with
        | some e => visitExpr e c
        | none => emitOp c .OP_NIL
      let r := makeConstant c1 (.Str name.lexeme)
      some (emitBytes r.1 OpCode.OP_DEFINE_GLOBAL.toByte r.2)
  | .Block statements, c => visitStmts statements c
  | .If condition thenBranch elseBranch, c =>
      let c1 := visitExpr condition c
      let thenJump := emitJump c1 OpCode.OP_JUMP_IF_FALSE.toByte
      let c2 := emitOp thenJump.1 .OP_POP
      match visitStmt thenBranch c2 with
      | none => none
      | some c3 =>
        let elseJump := emitJump c3 OpCode.OP_JUMP.toByte
        let c4 := patchJump elseJump.1 thenJump.2
        let c5 := emitOp c4 .OP_POP
        match visitElse elseBranch c5 with
        | none => none
        | some c6 => some (patchJump c6 elseJump.2)
  | .While condition body, c =>
      let loopStart := c.code.length
      let c1 := visitExpr condition c
      let exitJump := emitJump c1 OpCode.OP_JUMP_IF_FALSE.toByte
      let c2 := emitOp exitJump.1 .OP_POP
      match visitStmt body c2 with
      | none => none
      | some c3 =>
        let c4 := emitLoop c3 loopStart
        let c5 := patchJump c4 exitJump.2
        some (emitOp c5 .OP_POP)
  | .Function _ _ _, c => some c
  | .Return _ value, c =>
      let c1 := match value with
        | some e => visitExpr e c
        | none => emitOp c .OP_NIL
      some (emitOp c1 .OP_RETURN)
/-- The guarded visit `if (stmt->elseBranch) stmt->elseBranch->accept(this)`. -/
def visitElse {D : Type} [DoubleModel D] : Option Stmt → Chunk D → Option (Chunk D)
  | none, c => some c
  | some e, c => visitStmt e c
/-- The loop `for (const auto& stmt : statements) stmt->accept(this)`; a null
entry is dereferenced, which has no defined result. -/
def visitStmts {D : Type} [DoubleModel D] : List (Option Stmt) → Chunk D → Option (Chunk D)
  | [], c => some c
  | none :: _, _ => none
  | some s :: rest, c =>
      match visitStmt s c with
      | none => none
      | some c1 => visitStmts rest c1
end

/-- The method `Compiler::compile`: the returned flag and the chunk written. -/
def compile {D : Type} [DoubleModel D] (statements : List (Option Stmt)) (chunk : Chunk D) :
    Option (Bool × Chunk D) :=
  match visitStmts statements chunk with
  | none => none
  | some c => some (true, emitOp c .OP_RETURN)

/-! ## VM.h, VM.cpp -/

/-- The enumeration `InterpretResult`. -/
inductive InterpretResult where
  | OK
  | COMPILE_ERROR
  | RUNTIME_ERROR
  deriving DecidableEq, Repr

/-- The state of a `VM` during `run`: the instruction pointer as an offset into
`chunk->code`, the operand stack (top first), the globals table, the texts
written to standard output (one entry per `OP_PRINT`, each followed by a newline
in the program) and the runtime errors written to standard error (message and
reported line). -/
structure VM (D : Type) where
  ip : Nat := 0
  stack : List (Value D) := []
  globals : String → Option (Value D) := fun _ => none
  out : List String := []
  err : List (String × Int) := []

/-- The method `VM::push`. -/
def VM.push {D : Type} (vm : VM D) (value : Value D) : VM D :=
  { vm with stack := value :: vm.stack }

/-- The method `VM::pop`; popping an empty stack is undefined (`none`). -/
def VM.pop {D : Type} (vm : VM D) : Option (Value D × VM D) :=
  match vm.stack with
  | [] => none
  | val :: rest => some (val, { vm with stack := rest })

/-- The method `VM::peek`; reading below the stack is undefined (`none`). -/
def VM.peek {D : Type} (vm : VM D) (distance : Nat) : Option (Value D) :=
  vm.stack[distance]?

/-- The assignment `globals[name] = value`. -/
def VM.setGlobal {D : Type} (vm : VM D) (name : String) (value : Value D) : VM D :=
  { vm with globals := fun k => if k = name then some value else vm.globals k }

/-- The macro `READ_BYTE`. -/
def readByte {D : Type} (chunk : Chunk D) (vm : VM D) : Option (Nat × VM D) :=
  match chunk.code[vm.ip]? with
  | none => none
  | some b => some (b, { vm with ip := vm.ip + 1 })

/-- The macro `READ_CONSTANT`. -/
def readConstant {D : Type} (chunk : Chunk D) (vm : VM D) : Option (Value D × VM D) :=
  match readByte chunk vm with
  | none => none
  | some (b, vm1) =>
    match chunk.constants[b]? with
    | none => none
    | some v => some (v, vm1)

/-- The macro `READ_SHORT`: two bytes, big-endian, as a `uint16_t`. -/
def readShort {D : Type} (chunk : Chunk D) (vm : VM D) : Option (Nat × VM D) :=
  match chunk.code[vm.ip]?, chunk.code[vm.ip + 1]? with
  | some hi, some lo => some (((hi <<< 8) ||| lo) % 65536, { vm with ip := vm.ip + 2 })
  | _, _ => none

/-- The macro `READ_STRING`; `std::get` throws when the constant is no string. -/
def readString {D : Type} (chunk : Chunk D) (vm : VM D) : Option (String × VM D) :=
  match readConstant chunk vm with
  | some (.Str s, vm1) => some (s, vm1)
  | _ => none

/-- The method `VM::runtimeError`, called after the opcode byte has been read:
the message is reported with the line of the byte before `ip`. -/
def runtimeError {D : Type} (chunk : Chunk D) (vm : VM D) (message : String) : VM D :=
  let instruction := vm.ip - 1
  { vm with err := vm.err ++ [(message, chunk.lines.getD instruction 0)] }

/-- The method `VM::valuesEqual`. -/
def valuesEqual {D : Type} [DoubleModel D] (a b : Value D) : Bool :=
  if a.index ≠ b.index then false
  else
    match a, b with
    | .Nil, _ => true
    | .Boolean x, .Boolean y => x == y
    | .Number x, .Number y => DoubleModel.eq x y
    | .Str x, .Str y => x == y
    | _, _ => false

/-- The method `VM::binaryOp`; it returns `void`, so after reporting a type
mismatch control goes back to the dispatch loop. -/
def binaryOp {D : Type} [DoubleModel D] (chunk : Chunk D) (vm : VM D) (op : OpCode) :
    Option (VM D) :=
  match vm.peek 0 with
  | none => none
  | some p0 =>
    if !p0.isNumber then some (runtimeError chunk vm "Operands must be numbers.")
    else
      match vm.peek 1 with
      | none => none
      | some p1 =>
        if !p1.isNumber then some (runtimeError chunk vm "Operands must be numbers.")
        else
          match vm.pop with
          | some (.Number b, vm1) =>
            match vm1.pop with
            | some (.Number a, vm2) =>
              match op with
              | .OP_ADD => some (vm2.push (.Number (DoubleModel.add a b)))
              | .OP_SUBTRACT => some (vm2.push (.Number (DoubleModel.sub a b)))
              | .OP_MULTIPLY => some (vm2.push (.Number (DoubleModel.mul a b)))
              | .OP_DIVIDE => some (vm2.push (.Number (DoubleModel.div a b)))
              | _ => some vm2
            | _ => none
          | _ => none

/-- Result of one iteration of the dispatch loop of `VM::run`. -/
inductive StepResult (D : Type) where
  | next (vm : VM D)
  | halt (result : InterpretResult) (vm : VM D)
  | fault

/-- Body shared by the cases `OP_GREATER` and `OP_LESS` of `VM::run`. -/
def compareOp {D : Type} (chunk : Chunk D) (vm : VM D) (cmp : D → D → Bool) : StepResult D :=
  match vm.peek 0 with
  | none => .fault
  | some p0 =>
    if !p0.isNumber then .halt .RUNTIME_ERROR (runtimeError chunk vm "Operands must be numbers.")
    else
      match vm.peek 1 with
      | none => .fault
      | some p1 =>
        if !p1.isNumber then
          .halt .RUNTIME_ERROR (runtimeError chunk vm "Operands must be numbers.")
        else
          match vm.pop with
          | some (.Number b, vm1) =>
            match vm1.pop with
            | some (.Number a, vm2) => .next (vm2.push (.Boolean (cmp a b)))
            | _ => .fault
          | _ => .fault

/-- One iteration of the dispatch loop of `VM::run`: the loop goes on (`next`),
`run` returns (`halt`), or the behaviour is undefined (`fault`). A byte that is
no opcode matches no case of the switch and is skipped. -/
def step {D : Type} [DoubleModel D] (chunk : Chunk D) (vm0 : VM D) : StepResult D :=
  match readByte chunk vm0 with
  | none => .fault
  | some (instruction, vm) =>
    match OpCode.ofByte instruction with
    | none => .next vm
    | some .OP_CONSTANT =>
      match readConstant chunk vm with
      | none => .fault
      | some (constant, vm1) => .next (vm1.push constant)
    | some .OP_NIL => .next (vm.push .Nil)
    | some .OP_TRUE => .next (vm.push (.Boolean true))
    | some .OP_FALSE => .next (vm.push (.Boolean false))
    | some .OP_POP =>
      match vm.pop with
      | none => .fault
      | some (_, vm1) => .next vm1
    | some .OP_GET_GLOBAL =>
      match readString chunk vm with
      | none => .fault
      | some (name, vm1) =>
        match vm1.globals name with
        | none => .next (vm1.push .Nil)
        | some v => .next (vm1.push v)
    | some .OP_DEFINE_GLOBAL =>
      match readString chunk vm with
      | none => .fault
      | some (name, vm1) =>
        match vm1.peek 0 with
        | none => .fault
        | some v =>
          match (vm1.setGlobal name v).pop with
          | none => .fault
          | some (_, vm2) => .next vm2
    | some .OP_SET_GLOBAL =>
      match readString chunk vm with
      | none => .fault
      | some (name, vm1) =>
        match vm1.peek 0 with
        | none => .fault
        | some v => .next (vm1.setGlobal name v)
    | some .OP_EQUAL =>
      match vm.pop with
      | none => .fault
      | some (b, vm1) =>
        match vm1.pop with
        | none => .fault
        | some (a, vm2) => .next (vm2.push (.Boolean (valuesEqual a b)))
    | some .OP_GREATER => compareOp chunk vm DoubleModel.gt
    | some .OP_LESS => compareOp chunk vm DoubleModel.lt
    | some .OP_ADD =>
      match binaryOp chunk vm .OP_ADD with
      | none => .fault
      | some vm1 => .next vm1
    | some .OP_SUBTRACT =>
      match binaryOp chunk vm .OP_SUBTRACT with
      | none => .fault
      | some vm1 => .next vm1
    | some .OP_MULTIPLY =>
      match binaryOp chunk vm .OP_MULTIPLY with
      | none => .fault
      | some vm1 => .next vm1
    | some .OP_DIVIDE =>
      match binaryOp chunk vm .OP_DIVIDE with
      | none => .fault
      | some vm1 => .next vm1
    | some .OP_NOT =>
      match vm.pop with
      | none => .fault
      | some (v, vm1) => .next (vm1.push (.Boolean (isFalsey v)))
    | some .OP_NEGATE =>
      match vm.peek 0 with
      | none => .fault
      | some p0 =>
        if !p0.isNumber then
          .halt .RUNTIME_ERROR (runtimeError chunk vm "Operand must be a number.")
        else
          match vm.pop with
          | some (.Number val, vm1) => .next (vm1.push (.Number (DoubleModel.neg val)))
          | _ => .fault
    | some .OP_PRINT =>
      match vm.pop with
      | none => .fault
      | some (v, vm1) => .next { vm1 with out := vm1.out ++ [printValue v] }
    | some .OP_JUMP =>
      match readShort chunk vm with
      | none => .fault
      | some (offset, vm1) => .next { vm1 with ip := vm1.ip + offset }
    | some .OP_JUMP_IF_FALSE =>
      match readShort chunk vm with
      | none => .fault
      | some (offset, vm1) =>
        match vm1.peek 0 with
        | none => .fault
        | some v => if isFalsey v then .next { vm1 with ip := vm1.ip + offset } else .next vm1
    | some .OP_LOOP =>
      match readShort chunk vm with
      | none => .fault
      | some (offset, vm1) =>
        if offset ≤ vm1.ip then .next { vm1 with ip := vm1.ip - offset } else .fault
    | some .OP_RETURN => .halt .OK vm

/-- What a bounded execution of `VM::run` produces: the value `run` returns with
the final state, undefined behaviour, or no result within the step budget. -/
inductive Outcome (D : Type) where
  | finished (result : InterpretResult) (vm : VM D)
  | fault
  | timeout

/-- The loop `for (;;)` of `VM::run`, bounded by a number of iterations. -/
def run {D : Type} [DoubleModel D] (chunk : Chunk D) : Nat → VM D → Outcome D
  | 0, _ => .timeout
  | fuel + 1, vm =>
    match step chunk vm with
    | .next vm1 => run chunk fuel vm1
    | .halt result vm1 => .finished result vm1
    | .fault => .fault

/-- The method `VM::interpret`: execution starts at the first byte of the chunk. -/
def interpret {D : Type} [DoubleModel D] (fuel : Nat) (chunk : Chunk D) (vm : VM D) : Outcome D :=
  run chunk fuel { vm with ip := 0 }

/-! ## An executable model of `double` on integers

The instance below evaluates concrete programs whose numbers are integers: it is
exact for sums, differences, products, negation and comparisons of integers of
magnitude below `2 ^ 53`, takes the integer quotient for a division, reads a
lexeme of decimal digits, and writes an integer in decimal (as `std::cout` does
below `10 ^ 6`). The theorems do not depend on it. -/

/-- Digits at the start of a lexeme, read by the integer model of `std::stod`. -/
def leadingDigits (s : String) : List Char :=
  s.toList.takeWhile Char.isDigit

/-- Value of a list of decimal digits. -/
def digitsValue (ds : List Char) : Nat :=
  ds.foldl (fun acc ch => 10 * acc + (ch.toNat - 48)) 0

/-- The integer model of `double`. -/
instance intDoubleModel : DoubleModel Int where
  add a b := a + b
  sub a b := a - b
  mul a b := a * b
  div a b := a / b
  neg a := -a
  lt a b := decide (a < b)
  gt a b := decide (a > b)
  eq a b := decide (a = b)
  stod s :=
    match leadingDigits s with
    | [] => none
    | ds => some ((digitsValue ds : Int), ds.length)
  fmt a := toString a

/-! ## Layout of the emitted code

Closed forms for what the visitors append to a chunk, as functions of the syntax
tree and of the number of constants the chunk holds on entry. They are proved
equal to the output of the visitors below (`visitExpr_eq`, `visitStmt_eq`). -/

/-- High operand byte written for a jump distance: `(n >> 8) & 0xff`. -/
def hiByte (n : Nat) : Nat := (n >>> 8) &&& 0xff

/-- Low operand byte written for a jump distance: `n & 0xff`. -/
def loByte (n : Nat) : Nat := n &&& 0xff

/-- Whether a literal lexeme compiles to one of `OP_NIL`, `OP_TRUE`, `OP_FALSE`. -/
def isKeywordLiteral (val : String) : Bool :=
  val = "nil" || val = "true" || val = "false"

/-- Value that the code of a literal pushes. -/
def literalValue {D : Type} [DoubleModel D] (val : String) : Value D :=
  if val = "nil" then .Nil
  else if val = "true" then .Boolean true
  else if val = "false" then .Boolean false
  else
    match (parseWholeNumber val : Option D) with
    | some num => .Number num
    | none => .Str (stripQuotes val)

/-- Bytes emitted for a literal when the chunk holds `base` constants. -/
def literalCode (val : String) (base : Nat) : List Nat :=
  if val = "nil" then [OpCode.OP_NIL.toByte]
  else if val = "true" then [OpCode.OP_TRUE.toByte]
  else if val = "false" then [OpCode.OP_FALSE.toByte]
  else [OpCode.OP_CONSTANT.toByte, base % 256]

/-- Bytes emitted for the opcode a switch selected. -/
def selectedCode : Option OpCode → List Nat
  | some op => [op.toByte]
  | none => []

mutual
/-- Number of constants an expression adds to the pool. -/
def exprCount : Expr → Nat
  | .Binary left _ right => exprCount left + exprCount right
  | .Grouping expression => exprCount expression
  | .Literal value => if isKeywordLiteral value then 0 else 1
  | .Unary _ right => exprCount right
  | .Variable _ => 1
  | .Assignment _ value => exprCount value + 1
  | .Call callee _ arguments => if isPrintCallee callee then argsCount arguments else 0
/-- Number of constants the arguments of a `print` call add to the pool. -/
def argsCount : List Expr → Nat
  | [] => 0
  | arg :: rest => exprCount arg + argsCount rest
end

mutual
/-- Bytes emitted for an expression when the chunk holds `base` constants. -/
def exprCode : Expr → Nat → List Nat
  | .Binary left op right, base =>
      exprCode left base ++ exprCode right (base + exprCount left)
        ++ selectedCode (binaryOpcode op.type)
  | .Grouping expression, base => exprCode expression base
  | .Literal value, base => literalCode value base
  | .Unary op right, base => exprCode right base ++ selectedCode (unaryOpcode op.type)
  | .Variable _, base => [OpCode.OP_GET_GLOBAL.toByte, base % 256]
  | .Assignment _ value, base =>
      exprCode value base ++ [OpCode.OP_SET_GLOBAL.toByte, (base + exprCount value) % 256]
  | .Call callee _ arguments, base =>
      if isPrintCallee callee then argsCode arguments base ++ [OpCode.OP_NIL.toByte] else []
/-- Bytes emitted for the arguments of a `print` call. -/
def argsCode : List Expr → Nat → List Nat
  | [], _ => []
  | arg :: rest, base =>
      exprCode arg base ++ [OpCode.OP_PRINT.toByte] ++ argsCode rest (base + exprCount arg)
end

mutual
/-- Constants an expression adds to the pool, in order. -/
def exprConsts {D : Type} [DoubleModel D] : Expr → List (Value D)
  | .Binary left _ right => exprConsts left ++ exprConsts right
  | .Grouping expression => exprConsts expression
  | .Literal value => if isKeywordLiteral value then [] else [literalValue value]
  | .Unary _ right => exprConsts right
  | .Variable name => [.Str name.lexeme]
  | .Assignment name value => exprConsts value ++ [.Str name.lexeme]
  | .Call callee _ arguments => if isPrintCallee callee then argsConsts arguments else []
/-- Constants the arguments of a `print` call add to the pool, in order. -/
def argsConsts {D : Type} [DoubleModel D] : List Expr → List (Value D)
  | [] => []
  | arg :: rest => exprConsts arg ++ argsConsts rest
end

/-- Number of constants an optional initializer or return value adds. -/
def optExprCount : Option Expr → Nat
  | some e => exprCount e
  | none => 0

/-- Bytes emitted for an optional initializer or return value. -/
def optExprCode : Option Expr → Nat → List Nat
  | some e, base => exprCode e base
  | none, _ => [OpCode.OP_NIL.toByte]

/-- Constants an optional initializer or return value adds. -/
def optExprConsts {D : Type} [DoubleModel D] : Option Expr → List (Value D)
  | some e => exprConsts e
  | none => []

mutual
/-- Whether the compiler dereferences no null statement while visiting. -/
def nullFree : Stmt → Bool
  | .Block statements => nullFreeList statements
  | .If _ thenBranch (some e) => nullFree thenBranch && nullFree e
  | .If _ thenBranch none => nullFree thenBranch
  | .While _ body => nullFree body
  | _ => true
/-- Whether a statement vector holds no null entry, at any depth visited. -/
def nullFreeList : List (Option Stmt) → Bool
  | [] => true
  | none :: _ => false
  | some s :: rest => nullFree s && nullFreeList rest
end

mutual
/-- Number of constants a statement adds to the pool. -/
def stmtCount : Stmt → Nat
  | .Expression expression => exprCount expression
  | .Print _ => 0
  | .VarDecl _ initializer => optExprCount initializer + 1
  | .Block statements => stmtsCount statements
  | .If condition thenBranch (some e) => exprCount condition + stmtCount thenBranch + stmtCount e
  | .If condition thenBranch none => exprCount condition + stmtCount thenBranch
  | .While condition body => exprCount condition + stmtCount body
  | .Function _ _ _ => 0
  | .Return _ value => optExprCount value
/-- Number of constants a statement vector adds to the pool. -/
def stmtsCount : List (Option Stmt) → Nat
  | [] => 0
  | none :: rest => stmtsCount rest
  | some s :: rest => stmtCount s + stmtsCount rest
end

mutual
/-- Number of bytes emitted for a statement. -/
def stmtSize : Stmt → Nat
  | .Expression expression => (exprCode expression 0).length + 1
  | .Print _ => 0
  | .VarDecl _ initializer => (optExprCode initializer 0).length + 2
  | .Block statements => stmtsSize statements
  | .If condition thenBranch (some e) =>
      (exprCode condition 0).length + 4 + stmtSize thenBranch + 4 + stmtSize e
  | .If condition thenBranch none => (exprCode condition 0).length + 4 + stmtSize thenBranch + 4
  | .While condition body => (exprCode condition 0).length + 4 + stmtSize body + 4
  | .Function _ _ _ => 0
  | .Return _ value => (optExprCode value 0).length + 1
/-- Number of bytes emitted for a statement vector. -/
def stmtsSize : List (Option Stmt) → Nat
  | [] => 0
  | none :: rest => stmtsSize rest
  | some s :: rest => stmtSize s + stmtsSize rest
end

mutual
/-- Bytes emitted for a statement when the chunk holds `base` constants. -/
def stmtCode : Stmt → Nat → List Nat
  | .Expression expression, base => exprCode expression base ++ [OpCode.OP_POP.toByte]
  | .Print _, _ => []
  | .VarDecl _ initializer, base =>
      optExprCode initializer base
        ++ [OpCode.OP_DEFINE_GLOBAL.toByte, (base + optExprCount initializer) % 256]
  | .Block statements, base => stmtsCode statements base
  | .If condition thenBranch (some e), base =>
      exprCode condition base
        ++ [OpCode.OP_JUMP_IF_FALSE.toByte, hiByte (stmtSize thenBranch + 4),
            loByte (stmtSize thenBranch + 4), OpCode.OP_POP.toByte]
        ++ stmtCode thenBranch (base + exprCount condition)
        ++ [OpCode.OP_JUMP.toByte, hiByte (stmtSize e + 1), loByte (stmtSize e + 1),
            OpCode.OP_POP.toByte]
        ++ stmtCode e (base + exprCount condition + stmtCount thenBranch)
  | .If condition thenBranch none, base =>
      exprCode condition base
        ++ [OpCode.OP_JUMP_IF_FALSE.toByte, hiByte (stmtSize thenBranch + 4),
            loByte (stmtSize thenBranch + 4), OpCode.OP_POP.toByte]
        ++ stmtCode thenBranch (base + exprCount condition)
        ++ [OpCode.OP_JUMP.toByte, hiByte 1, loByte 1, OpCode.OP_POP.toByte]
  | .While condition body, base =>
      exprCode condition base
        ++ [OpCode.OP_JUMP_IF_FALSE.toByte, hiByte (stmtSize body + 4),
            loByte (stmtSize body + 4), OpCode.OP_POP.toByte]
        ++ stmtCode body (base + exprCount condition)
        ++ [OpCode.OP_LOOP.toByte,
            hiByte ((exprCode condition 0).length + stmtSize body + 7),
            loByte ((exprCode condition 0).length + stmtSize body + 7), OpCode.OP_POP.toByte]
  | .Function _ _ _, _ => []
  | .Return _ value, base => optExprCode value base ++ [OpCode.OP_RETURN.toByte]
/-- Bytes emitted for a statement vector. -/
def stmtsCode : List (Option Stmt) → Nat → List Nat
  | [], _ => []
  | none :: rest, base => stmtsCode rest base
  | some s :: rest, base => stmtCode s base ++ stmtsCode rest (base + stmtCount s)
end

mutual
/-- Constants a statement adds to the pool, in order. -/
def stmtConsts {D : Type} [DoubleModel D] : Stmt → List (Value D)
  | .Expression expression => exprConsts expression
  | .Print _ => []
  | .VarDecl name initializer => optExprConsts initializer ++ [.Str name.lexeme]
  | .Block statements => stmtsConsts statements
  | .If condition thenBranch (some e) =>
      exprConsts condition ++ stmtConsts thenBranch ++ stmtConsts e
  | .If condition thenBranch none => exprConsts condition ++ stmtConsts thenBranch
  | .While condition body => exprConsts condition ++ stmtConsts body
  | .Function _ _ _ => []
  | .Return _ value => optExprConsts value
/-- Constants a statement vector adds to the pool, in order. -/
def stmtsConsts {D : Type} [DoubleModel D] : List (Option Stmt) → List (Value D)
  | [] => []
  | none :: rest => stmtsConsts rest
  | some s :: rest => stmtConsts s ++ stmtsConsts rest
end

/-- The chunk `c` after `code` and `consts` have been appended (line 0 per byte). -/
def Chunk.extend {D : Type} (c : Chunk D) (code : List Nat) (consts : List (Value D)) : Chunk D :=
  { code := c.code ++ code, constants := c.constants ++ consts,
    lines := c.lines ++ List.replicate code.length 0 }

/-! ## The opcode table and well-formed code -/

/-- Operand width of an opcode, in bytes: one for the opcodes that index the
constant pool, two for the jumps, none otherwise. -/
def OpCode.operandWidth : OpCode → Nat
  | .OP_CONSTANT => 1
  | .OP_GET_GLOBAL => 1
  | .OP_SET_GLOBAL => 1
  | .OP_DEFINE_GLOBAL => 1
  | .OP_JUMP => 2
  | .OP_JUMP_IF_FALSE => 2
  | .OP_LOOP => 2
  | _ => 0

/-- Decode a byte sequence from its first byte as instructions of the opcode
table: every instruction starts with an opcode, has all its operand bytes, and a
one-byte operand is an index below `nconst`. -/
def wellFormedCode (nconst : Nat) : List Nat → Bool
  | [] => true
  | b :: rest =>
    match OpCode.ofByte b with
    | none => false
    | some op =>
      match op.operandWidth, rest with
      | 0, rest1 => wellFormedCode nconst rest1
      | 1, idx :: rest1 => decide (idx < nconst) && wellFormedCode nconst rest1
      | 2, _ :: _ :: rest1 => wellFormedCode nconst rest1
      | _, _ => false

/-! ## Reference evaluation of side-effect-free expressions -/

/-- The list `l` holds the segment `s` from position `p` on. -/
def SliceAt {α : Type} (l : List α) (p : Nat) (s : List α) : Prop :=
  ∃ pre post, l = pre ++ s ++ post ∧ pre.length = p

/-- Result of a binary opcode on two operand values by the rules of `VM::run`:
`none` when the VM reports a type mismatch. -/
def applyBinary {D : Type} [DoubleModel D] : OpCode → Value D → Value D → Option (Value D)
  | .OP_ADD, .Number a, .Number b => some (.Number (DoubleModel.add a b))
  | .OP_SUBTRACT, .Number a, .Number b => some (.Number (DoubleModel.sub a b))
  | .OP_MULTIPLY, .Number a, .Number b => some (.Number (DoubleModel.mul a b))
  | .OP_DIVIDE, .Number a, .Number b => some (.Number (DoubleModel.div a b))
  | .OP_GREATER, .Number a, .Number b => some (.Boolean (DoubleModel.gt a b))
  | .OP_LESS, .Number a, .Number b => some (.Boolean (DoubleModel.lt a b))
  | .OP_EQUAL, a, b => some (.Boolean (valuesEqual a b))
  | _, _, _ => none

/-- Result of a unary opcode on an operand value by the rules of `VM::run`. -/
def applyUnary {D : Type} [DoubleModel D] : OpCode → Value D → Option (Value D)
  | .OP_NEGATE, .Number a => some (.Number (DoubleModel.neg a))
  | .OP_NOT, v => some (.Boolean (isFalsey v))
  | _, _ => none

/-- Value of an expression built from literals, global variable references,
grouping, unary `-` and `not`, and binary `+ - * / == > <`, under the globals
`g`: an undefined global reads as `Nil`; the result is `none` when an operand has
the wrong type or the expression uses another construct. -/
def evalExpr {D : Type} [DoubleModel D] (g : String → Option (Value D)) : Expr → Option (Value D)
  | .Binary left op right =>
    match binaryOpcode op.type, evalExpr g left, evalExpr g right with
    | some oc, some a, some b => applyBinary oc a b
    | _, _, _ => none
  | .Grouping expression => evalExpr g expression
  | .Literal value => some (literalValue value)
  | .Unary op right =>
    match unaryOpcode op.type, evalExpr g right with
    | some oc, some a => applyUnary oc a
    | _, _ => none
  | .Variable name => some ((g name.lexeme).getD .Nil)
  | .Assignment _ _ => none
  | .Call _ _ _ => none

mutual
/-- Number of instructions in the code of an expression. -/
def exprSteps : Expr → Nat
  | .Binary left op right =>
      exprSteps left + exprSteps right + (selectedCode (binaryOpcode op.type)).length
  | .Grouping expression => exprSteps expression
  | .Literal _ => 1
  | .Unary op right => exprSteps right + (selectedCode (unaryOpcode op.type)).length
  | .Variable _ => 1
  | .Assignment _ value => exprSteps value + 1
  | .Call callee _ arguments => if isPrintCallee callee then argsSteps arguments + 1 else 0
/-- Number of instructions in the code of the arguments of a `print` call. -/
def argsSteps : List Expr → Nat
  | [] => 0
  | arg :: rest => exprSteps arg + 1 + argsSteps rest
end

/-! ## Stack effects, fragments and example programs -/

/-- Number of stack values on the left of an opcode's stack effect (an opcode that
only inspects the top value, `v → v`, counts it on both sides). -/
def OpCode.pops : OpCode → Nat
  | .OP_POP => 1
  | .OP_DEFINE_GLOBAL => 1
  | .OP_SET_GLOBAL => 1
  | .OP_EQUAL => 2
  | .OP_GREATER => 2
  | .OP_LESS => 2
  | .OP_ADD => 2
  | .OP_SUBTRACT => 2
  | .OP_MULTIPLY => 2
  | .OP_DIVIDE => 2
  | .OP_NOT => 1
  | .OP_NEGATE => 1
  | .OP_PRINT => 1
  | .OP_JUMP_IF_FALSE => 1
  | _ => 0

/-- Number of stack values on the right of an opcode's stack effect. -/
def OpCode.pushes : OpCode → Nat
  | .OP_CONSTANT => 1
  | .OP_NIL => 1
  | .OP_TRUE => 1
  | .OP_FALSE => 1
  | .OP_GET_GLOBAL => 1
  | .OP_SET_GLOBAL => 1
  | .OP_EQUAL => 1
  | .OP_GREATER => 1
  | .OP_LESS => 1
  | .OP_ADD => 1
  | .OP_SUBTRACT => 1
  | .OP_MULTIPLY => 1
  | .OP_DIVIDE => 1
  | .OP_NOT => 1
  | .OP_NEGATE => 1
  | .OP_JUMP_IF_FALSE => 1
  | _ => 0

/-- Opcodes that fall through to the next instruction. -/
def OpCode.isSimple : OpCode → Bool
  | .OP_JUMP => false
  | .OP_JUMP_IF_FALSE => false
  | .OP_LOOP => false
  | .OP_RETURN => false
  | _ => true

/-- The state `vm1` follows `vm` by an instruction of `w` bytes that reported no
error, removed `pops` values from the stack and put `pushes` values on it. -/
def Moves {D : Type} (vm vm1 : VM D) (w pops pushes : Nat) : Prop :=
  vm1.ip = vm.ip + w ∧ vm1.err = vm.err ∧ pops ≤ vm.stack.length
    ∧ vm1.stack.length + pops = vm.stack.length + pushes

/-- An execution that returned `OK` and reported no runtime error. -/
def Outcome.quiet {D : Type} : Outcome D → Prop
  | .finished .OK vm => vm.err = []
  | _ => False

mutual
/-- Expressions whose code pushes exactly one value: every binary operator is one
of `+ - * / == > <` (the compiler emits no opcode for the others) and every call
is a call of `print` (the compiler emits nothing for the others). -/
def plainExpr : Expr → Bool
  | .Binary left op right =>
      plainExpr left && plainExpr right && (binaryOpcode op.type).isSome
  | .Grouping expression => plainExpr expression
  | .Literal _ => true
  | .Unary _ right => plainExpr right
  | .Variable _ => true
  | .Assignment _ value => plainExpr value
  | .Call callee _ arguments => isPrintCallee callee && plainArgs arguments
/-- Argument lists whose members are all such expressions. -/
def plainArgs : List Expr → Bool
  | [] => true
  | arg :: rest => plainExpr arg && plainArgs rest
end

mutual
/-- Statements over such expressions with no `return` statement and no null
entry, in which every jump distance of an `if` or `while` fits in 16 bits. -/
def plainStmt : Stmt → Bool
  | .Expression expression => plainExpr expression
  | .VarDecl _ (some e) => plainExpr e
  | .VarDecl _ none => true
  | .Block statements => plainStmts statements
  | .If condition thenBranch (some e) =>
      plainExpr condition && plainStmt thenBranch && plainStmt e
        && decide (stmtSize thenBranch + 4 ≤ 65535) && decide (stmtSize e + 1 ≤ 65535)
  | .If condition thenBranch none =>
      plainExpr condition && plainStmt thenBranch && decide (stmtSize thenBranch + 4 ≤ 65535)
  | .While condition body =>
      plainExpr condition && plainStmt body
        && decide ((exprCode condition 0).length + stmtSize body + 7 ≤ 65535)
  | .Print _ => true
  | .Function _ _ _ => true
  | .Return _ _ => false
/-- Statement vectors whose entries are all such statements. -/
def plainStmts : List (Option Stmt) → Bool
  | [] => true
  | none :: _ => false
  | some s :: rest => plainStmt s && plainStmts rest
end

/-- An identifier token with the given lexeme, as the scanner builds it. -/
def ident (lexeme : String) : Token :=
  { type := .IDENTIFIER, lexeme := lexeme, line := 1, column := 1 }

/-- The expression statement `nil`. -/
def nilStmt : Stmt := .Expression (.Literal "nil")

/-- The program `if nil then nil ... nil end` whose then-branch holds `n`
expression statements `nil`. -/
def ifProgram (n : Nat) : List (Option Stmt) :=
  [some (.If (.Literal "nil") (.Block (List.replicate n (some nilStmt))) none)]

/-- The program `if nil then local x nil ... nil end` whose then-branch holds one
declaration without initializer and `n` expression statements `nil`. -/
def ifDeclProgram (n : Nat) : List (Option Stmt) :=
  [some (.If (.Literal "nil")
    (.Block (some (.VarDecl (ident "x") none) :: List.replicate n (some nilStmt))) none)]

/-- The program made of `n` expression statements `a`, each a variable reference. -/
def refProgram (n : Nat) : List (Option Stmt) :=
  List.replicate n (some (.Expression (.Variable (ident "a"))))

/-- The program `local i = 0 while i < 3 do print(i) i = i + 1 end`, as parsed. -/
def countProgram : List (Option Stmt) :=
  [some (.VarDecl (ident "i") (some (.Literal "0"))),
   some (.While
     (.Binary (.Variable (ident "i")) { type := .LESS, lexeme := "<", line := 1, column := 1 }
       (.Literal "3"))
     (.Block
       [some (.Expression
          (.Call (.Variable (ident "print"))
            { type := .RIGHT_PAREN, lexeme := ")", line := 1, column := 1 }
            [.Variable (ident "i")])),
        some (.Expression
          (.Assignment (ident "i")
            (.Binary (.Variable (ident "i"))
              { type := .PLUS, lexeme := "+", line := 1, column := 1 } (.Literal "1"))))]))]

/-- Whether the operands an opcode inspects are numbers: the top value for
`OP_NEGATE`, the top two values for a binary opcode. -/
def operandsAreNumbers {T : Type} : OpCode → List (Value T) → Bool
  | .OP_NEGATE, v :: _ => v.isNumber
  | .OP_NEGATE, [] => false
  | _, b :: a :: _ => a.isNumber && b.isNumber
  | _, _ => false

/-- Number of stack values an opcode inspects before it acts. -/
def operandCount : OpCode → Nat
  | .OP_NEGATE => 1
  | _ => 2

/-- The program `print("a" + 1)`, as parsed. -/
def printSumProgram : List (Option Stmt) :=
  [some (.Expression
    (.Call (.Variable (ident "print"))
      { type := .RIGHT_PAREN, lexeme := ")", line := 1, column := 1 }
      [.Binary (.Literal "a") { type := .PLUS, lexeme := "+", line := 1, column := 1 }
        (.Literal "1")]))]

/-- A chunk holding the single instruction `OP_GREATER`. -/
def greaterChunk : Chunk Int := { code := [OpCode.OP_GREATER.toByte], lines := [0] }

/-- A VM state with `nil` on top of the number 1. -/
def nilOverOne : VM Int := { stack := [.Nil, .Number 1] }

/-- Every quiet execution that enters the code segment `code` leaves it at its
end, after at most as many steps as it was given, with a stack height changed
by `pushes - pops`. -/
def Sim {D : Type} [DoubleModel D] (c : Chunk D) (code : List Nat) (pops pushes : Nat) : Prop :=
  ∀ (n : Nat) (vm : VM D), SliceAt c.code vm.ip code → (run c n vm).quiet →
    ∃ m vm1, m ≤ n ∧ run c n vm = run c m vm1 ∧ vm1.ip = vm.ip + code.length
      ∧ vm1.stack.length + pops = vm.stack.length + pushes

/-- The expression `1 + 2`, as parsed. -/
def sumExpr : Expr :=
  .Binary (.Literal "1") { type := .PLUS, lexeme := "+", line := 1, column := 1 } (.Literal "2")

/-- The program `return nil`, as parsed. -/
def returnProgram : List (Option Stmt) :=
  [some (.Return { type := .RETURN, lexeme := "return", line := 1, column := 1 }
    (some (.Literal "nil")))]

/-- The chunk compiled from `if nil then nil end`. -/
def ifChunk : Chunk Int :=
  { code := [1, 19, 0, 6, 4, 1, 4, 18, 0, 1, 4, 21], constants := [],
    lines := [0, 0, 0, 0, 0, 0, 0, 0, 0, 0, 0, 0] }

/-- The state in which the VM returns from `ifChunk`. -/
def ifFinal : VM Int :=
  { ip := 12, stack := [], globals := fun _ => none, out := [], err := [] }

/-! ## main.cpp -/

/-- What the function `run` of `main.cpp` does with a source text. -/
inductive RunResult (D : Type) where
  | skipped
  | executed (outcome : Outcome D)
  | fault
  | timeout

/-- The function `run` of `main.cpp`: scan, parse, return when there is no
statement, compile into a fresh chunk and, when `compile` returns true, interpret
the chunk on a fresh VM. One budget bounds the recursion of the parser and the
loop of the VM. The result is `skipped` when the VM is not started, `fault` when
the behaviour before the VM is undefined (a null statement is compiled), and
`timeout` when the scanner or the parser gives no result within the budget. -/
def Main.run {D : Type} [DoubleModel D] (budget : Nat) (source : String) : RunResult D :=
  match scanTokens source with
  | none => .timeout
  | some tokens =>
    match Parser.parse budget tokens with
    | .ok statements _ =>
      if statements.isEmpty then .skipped
      else
        match compile statements ({} : Chunk D) with
        | none => .fault
        | some (true, chunk) => .executed (interpret budget chunk {})
        | some (false, _) => .skipped
    | .error _ _ => .skipped
    | .fault => .fault
    | .timeout => .timeout

/-! ## States reached by the dispatch loop -/

/-- The state of the VM after `n` iterations of the dispatch loop of `VM::run`,
each of which fetches its opcode at an offset accepted by `region`: `none` when
the loop is left earlier (by a return or by undefined behaviour) or an opcode is
fetched outside `region`. -/
def stateAfter {D : Type} [DoubleModel D] (chunk : Chunk D) (region : Nat → Bool) :
    Nat → VM D → Option (VM D)
  | 0, vm => some vm
  | n + 1, vm =>
    if region vm.ip then
      match step chunk vm with
      | .next vm1 => stateAfter chunk region n vm1
      | _ => none
    else none

/-- The offsets from `lo` up to, not including, `hi`. -/
def inRange (lo hi : Nat) (ip : Nat) : Bool :=
  decide (lo ≤ ip) && decide (ip < hi)

/-- The offsets outside `lo .. hi`. -/
def outsideRange (lo hi : Nat) (ip : Nat) : Bool :=
  !inRange lo hi ip

/-- Every offset. -/
def anywhere (_ : Nat) : Bool := true

/-! ## Reference evaluation of expressions with effects -/

/-- What an expression can change: the globals table and the standard output. -/
structure Store (D : Type) where
  globals : String → Option (Value D)
  out : List String

mutual
/-- Value of an expression and the store after its evaluation, by the rules of
`VM::run`: as `evalExpr`, and an assignment stores the value of its right-hand
side under the name and has that value, a call of `print` evaluates its arguments
in order, writes the value of each after evaluating it, and has the value `Nil`.
The result is `none` when an operand has the wrong type or the expression uses an
operator or a callee for which the compiler emits no code. -/
def evalIn {D : Type} [DoubleModel D] : Expr → Store D → Option (Value D × Store D)
  | .Binary left op right, s =>
    match binaryOpcode op.type with
    | none => none
    | some oc =>
      match evalIn left s with
      | none => none
      | some (a, s1) =>
        match evalIn right s1 with
        | none => none
        | some (b, s2) =>
          match applyBinary oc a b with
          | none => none
          | some v => some (v, s2)
  | .Grouping expression, s => evalIn expression s
  | .Literal value, s => some (literalValue value, s)
  | .Unary op right, s =>
    match unaryOpcode op.type with
    | none => none
    | some oc =>
      match evalIn right s with
      | none => none
      | some (a, s1) =>
        match applyUnary oc a with
        | none => none
        | some v => some (v, s1)
  | .Variable name, s => some ((s.globals name.lexeme).getD .Nil, s)
  | .Assignment name value, s =>
    match evalIn value s with
    | none => none
    | some (v, s1) =>
      some (v, { s1 with globals := fun k => if k = name.lexeme then some v else s1.globals k })
  | .Call callee _ arguments, s =>
    if isPrintCallee callee then
      match printArgsIn arguments s with
      | none => none
      | some s1 => some (.Nil, s1)
    else none
/-- The store after the arguments of a call of `print` have been evaluated and
written, each value followed by a newline, in order. -/
def printArgsIn {D : Type} [DoubleModel D] : List Expr → Store D → Option (Store D)
  | [], s => some s
  | arg :: rest, s =>
    match evalIn arg s with
    | none => none
    | some (v, s1) => printArgsIn rest { s1 with out := s1.out ++ [printValue v] }
end

/-! ## Source texts, programs and chunks used as examples -/

/-- The source text of the counting loop. -/
def countSource : String := "local i = 0 while i < 3 do print(i) i = i + 1 end"

/-- The source text `print(nil == false)`. -/
def printEqualSource : String := "print(nil == false)"

/-- The tokens of `print(nil == false)`. -/
def printEqualTokens : List Token :=
  [{ type := .IDENTIFIER, lexeme := "print", line := 1, column := 6 },
   { type := .LEFT_PAREN, lexeme := "(", line := 1, column := 7 },
   { type := .NIL, lexeme := "nil", line := 1, column := 10 },
   { type := .EQUAL_EQUAL, lexeme := "==", line := 1, column := 13 },
   { type := .FALSE, lexeme := "false", line := 1, column := 19 },
   { type := .RIGHT_PAREN, lexeme := ")", line := 1, column := 20 },
   { type := .TOKEN_EOF, lexeme := "", line := 1, column := 20 }]

/-- The statements of `print(nil == false)`. -/
def printEqualProgram : List (Option Stmt) :=
  [some (.Expression
    (.Call (.Variable { type := .IDENTIFIER, lexeme := "print", line := 1, column := 6 })
      { type := .RIGHT_PAREN, lexeme := ")", line := 1, column := 20 }
      [.Binary (.Literal "nil")
        { type := .EQUAL_EQUAL, lexeme := "==", line := 1, column := 13 } (.Literal "false")]))]

/-- The chunk compiled from `print(nil == false)`. -/
def printEqualChunk (D : Type) : Chunk D :=
  { code := [1, 3, 8, 17, 1, 4, 21], constants := [], lines := [0, 0, 0, 0, 0, 0, 0] }

/-- A chunk holding the single instruction `OP_GET_GLOBAL` with the name `x`. -/
def getGlobalChunk : Chunk Int :=
  { code := [OpCode.OP_GET_GLOBAL.toByte, 0], constants := [.Str "x"], lines := [0, 0] }

/-- A chunk holding the single instruction `OP_SET_GLOBAL` with the name `x`. -/
def setGlobalChunk : Chunk Int :=
  { code := [OpCode.OP_SET_GLOBAL.toByte, 0], constants := [.Str "x"], lines := [0, 0] }

/-- A chunk holding the single instruction `OP_DEFINE_GLOBAL` with the name `x`. -/
def defineGlobalChunk : Chunk Int :=
  { code := [OpCode.OP_DEFINE_GLOBAL.toByte, 0], constants := [.Str "x"], lines := [0, 0] }

/-- A chunk holding the single instruction `OP_JUMP_IF_FALSE` with the operand
bytes 1 and 2. -/
def jumpIfFalseChunk : Chunk Int :=
  { code := [OpCode.OP_JUMP_IF_FALSE.toByte, 1, 2], lines := [0, 0, 0] }

/-- The expression statement `print(nil)`. -/
def printNilStmt : Stmt :=
  .Expression (.Call (.Variable (ident "print"))
    { type := .RIGHT_PAREN, lexeme := ")", line := 1, column := 1 } [.Literal "nil"])

/-- The block `print(nil) nil ... nil` with `n` expression statements `nil`. -/
def printNilBlock (n : Nat) : Stmt :=
  .Block (some printNilStmt :: List.replicate n (some nilStmt))

/-- The program `while nil do print(nil) nil ... nil end` whose body holds
`print(nil)` and `n` expression statements `nil`. -/
def whilePrintProgram (n : Nat) : List (Option Stmt) :=
  [some (.While (.Literal "nil") (printNilBlock n))]

/-- The program `if nil then print(nil) nil ... nil end` whose then-branch holds
`print(nil)` and `n` expression statements `nil`. -/
def ifPrintProgram (n : Nat) : List (Option Stmt) :=
  [some (.If (.Literal "nil") (printNilBlock n) none)]

/-- The text `body` between two double quotes (character 34). -/
def quoted (body : String) : String :=
  String.mk (Char.ofNat 34 :: (body.toList ++ [Char.ofNat 34]))

/-- The expression `print(1 != 2)`, as parsed. -/
def printNotEqualCall : Expr :=
  .Call (.Variable (ident "print"))
    { type := .RIGHT_PAREN, lexeme := ")", line := 1, column := 1 }
    [.Binary (.Literal "1") { type := .BANG_EQUAL, lexeme := "!=", line := 1, column := 1 }
      (.Literal "2")]

/-- The expression `print(1, 2)`, as parsed. -/
def printTwoCall : Expr :=
  .Call (.Variable (ident "print"))
    { type := .RIGHT_PAREN, lexeme := ")", line := 1, column := 1 }
    [.Literal "1", .Literal "2"]

/-- The chunk compiled from the expression `print(1, 2)`. -/
def printTwoChunk : Chunk Int :=
  { code := [0, 0, 17, 0, 1, 17, 1], constants := [.Number 1, .Number 2],
    lines := [0, 0, 0, 0, 0, 0, 0] }

/-- The tokens of the counting loop, as `scanTokens` returns them. -/
def countTokens : List Token :=
  [{ type := .LOCAL, lexeme := "local", line := 1, column := 6 },
   { type := .IDENTIFIER, lexeme := "i", line := 1, column := 8 },
   { type := .EQUAL, lexeme := "=", line := 1, column := 10 },
   { type := .NUMBER, lexeme := "0", line := 1, column := 12 },
   { type := .WHILE, lexeme := "while", line := 1, column := 18 },
   { type := .IDENTIFIER, lexeme := "i", line := 1, column := 20 },
   { type := .LESS, lexeme := "<", line := 1, column := 22 },
   { type := .NUMBER, lexeme := "3", line := 1, column := 24 },
   { type := .DO, lexeme := "do", line := 1, column := 27 },
   { type := .IDENTIFIER, lexeme := "print", line := 1, column := 33 },
   { type := .LEFT_PAREN, lexeme := "(", line := 1, column := 34 },
   { type := .IDENTIFIER, lexeme := "i", line := 1, column := 35 },
   { type := .RIGHT_PAREN, lexeme := ")", line := 1, column := 36 },
   { type := .IDENTIFIER, lexeme := "i", line := 1, column := 38 },
   { type := .EQUAL, lexeme := "=", line := 1, column := 40 },
   { type := .IDENTIFIER, lexeme := "i", line := 1, column := 42 },
   { type := .PLUS, lexeme := "+", line := 1, column := 44 },
   { type := .NUMBER, lexeme := "1", line := 1, column := 46 },
   { type := .END, lexeme := "end", line := 1, column := 50 },
   { type := .TOKEN_EOF, lexeme := "", line := 1, column := 50 }]

/-- The statements of the counting loop, as `parse` returns them. -/
def countStatements : List (Option Stmt) :=
  [some (.VarDecl { type := .IDENTIFIER, lexeme := "i", line := 1, column := 8 }
     (some (.Literal "0"))),
   some (.While
     (.Binary (.Variable { type := .IDENTIFIER, lexeme := "i", line := 1, column := 20 })
       { type := .LESS, lexeme := "<", line := 1, column := 22 } (.Literal "3"))
     (.Block
       [some (.Expression
          (.Call (.Variable { type := .IDENTIFIER, lexeme := "print", line := 1, column := 33 })
            { type := .RIGHT_PAREN, lexeme := ")", line := 1, column := 36 }
            [.Variable { type := .IDENTIFIER, lexeme := "i", line := 1, column := 35 }])),
        some (.Expression
          (.Assignment { type := .IDENTIFIER, lexeme := "i", line := 1, column := 38 }
            (.Binary (.Variable { type := .IDENTIFIER, lexeme := "i", line := 1, column := 42 })
              { type := .PLUS, lexeme := "+", line := 1, column := 44 } (.Literal "1"))))]))]

/-- The chunk compiled from the counting loop, for the numbers `z`, `t` and `o`
that `std::stod` reads from the lexemes `0`, `3` and `1`. -/
def countChunk {D : Type} (z t o : D) : Chunk D :=
  { code := [0, 0, 7, 1, 5, 2, 0, 3, 10, 19, 0, 17, 4, 5, 4, 17, 1, 4, 5, 5, 0, 6, 11, 6, 7, 4,
             20, 0, 25, 4, 21],
    constants := [.Number z, .Str "i", .Str "i", .Number t, .Str "i", .Str "i", .Number o,
                  .Str "i"],
    lines := [0, 0, 0, 0, 0, 0, 0, 0, 0, 0, 0, 0, 0, 0, 0, 0, 0, 0, 0, 0, 0, 0, 0, 0, 0, 0,
              0, 0, 0, 0, 0] }

/-- The state in which the VM returns from the counting loop: `i` has been bound
four times, to `z`, `z + o`, `z + o + o` and `z + o + o + o`. -/
def countFinal {D : Type} [DoubleModel D] (z o : D) : VM D :=
  { ip := 31, stack := [],
    globals := fun j =>
      if j = "i" then
        some (.Number (DoubleModel.add (DoubleModel.add (DoubleModel.add z o) o) o))
      else if j = "i" then some (.Number (DoubleModel.add (DoubleModel.add z o) o))
      else if j = "i" then some (.Number (DoubleModel.add z o))
      else if j = "i" then some (.Number z) else none,
    out := [DoubleModel.fmt z, DoubleModel.fmt (DoubleModel.add z o),
            DoubleModel.fmt (DoubleModel.add (DoubleModel.add z o) o)],
    err := [] }

/-! ## Predicates, levels and examples for the scanner, the parser and the jumps -/

/-- A program whose second line negates a global that holds `nil`. -/
def negateNilSource : String := "x = nil\ny = -x"

/-- The tokens of `negateNilSource`. -/
def negateNilTokens : List Token :=
  [{ type := .IDENTIFIER, lexeme := "x", line := 1, column := 2 },
   { type := .EQUAL, lexeme := "=", line := 1, column := 4 },
   { type := .NIL, lexeme := "nil", line := 1, column := 8 },
   { type := .IDENTIFIER, lexeme := "y", line := 2, column := 2 },
   { type := .EQUAL, lexeme := "=", line := 2, column := 4 },
   { type := .MINUS, lexeme := "-", line := 2, column := 6 },
   { type := .IDENTIFIER, lexeme := "x", line := 2, column := 7 },
   { type := .TOKEN_EOF, lexeme := "", line := 2, column := 7 }]

/-- The statements of `negateNilSource`. -/
def negateNilProgram : List (Option Stmt) :=
  [some (.Expression (.Assignment { type := .IDENTIFIER, lexeme := "x", line := 1, column := 2 }
      (.Literal "nil"))),
   some (.Expression (.Assignment { type := .IDENTIFIER, lexeme := "y", line := 2, column := 2 }
      (.Unary { type := .MINUS, lexeme := "-", line := 2, column := 6 }
        (.Variable { type := .IDENTIFIER, lexeme := "x", line := 2, column := 7 }))))]

/-- The chunk compiled from `negateNilProgram`. -/
def negateNilChunk (D : Type) : Chunk D :=
  { code := [1, 6, 0, 4, 5, 1, 16, 6, 2, 4, 21], constants := [.Str "x", .Str "x", .Str "y"],
    lines := [0, 0, 0, 0, 0, 0, 0, 0, 0, 0, 0] }

/-- The VM when `negateNilChunk` has stopped at its `OP_NEGATE`. -/
def negateNilFinal (D : Type) : VM D :=
  { ip := 7, stack := [.Nil], globals := fun k => if k = "x" then some .Nil else none,
    out := [], err := [("Operand must be a number.", 0)] }

/-- The scanner state `b` comes after `a`: same source, the cursor not moved
back, and no end-of-input token among the tokens of `b` unless `a` held one. -/
def Lexer.Extends (a b : Lexer) : Prop :=
  b.source = a.source ∧ a.current ≤ b.current
    ∧ ((∀ t ∈ a.tokens, t.type ≠ TokenType.TOKEN_EOF) → ∀ t ∈ b.tokens, t.type ≠ TokenType.TOKEN_EOF)

/-- Level of a binary operator on the precedence ladder of the grammar, from `or`
(1) up to `*` and `/` (6); 0 for every other token type. -/
def precedence : TokenType → Nat
  | .OR => 1
  | .AND => 2
  | .BANG_EQUAL | .EQUAL_EQUAL => 3
  | .GREATER | .GREATER_EQUAL | .LESS | .LESS_EQUAL => 4
  | .MINUS | .PLUS => 5
  | .SLASH | .STAR => 6
  | _ => 0

/-- Whether a token alone is a primary expression: `false`, `true`, `nil`, a
number, a string or an identifier. -/
def isOperand : TokenType → Bool
  | .FALSE | .TRUE | .NIL | .NUMBER | .STRING | .IDENTIFIER => true
  | _ => false

/-- The node `Parser::primary` builds from a token that alone is a primary
expression. -/
def operandExpr (t : Token) : Expr :=
  match t.type with
  | .FALSE => .Literal "false"
  | .TRUE => .Literal "true"
  | .NIL => .Literal "nil"
  | .IDENTIFIER => .Variable t
  | _ => .Literal t.lexeme

/-- The methods of the binary operators by level, from `orExpr` (1) to `factor`
(6), and `unary` above them. -/
def Parser.ladder : Nat → Nat → ParserM Expr
  | 1 => Parser.orExpr
  | 2 => Parser.andExpr
  | 3 => Parser.equality
  | 4 => Parser.comparison
  | 5 => Parser.term
  | 6 => Parser.factor
  | _ => Parser.unary

/-- The loop of the method of a level. -/
def Parser.ladderLoop : Nat → Nat → Expr → ParserM Expr
  | 1 => Parser.orLoop
  | 2 => Parser.andLoop
  | 3 => Parser.equalityLoop
  | 4 => Parser.comparisonLoop
  | 5 => Parser.termLoop
  | 6 => Parser.factorLoop
  | _ => fun _ expr => pure expr

/-- The token types the loop of a level matches. -/
def Parser.ladderOps : Nat → List TokenType
  | 1 => [.OR]
  | 2 => [.AND]
  | 3 => [.BANG_EQUAL, .EQUAL_EQUAL]
  | 4 => [.GREATER, .GREATER_EQUAL, .LESS, .LESS_EQUAL]
  | 5 => [.MINUS, .PLUS]
  | 6 => [.SLASH, .STAR]
  | _ => []

/-- With a budget of `N` or more, the method `m` called at the cursor `k` returns
`e` and leaves the cursor at `k1`. -/
def Returns {α : Type} (m : Nat → ParserM α) (T : List Token) (k : Nat) (e : α) (k1 : Nat)
    (N : Nat) : Prop :=
  ∀ n, m (n + N) T k = .ok e k1

/-- The tokens of `1 + 2 * 3`. -/
def sumProductTokens : List Token :=
  [{ type := .NUMBER, lexeme := "1", line := 1, column := 2 },
   { type := .PLUS, lexeme := "+", line := 1, column := 4 },
   { type := .NUMBER, lexeme := "2", line := 1, column := 6 },
   { type := .STAR, lexeme := "*", line := 1, column := 8 },
   { type := .NUMBER, lexeme := "3", line := 1, column := 10 },
   { type := .TOKEN_EOF, lexeme := "", line := 1, column := 10 }]

/-- The tokens of `a = b = c`. -/
def chainTokens : List Token :=
  [{ type := .IDENTIFIER, lexeme := "a", line := 1, column := 2 },
   { type := .EQUAL, lexeme := "=", line := 1, column := 4 },
   { type := .IDENTIFIER, lexeme := "b", line := 1, column := 6 },
   { type := .EQUAL, lexeme := "=", line := 1, column := 8 },
   { type := .IDENTIFIER, lexeme := "c", line := 1, column := 10 },
   { type := .TOKEN_EOF, lexeme := "", line := 1, column := 10 }]

/-- The tokens of `1 = 2`. -/
def literalTargetTokens : List Token :=
  [{ type := .NUMBER, lexeme := "1", line := 1, column := 2 },
   { type := .EQUAL, lexeme := "=", line := 1, column := 4 },
   { type := .NUMBER, lexeme := "2", line := 1, column := 6 },
   { type := .TOKEN_EOF, lexeme := "", line := 1, column := 6 }]

/-- The tokens of `(a) = 1`. -/
def groupingTargetTokens : List Token :=
  [{ type := .LEFT_PAREN, lexeme := "(", line := 1, column := 2 },
   { type := .IDENTIFIER, lexeme := "a", line := 1, column := 3 },
   { type := .RIGHT_PAREN, lexeme := ")", line := 1, column := 4 },
   { type := .EQUAL, lexeme := "=", line := 1, column := 6 },
   { type := .NUMBER, lexeme := "1", line := 1, column := 8 },
   { type := .TOKEN_EOF, lexeme := "", line := 1, column := 8 }]

/-- The tokens of `a + b = 1`. -/
def binaryTargetTokens : List Token :=
  [{ type := .IDENTIFIER, lexeme := "a", line := 1, column := 2 },
   { type := .PLUS, lexeme := "+", line := 1, column := 4 },
   { type := .IDENTIFIER, lexeme := "b", line := 1, column := 6 },
   { type := .EQUAL, lexeme := "=", line := 1, column := 8 },
   { type := .NUMBER, lexeme := "1", line := 1, column := 10 },
   { type := .TOKEN_EOF, lexeme := "", line := 1, column := 10 }]

/-- The tokens of `f() = 1`. -/
def callTargetTokens : List Token :=
  [{ type := .IDENTIFIER, lexeme := "f", line := 1, column := 2 },
   { type := .LEFT_PAREN, lexeme := "(", line := 1, column := 3 },
   { type := .RIGHT_PAREN, lexeme := ")", line := 1, column := 4 },
   { type := .EQUAL, lexeme := "=", line := 1, column := 6 },
   { type := .NUMBER, lexeme := "1", line := 1, column := 8 },
   { type := .TOKEN_EOF, lexeme := "", line := 1, column := 8 }]

/-- Number of bytes emitted for an optional `else` branch. -/
def elseSize : Option Stmt → Nat
  | none => 0
  | some e => stmtSize e

/-- Bytes emitted for an optional `else` branch when the chunk holds `base`
constants. -/
def elseCode : Option Stmt → Nat → List Nat
  | none, _ => []
  | some e, base => stmtCode e base

/-- A chunk with a jump whose placeholder operand, at offset 1, is followed by
300 bytes `OP_POP`. -/
def patchChunk : Chunk Int :=
  { code := [OpCode.OP_JUMP.toByte, 255, 255] ++ List.replicate 300 OpCode.OP_POP.toByte,
    lines := List.replicate 303 0 }

/-- The expression `1 != 2`, as parsed. -/
def notEqualExpr : Expr :=
  .Binary (.Literal "1") { type := .BANG_EQUAL, lexeme := "!=", line := 1, column := 4 }
    (.Literal "2")

/-- The expression `!true`, as parsed. -/
def bangTrueExpr : Expr :=
  .Unary { type := .BANG, lexeme := "!", line := 1, column := 2 } (.Literal "true")

/-! ## Definitions for the claims on other calls -/

/-- The expression `f()`, as parsed. -/
def callOfF : Expr :=
  .Call (.Variable { type := .IDENTIFIER, lexeme := "f", line := 1, column := 2 })
    { type := .RIGHT_PAREN, lexeme := ")", line := 1, column := 4 } []

/-! ## Definitions for the claims on quoted literals -/

/-- The chunk the function `run` of `main.cpp` hands to the VM for a source
text: `none` when the VM is not started or the scanner or the parser gives no
result within the budget. -/
def Main.compiled {D : Type} [DoubleModel D] (budget : Nat) (source : String) :
    Option (Chunk D) :=
  match scanTokens source with
  | none => none
  | some tokens =>
    match Parser.parse budget tokens with
    | .ok statements _ =>
      if statements.isEmpty then none
      else
        match compile statements ({} : Chunk D) with
        | some (true, chunk) => some chunk
        | _ => none
    | _ => none

/-- The source text `print("1" + 2)`. -/
def printQuotedSumSource : String := "print(" ++ quoted "1" ++ " + 2)"

/-- The tokens of `printQuotedSumSource`. -/
def printQuotedSumTokens : List Token :=
  [{ type := .IDENTIFIER, lexeme := "print", line := 1, column := 6 },
   { type := .LEFT_PAREN, lexeme := "(", line := 1, column := 7 },
   { type := .STRING, lexeme := "1", line := 1, column := 10 },
   { type := .PLUS, lexeme := "+", line := 1, column := 12 },
   { type := .NUMBER, lexeme := "2", line := 1, column := 14 },
   { type := .RIGHT_PAREN, lexeme := ")", line := 1, column := 15 },
   { type := .TOKEN_EOF, lexeme := "", line := 1, column := 15 }]

/-- The statements of `printQuotedSumSource`. -/
def printQuotedSumProgram : List (Option Stmt) :=
  [some (.Expression
    (.Call (.Variable { type := .IDENTIFIER, lexeme := "print", line := 1, column := 6 })
      { type := .RIGHT_PAREN, lexeme := ")", line := 1, column := 15 }
      [.Binary (.Literal "1") { type := .PLUS, lexeme := "+", line := 1, column := 12 }
        (.Literal "2")]))]

/-- The source text `"nil" == nil`. -/
def quotedNilEqualsSource : String := quoted "nil" ++ " == nil"

/-- A chunk with the given code, no constant and line 0 for every byte. -/
def codeChunk (D : Type) (code : List Nat) : Chunk D :=
  { code := code, constants := [], lines := List.replicate code.length 0 }

/-! ## Predicates and examples for the termination of the parser -/

/-- An end-of-input token stands at the index `e` of the token vector. -/
def Parser.EofAt (tokens : List Token) (e : Nat) : Prop :=
  ∃ t : Token, tokens[e]? = some t ∧ t.type = .TOKEN_EOF

/-- A call entered at the cursor `k` returns or throws a `ParseError` with the
cursor in `[k, e]`. -/
def Parser.Within (e k : Nat) {α : Type} (r : ParseResult α) : Prop :=
  match r with
  | .ok _ p => k ≤ p ∧ p ≤ e
  | .error _ p => k ≤ p ∧ p ≤ e
  | .fault => False
  | .timeout => False

/-- A call entered at the cursor `k` returns with the cursor in `(k, e]` or
throws a `ParseError` with the cursor in `[k, e]`. -/
def Parser.Advances (e k : Nat) {α : Type} (r : ParseResult α) : Prop :=
  match r with
  | .ok _ p => k < p ∧ p ≤ e
  | .error _ p => k ≤ p ∧ p ≤ e
  | .fault => False
  | .timeout => False

/-- A call entered at the cursor `k` returns with the cursor in `[k + s, e]`. -/
def Parser.Completes (e k s : Nat) {α : Type} (r : ParseResult α) : Prop :=
  match r with
  | .ok _ p => k + s ≤ p ∧ p ≤ e
  | _ => False

/-- The try block of `Parser::declaration`. -/
def Parser.declarationBody (budget : Nat) : ParserM Stmt := do
  if (← Parser.matchTypes [.FUNCTION]) then Parser.functionDeclaration budget
  else if (← Parser.matchTypes [.LOCAL]) then Parser.varDeclaration budget
  else Parser.statement budget

/-- Whether the loop of `Parser::synchronize` is left at the cursor `p`: the
current token is the end-of-input token, the previous token is a `;`, or the
current token is one of `function`, `local`, `for`, `if`, `while`, `return`,
`repeat`. -/
def Parser.stopsAt (tokens : List Token) (p : Nat) : Bool :=
  match tokens[p]?, tokens[p - 1]? with
  | some t, some prev =>
      t.type == .TOKEN_EOF || (decide (1 ≤ p) && prev.type == .SEMICOLON)
        || Parser.startsStatement t.type
  | _, _ => false

/-- With the budget `b`, every method of the parser that is entered at a cursor
`k ≤ e` with `20 * (e - k)` plus its rank at most `b` ends with the cursor in
`[k, e]`, and the methods that read an expression move the cursor when they
return. -/
structure Parser.Bounded (T : List Token) (e b : Nat) : Prop where
  primary : ∀ k, k ≤ e → 20 * (e - k) + 1 ≤ b → Parser.Advances e k (Parser.primary b T k)
  callLoop : ∀ k x, k ≤ e → 20 * (e - k) + 1 ≤ b → Parser.Within e k (Parser.callLoop b x T k)
  call : ∀ k, k ≤ e → 20 * (e - k) + 2 ≤ b → Parser.Advances e k (Parser.call b T k)
  unary : ∀ k, k ≤ e → 20 * (e - k) + 3 ≤ b → Parser.Advances e k (Parser.unary b T k)
  factorLoop : ∀ k x, k ≤ e → 20 * (e - k) + 3 ≤ b →
    Parser.Within e k (Parser.factorLoop b x T k)
  factor : ∀ k, k ≤ e → 20 * (e - k) + 4 ≤ b → Parser.Advances e k (Parser.factor b T k)
  termLoop : ∀ k x, k ≤ e → 20 * (e - k) + 4 ≤ b → Parser.Within e k (Parser.termLoop b x T k)
  term : ∀ k, k ≤ e → 20 * (e - k) + 5 ≤ b → Parser.Advances e k (Parser.term b T k)
  comparisonLoop : ∀ k x, k ≤ e → 20 * (e - k) + 5 ≤ b →
    Parser.Within e k (Parser.comparisonLoop b x T k)
  comparison : ∀ k, k ≤ e → 20 * (e - k) + 6 ≤ b →
    Parser.Advances e k (Parser.comparison b T k)
  equalityLoop : ∀ k x, k ≤ e → 20 * (e - k) + 6 ≤ b →
    Parser.Within e k (Parser.equalityLoop b x T k)
  equality : ∀ k, k ≤ e → 20 * (e - k) + 7 ≤ b → Parser.Advances e k (Parser.equality b T k)
  andLoop : ∀ k x, k ≤ e → 20 * (e - k) + 7 ≤ b → Parser.Within e k (Parser.andLoop b x T k)
  andExpr : ∀ k, k ≤ e → 20 * (e - k) + 8 ≤ b → Parser.Advances e k (Parser.andExpr b T k)
  orLoop : ∀ k x, k ≤ e → 20 * (e - k) + 8 ≤ b → Parser.Within e k (Parser.orLoop b x T k)
  orExpr : ∀ k, k ≤ e → 20 * (e - k) + 9 ≤ b → Parser.Advances e k (Parser.orExpr b T k)
  assignment : ∀ k, k ≤ e → 20 * (e - k) + 10 ≤ b →
    Parser.Advances e k (Parser.assignment b T k)
  expression : ∀ k, k ≤ e → 20 * (e - k) + 11 ≤ b →
    Parser.Advances e k (Parser.expression b T k)
  argumentsLoop : ∀ k acc, k ≤ e → 20 * (e - k) + 12 ≤ b →
    Parser.Within e k (Parser.argumentsLoop b acc T k)
  finishCall : ∀ k callee, k ≤ e → 20 * (e - k) + 13 ≤ b →
    Parser.Within e k (Parser.finishCall b callee T k)
  expressionStatement : ∀ k, k ≤ e → 20 * (e - k) + 12 ≤ b →
    Parser.Advances e k (Parser.expressionStatement b T k)
  returnStatement : ∀ k, 1 ≤ k → k ≤ e → 20 * (e - k) + 12 ≤ b →
    Parser.Within e k (Parser.returnStatement b T k)
  varDeclaration : ∀ k, k ≤ e → 20 * (e - k) + 12 ≤ b →
    Parser.Within e k (Parser.varDeclaration b T k)
  whileStatement : ∀ k, k ≤ e → 20 * (e - k) + 12 ≤ b →
    Parser.Within e k (Parser.whileStatement b T k)
  ifStatement : ∀ k, k ≤ e → 20 * (e - k) + 12 ≤ b →
    Parser.Within e k (Parser.ifStatement b T k)
  functionDeclaration : ∀ k, k ≤ e → 20 * (e - k) + 12 ≤ b →
    Parser.Within e k (Parser.functionDeclaration b T k)
  statement : ∀ k, k ≤ e → 20 * (e - k) + 13 ≤ b →
    Parser.Advances e k (Parser.statement b T k)
  declaration : ∀ k, k ≤ e → (∃ t : Token, T[k]? = some t ∧ t.type ≠ .TOKEN_EOF) →
    20 * (e - k) + 14 ≤ b → Parser.Completes e k 1 (Parser.declaration b T k)
  block : ∀ k acc, k ≤ e → 20 * (e - k) + 15 ≤ b →
    Parser.Within e k (Parser.block b acc T k)

/-- The source text `x = 1; y = x`. -/
def semicolonSource : String := "x = 1; y = x"

/-- The tokens of `semicolonSource`. -/
def semicolonTokens : List Token :=
  [{ type := .IDENTIFIER, lexeme := "x", line := 1, column := 2 },
   { type := .EQUAL, lexeme := "=", line := 1, column := 4 },
   { type := .NUMBER, lexeme := "1", line := 1, column := 6 },
   { type := .SEMICOLON, lexeme := ";", line := 1, column := 7 },
   { type := .IDENTIFIER, lexeme := "y", line := 1, column := 9 },
   { type := .EQUAL, lexeme := "=", line := 1, column := 11 },
   { type := .IDENTIFIER, lexeme := "x", line := 1, column := 13 },
   { type := .TOKEN_EOF, lexeme := "", line := 1, column := 13 }]

/-- The statements `Parser::parse` returns for `semicolonTokens`. -/
def semicolonProgram : List (Option Stmt) :=
  [some (.Expression (.Assignment { type := .IDENTIFIER, lexeme := "x", line := 1, column := 2 }
      (.Literal "1"))),
   none,
   some (.Expression (.Assignment { type := .IDENTIFIER, lexeme := "y", line := 1, column := 9 }
      (.Variable { type := .IDENTIFIER, lexeme := "x", line := 1, column := 13 })))]

/-! ## Stack heights of the compiled code -/

/-- The annotation of the opcode a switch selected: one instruction at `pos`
entered with `h` values on the stack, or none. -/
def selectedHeights : Option OpCode → Nat → Nat → List (Nat × Nat)
  | some _, pos, h => [(pos, h)]
  | none, _, _ => []

mutual
/-- The instructions of the code of an expression laid out from the offset `pos`
and entered with `h` values on the stack: the offset of each instruction with the
height of the stack before it. -/
def exprHeights : Expr → Nat → Nat → List (Nat × Nat)
  | .Binary left op right, pos, h =>
      exprHeights left pos h ++ exprHeights right (pos + (exprCode left 0).length) (h + 1)
        ++ selectedHeights (binaryOpcode op.type)
            (pos + (exprCode left 0).length + (exprCode right 0).length) (h + 2)
  | .Grouping expression, pos, h => exprHeights expression pos h
  | .Literal _, pos, h => [(pos, h)]
  | .Unary op right, pos, h =>
      exprHeights right pos h
        ++ selectedHeights (unaryOpcode op.type) (pos + (exprCode right 0).length) (h + 1)
  | .Variable _, pos, h => [(pos, h)]
  | .Assignment _ value, pos, h =>
      exprHeights value pos h ++ [(pos + (exprCode value 0).length, h + 1)]
  | .Call callee _ arguments, pos, h =>
      if isPrintCallee callee then
        argsHeights arguments pos h ++ [(pos + (argsCode arguments 0).length, h)]
      else []
/-- The instructions of the code of the arguments of a `print` call. -/
def argsHeights : List Expr → Nat → Nat → List (Nat × Nat)
  | [], _, _ => []
  | arg :: rest, pos, h =>
      exprHeights arg pos h ++ [(pos + (exprCode arg 0).length, h + 1)]
        ++ argsHeights rest (pos + (exprCode arg 0).length + 1) h
end

/-- The instructions of an optional initializer, entered with an empty stack. -/
def optExprHeights : Option Expr → Nat → List (Nat × Nat)
  | some e, pos => exprHeights e pos 0
  | none, pos => [(pos, 0)]

mutual
/-- The instructions of the code of a statement laid out from the offset `pos`:
the offset of each instruction with the height of the stack before it. -/
def stmtHeights : Stmt → Nat → List (Nat × Nat)
  | .Expression expression, pos =>
      exprHeights expression pos 0 ++ [(pos + (exprCode expression 0).length, 1)]
  | .Print _, _ => []
  | .VarDecl _ initializer, pos =>
      optExprHeights initializer pos ++ [(pos + (optExprCode initializer 0).length, 1)]
  | .Block statements, pos => stmtsHeights statements pos
  | .If condition thenBranch (some e), pos =>
      exprHeights condition pos 0
        ++ [(pos + (exprCode condition 0).length, 1), (pos + (exprCode condition 0).length + 3, 1)]
        ++ stmtHeights thenBranch (pos + (exprCode condition 0).length + 4)
        ++ [(pos + (exprCode condition 0).length + 4 + stmtSize thenBranch, 0),
            (pos + (exprCode condition 0).length + 4 + stmtSize thenBranch + 3, 1)]
        ++ stmtHeights e (pos + (exprCode condition 0).length + 4 + stmtSize thenBranch + 4)
  | .If condition thenBranch none, pos =>
      exprHeights condition pos 0
        ++ [(pos + (exprCode condition 0).length, 1), (pos + (exprCode condition 0).length + 3, 1)]
        ++ stmtHeights thenBranch (pos + (exprCode condition 0).length + 4)
        ++ [(pos + (exprCode condition 0).length + 4 + stmtSize thenBranch, 0),
            (pos + (exprCode condition 0).length + 4 + stmtSize thenBranch + 3, 1)]
  | .While condition body, pos =>
      exprHeights condition pos 0
        ++ [(pos + (exprCode condition 0).length, 1), (pos + (exprCode condition 0).length + 3, 1)]
        ++ stmtHeights body (pos + (exprCode condition 0).length + 4)
        ++ [(pos + (exprCode condition 0).length + 4 + stmtSize body, 0),
            (pos + (exprCode condition 0).length + 4 + stmtSize body + 3, 1)]
  | .Function _ _ _, _ => []
  | .Return _ value, pos =>
      optExprHeights value pos ++ [(pos + (optExprCode value 0).length, 1)]
/-- The instructions of the code of a statement vector. -/
def stmtsHeights : List (Option Stmt) → Nat → List (Nat × Nat)
  | [], _ => []
  | none :: rest, pos => stmtsHeights rest pos
  | some s :: rest, pos => stmtHeights s pos ++ stmtsHeights rest (pos + stmtSize s)
end

mutual
/-- The offsets at which the code of a statement laid out from `pos`, and of
every statement nested in it, begins. -/
def stmtStarts : Stmt → Nat → List Nat
  | .Block statements, pos => pos :: stmtsStarts statements pos
  | .If condition thenBranch (some e), pos =>
      pos :: (stmtStarts thenBranch (pos + (exprCode condition 0).length + 4)
        ++ stmtStarts e (pos + (exprCode condition 0).length + 4 + stmtSize thenBranch + 4))
  | .If condition thenBranch none, pos =>
      pos :: stmtStarts thenBranch (pos + (exprCode condition 0).length + 4)
  | .While condition body, pos =>
      pos :: stmtStarts body (pos + (exprCode condition 0).length + 4)
  | .Expression _, pos => [pos]
  | .Print _, pos => [pos]
  | .VarDecl _ _, pos => [pos]
  | .Function _ _ _, pos => [pos]
  | .Return _ _, pos => [pos]
/-- The offsets at which the code of the statements of a vector, and of every
statement nested in them, begins. -/
def stmtsStarts : List (Option Stmt) → Nat → List Nat
  | [], _ => []
  | none :: rest, pos => stmtsStarts rest pos
  | some s :: rest, pos => stmtStarts s pos ++ stmtsStarts rest (pos + stmtSize s)
end

/-- Every iteration of the dispatch loop that starts at an offset and a stack
height listed in `A`, goes on and reports no error, ends at an offset and a
stack height listed in `B`. -/
def Flow {D : Type} [DoubleModel D] (c : Chunk D) (A B : List (Nat × Nat)) : Prop :=
  ∀ vm vm1 : VM D, (vm.ip, vm.stack.length) ∈ A → step c vm = .next vm1 → vm1.err = vm.err →
    (vm1.ip, vm1.stack.length) ∈ B

/-- The state in which the VM first stands at the body of the counting loop. -/
def countAtBody : VM Int :=
  { ip := 13, stack := [],
    globals := fun k => if k = "i" then some (.Number 0) else none, out := [], err := [] }

/-! ## An executable model of `double` with infinities and NaN

The integer model above extended by the three special values of IEEE 754. Sums,
differences, products, negation and comparisons of integers of magnitude below
`2 ^ 53` are exact and a division of integers by a divisor other than zero takes
the integer quotient, as in the integer model. A division by zero gives an
infinity of the sign of the dividend, and NaN for `0/0`; arithmetic on the
special values follows IEEE 754 (there is no negative zero); every comparison
with NaN, the `==` of NaN with itself included, is false. -/

/-- The values of the model: an integer, `+inf`, `-inf` or NaN. -/
inductive ExtDouble where
  | finite (n : Int)
  | posInf
  | negInf
  | nan
  deriving DecidableEq, Repr

/-- Unary minus of `double`. -/
def ExtDouble.neg : ExtDouble → ExtDouble
  | .finite n => .finite (-n)
  | .posInf => .negInf
  | .negInf => .posInf
  | .nan => .nan

/-- The operator `+` of `double`: opposite infinities add to NaN. -/
def ExtDouble.add : ExtDouble → ExtDouble → ExtDouble
  | .nan, _ => .nan
  | _, .nan => .nan
  | .posInf, .negInf => .nan
  | .negInf, .posInf => .nan
  | .posInf, _ => .posInf
  | _, .posInf => .posInf
  | .negInf, _ => .negInf
  | _, .negInf => .negInf
  | .finite a, .finite b => .finite (a + b)

/-- Sign of a value, 0 for zero and for NaN. -/
def ExtDouble.sign : ExtDouble → Int
  | .finite n => Int.sign n
  | .posInf => 1
  | .negInf => -1
  | .nan => 0

/-- The infinity of a sign, NaN for the sign 0. -/
def ExtDouble.ofSign (s : Int) : ExtDouble :=
  if s = 0 then .nan else if 0 < s then .posInf else .negInf

/-- The operator `*` of `double`: zero times an infinity is NaN. -/
def ExtDouble.mul : ExtDouble → ExtDouble → ExtDouble
  | .nan, _ => .nan
  | _, .nan => .nan
  | .finite a, .finite b => .finite (a * b)
  | a, b => ExtDouble.ofSign (a.sign * b.sign)

/-- The operator `/` of `double`: `0/0` and the quotient of two infinities are
NaN, another quotient by zero is an infinity. -/
def ExtDouble.div : ExtDouble → ExtDouble → ExtDouble
  | .nan, _ => .nan
  | _, .nan => .nan
  | .finite a, .finite b => if b = 0 then ExtDouble.ofSign (Int.sign a) else .finite (a / b)
  | .finite _, _ => .finite 0
  | _, .posInf => .nan
  | _, .negInf => .nan
  | a, .finite b => ExtDouble.ofSign (a.sign * (if b < 0 then -1 else 1))

/-- The operator `<` of `double`: false when an operand is NaN. -/
def ExtDouble.lt : ExtDouble → ExtDouble → Bool
  | .nan, _ => false
  | _, .nan => false
  | .finite a, .finite b => decide (a < b)
  | .negInf, .negInf => false
  | .negInf, _ => true
  | _, .negInf => false
  | .posInf, _ => false
  | _, .posInf => true

/-- The operator `==` of `double`: false when an operand is NaN. -/
def ExtDouble.eq : ExtDouble → ExtDouble → Bool
  | .nan, _ => false
  | _, .nan => false
  | a, b => decide (a = b)

/-- The text `std::cout` writes for a value (the model keeps no sign of a NaN and
writes `nan` for it). -/
def ExtDouble.fmt : ExtDouble → String
  | .finite n => toString n
  | .posInf => "inf"
  | .negInf => "-inf"
  | .nan => "nan"

/-- The model of `double` with infinities and NaN. -/
instance extDoubleModel : DoubleModel ExtDouble where
  add := ExtDouble.add
  sub a b := ExtDouble.add a b.neg
  mul := ExtDouble.mul
  div := ExtDouble.div
  neg := ExtDouble.neg
  lt := ExtDouble.lt
  gt a b := ExtDouble.lt b a
  eq := ExtDouble.eq
  stod s :=
    match leadingDigits s with
    | [] => none
    | ds => some (.finite (digitsValue ds), ds.length)
  fmt := ExtDouble.fmt

/-- A source that stores the result of `0/0` and prints whether it equals itself. -/
def nanSource : String := "x = 0/0 print(x == x)"

/-- The tokens of `x = 0/0 print(x == x)`. -/
def nanTokens : List Token :=
  [{ type := .IDENTIFIER, lexeme := "x", line := 1, column := 2 },
   { type := .EQUAL, lexeme := "=", line := 1, column := 4 },
   { type := .NUMBER, lexeme := "0", line := 1, column := 6 },
   { type := .SLASH, lexeme := "/", line := 1, column := 7 },
   { type := .NUMBER, lexeme := "0", line := 1, column := 8 },
   { type := .IDENTIFIER, lexeme := "print", line := 1, column := 14 },
   { type := .LEFT_PAREN, lexeme := "(", line := 1, column := 15 },
   { type := .IDENTIFIER, lexeme := "x", line := 1, column := 16 },
   { type := .EQUAL_EQUAL, lexeme := "==", line := 1, column := 19 },
   { type := .IDENTIFIER, lexeme := "x", line := 1, column := 21 },
   { type := .RIGHT_PAREN, lexeme := ")", line := 1, column := 22 },
   { type := .TOKEN_EOF, lexeme := "", line := 1, column := 22 }]

/-- The statements of `x = 0/0 print(x == x)`. -/
def nanProgram : List (Option Stmt) :=
  [some (.Expression
    (.Assignment { type := .IDENTIFIER, lexeme := "x", line := 1, column := 2 }
      (.Binary (.Literal "0") { type := .SLASH, lexeme := "/", line := 1, column := 7 }
        (.Literal "0")))),
   some (.Expression
    (.Call (.Variable { type := .IDENTIFIER, lexeme := "print", line := 1, column := 14 })
      { type := .RIGHT_PAREN, lexeme := ")", line := 1, column := 22 }
      [.Binary (.Variable { type := .IDENTIFIER, lexeme := "x", line := 1, column := 16 })
        { type := .EQUAL_EQUAL, lexeme := "==", line := 1, column := 19 }
        (.Variable { type := .IDENTIFIER, lexeme := "x", line := 1, column := 21 })]))]

/-- The chunk compiled from `x = 0/0 print(x == x)`: two constants, a division,
the store to `x` and a pop; two loads of `x`, the comparison, the print, the `Nil`
of the print call and a pop; the return. -/
def nanChunk : Chunk ExtDouble :=
  { code := [0, 0, 0, 1, 14, 6, 2, 4, 5, 3, 5, 4, 8, 17, 1, 4, 21],
    constants := [.Number (.finite 0), .Number (.finite 0), .Str "x", .Str "x", .Str "x"],
    lines := [0, 0, 0, 0, 0, 0, 0, 0, 0, 0, 0, 0, 0, 0, 0, 0, 0] }

/-- The state in which the run of `x = 0/0 print(x == x)` ends. -/
def nanFinal : VM ExtDouble :=
  { (({} : VM ExtDouble).setGlobal "x" (.Number .nan)) with ip := 17, out := ["false"] }

/-! ## The words of a source text -/

/-- A character that continues a word: a letter, a digit or an underscore. -/
def isWordChar (c : Char) : Bool := c.isAlphanum || c == Char.ofNat 95

/-- A character that starts a word: a letter or an underscore. -/
def isWordStart (c : Char) : Bool := c.isAlpha || c == Char.ofNat 95

/-- The words of a text by the words of the specification, with one unit of
fuel per character: the maximal runs matching `[A-Za-z_][A-Za-z0-9_]*`, from
left to right, outside strings (from a double quote to the next double quote, or
to the end of the text when there is none) and comments (from `--` to the end of
the line). -/
def wordsFuel : Nat → List Char → List String
  | 0, _ => []
  | _ + 1, [] => []
  | n + 1, c :: rest =>
    if c = Char.ofNat 34 then
      wordsFuel n ((rest.dropWhile (fun ch => ch != Char.ofNat 34)).drop 1)
    else if c = Char.ofNat 45 ∧ rest.head? = some (Char.ofNat 45) then
      wordsFuel n (rest.dropWhile (fun ch => ch != Char.ofNat 10))
    else if isWordStart c then
      String.mk (c :: rest.takeWhile isWordChar) :: wordsFuel n (rest.dropWhile isWordChar)
    else wordsFuel n rest

/-- The words of a text: `wordsFuel` with the length of the text as fuel. -/
def specWords (text : List Char) : List String := wordsFuel text.length text

/-- The kind of the token of a word: the entry of the table of reserved words,
`IDENTIFIER` without one. -/
def wordKind (w : String) : TokenType := (keywords.lookup w).getD .IDENTIFIER

/-- The token kinds of words: `IDENTIFIER` and the 21 reserved-word kinds. -/
def isWordKind (t : TokenType) : Bool :=
  t == .IDENTIFIER || (keywords.map Prod.snd).contains t

/-- The lexemes and kinds of the word tokens of a token list, in order. -/
def wordTokens (tokens : List Token) : List (String × TokenType) :=
  (tokens.filter (fun t => isWordKind t.type)).map (fun t => (t.lexeme, t.type))

/-- The word tokens a scanner state has added, followed by the words of the text
it has not read yet with their kinds. -/
def Lexer.pending (lx : Lexer) : List (String × TokenType) :=
  wordTokens lx.tokens ++ (specWords (lx.source.drop lx.current)).map (fun w => (w, wordKind w))

/-- A source with words next to a number, inside a string literal and inside a
comment: `x1 = "if y" while -- end`, a newline, then `_z2 5or`. -/
def wordsSource : String :=
  "x1 = " ++ quoted "if y" ++ " while -- end" ++ String.mk [Char.ofNat 10] ++ "_z2 5or"

/-! ## Lemmas on the emit helpers -/

section EmitLemmas
variable {D : Type}

theorem opcode_toByte_lt (op : OpCode) : op.toByte < 256 := by
  cases op <;> decide

theorem opcode_ofByte_toByte (op : OpCode) : OpCode.ofByte op.toByte = some op := by
  cases op <;> rfl

theorem hiByte_lt (n : Nat) : hiByte n < 256 := by
  unfold hiByte
  exact lt_of_le_of_lt Nat.and_le_right (by decide)

theorem loByte_lt (n : Nat) : loByte n < 256 := by
  unfold loByte
  exact lt_of_le_of_lt Nat.and_le_right (by decide)

theorem hiByte_eq (n : Nat) : hiByte n = n / 256 % 256 := by
  unfold hiByte
  rw [Nat.shiftRight_eq_div_pow]
  exact Nat.and_pow_two_sub_one_eq_mod _ 8

theorem loByte_eq (n : Nat) : loByte n = n % 256 := by
  unfold loByte
  exact Nat.and_pow_two_sub_one_eq_mod _ 8

theorem extend_nil (c : Chunk D) : c.extend [] [] = c := by
  simp [Chunk.extend]

theorem extend_extend (c : Chunk D) (a b : List Nat) (x y : List (Value D)) :
    (c.extend a x).extend b y = c.extend (a ++ b) (x ++ y) := by
  simp [Chunk.extend, List.append_assoc]

theorem extend_constants_length (c : Chunk D) (a : List Nat) (x : List (Value D)) :
    (c.extend a x).constants.length = c.constants.length + x.length := by
  simp [Chunk.extend]

theorem extend_code_length (c : Chunk D) (a : List Nat) (x : List (Value D)) :
    (c.extend a x).code.length = c.code.length + a.length := by
  simp [Chunk.extend]

theorem emitByte_eq (c : Chunk D) (b : Nat) : emitByte c b = c.extend [b % 256] [] := by
  simp [emitByte, Chunk.write, Chunk.extend]

theorem emitOp_eq (c : Chunk D) (op : OpCode) : emitOp c op = c.extend [op.toByte] [] := by
  rw [emitOp, emitByte_eq, Nat.mod_eq_of_lt (opcode_toByte_lt op)]

theorem emitSelected_eq (c : Chunk D) (o : Option OpCode) :
    emitSelected c o = c.extend (selectedCode o) [] := by
  cases o with
  | none => simp [emitSelected, selectedCode, extend_nil]
  | some op => simp [emitSelected, selectedCode, emitOp_eq]

theorem emitOperand_eq (c : Chunk D) (op : OpCode) (v : Value D) :
    emitBytes (makeConstant c v).1 op.toByte (makeConstant c v).2
      = c.extend [op.toByte, c.constants.length % 256] [v] := by
  simp [emitBytes, emitByte, Chunk.write, makeConstant, Chunk.addConstant, Chunk.extend,
    Nat.mod_eq_of_lt (opcode_toByte_lt op)]

theorem emitConstant_eq (c : Chunk D) (v : Value D) :
    emitConstant c v = c.extend [OpCode.OP_CONSTANT.toByte, c.constants.length % 256] [v] := by
  unfold emitConstant
  exact emitOperand_eq c .OP_CONSTANT v

theorem emitJump_eq (c : Chunk D) (op : OpCode) :
    emitJump c op.toByte = (c.extend [op.toByte, 255, 255] [], c.code.length + 1) := by
  simp [emitJump, emitByte, Chunk.write, Chunk.extend, Nat.mod_eq_of_lt (opcode_toByte_lt op)]

theorem set_append_cons (pre : List Nat) (a x : Nat) (rest : List Nat) :
    (pre ++ a :: rest).set pre.length x = pre ++ x :: rest := by
  induction pre with
  | nil => rfl
  | cons p ps ih => simp [ih]

theorem patchJump_eq (c : Chunk D) (pre rest : List Nat) (a b : Nat)
    (h : c.code = pre ++ a :: b :: rest) :
    patchJump c pre.length
      = { c with code := pre ++ hiByte rest.length :: loByte rest.length :: rest } := by
  have h1 : c.code.length - pre.length - 2 = rest.length := by
    rw [h]; simp
  have h2 : ∀ x : Nat, pre ++ x :: b :: rest = (pre ++ [x]) ++ b :: rest := by simp
  have h3 : ∀ x : Nat, pre.length + 1 = (pre ++ [x]).length := by simp
  unfold patchJump
  simp only [h1]
  rw [h, set_append_cons, h2, h3 (rest.length >>> 8 &&& 255), set_append_cons]
  simp [hiByte, loByte]

theorem patchJump_extend (c : Chunk D) (code : List Nat) (x : List (Value D))
    (pre rest : List Nat) (op off : Nat)
    (hcode : code = pre ++ op :: 255 :: 255 :: rest)
    (hoff : off = c.code.length + pre.length + 1) :
    patchJump (c.extend code x) off
      = c.extend (pre ++ op :: hiByte rest.length :: loByte rest.length :: rest) x := by
  have h : (c.extend code x).code = (c.code ++ pre ++ [op]) ++ 255 :: 255 :: rest := by
    simp [Chunk.extend, hcode]
  have hlen : off = (c.code ++ pre ++ [op]).length := by
    simp [hoff, Nat.add_assoc]
  rw [hlen, patchJump_eq _ _ _ _ _ h]
  simp [Chunk.extend, hcode]

theorem emitLoop_eq (c : Chunk D) (loopStart : Nat) :
    emitLoop c loopStart
      = c.extend [OpCode.OP_LOOP.toByte, hiByte (c.code.length + 1 - loopStart + 2),
          loByte (c.code.length + 1 - loopStart + 2)] [] := by
  have h1 := hiByte_lt (c.code.length + 1 - loopStart + 2)
  have h2 := loByte_lt (c.code.length + 1 - loopStart + 2)
  unfold hiByte at h1
  unfold loByte at h2
  simp [emitLoop, emitOp, emitByte, Chunk.write, Chunk.extend, hiByte, loByte,
    Nat.mod_eq_of_lt h1, Nat.mod_eq_of_lt h2, OpCode.toByte]

end EmitLemmas

/-! ## The visitors append the laid-out code -/

section Layout
variable {D : Type} [DoubleModel D]

theorem literalCode_length (val : String) (b1 b2 : Nat) :
    (literalCode val b1).length = (literalCode val b2).length := by
  unfold literalCode
  split_ifs <;> rfl

mutual
theorem exprCode_length : (e : Expr) → (b1 b2 : Nat) →
    (exprCode e b1).length = (exprCode e b2).length
  | .Binary left _ right, b1, b2 => by
      simp only [exprCode, List.length_append]
      rw [exprCode_length left b1 b2, exprCode_length right (b1 + exprCount left) (b2 + exprCount left)]
  | .Grouping expression, b1, b2 => by
      simp only [exprCode]
      exact exprCode_length expression b1 b2
  | .Literal value, b1, b2 => by
      simp only [exprCode]
      exact literalCode_length value b1 b2
  | .Unary _ right, b1, b2 => by
      simp only [exprCode, List.length_append]
      rw [exprCode_length right b1 b2]
  | .Variable _, _, _ => by simp [exprCode]
  | .Assignment _ value, b1, b2 => by
      simp only [exprCode, List.length_append]
      rw [exprCode_length value b1 b2]
      rfl
  | .Call callee _ arguments, b1, b2 => by
      simp only [exprCode]
      split_ifs
      · simp only [List.length_append]
        rw [argsCode_length arguments b1 b2]
      · rfl
theorem argsCode_length : (args : List Expr) → (b1 b2 : Nat) →
    (argsCode args b1).length = (argsCode args b2).length
  | [], _, _ => by simp [argsCode]
  | arg :: rest, b1, b2 => by
      simp only [argsCode, List.length_append]
      rw [exprCode_length arg b1 b2, argsCode_length rest (b1 + exprCount arg) (b2 + exprCount arg)]
end

mutual
theorem exprConsts_length : (e : Expr) → (exprConsts e : List (Value D)).length = exprCount e
  | .Binary left _ right => by
      simp only [exprConsts, exprCount, List.length_append]
      rw [exprConsts_length left, exprConsts_length right]
  | .Grouping expression => by
      simp only [exprConsts, exprCount]
      exact exprConsts_length expression
  | .Literal value => by
      simp only [exprConsts, exprCount]
      split_ifs <;> rfl
  | .Unary _ right => by
      simp only [exprConsts, exprCount]
      exact exprConsts_length right
  | .Variable _ => by simp [exprConsts, exprCount]
  | .Assignment _ value => by
      simp only [exprConsts, exprCount, List.length_append]
      rw [exprConsts_length value]
      rfl
  | .Call callee _ arguments => by
      simp only [exprConsts, exprCount]
      split_ifs
      · exact argsConsts_length arguments
      · rfl
theorem argsConsts_length : (args : List Expr) →
    (argsConsts args : List (Value D)).length = argsCount args
  | [] => by simp [argsConsts, argsCount]
  | arg :: rest => by
      simp only [argsConsts, argsCount, List.length_append]
      rw [exprConsts_length arg, argsConsts_length rest]
end

theorem visitLiteralExpr_eq (c : Chunk D) (val : String) :
    visitLiteralExpr c val
      = c.extend (literalCode val c.constants.length)
          (if isKeywordLiteral val then [] else [literalValue val]) := by
  unfold visitLiteralExpr literalCode literalValue isKeywordLiteral
  by_cases h1 : val = "nil"
  · simp [h1, emitOp_eq]
  · by_cases h2 : val = "true"
    · simp [h2, emitOp_eq]
    · by_cases h3 : val = "false"
      · simp [h3, emitOp_eq]
      · simp only [h1, h2, h3, if_false, decide_False, Bool.or_self, Bool.false_eq_true]
        cases (parseWholeNumber val : Option D) <;> simp [emitConstant_eq]

mutual
theorem visitExpr_eq : (e : Expr) → (c : Chunk D) →
    visitExpr e c = c.extend (exprCode e c.constants.length) (exprConsts e)
  | .Binary left op right, c => by
      simp only [visitExpr, exprCode, exprConsts]
      rw [visitExpr_eq left c, visitExpr_eq right, emitSelected_eq, extend_extend, extend_extend,
        extend_constants_length, exprConsts_length, List.append_nil, List.append_assoc]
  | .Grouping expression, c => by
      simp only [visitExpr, exprCode, exprConsts]
      exact visitExpr_eq expression c
  | .Literal value, c => by
      simp only [visitExpr, exprCode, exprConsts]
      exact visitLiteralExpr_eq c value
  | .Unary op right, c => by
      simp only [visitExpr, exprCode, exprConsts]
      rw [visitExpr_eq right c, emitSelected_eq, extend_extend, List.append_nil]
  | .Variable name, c => by
      simp only [visitExpr, exprCode, exprConsts]
      exact emitOperand_eq c .OP_GET_GLOBAL _
  | .Assignment name value, c => by
      simp only [visitExpr, exprCode, exprConsts]
      rw [visitExpr_eq value c, emitOperand_eq _ .OP_SET_GLOBAL, extend_extend,
        extend_constants_length, exprConsts_length]
  | .Call callee _ arguments, c => by
      simp only [visitExpr, exprCode, exprConsts]
      split_ifs
      · rw [visitPrintArgs_eq arguments c, emitOp_eq, extend_extend, List.append_nil]
      · exact (extend_nil c).symm
theorem visitPrintArgs_eq : (args : List Expr) → (c : Chunk D) →
    visitPrintArgs args c = c.extend (argsCode args c.constants.length) (argsConsts args)
  | [], c => by
      simp only [visitPrintArgs, argsCode, argsConsts]
      exact (extend_nil c).symm
  | arg :: rest, c => by
      simp only [visitPrintArgs, argsCode, argsConsts]
      rw [visitExpr_eq arg c, emitOp_eq, visitPrintArgs_eq rest, extend_extend, extend_extend,
        extend_constants_length, extend_constants_length, exprConsts_length,
        List.length_nil, Nat.add_zero, List.nil_append, List.append_assoc]
end

end Layout

section StmtLayout
variable {D : Type} [DoubleModel D]

theorem optExprCode_length (o : Option Expr) (b1 b2 : Nat) :
    (optExprCode o b1).length = (optExprCode o b2).length := by
  cases o with
  | none => rfl
  | some e => exact exprCode_length e b1 b2

theorem optExprConsts_length (o : Option Expr) :
    (optExprConsts o : List (Value D)).length = optExprCount o := by
  cases o with
  | none => rfl
  | some e => exact exprConsts_length e

mutual
theorem stmtCode_length : (s : Stmt) → (base : Nat) → (stmtCode s base).length = stmtSize s
  | .Expression expression, base => by
      simp only [stmtCode, stmtSize, List.length_append, List.length_singleton]
      rw [exprCode_length expression base 0]
  | .Print _, _ => by simp [stmtCode, stmtSize]
  | .VarDecl _ initializer, base => by
      simp only [stmtCode, stmtSize, List.length_append]
      rw [optExprCode_length initializer base 0]
      rfl
  | .Block statements, base => by
      simp only [stmtCode, stmtSize]
      exact stmtsCode_length statements base
  | .If condition thenBranch (some e), base => by
      simp only [stmtCode, stmtSize, List.length_append]
      rw [exprCode_length condition base 0, stmtCode_length thenBranch, stmtCode_length e]
      rfl
  | .If condition thenBranch none, base => by
      simp only [stmtCode, stmtSize, List.length_append]
      rw [exprCode_length condition base 0, stmtCode_length thenBranch]
      rfl
  | .While condition body, base => by
      simp only [stmtCode, stmtSize, List.length_append]
      rw [exprCode_length condition base 0, stmtCode_length body]
      rfl
  | .Function _ _ _, _ => by simp [stmtCode, stmtSize]
  | .Return _ value, base => by
      simp only [stmtCode, stmtSize, List.length_append]
      rw [optExprCode_length value base 0]
      rfl
theorem stmtsCode_length : (ss : List (Option Stmt)) → (base : Nat) →
    (stmtsCode ss base).length = stmtsSize ss
  | [], _ => by simp [stmtsCode, stmtsSize]
  | none :: rest, base => by
      simp only [stmtsCode, stmtsSize]
      exact stmtsCode_length rest base
  | some s :: rest, base => by
      simp only [stmtsCode, stmtsSize, List.length_append]
      rw [stmtCode_length s, stmtsCode_length rest]
end

mutual
theorem stmtConsts_length : (s : Stmt) → (stmtConsts s : List (Value D)).length = stmtCount s
  | .Expression expression => by
      simp only [stmtConsts, stmtCount]
      exact exprConsts_length expression
  | .Print _ => by simp [stmtConsts, stmtCount]
  | .VarDecl _ initializer => by
      simp only [stmtConsts, stmtCount, List.length_append]
      rw [optExprConsts_length]
      rfl
  | .Block statements => by
      simp only [stmtConsts, stmtCount]
      exact stmtsConsts_length statements
  | .If condition thenBranch (some e) => by
      simp only [stmtConsts, stmtCount, List.length_append]
      rw [exprConsts_length, stmtConsts_length thenBranch, stmtConsts_length e]
  | .If condition thenBranch none => by
      simp only [stmtConsts, stmtCount, List.length_append]
      rw [exprConsts_length, stmtConsts_length thenBranch]
  | .While condition body => by
      simp only [stmtConsts, stmtCount, List.length_append]
      rw [exprConsts_length, stmtConsts_length body]
  | .Function _ _ _ => by simp [stmtConsts, stmtCount]
  | .Return _ value => by
      simp only [stmtConsts, stmtCount]
      exact optExprConsts_length value
theorem stmtsConsts_length : (ss : List (Option Stmt)) →
    (stmtsConsts ss : List (Value D)).length = stmtsCount ss
  | [] => by simp [stmtsConsts, stmtsCount]
  | none :: rest => by
      simp only [stmtsConsts, stmtsCount]
      exact stmtsConsts_length rest
  | some s :: rest => by
      simp only [stmtsConsts, stmtsCount, List.length_append]
      rw [stmtConsts_length s, stmtsConsts_length rest]
end

theorem visitOptExpr_eq (o : Option Expr) (c : Chunk D) :
    (match o with
      | some e => visitExpr e c
      | none => emitOp c .OP_NIL)
      = c.extend (optExprCode o c.constants.length) (optExprConsts o) := by
  cases o with
  | none => simp [emitOp_eq, optExprCode, optExprConsts]
  | some e => simp [visitExpr_eq, optExprCode, optExprConsts]

mutual
theorem visitStmt_eq : (s : Stmt) → nullFree s = true → (c : Chunk D) →
    visitStmt s c = some (c.extend (stmtCode s c.constants.length) (stmtConsts s))
  | .Expression expression, _, c => by
      simp only [visitStmt, stmtCode, stmtConsts]
      rw [visitExpr_eq, emitOp_eq, extend_extend, List.append_nil]
  | .Print _, _, c => by
      simp only [visitStmt, stmtCode, stmtConsts, extend_nil]
  | .VarDecl name initializer, _, c => by
      simp only [visitStmt, stmtCode, stmtConsts]
      rw [visitOptExpr_eq, emitOperand_eq _ .OP_DEFINE_GLOBAL, extend_extend,
        extend_constants_length, optExprConsts_length]
  | .Block statements, h, c => by
      simp only [nullFree] at h
      simp only [visitStmt, stmtCode, stmtConsts]
      exact visitStmts_eq statements h c
  | .If condition thenBranch (some e), h, c => by
      simp only [nullFree, Bool.and_eq_true] at h
      simp only [visitStmt, stmtCode, stmtConsts]
      rw [visitExpr_eq, emitJump_eq, emitOp_eq, extend_extend, extend_extend]
      simp only [visitStmt_eq thenBranch h.1, extend_extend, emitJump_eq, extend_code_length,
        extend_constants_length, exprConsts_length, stmtConsts_length, List.append_nil,
        List.length_nil, Nat.add_zero]
      rw [patchJump_extend c _ _ (exprCode condition c.constants.length)
        ([OpCode.OP_POP.toByte] ++ stmtCode thenBranch (c.constants.length + exprCount condition)
          ++ [OpCode.OP_JUMP.toByte, 255, 255])
        OpCode.OP_JUMP_IF_FALSE.toByte _ (by simp) rfl]
      rw [emitOp_eq, extend_extend]
      simp only [visitElse, visitStmt_eq e h.2, extend_extend, extend_constants_length,
        exprConsts_length, stmtConsts_length, List.append_nil, List.length_nil, Nat.add_zero]
      rw [patchJump_extend c _ _
        (exprCode condition c.constants.length
          ++ [OpCode.OP_JUMP_IF_FALSE.toByte, hiByte (stmtSize thenBranch + 4),
               loByte (stmtSize thenBranch + 4), OpCode.OP_POP.toByte]
          ++ stmtCode thenBranch (c.constants.length + exprCount condition))
        ([OpCode.OP_POP.toByte]
          ++ stmtCode e (c.constants.length + exprCount condition + stmtCount thenBranch))
        OpCode.OP_JUMP.toByte _
        (by
          have e1 : 1 + (stmtSize thenBranch + 3) = stmtSize thenBranch + 4 := by omega
          simp [stmtCode_length, exprConsts_length, stmtConsts_length, Nat.add_comm, e1,
            Nat.add_assoc])
        (by simp [stmtCode_length])]
      have e1 : 1 + (stmtSize thenBranch + 3) = stmtSize thenBranch + 4 := by omega
      have e2 : 1 + stmtSize e = stmtSize e + 1 := by omega
      simp [stmtCode_length, exprConsts_length, stmtConsts_length, e1, e2, Nat.add_assoc,
        List.append_assoc]
  | .If condition thenBranch none, h, c => by
      simp only [nullFree] at h
      simp only [visitStmt, stmtCode, stmtConsts]
      rw [visitExpr_eq, emitJump_eq, emitOp_eq, extend_extend, extend_extend]
      simp only [visitStmt_eq thenBranch h, extend_extend, emitJump_eq, extend_code_length,
        extend_constants_length, exprConsts_length, stmtConsts_length, List.append_nil,
        List.length_nil, Nat.add_zero]
      rw [patchJump_extend c _ _ (exprCode condition c.constants.length)
        ([OpCode.OP_POP.toByte] ++ stmtCode thenBranch (c.constants.length + exprCount condition)
          ++ [OpCode.OP_JUMP.toByte, 255, 255])
        OpCode.OP_JUMP_IF_FALSE.toByte _ (by simp) rfl]
      rw [emitOp_eq, extend_extend]
      simp only [visitElse]
      rw [patchJump_extend c _ _
        (exprCode condition c.constants.length
          ++ [OpCode.OP_JUMP_IF_FALSE.toByte, hiByte (stmtSize thenBranch + 4),
               loByte (stmtSize thenBranch + 4), OpCode.OP_POP.toByte]
          ++ stmtCode thenBranch (c.constants.length + exprCount condition))
        [OpCode.OP_POP.toByte]
        OpCode.OP_JUMP.toByte _
        (by
          have e1 : 1 + (stmtSize thenBranch + 3) = stmtSize thenBranch + 4 := by omega
          simp [stmtCode_length, exprConsts_length, stmtConsts_length, Nat.add_comm, e1,
            Nat.add_assoc])
        (by simp [stmtCode_length])]
      have e1 : 1 + (stmtSize thenBranch + 3) = stmtSize thenBranch + 4 := by omega
      simp [stmtCode_length, exprConsts_length, stmtConsts_length, e1, Nat.add_assoc,
        List.append_assoc]
  | .While condition body, h, c => by
      simp only [nullFree] at h
      simp only [visitStmt, stmtCode, stmtConsts]
      rw [visitExpr_eq, emitJump_eq, emitOp_eq, extend_extend, extend_extend]
      simp only [visitStmt_eq body h, extend_extend, emitLoop_eq, extend_code_length,
        extend_constants_length, exprConsts_length, stmtConsts_length, List.append_nil,
        List.length_nil, Nat.add_zero]
      rw [patchJump_extend c _ _ (exprCode condition c.constants.length)
        ([OpCode.OP_POP.toByte] ++ stmtCode body (c.constants.length + exprCount condition)
          ++ [OpCode.OP_LOOP.toByte,
              hiByte ((exprCode condition 0).length + stmtSize body + 7),
              loByte ((exprCode condition 0).length + stmtSize body + 7)])
        OpCode.OP_JUMP_IF_FALSE.toByte _
        (by
          have hl := exprCode_length condition c.constants.length 0
          simp [stmtCode_length, hl]
          constructor <;> congr 1 <;> omega)
        rfl]
      rw [emitOp_eq, extend_extend]
      have e1 : 1 + (stmtSize body + 3) = stmtSize body + 4 := by omega
      simp [stmtCode_length, exprConsts_length, stmtConsts_length, e1, Nat.add_assoc,
        List.append_assoc]
  | .Function _ _ _, _, c => by
      simp only [visitStmt, stmtCode, stmtConsts, extend_nil]
  | .Return _ value, _, c => by
      simp only [visitStmt, stmtCode, stmtConsts]
      rw [visitOptExpr_eq, emitOp_eq, extend_extend, List.append_nil]
theorem visitStmts_eq : (ss : List (Option Stmt)) → nullFreeList ss = true → (c : Chunk D) →
    visitStmts ss c = some (c.extend (stmtsCode ss c.constants.length) (stmtsConsts ss))
  | [], _, c => by
      simp only [visitStmts, stmtsCode, stmtsConsts, extend_nil]
  | none :: _, h, _ => by
      simp [nullFreeList] at h
  | some s :: rest, h, c => by
      simp only [nullFreeList, Bool.and_eq_true] at h
      simp only [visitStmts, stmtsCode, stmtsConsts]
      simp only [visitStmt_eq s h.1, visitStmts_eq rest h.2, extend_extend,
        extend_constants_length, stmtConsts_length]
end

theorem compile_eq (ss : List (Option Stmt)) (h : nullFreeList ss = true) (c : Chunk D) :
    compile ss c
      = some (true, c.extend (stmtsCode ss c.constants.length ++ [OpCode.OP_RETURN.toByte])
          (stmtsConsts ss)) := by
  unfold compile
  rw [visitStmts_eq ss h c]
  simp only [emitOp_eq, extend_extend, List.append_nil]

end StmtLayout


section WF
variable {D : Type} [DoubleModel D]

theorem wf_cons (n b : Nat) (rest : List Nat) :
    wellFormedCode n (b :: rest)
      = match OpCode.ofByte b with
        | none => false
        | some op =>
          match op.operandWidth, rest with
          | 0, rest1 => wellFormedCode n rest1
          | 1, idx :: rest1 => decide (idx < n) && wellFormedCode n rest1
          | 2, _ :: _ :: rest1 => wellFormedCode n rest1
          | _, _ => false := by
  rw [wellFormedCode]

theorem wf_append_aux (n : Nat) : ∀ (k : Nat) (a b : List Nat), a.length ≤ k →
    wellFormedCode n a = true → wellFormedCode n (a ++ b) = wellFormedCode n b := by
  intro k
  induction k with
  | zero =>
    intro a b hk _
    have : a = [] := List.length_eq_zero.mp (Nat.le_zero.mp hk)
    subst this
    rfl
  | succ k ih =>
    intro a b hk h
    match a, hk, h with
    | [], _, _ => rfl
    | x :: rest, hk, h =>
      simp only [List.length_cons, Nat.add_le_add_iff_right] at hk
      rw [List.cons_append, wf_cons]
      rw [wf_cons] at h
      cases hop : OpCode.ofByte x with
      | none => simp [hop] at h
      | some op =>
        simp only [hop] at h ⊢
        cases hw : op.operandWidth with
        | zero =>
          simp only [hw] at h ⊢
          exact ih rest b hk h
        | succ w =>
          cases w with
          | zero =>
            match rest, hk, h with
            | [], _, h => simp [hw] at h
            | idx :: rest1, hk, h =>
              simp only [hw, List.cons_append, Bool.and_eq_true, decide_eq_true_eq] at h ⊢
              simp only [List.length_cons] at hk
              rw [ih rest1 b (by omega) h.2]
              simp [h.1]
          | succ w =>
            cases w with
            | zero =>
              match rest, hk, h with
              | [], _, h => simp [hw] at h
              | [_], _, h => simp [hw] at h
              | _ :: _ :: rest1, hk, h =>
                simp only [hw, List.cons_append] at h ⊢
                simp only [List.length_cons] at hk
                exact ih rest1 b (by omega) h
            | succ w => simp [hw] at h

theorem wf_append (n : Nat) (a b : List Nat) (ha : wellFormedCode n a = true)
    (hb : wellFormedCode n b = true) : wellFormedCode n (a ++ b) = true := by
  rw [wf_append_aux n a.length a b (Nat.le_refl _) ha, hb]

theorem wf_op0 (n : Nat) (op : OpCode) (h : op.operandWidth = 0) :
    wellFormedCode n [op.toByte] = true := by
  rw [wf_cons, opcode_ofByte_toByte]
  simp [h, wellFormedCode]

theorem wf_op1 (n : Nat) (op : OpCode) (idx : Nat) (h : op.operandWidth = 1) (hi : idx < n) :
    wellFormedCode n [op.toByte, idx] = true := by
  rw [wf_cons, opcode_ofByte_toByte]
  simp [h, hi, wellFormedCode]

theorem wf_op2 (n : Nat) (op : OpCode) (a b : Nat) (rest : List Nat) (h : op.operandWidth = 2) :
    wellFormedCode n (op.toByte :: a :: b :: rest) = wellFormedCode n rest := by
  rw [wf_cons, opcode_ofByte_toByte]
  simp [h]

theorem wf_selected_binary (n : Nat) (t : TokenType) :
    wellFormedCode n (selectedCode (binaryOpcode t)) = true := by
  cases t <;> simp [binaryOpcode, selectedCode, wellFormedCode, OpCode.toByte, OpCode.ofByte, OpCode.operandWidth]

theorem wf_selected_unary (n : Nat) (t : TokenType) :
    wellFormedCode n (selectedCode (unaryOpcode t)) = true := by
  cases t <;> simp [unaryOpcode, selectedCode, wellFormedCode, OpCode.toByte, OpCode.ofByte, OpCode.operandWidth]

theorem mod_lt_of_succ_le (base n : Nat) (h : base + 1 ≤ n) : base % 256 < n :=
  lt_of_le_of_lt (Nat.mod_le _ _) h

theorem wf_literalCode (n base : Nat) (val : String)
    (h : base + (if isKeywordLiteral val then 0 else 1) ≤ n) :
    wellFormedCode n (literalCode val base) = true := by
  unfold literalCode
  unfold isKeywordLiteral at h
  by_cases h1 : val = "nil"
  · simp only [h1, if_true]; exact wf_op0 n _ rfl
  · by_cases h2 : val = "true"
    · simp only [h2, if_true]; exact wf_op0 n _ rfl
    · by_cases h3 : val = "false"
      · simp only [h3, if_true]; exact wf_op0 n _ rfl
      · simp only [h1, h2, h3, if_false]
        simp [h1, h2, h3] at h
        exact wf_op1 n _ _ rfl (mod_lt_of_succ_le base n h)

mutual
theorem wf_exprCode (n : Nat) : (e : Expr) → (base : Nat) → base + exprCount e ≤ n →
    wellFormedCode n (exprCode e base) = true
  | .Binary left op right, base, h => by
      simp only [exprCount] at h
      simp only [exprCode]
      exact wf_append n _ _
        (wf_append n _ _ (wf_exprCode n left base (by omega))
          (wf_exprCode n right (base + exprCount left) (by omega)))
        (wf_selected_binary n op.type)
  | .Grouping expression, base, h => by
      simp only [exprCount] at h
      simp only [exprCode]
      exact wf_exprCode n expression base h
  | .Literal value, base, h => by
      simp only [exprCount] at h
      simp only [exprCode]
      exact wf_literalCode n base value h
  | .Unary op right, base, h => by
      simp only [exprCount] at h
      simp only [exprCode]
      exact wf_append n _ _ (wf_exprCode n right base h) (wf_selected_unary n op.type)
  | .Variable _, base, h => by
      simp only [exprCount] at h
      simp only [exprCode]
      exact wf_op1 n _ _ rfl (mod_lt_of_succ_le base n h)
  | .Assignment _ value, base, h => by
      simp only [exprCount] at h
      simp only [exprCode]
      exact wf_append n _ _ (wf_exprCode n value base (by omega))
        (wf_op1 n _ _ rfl (mod_lt_of_succ_le _ n (by omega)))
  | .Call callee _ arguments, base, h => by
      simp only [exprCount] at h
      simp only [exprCode]
      split_ifs with hp
      · simp only [hp, if_true] at h
        exact wf_append n _ _ (wf_argsCode n arguments base h) (wf_op0 n _ rfl)
      · rfl
theorem wf_argsCode (n : Nat) : (args : List Expr) → (base : Nat) → base + argsCount args ≤ n →
    wellFormedCode n (argsCode args base) = true
  | [], _, _ => by simp [argsCode, wellFormedCode]
  | arg :: rest, base, h => by
      simp only [argsCount] at h
      simp only [argsCode]
      exact wf_append n _ _
        (wf_append n _ _ (wf_exprCode n arg base (by omega)) (wf_op0 n _ rfl))
        (wf_argsCode n rest (base + exprCount arg) (by omega))
end

theorem wf_optExprCode (n : Nat) (o : Option Expr) (base : Nat) (h : base + optExprCount o ≤ n) :
    wellFormedCode n (optExprCode o base) = true := by
  cases o with
  | none => exact wf_op0 n _ rfl
  | some e => exact wf_exprCode n e base h

theorem wf_jump (n : Nat) (op : OpCode) (a b : Nat) (h : op.operandWidth = 2) :
    wellFormedCode n [op.toByte, a, b, OpCode.OP_POP.toByte] = true := by
  rw [wf_op2 n op a b _ h]
  exact wf_op0 n _ rfl

mutual
theorem wf_stmtCode (n : Nat) : (s : Stmt) → (base : Nat) → base + stmtCount s ≤ n →
    wellFormedCode n (stmtCode s base) = true
  | .Expression expression, base, h => by
      simp only [stmtCount] at h
      simp only [stmtCode]
      exact wf_append n _ _ (wf_exprCode n expression base h) (wf_op0 n _ rfl)
  | .Print _, _, _ => by simp [stmtCode, wellFormedCode]
  | .VarDecl _ initializer, base, h => by
      simp only [stmtCount] at h
      simp only [stmtCode]
      exact wf_append n _ _ (wf_optExprCode n initializer base (by omega))
        (wf_op1 n _ _ rfl (mod_lt_of_succ_le _ n (by omega)))
  | .Block statements, base, h => by
      simp only [stmtCount] at h
      simp only [stmtCode]
      exact wf_stmtsCode n statements base h
  | .If condition thenBranch (some e), base, h => by
      simp only [stmtCount] at h
      simp only [stmtCode]
      exact wf_append n _ _
        (wf_append n _ _
          (wf_append n _ _
            (wf_append n _ _ (wf_exprCode n condition base (by omega)) (wf_jump n _ _ _ rfl))
            (wf_stmtCode n thenBranch _ (by omega)))
          (wf_jump n _ _ _ rfl))
        (wf_stmtCode n e _ (by omega))
  | .If condition thenBranch none, base, h => by
      simp only [stmtCount] at h
      simp only [stmtCode]
      exact wf_append n _ _
        (wf_append n _ _
          (wf_append n _ _ (wf_exprCode n condition base (by omega)) (wf_jump n _ _ _ rfl))
          (wf_stmtCode n thenBranch _ (by omega)))
        (wf_jump n _ _ _ rfl)
  | .While condition body, base, h => by
      simp only [stmtCount] at h
      simp only [stmtCode]
      exact wf_append n _ _
        (wf_append n _ _
          (wf_append n _ _ (wf_exprCode n condition base (by omega)) (wf_jump n _ _ _ rfl))
          (wf_stmtCode n body _ (by omega)))
        (wf_jump n _ _ _ rfl)
  | .Function _ _ _, _, _ => by simp [stmtCode, wellFormedCode]
  | .Return _ value, base, h => by
      simp only [stmtCount] at h
      simp only [stmtCode]
      exact wf_append n _ _ (wf_optExprCode n value base h) (wf_op0 n _ rfl)
theorem wf_stmtsCode (n : Nat) : (ss : List (Option Stmt)) → (base : Nat) →
    base + stmtsCount ss ≤ n → wellFormedCode n (stmtsCode ss base) = true
  | [], _, _ => by simp [stmtsCode, wellFormedCode]
  | none :: rest, base, h => by
      simp only [stmtsCount] at h
      simp only [stmtsCode]
      exact wf_stmtsCode n rest base h
  | some s :: rest, base, h => by
      simp only [stmtsCount] at h
      simp only [stmtsCode]
      exact wf_append n _ _ (wf_stmtCode n s base (by omega))
        (wf_stmtsCode n rest (base + stmtCount s) (by omega))
end

end WF

/-! ## Programs built from repeated statements -/

section Replicate
variable {D : Type} [DoubleModel D]

theorem nullFreeList_replicate (s : Stmt) (h : nullFree s = true) (n : Nat) :
    nullFreeList (List.replicate n (some s)) = true := by
  induction n with
  | zero => simp [nullFreeList]
  | succ n ih => simp [List.replicate_succ, nullFreeList, h, ih]

theorem stmtsCount_replicate (s : Stmt) (n : Nat) :
    stmtsCount (List.replicate n (some s)) = n * stmtCount s := by
  induction n with
  | zero => simp [stmtsCount]
  | succ n ih => simp [List.replicate_succ, stmtsCount, ih, Nat.succ_mul, Nat.add_comm]

theorem stmtsSize_replicate (s : Stmt) (n : Nat) :
    stmtsSize (List.replicate n (some s)) = n * stmtSize s := by
  induction n with
  | zero => simp [stmtsSize]
  | succ n ih => simp [List.replicate_succ, stmtsSize, ih, Nat.succ_mul, Nat.add_comm]

end Replicate

/-! ## Claims about the compiler -/

section CompilerClaims
variable {D : Type} [DoubleModel D]

/-- C10: `isFalsey v` holds exactly when `v` is `Nil` or `Boolean false`; every
number (zero included) and the empty string are truthy. -/
theorem isFalsey_iff_nil_or_false {T : Type} (v : Value T) :
    (isFalsey v = true ↔ (v = .Nil ∨ v = .Boolean false))
      ∧ (∀ d : T, isFalsey (.Number d : Value T) = false)
      ∧ isFalsey (.Str "" : Value T) = false := by
  refine ⟨?_, fun _ => rfl, rfl⟩
  cases v with
  | Nil => simp [isFalsey]
  | Boolean b => cases b <;> simp [isFalsey]
  | Number d => simp [isFalsey]
  | Str s => simp [isFalsey]

/-- C8: compiling a statement list without null entries into an empty chunk
succeeds with a chunk whose line map is as long as its code and whose last code
byte is `OP_RETURN`. -/
theorem compile_lines_match_and_ends_with_return (ss : List (Option Stmt))
    (h : nullFreeList ss = true) :
    ∃ c : Chunk D, compile ss ({} : Chunk D) = some (true, c)
      ∧ c.code.length = c.lines.length
      ∧ c.code.getLast? = some OpCode.OP_RETURN.toByte := by
  refine ⟨_, compile_eq ss h {}, ?_, ?_⟩
  · simp [Chunk.extend]
  · simp [Chunk.extend]

/-- The theorem above on the counting loop. -/
theorem compile_lines_match_and_ends_with_return_witness :
    nullFreeList countProgram = true
      ∧ ∃ c : Chunk Int, compile countProgram ({} : Chunk Int) = some (true, c)
          ∧ c.code.length = c.lines.length
          ∧ c.code.getLast? = some OpCode.OP_RETURN.toByte :=
  ⟨by decide, compile_lines_match_and_ends_with_return countProgram (by decide)⟩

/-- C9: the code compiled from a statement list without null entries decodes from
offset 0 into whole instructions of the opcode table, and every one-byte operand
is an index into the constant pool of the chunk. -/
theorem compile_code_wellFormed (ss : List (Option Stmt)) (h : nullFreeList ss = true) :
    ∃ c : Chunk D, compile ss ({} : Chunk D) = some (true, c)
      ∧ wellFormedCode c.constants.length c.code = true := by
  refine ⟨_, compile_eq ss h {}, ?_⟩
  simp only [Chunk.extend, List.nil_append, List.length_nil, stmtsConsts_length]
  exact wf_append _ _ _ (wf_stmtsCode _ ss 0 (by omega)) (wf_op0 _ _ rfl)

/-- The theorem above on the counting loop. -/
theorem compile_code_wellFormed_witness :
    nullFreeList countProgram = true
      ∧ ∃ c : Chunk Int, compile countProgram ({} : Chunk Int) = some (true, c)
          ∧ wellFormedCode c.constants.length c.code = true :=
  ⟨by decide, compile_code_wellFormed countProgram (by decide)⟩

theorem refProgram_count (n : Nat) : stmtsCount (refProgram n) = n := by
  unfold refProgram
  rw [stmtsCount_replicate]
  simp [stmtCount, exprCount]

theorem refProgram_nullFree (n : Nat) : nullFreeList (refProgram n) = true :=
  nullFreeList_replicate (.Expression (.Variable (ident "a"))) rfl n

theorem ifProgram_nullFree (n : Nat) : nullFreeList (ifProgram n) = true := by
  simp only [ifProgram, nullFreeList, nullFree, Bool.and_true]
  exact nullFreeList_replicate nilStmt rfl n

theorem ifProgram_code (n : Nat) :
    (stmtsCode (ifProgram n) 0 ++ [OpCode.OP_RETURN.toByte]).take 4
      = [OpCode.OP_NIL.toByte, OpCode.OP_JUMP_IF_FALSE.toByte, hiByte (n * 2 + 4),
          loByte (n * 2 + 4)] := by
  have hs : stmtSize (.Block (List.replicate n (some nilStmt))) = n * 2 := by
    simp only [stmtSize]
    rw [stmtsSize_replicate]
    rfl
  simp only [ifProgram, stmtsCode, stmtCode, hs, exprCode, literalCode, if_true]
  rfl

theorem nilBlock_size (n : Nat) :
    stmtSize (.Block (List.replicate n (some nilStmt))) = n * 2 := by
  simp only [stmtSize]
  rw [stmtsSize_replicate]
  rfl

theorem ifProgram_compile (n : Nat) :
    ∃ c : Chunk D, compile (ifProgram n) ({} : Chunk D) = some (true, c)
      ∧ c.code.take 4 = [OpCode.OP_NIL.toByte, OpCode.OP_JUMP_IF_FALSE.toByte,
          hiByte (n * 2 + 4), loByte (n * 2 + 4)] := by
  refine ⟨_, compile_eq _ (ifProgram_nullFree n) {}, ?_⟩
  simp only [Chunk.extend, List.nil_append, List.length_nil]
  exact ifProgram_code n

theorem refProgram_compile (n : Nat) :
    ∃ c : Chunk D, compile (refProgram n) ({} : Chunk D) = some (true, c)
      ∧ c.constants.length = n := by
  refine ⟨_, compile_eq _ (refProgram_nullFree n) {}, ?_⟩
  simp only [Chunk.extend, List.nil_append, List.length_nil, stmtsConsts_length,
    refProgram_count]

theorem declBlock_size (n : Nat) :
    stmtSize (.Block (some (.VarDecl (ident "x") none) :: List.replicate n (some nilStmt)))
      = n * 2 + 3 := by
  simp only [stmtSize, stmtsSize]
  rw [stmtsSize_replicate]
  simp only [optExprCode, List.length_singleton, nilStmt, stmtSize, exprCode, literalCode, if_true]
  omega

theorem ifDeclProgram_nullFree (n : Nat) : nullFreeList (ifDeclProgram n) = true := by
  simp only [ifDeclProgram, nullFreeList, nullFree, Bool.and_true, Bool.true_and]
  exact nullFreeList_replicate nilStmt rfl n

theorem ifDeclProgram_compile (n : Nat) :
    ∃ c : Chunk D, compile (ifDeclProgram n) ({} : Chunk D) = some (true, c)
      ∧ c.code.take 4 = [OpCode.OP_NIL.toByte, OpCode.OP_JUMP_IF_FALSE.toByte,
          hiByte (n * 2 + 3 + 4), loByte (n * 2 + 3 + 4)] := by
  refine ⟨_, compile_eq _ (ifDeclProgram_nullFree n) {}, ?_⟩
  simp only [Chunk.extend, List.nil_append, List.length_nil]
  simp only [ifDeclProgram, stmtsCode, stmtCode, declBlock_size, exprCode, literalCode, if_true]
  rfl

/-- C7, as the code behaves: compiling a statement list without null entries
returns success whatever the number of entries it adds to the constant pool.
Visiting a literal adds one entry unless its text is `nil`, `true` or `false`;
visiting a variable reference, an assignment or a declaration adds one entry,
the name, after the entries of the assigned value or the initializer; a call
whose callee is not the variable `print` leaves the chunk as it is, so that its
callee and arguments add nothing, and a `print` call adds what visiting its
arguments in turn adds; a grouping and an operator add what their operands add.
For every `n` there is a list, `n` variable references, that compiles to a pool
of `n` entries. -/
theorem compile_succeeds_without_constant_limit (ss : List (Option Stmt)) (chunk : Chunk D)
    (h : nullFreeList ss = true) :
    (∃ c : Chunk D, compile ss chunk = some (true, c)
        ∧ c.constants = chunk.constants ++ stmtsConsts ss
        ∧ c.constants.length = chunk.constants.length + stmtsCount ss)
      ∧ (∀ (c : Chunk D) (v : String),
          (visitExpr (.Literal v) c).constants.length
            = c.constants.length + (if v = "nil" ∨ v = "true" ∨ v = "false" then 0 else 1))
      ∧ (∀ (c : Chunk D) (name : Token),
          (visitExpr (.Variable name) c).constants = c.constants ++ [.Str name.lexeme])
      ∧ (∀ (c : Chunk D) (name : Token) (value : Expr),
          (visitExpr (.Assignment name value) c).constants
            = (visitExpr value c).constants ++ [.Str name.lexeme])
      ∧ (∀ (c : Chunk D) (name : Token) (e : Expr),
          ∃ c1, visitStmt (.VarDecl name (some e)) c = some c1
            ∧ c1.constants = (visitExpr e c).constants ++ [.Str name.lexeme])
      ∧ (∀ (c : Chunk D) (name : Token),
          ∃ c1, visitStmt (.VarDecl name none) c = some c1
            ∧ c1.constants = c.constants ++ [.Str name.lexeme])
      ∧ (∀ (c : Chunk D) (callee : Expr) (paren : Token) (arguments : List Expr),
          isPrintCallee callee = false → visitExpr (.Call callee paren arguments) c = c)
      ∧ (∀ (c : Chunk D) (callee : Expr) (paren : Token) (arguments : List Expr),
          isPrintCallee callee = true →
          (visitExpr (.Call callee paren arguments) c).constants
            = (visitPrintArgs arguments c).constants)
      ∧ (∀ (c : Chunk D) (arg : Expr) (rest : List Expr),
          visitPrintArgs ([] : List Expr) c = c
            ∧ visitPrintArgs (arg :: rest) c
                = visitPrintArgs rest (emitOp (visitExpr arg c) .OP_PRINT)
            ∧ (emitOp (visitExpr arg c) .OP_PRINT).constants = (visitExpr arg c).constants)
      ∧ (∀ (c : Chunk D) (expression : Expr),
          visitExpr (.Grouping expression) c = visitExpr expression c)
      ∧ (∀ (c : Chunk D) (left right : Expr) (op : Token),
          (visitExpr (.Binary left op right) c).constants
            = (visitExpr right (visitExpr left c)).constants)
      ∧ (∀ (c : Chunk D) (op : Token) (right : Expr),
          (visitExpr (.Unary op right) c).constants = (visitExpr right c).constants)
      ∧ (∀ n : Nat, ∃ c : Chunk D,
          compile (refProgram n) ({} : Chunk D) = some (true, c) ∧ c.constants.length = n) := by
  refine ⟨⟨_, compile_eq ss h chunk, ?_, ?_⟩, ?_, ?_, ?_, ?_, ?_, ?_, ?_, ?_, ?_, ?_, ?_,
    refProgram_compile⟩
  · simp only [Chunk.extend]
  · simp only [Chunk.extend, List.length_append, stmtsConsts_length]
  · intro c v
    rw [visitExpr_eq]
    simp only [Chunk.extend, List.length_append, exprConsts, isKeywordLiteral,
      Bool.or_eq_true, decide_eq_true_eq]
    by_cases h1 : v = "nil" <;> by_cases h2 : v = "true" <;> by_cases h3 : v = "false" <;>
      simp [h1, h2, h3]
  · intro c name
    rw [visitExpr_eq]
    simp only [Chunk.extend, exprConsts]
  · intro c name value
    rw [visitExpr_eq, visitExpr_eq]
    simp only [Chunk.extend, exprConsts, List.append_assoc]
  · intro c name e
    refine ⟨_, rfl, ?_⟩
    simp [emitBytes, emitByte, Chunk.write, makeConstant, Chunk.addConstant]
  · intro c name
    refine ⟨_, rfl, ?_⟩
    simp [emitBytes, emitByte, emitOp, Chunk.write, makeConstant, Chunk.addConstant]
  · intro c callee paren arguments hc
    simp [visitExpr, hc]
  · intro c callee paren arguments hc
    simp [visitExpr, hc, emitOp, emitByte, Chunk.write]
  · intro c arg rest
    refine ⟨?_, ?_, ?_⟩
    · simp [visitPrintArgs]
    · simp [visitPrintArgs]
    · simp [emitOp, emitByte, Chunk.write]
  · intro c expression
    simp [visitExpr]
  · intro c left right op
    rw [visitExpr_eq (.Binary left op right), visitExpr_eq right, visitExpr_eq left]
    simp only [Chunk.extend, exprConsts, List.append_assoc]
  · intro c op right
    rw [visitExpr_eq (.Unary op right), visitExpr_eq right]
    simp only [Chunk.extend, exprConsts]

/-- The theorem above on the counting loop. -/
theorem compile_succeeds_without_constant_limit_witness :
    nullFreeList countProgram = true
      ∧ ∃ c : Chunk Int, compile countProgram ({} : Chunk Int) = some (true, c)
          ∧ c.constants = ({} : Chunk Int).constants ++ stmtsConsts countProgram
          ∧ c.constants.length = ({} : Chunk Int).constants.length + stmtsCount countProgram :=
  ⟨by decide, (compile_succeeds_without_constant_limit countProgram {} (by decide)).1⟩

/-- C7 fails on the code: a program of 257 variable references adds 257 constants
and compile returns success. -/
theorem compile_accepts_257_constants :
    stmtsCount (refProgram 257) = 257
      ∧ ∃ c : Chunk Int, compile (refProgram 257) ({} : Chunk Int) = some (true, c)
          ∧ c.constants.length = 257 :=
  ⟨refProgram_count 257, refProgram_compile 257⟩

/-- C6 on the code: an `if` whose then-branch is 65,531 bytes long has a forward
jump of distance 65,535, which is encoded as `0xFF 0xFF`; with a then-branch of
65,532 bytes the distance is 65,536, compile still returns success, and the
operand bytes written are `0x00 0x00`. -/
theorem compile_accepts_jump_65536 :
    (stmtSize (.Block (some (.VarDecl (ident "x") none)
        :: List.replicate 32764 (some nilStmt))) + 4 = 65535
      ∧ ∃ c : Chunk Int, compile (ifDeclProgram 32764) ({} : Chunk Int) = some (true, c)
          ∧ c.code.take 4 = [OpCode.OP_NIL.toByte, OpCode.OP_JUMP_IF_FALSE.toByte, 255, 255])
    ∧ (stmtSize (.Block (List.replicate 32766 (some nilStmt))) + 4 = 65536
      ∧ ∃ c : Chunk Int, compile (ifProgram 32766) ({} : Chunk Int) = some (true, c)
          ∧ c.code.take 4 = [OpCode.OP_NIL.toByte, OpCode.OP_JUMP_IF_FALSE.toByte, 0, 0]) := by
  constructor
  · obtain ⟨c, hc, hcode⟩ := ifDeclProgram_compile (D := Int) 32764
    refine ⟨?_, c, hc, ?_⟩
    · rw [declBlock_size]
    · rw [hcode]
      rfl
  · obtain ⟨c, hc, hcode⟩ := ifProgram_compile (D := Int) 32766
    refine ⟨?_, c, hc, ?_⟩
    · rw [nilBlock_size]
    · rw [hcode]
      rfl

end CompilerClaims

/-! ## Lemmas on the dispatch loop -/

section StepLemmas
variable {D : Type} [DoubleModel D]

theorem sliceAt_left {α : Type} {l : List α} {p : Nat} {a b : List α}
    (h : SliceAt l p (a ++ b)) : SliceAt l p a := by
  obtain ⟨pre, post, hl, hp⟩ := h
  exact ⟨pre, b ++ post, by simp [hl], hp⟩

theorem sliceAt_right {α : Type} {l : List α} {p : Nat} {a b : List α}
    (h : SliceAt l p (a ++ b)) : SliceAt l (p + a.length) b := by
  obtain ⟨pre, post, hl, hp⟩ := h
  exact ⟨pre ++ a, post, by simp [hl], by simp [hp]⟩

theorem sliceAt_head {α : Type} {l : List α} {p : Nat} {x : α} {s : List α}
    (h : SliceAt l p (x :: s)) : l[p]? = some x := by
  obtain ⟨pre, post, hl, hp⟩ := h
  subst hp
  rw [hl, List.append_assoc, List.getElem?_append_right (Nat.le_refl _)]
  simp

theorem sliceAt_tail {α : Type} {l : List α} {p : Nat} {x : α} {s : List α}
    (h : SliceAt l p (x :: s)) : SliceAt l (p + 1) s := by
  have h1 : SliceAt l p ([x] ++ s) := h
  exact sliceAt_right h1

theorem sliceAt_self {α : Type} (pre s post : List α) : SliceAt (pre ++ s ++ post) pre.length s :=
  ⟨pre, post, rfl, rfl⟩

theorem run_next {c : Chunk D} {s t : VM D} (h : step c s = .next t) (n : Nat) :
    run c (n + 1) s = run c n t := by
  simp [run, h]

theorem run_halt {c : Chunk D} {s t : VM D} {r : InterpretResult}
    (h : step c s = .halt r t) (n : Nat) : run c (n + 1) s = .finished r t := by
  simp [run, h]

theorem step_constant {c : Chunk D} {vm : VM D} {i : Nat} {v : Value D}
    (h0 : c.code[vm.ip]? = some OpCode.OP_CONSTANT.toByte)
    (h1 : c.code[vm.ip + 1]? = some i) (hc : c.constants[i]? = some v) :
    step c vm = .next { vm with ip := vm.ip + 2, stack := v :: vm.stack } := by
  simp [step, readByte, readConstant, h0, h1, hc, opcode_ofByte_toByte, VM.push]

theorem step_nil {c : Chunk D} {vm : VM D}
    (h0 : c.code[vm.ip]? = some OpCode.OP_NIL.toByte) :
    step c vm = .next { vm with ip := vm.ip + 1, stack := .Nil :: vm.stack } := by
  simp [step, readByte, h0, opcode_ofByte_toByte, VM.push]

theorem step_true {c : Chunk D} {vm : VM D}
    (h0 : c.code[vm.ip]? = some OpCode.OP_TRUE.toByte) :
    step c vm = .next { vm with ip := vm.ip + 1, stack := .Boolean true :: vm.stack } := by
  simp [step, readByte, h0, opcode_ofByte_toByte, VM.push]

theorem step_false {c : Chunk D} {vm : VM D}
    (h0 : c.code[vm.ip]? = some OpCode.OP_FALSE.toByte) :
    step c vm = .next { vm with ip := vm.ip + 1, stack := .Boolean false :: vm.stack } := by
  simp [step, readByte, h0, opcode_ofByte_toByte, VM.push]

theorem step_pop {c : Chunk D} {vm : VM D} {v : Value D} {t : List (Value D)}
    (h0 : c.code[vm.ip]? = some OpCode.OP_POP.toByte) (hs : vm.stack = v :: t) :
    step c vm = .next { vm with ip := vm.ip + 1, stack := t } := by
  simp [step, readByte, h0, opcode_ofByte_toByte, VM.pop, hs]

theorem step_get_global {c : Chunk D} {vm : VM D} {i : Nat} {x : String}
    (h0 : c.code[vm.ip]? = some OpCode.OP_GET_GLOBAL.toByte)
    (h1 : c.code[vm.ip + 1]? = some i) (hc : c.constants[i]? = some (.Str x)) :
    step c vm
      = .next { vm with ip := vm.ip + 2, stack := (vm.globals x).getD .Nil :: vm.stack } := by
  cases hg : vm.globals x <;>
    simp [step, readByte, readConstant, readString, h0, h1, hc, opcode_ofByte_toByte, VM.push, hg]

theorem step_define_global {c : Chunk D} {vm : VM D} {i : Nat} {x : String} {v : Value D}
    {t : List (Value D)}
    (h0 : c.code[vm.ip]? = some OpCode.OP_DEFINE_GLOBAL.toByte)
    (h1 : c.code[vm.ip + 1]? = some i) (hc : c.constants[i]? = some (.Str x))
    (hs : vm.stack = v :: t) :
    step c vm
      = .next { vm with ip := vm.ip + 2, stack := t,
                        globals := fun k => if k = x then some v else vm.globals k } := by
  simp [step, readByte, readConstant, readString, h0, h1, hc, opcode_ofByte_toByte, VM.peek,
    VM.pop, VM.setGlobal, hs]

theorem step_set_global {c : Chunk D} {vm : VM D} {i : Nat} {x : String} {v : Value D}
    {t : List (Value D)}
    (h0 : c.code[vm.ip]? = some OpCode.OP_SET_GLOBAL.toByte)
    (h1 : c.code[vm.ip + 1]? = some i) (hc : c.constants[i]? = some (.Str x))
    (hs : vm.stack = v :: t) :
    step c vm
      = .next { vm with ip := vm.ip + 2,
                        globals := fun k => if k = x then some v else vm.globals k } := by
  simp [step, readByte, readConstant, readString, h0, h1, hc, opcode_ofByte_toByte, VM.peek,
    VM.setGlobal, hs]

theorem step_return {c : Chunk D} {vm : VM D}
    (h0 : c.code[vm.ip]? = some OpCode.OP_RETURN.toByte) :
    step c vm = .halt .OK { vm with ip := vm.ip + 1 } := by
  simp [step, readByte, h0, opcode_ofByte_toByte]

theorem step_not {c : Chunk D} {vm : VM D} {v : Value D} {rest : List (Value D)}
    (h0 : c.code[vm.ip]? = some OpCode.OP_NOT.toByte) (hs : vm.stack = v :: rest) :
    step c vm = .next { vm with ip := vm.ip + 1, stack := .Boolean (isFalsey v) :: rest } := by
  simp [step, readByte, h0, opcode_ofByte_toByte, VM.pop, VM.push, hs]

theorem step_equal {c : Chunk D} {vm : VM D} {a b : Value D} {rest : List (Value D)}
    (h0 : c.code[vm.ip]? = some OpCode.OP_EQUAL.toByte) (hs : vm.stack = b :: a :: rest) :
    step c vm
      = .next { vm with ip := vm.ip + 1, stack := .Boolean (valuesEqual a b) :: rest } := by
  simp [step, readByte, h0, opcode_ofByte_toByte, VM.pop, VM.push, hs]

theorem step_negate {c : Chunk D} {vm : VM D} {d : D} {rest : List (Value D)}
    (h0 : c.code[vm.ip]? = some OpCode.OP_NEGATE.toByte) (hs : vm.stack = .Number d :: rest) :
    step c vm
      = .next { vm with ip := vm.ip + 1, stack := .Number (DoubleModel.neg d) :: rest } := by
  simp [step, readByte, h0, opcode_ofByte_toByte, VM.pop, VM.push, VM.peek, hs, Value.isNumber]

theorem step_negate_mismatch {c : Chunk D} {vm : VM D} {v : Value D} {rest : List (Value D)}
    (h0 : c.code[vm.ip]? = some OpCode.OP_NEGATE.toByte) (hs : vm.stack = v :: rest)
    (hv : v.isNumber = false) :
    step c vm = .halt .RUNTIME_ERROR
      (runtimeError c { vm with ip := vm.ip + 1 } "Operand must be a number.") := by
  simp [step, readByte, h0, opcode_ofByte_toByte, VM.peek, hs, hv]

theorem compareOp_numbers {T : Type} (c : Chunk T) (vm : VM T) (cmp : T → T → Bool) {a b : T}
    {t : List (Value T)} (hs : vm.stack = .Number b :: .Number a :: t) :
    compareOp c vm cmp = .next { vm with stack := .Boolean (cmp a b) :: t } := by
  simp [compareOp, VM.peek, VM.pop, VM.push, hs, Value.isNumber]

theorem compareOp_mismatch {T : Type} (c : Chunk T) (vm : VM T) (cmp : T → T → Bool)
    {a b : Value T} {t : List (Value T)} (hs : vm.stack = b :: a :: t)
    (hv : a.isNumber = false ∨ b.isNumber = false) :
    compareOp c vm cmp
      = .halt .RUNTIME_ERROR (runtimeError c vm "Operands must be numbers.") := by
  cases hb : b.isNumber
  · simp [compareOp, VM.peek, hs, hb]
  · have ha : a.isNumber = false := by
      cases hv with
      | inl h => exact h
      | inr h => rw [hb] at h; cases h
    simp [compareOp, VM.peek, hs, hb, ha]

theorem binaryOp_mismatch (c : Chunk D) (vm : VM D) (op : OpCode) {a b : Value D}
    {t : List (Value D)} (hs : vm.stack = b :: a :: t)
    (hv : a.isNumber = false ∨ b.isNumber = false) :
    binaryOp c vm op = some (runtimeError c vm "Operands must be numbers.") := by
  cases hb : b.isNumber
  · simp [binaryOp, VM.peek, hs, hb]
  · have ha : a.isNumber = false := by
      cases hv with
      | inl h => exact h
      | inr h => rw [hb] at h; cases h
    simp [binaryOp, VM.peek, hs, hb, ha]

theorem binaryOp_numbers (c : Chunk D) (vm : VM D) (op : OpCode) {a b : D} {v : Value D}
    {t : List (Value D)} (hs : vm.stack = .Number b :: .Number a :: t)
    (hv : applyBinary op (.Number a) (.Number b) = some v)
    (hop : op = .OP_ADD ∨ op = .OP_SUBTRACT ∨ op = .OP_MULTIPLY ∨ op = .OP_DIVIDE) :
    binaryOp c vm op = some { vm with stack := v :: t } := by
  rcases hop with h | h | h | h <;> subst h <;>
    simp [applyBinary] at hv <;> subst hv <;>
    simp [binaryOp, VM.peek, VM.pop, VM.push, hs, Value.isNumber]

end StepLemmas

/-! ## Execution of compiled expressions -/

section Exec
variable {D : Type} [DoubleModel D]

theorem step_greater {c : Chunk D} {vm : VM D} {a b : D} {rest : List (Value D)}
    (h0 : c.code[vm.ip]? = some OpCode.OP_GREATER.toByte)
    (hs : vm.stack = .Number b :: .Number a :: rest) :
    step c vm
      = .next { vm with ip := vm.ip + 1, stack := .Boolean (DoubleModel.gt a b) :: rest } := by
  have hb := compareOp_numbers c { vm with ip := vm.ip + 1 } DoubleModel.gt (a := a) (b := b)
    (t := rest) hs
  simp [step, readByte, h0, opcode_ofByte_toByte, hb]

theorem step_less {c : Chunk D} {vm : VM D} {a b : D} {rest : List (Value D)}
    (h0 : c.code[vm.ip]? = some OpCode.OP_LESS.toByte)
    (hs : vm.stack = .Number b :: .Number a :: rest) :
    step c vm
      = .next { vm with ip := vm.ip + 1, stack := .Boolean (DoubleModel.lt a b) :: rest } := by
  have hb := compareOp_numbers c { vm with ip := vm.ip + 1 } DoubleModel.lt (a := a) (b := b)
    (t := rest) hs
  simp [step, readByte, h0, opcode_ofByte_toByte, hb]

theorem step_arith {c : Chunk D} {vm : VM D} {op : OpCode} {a b : D} {v : Value D}
    {rest : List (Value D)}
    (hop : op = .OP_ADD ∨ op = .OP_SUBTRACT ∨ op = .OP_MULTIPLY ∨ op = .OP_DIVIDE)
    (h0 : c.code[vm.ip]? = some op.toByte)
    (hs : vm.stack = .Number b :: .Number a :: rest)
    (hv : applyBinary op (.Number a) (.Number b) = some v) :
    step c vm = .next { vm with ip := vm.ip + 1, stack := v :: rest } := by
  have hb := binaryOp_numbers c { vm with ip := vm.ip + 1 } op (a := a) (b := b) (v := v)
    (t := rest) hs hv hop
  rcases hop with h | h | h | h <;> subst h <;>
    simp [step, readByte, h0, opcode_ofByte_toByte, hb]

theorem step_arith_mismatch {c : Chunk D} {vm : VM D} {op : OpCode} {a b : Value D}
    {rest : List (Value D)}
    (hop : op = .OP_ADD ∨ op = .OP_SUBTRACT ∨ op = .OP_MULTIPLY ∨ op = .OP_DIVIDE)
    (h0 : c.code[vm.ip]? = some op.toByte)
    (hs : vm.stack = b :: a :: rest)
    (hv : a.isNumber = false ∨ b.isNumber = false) :
    step c vm
      = .next (runtimeError c { vm with ip := vm.ip + 1 } "Operands must be numbers.") := by
  have hb := binaryOp_mismatch c { vm with ip := vm.ip + 1 } op (a := a) (b := b)
    (t := rest) hs hv
  rcases hop with h | h | h | h <;> subst h <;>
    simp [step, readByte, h0, opcode_ofByte_toByte, hb]

theorem step_compare_mismatch {c : Chunk D} {vm : VM D} {op : OpCode} {a b : Value D}
    {rest : List (Value D)}
    (hop : op = .OP_GREATER ∨ op = .OP_LESS)
    (h0 : c.code[vm.ip]? = some op.toByte)
    (hs : vm.stack = b :: a :: rest)
    (hv : a.isNumber = false ∨ b.isNumber = false) :
    step c vm = .halt .RUNTIME_ERROR
      (runtimeError c { vm with ip := vm.ip + 1 } "Operands must be numbers.") := by
  have hb := fun cmp => compareOp_mismatch c { vm with ip := vm.ip + 1 } cmp (a := a) (b := b)
    (t := rest) hs hv
  rcases hop with h | h <;> subst h <;>
    simp [step, readByte, h0, opcode_ofByte_toByte, hb]


theorem step_binary {c : Chunk D} {s : VM D} {t : TokenType} {oc : OpCode} {a b v : Value D}
    {r : List (Value D)} (ht : binaryOpcode t = some oc)
    (h0 : c.code[s.ip]? = some oc.toByte) (hs : s.stack = b :: a :: r)
    (hv : applyBinary oc a b = some v) :
    step c s = .next { s with ip := s.ip + 1, stack := v :: r } := by
  cases t <;> simp [binaryOpcode] at ht <;> subst ht
  case EQUAL_EQUAL =>
    simp only [applyBinary, Option.some.injEq] at hv
    subst hv
    exact step_equal h0 hs
  case GREATER =>
    cases a <;> cases b <;> simp [applyBinary] at hv
    subst hv
    exact step_greater h0 hs
  case LESS =>
    cases a <;> cases b <;> simp [applyBinary] at hv
    subst hv
    exact step_less h0 hs
  all_goals
    cases a <;> cases b <;> simp only [applyBinary] at hv <;> try cases hv
    exact step_arith (by simp) h0 hs (by simp [applyBinary])

theorem step_unary {c : Chunk D} {s : VM D} {t : TokenType} {oc : OpCode} {a v : Value D}
    {r : List (Value D)} (ht : unaryOpcode t = some oc)
    (h0 : c.code[s.ip]? = some oc.toByte) (hs : s.stack = a :: r)
    (hv : applyUnary oc a = some v) :
    step c s = .next { s with ip := s.ip + 1, stack := v :: r } := by
  cases t <;> simp [unaryOpcode] at ht <;> subst ht
  case MINUS =>
    cases a <;> simp [applyUnary] at hv
    subst hv
    exact step_negate h0 hs
  case NOT =>
    simp only [applyUnary, Option.some.injEq] at hv
    subst hv
    exact step_not h0 hs

theorem literalValue_keyword (val : String) (h : isKeywordLiteral val = true) :
    literalCode val 0 = [OpCode.OP_NIL.toByte] ∧ (literalValue val : Value D) = .Nil
    ∨ literalCode val 0 = [OpCode.OP_TRUE.toByte] ∧ (literalValue val : Value D) = .Boolean true
    ∨ literalCode val 0 = [OpCode.OP_FALSE.toByte]
        ∧ (literalValue val : Value D) = .Boolean false := by
  unfold isKeywordLiteral at h
  unfold literalCode literalValue
  by_cases h1 : val = "nil"
  · left; simp [h1]
  · by_cases h2 : val = "true"
    · right; left; simp [h2]
    · by_cases h3 : val = "false"
      · right; right; simp [h3]
      · simp [h1, h2, h3] at h

theorem run_literal (value : String) (c : Chunk D) (vm : VM D) (base n : Nat)
    (hcode : SliceAt c.code vm.ip (literalCode value base))
    (hconst : SliceAt c.constants base
      (if isKeywordLiteral value then [] else [(literalValue value : Value D)]))
    (hb : base + (if isKeywordLiteral value then 0 else 1) ≤ 256) :
    run c (n + 1) vm
      = run c n { vm with ip := vm.ip + (literalCode value base).length,
                          stack := literalValue value :: vm.stack } := by
  by_cases hk : isKeywordLiteral value = true
  · have hcode0 : literalCode value base = literalCode value 0 := by
      unfold isKeywordLiteral at hk
      unfold literalCode
      by_cases h1 : value = "nil"
      · simp [h1]
      · by_cases h2 : value = "true"
        · simp [h2]
        · by_cases h3 : value = "false"
          · simp [h3]
          · simp [h1, h2, h3] at hk
    rw [hcode0] at hcode ⊢
    rcases literalValue_keyword (D := D) value hk with ⟨h1, h2⟩ | ⟨h1, h2⟩ | ⟨h1, h2⟩
    · rw [h1] at hcode ⊢
      rw [h2, run_next (step_nil (sliceAt_head hcode))]
      rfl
    · rw [h1] at hcode ⊢
      rw [h2, run_next (step_true (sliceAt_head hcode))]
      rfl
    · rw [h1] at hcode ⊢
      rw [h2, run_next (step_false (sliceAt_head hcode))]
      rfl
  · have hk2 : isKeywordLiteral value = false := by simpa using hk
    have hcode1 : literalCode value base = [OpCode.OP_CONSTANT.toByte, base % 256] := by
      unfold isKeywordLiteral at hk2
      unfold literalCode
      simp only [Bool.or_eq_false_iff, decide_eq_false_iff_not] at hk2
      simp [hk2.1.1, hk2.1.2, hk2.2]
    rw [hk2] at hconst hb
    simp only [Bool.false_eq_true, if_false] at hconst hb
    rw [hcode1] at hcode ⊢
    have hmod : base % 256 = base := Nat.mod_eq_of_lt (by omega)
    rw [hmod] at hcode
    rw [run_next (step_constant (sliceAt_head hcode) (sliceAt_head (sliceAt_tail hcode))
      (sliceAt_head hconst))]
    rfl

theorem run_expr (g : String → Option (Value D)) : (e : Expr) → (v : Value D) →
    evalExpr g e = some v → (c : Chunk D) → (vm : VM D) → (base n : Nat) →
    SliceAt c.code vm.ip (exprCode e base) → SliceAt c.constants base (exprConsts e) →
    base + exprCount e ≤ 256 → vm.globals = g →
    run c (n + exprSteps e) vm
      = run c n { vm with ip := vm.ip + (exprCode e base).length, stack := v :: vm.stack }
  | .Binary left op right, v, hv, c, vm, base, n, hcode, hconst, hb, hg => by
      simp only [evalExpr] at hv
      simp only [exprCode, exprConsts, exprCount, exprSteps] at hcode hconst hb ⊢
      cases hoc : binaryOpcode op.type with
      | none => simp [hoc] at hv
      | some oc =>
        cases ha : evalExpr g left with
        | none => simp [hoc, ha] at hv
        | some a =>
          cases hbv : evalExpr g right with
          | none => simp [hoc, ha, hbv] at hv
          | some b =>
            simp only [hoc, ha, hbv] at hv
            simp only [hoc, selectedCode] at hcode ⊢
            have hl := run_expr g left a ha c vm base (n + 1 + exprSteps right)
              (sliceAt_left (sliceAt_left hcode)) (sliceAt_left hconst) (by omega) hg
            have hcr : SliceAt c.constants (base + exprCount left) (exprConsts right) := by
              have := sliceAt_right hconst
              rwa [exprConsts_length] at this
            have hr := run_expr g right b hbv c
              { vm with ip := vm.ip + (exprCode left base).length, stack := a :: vm.stack }
              (base + exprCount left) (n + 1)
              (sliceAt_right (sliceAt_left hcode)) hcr (by omega) hg
            have hop := sliceAt_head (sliceAt_right hcode)
            have hst := step_binary (c := c)
              (s := { vm with
                ip := vm.ip + (exprCode left base).length
                  + (exprCode right (base + exprCount left)).length,
                stack := b :: a :: vm.stack })
              (r := vm.stack) hoc (by simpa [Nat.add_assoc] using hop) rfl hv
            have e1 : n + (exprSteps left + exprSteps right + [oc.toByte].length)
                = n + 1 + exprSteps right + exprSteps left := by
              simp only [List.length_singleton]; omega
            rw [e1, hl, hr, run_next hst]
            simp [Nat.add_assoc]
  | .Grouping expression, v, hv, c, vm, base, n, hcode, hconst, hb, hg => by
      simp only [evalExpr] at hv
      simp only [exprCode, exprConsts, exprCount, exprSteps] at hcode hconst hb ⊢
      exact run_expr g expression v hv c vm base n hcode hconst hb hg
  | .Literal value, v, hv, c, vm, base, n, hcode, hconst, hb, hg => by
      simp only [evalExpr, Option.some.injEq] at hv
      simp only [exprCode, exprConsts, exprCount, exprSteps] at hcode hconst hb ⊢
      subst hv
      exact run_literal value c vm base n hcode hconst hb
  | .Unary op right, v, hv, c, vm, base, n, hcode, hconst, hb, hg => by
      simp only [evalExpr] at hv
      simp only [exprCode, exprConsts, exprCount, exprSteps] at hcode hconst hb ⊢
      cases hoc : unaryOpcode op.type with
      | none => simp [hoc] at hv
      | some oc =>
        cases ha : evalExpr g right with
        | none => simp [hoc, ha] at hv
        | some a =>
          simp only [hoc, ha] at hv
          simp only [hoc, selectedCode] at hcode ⊢
          have hr := run_expr g right a ha c vm base (n + 1) (sliceAt_left hcode) hconst hb hg
          have hop := sliceAt_head (sliceAt_right hcode)
          have hst := step_unary (c := c)
            (s := { vm with ip := vm.ip + (exprCode right base).length, stack := a :: vm.stack })
            (r := vm.stack) hoc hop rfl hv
          have e1 : n + (exprSteps right + [oc.toByte].length) = n + 1 + exprSteps right := by
            simp only [List.length_singleton]; omega
          rw [e1, hr, run_next hst]
          simp [Nat.add_assoc]
  | .Variable name, v, hv, c, vm, base, n, hcode, hconst, hb, hg => by
      simp only [evalExpr, Option.some.injEq] at hv
      simp only [exprCode, exprConsts, exprCount, exprSteps] at hcode hconst hb ⊢
      have hmod : base % 256 = base := Nat.mod_eq_of_lt (by omega)
      rw [hmod] at hcode
      rw [run_next (step_get_global (sliceAt_head hcode) (sliceAt_head (sliceAt_tail hcode))
        (sliceAt_head hconst))]
      simp [hg, hv]
  | .Assignment _ _, v, hv, _, _, _, _, _, _, _, _ => by
      simp [evalExpr] at hv
  | .Call _ _ _, v, hv, _, _, _, _, _, _, _, _ => by
      simp [evalExpr] at hv

theorem sliceAt_zero {α : Type} (s post : List α) : SliceAt (s ++ post) 0 s :=
  ⟨[], post, rfl, rfl⟩

/-- C1: for an expression `E` built from literals, global variable references,
grouping, unary `-`/`not` and binary `+ - * / == > <` whose reference value under
the globals `g` is `v` (no type error), and at most 256 constants in the chunk:
compiling `[VarDecl x E]` into an empty chunk succeeds, and running the chunk from
an empty stack with globals `g` returns `OK` after `exprSteps E + 2` steps (and
with any larger budget), with `globals[x] = v`, the other globals unchanged, an
empty stack and nothing written. -/
theorem vardecl_leaves_value (x : Token) (E : Expr) (g : String → Option (Value D)) (v : Value D)
    (hv : evalExpr g E = some v) (hc : exprCount E + 1 ≤ 256) :
    ∃ (c : Chunk D) (vm : VM D),
      compile [some (.VarDecl x (some E))] ({} : Chunk D) = some (true, c)
        ∧ (∀ k, interpret (k + (exprSteps E + 2)) c { globals := g } = .finished .OK vm)
        ∧ vm.globals x.lexeme = some v
        ∧ (∀ y, y ≠ x.lexeme → vm.globals y = g y)
        ∧ vm.stack = [] ∧ vm.out = [] ∧ vm.err = [] := by
  have hnf : nullFreeList [some (.VarDecl x (some E))] = true := rfl
  refine ⟨_, { ip := (exprCode E 0).length + 2 + 1, stack := [],
               globals := fun k => if k = x.lexeme then some v else g k, out := [], err := [] },
    compile_eq _ hnf {}, ?_, ?_⟩
  · intro k
    simp only [interpret, Chunk.extend, stmtsCode, stmtCode, stmtsConsts, stmtConsts, optExprCode,
      optExprCount, optExprConsts, List.nil_append, List.append_nil, List.length_nil, Nat.zero_add]
    generalize hcd : ({ code := _, constants := _, lines := _ } : Chunk D) = c
    have hcode : c.code = exprCode E 0
        ++ ([OpCode.OP_DEFINE_GLOBAL.toByte, exprCount E % 256] ++ [OpCode.OP_RETURN.toByte]) := by
      rw [← hcd]; simp
    have hconsts : c.constants = exprConsts E ++ [.Str x.lexeme] := by
      rw [← hcd]
    have hmod : exprCount E % 256 = exprCount E := Nat.mod_eq_of_lt (by omega)
    rw [hmod] at hcode
    have h1 := run_expr g E v hv c { globals := g } 0 (k + 2)
      (by rw [hcode]; exact sliceAt_zero _ _) (by rw [hconsts]; exact sliceAt_zero _ _)
      (by omega) rfl
    have hs : SliceAt c.code (exprCode E 0).length
        ([OpCode.OP_DEFINE_GLOBAL.toByte, exprCount E] ++ [OpCode.OP_RETURN.toByte]) := by
      rw [hcode]
      exact ⟨exprCode E 0, [], by simp, rfl⟩
    have hk : SliceAt c.constants (exprCount E) [(.Str x.lexeme : Value D)] := by
      rw [hconsts]
      exact ⟨exprConsts E, [], by simp, exprConsts_length E⟩
    have e1 : k + (exprSteps E + 2) = k + 2 + exprSteps E := by omega
    rw [e1, h1]
    simp only [Nat.zero_add]
    rw [run_next (step_define_global (x := x.lexeme) (v := v) (t := [])
      (sliceAt_head hs) (sliceAt_head (sliceAt_tail hs)) (sliceAt_head hk) rfl)]
    rw [run_halt (step_return (sliceAt_head (sliceAt_tail (sliceAt_tail hs))))]
  · exact ⟨by simp, fun y hy => by simp [hy], rfl, rfl, rfl⟩


/-- The theorem above on `var x = 1 + 2` with no global defined: `x` becomes 3. -/
theorem vardecl_leaves_value_witness :
    evalExpr (fun _ => none) sumExpr = some (.Number (3 : Int))
      ∧ exprCount sumExpr + 1 ≤ 256
      ∧ ∃ (c : Chunk Int) (vm : VM Int),
          compile [some (.VarDecl (ident "x") (some sumExpr))] ({} : Chunk Int) = some (true, c)
            ∧ (∀ k, interpret (k + (exprSteps sumExpr + 2)) c { globals := fun _ => none }
                = .finished .OK vm)
            ∧ vm.globals (ident "x").lexeme = some (.Number 3)
            ∧ (∀ y, y ≠ (ident "x").lexeme → vm.globals y = none)
            ∧ vm.stack = [] ∧ vm.out = [] ∧ vm.err = [] :=
  ⟨by decide, by decide,
   vardecl_leaves_value (ident "x") sumExpr (fun _ => none) (.Number 3) (by decide) (by decide)⟩

/-- C5: when the next instruction is `OP_GREATER`, `OP_LESS` or `OP_NEGATE` and
the stack holds the operands it inspects: if an operand is not a number, `run`
returns `RUNTIME_ERROR` at this very step with the stack, the globals and the
output as they were; if the operands are numbers the step does not return, the
loop goes on. -/
theorem compare_negate_type_error (c : Chunk D) (vm : VM D) (op : OpCode)
    (hop : c.code[vm.ip]? = some op.toByte)
    (hkind : op = .OP_GREATER ∨ op = .OP_LESS ∨ op = .OP_NEGATE)
    (hdepth : operandCount op ≤ vm.stack.length) :
    (operandsAreNumbers op vm.stack = false →
        ∀ fuel, ∃ vm1, run c (fuel + 1) vm = .finished .RUNTIME_ERROR vm1
          ∧ vm1.stack = vm.stack ∧ vm1.globals = vm.globals ∧ vm1.out = vm.out)
      ∧ (operandsAreNumbers op vm.stack = true → ∃ vm1, step c vm = .next vm1) := by
  rcases hkind with h | h | h <;> subst h
  · match hs : vm.stack, hdepth with
    | b :: a :: rest, _ =>
      constructor
      · intro hn fuel
        have hv : a.isNumber = false ∨ b.isNumber = false := by
          simp only [operandsAreNumbers, Bool.and_eq_false_iff] at hn
          exact hn
        exact ⟨_, run_halt (step_compare_mismatch (Or.inl rfl) hop hs hv) fuel, hs, rfl, rfl⟩
      · intro hn
        simp only [operandsAreNumbers, Bool.and_eq_true] at hn
        cases a <;> cases b <;> simp [Value.isNumber] at hn
        exact ⟨_, step_greater hop hs⟩
    | [_], hd => simp [operandCount] at hd
    | [], hd => simp [operandCount] at hd
  · match hs : vm.stack, hdepth with
    | b :: a :: rest, _ =>
      constructor
      · intro hn fuel
        have hv : a.isNumber = false ∨ b.isNumber = false := by
          simp only [operandsAreNumbers, Bool.and_eq_false_iff] at hn
          exact hn
        exact ⟨_, run_halt (step_compare_mismatch (Or.inr rfl) hop hs hv) fuel, hs, rfl, rfl⟩
      · intro hn
        simp only [operandsAreNumbers, Bool.and_eq_true] at hn
        cases a <;> cases b <;> simp [Value.isNumber] at hn
        exact ⟨_, step_less hop hs⟩
    | [_], hd => simp [operandCount] at hd
    | [], hd => simp [operandCount] at hd
  · match hs : vm.stack, hdepth with
    | v :: rest, _ =>
      constructor
      · intro hn fuel
        simp only [operandsAreNumbers] at hn
        exact ⟨_, run_halt (step_negate_mismatch hop hs hn) fuel, hs, rfl, rfl⟩
      · intro hn
        simp only [operandsAreNumbers] at hn
        cases v <;> simp [Value.isNumber] at hn
        exact ⟨_, step_negate hop hs⟩
    | [], hd => simp [operandCount] at hd

/-- The theorem above on `OP_GREATER` with `nil` over the number 1 on the stack. -/
theorem compare_negate_type_error_witness :
    ∃ vm1, run greaterChunk 1 nilOverOne = .finished .RUNTIME_ERROR vm1
      ∧ vm1.stack = nilOverOne.stack ∧ vm1.globals = nilOverOne.globals
      ∧ vm1.out = nilOverOne.out :=
  (compare_negate_type_error greaterChunk nilOverOne .OP_GREATER (by decide) (by decide)
    (by decide)).1 (by decide) 0

/-- C4 at the failing input: `print("a" + 1)` compiles, and running it returns
`OK`: the mismatch at `OP_ADD` is reported, execution goes on with the operands
still on the stack, `OP_PRINT` writes `1` to standard output, and the string `a`
is left on the stack. -/
theorem print_string_plus_number_prints_and_succeeds :
    ∃ (c : Chunk Int) (vm : VM Int),
      compile printSumProgram ({} : Chunk Int) = some (true, c)
        ∧ interpret 7 c {} = .finished .OK vm
        ∧ vm.out = ["1"]
        ∧ vm.err = [("Operands must be numbers.", 0)]
        ∧ vm.stack = [.Str "a"] := by
  refine ⟨{ code := [0, 0, 0, 1, 11, 17, 1, 4, 21], constants := [.Str "a", .Number 1],
             lines := [0, 0, 0, 0, 0, 0, 0, 0, 0] },
    { ip := 9, stack := [.Str "a"], globals := fun _ => none, out := ["1"],
      err := [("Operands must be numbers.", 0)] }, ?_, ?_, rfl, rfl, rfl⟩
  · rfl
  · rfl

theorem literalCount_le_one (L : String) : exprCount (.Literal L) ≤ 1 := by
  simp only [exprCount]
  split_ifs <;> omega

theorem run_assign_copy (c : Chunk D) (vm : VM D) (v : Value D) (x y : String) (p k n : Nat)
    (hip : vm.ip = p) (hs : vm.stack = [v])
    (hcode : SliceAt c.code p
      [OpCode.OP_SET_GLOBAL.toByte, k, OpCode.OP_POP.toByte, OpCode.OP_GET_GLOBAL.toByte, k + 1,
       OpCode.OP_SET_GLOBAL.toByte, k + 2, OpCode.OP_POP.toByte, OpCode.OP_RETURN.toByte])
    (hconst : SliceAt c.constants k [(.Str x : Value D), .Str x, .Str y]) :
    run c (n + 6) vm
      = .finished .OK { vm with
          ip := p + 9, stack := [],
          globals := fun j => if j = y then some v
            else if j = x then some v else vm.globals j } := by
  obtain ⟨ip, st, g, out, err⟩ := vm
  simp only at hip hs
  subst hip hs
  have c0 := sliceAt_head hconst
  have c1 := sliceAt_head (sliceAt_tail hconst)
  have c2 := sliceAt_head (sliceAt_tail (sliceAt_tail hconst))
  have t1 := sliceAt_tail hcode
  have t2 := sliceAt_tail t1
  have t3 := sliceAt_tail t2
  have t4 := sliceAt_tail t3
  have t5 := sliceAt_tail t4
  have t6 := sliceAt_tail t5
  have t7 := sliceAt_tail t6
  have t8 := sliceAt_tail t7
  rw [run_next (s := ⟨ip, [v], g, out, err⟩)
    (step_set_global (sliceAt_head hcode) (sliceAt_head t1) c0 rfl)]
  rw [run_next (s := ⟨ip + 2, [v], _, out, err⟩) (step_pop (sliceAt_head t2) rfl)]
  rw [run_next (s := ⟨ip + 2 + 1, [], _, out, err⟩)
    (step_get_global (sliceAt_head t3) (sliceAt_head t4) c1)]
  simp only [if_true, Option.getD_some]
  rw [run_next (s := ⟨ip + 2 + 1 + 2, [v], _, out, err⟩)
    (step_set_global (sliceAt_head t5) (sliceAt_head t6) c2 rfl)]
  rw [run_next (s := ⟨ip + 2 + 1 + 2 + 2, [v], _, out, err⟩) (step_pop (sliceAt_head t7) rfl)]
  rw [run_halt (s := ⟨ip + 2 + 1 + 2 + 2 + 1, [], _, out, err⟩)
    (step_return (sliceAt_head t8))]

/-- C2: for every literal lexeme `L` and names `x`, `y`, compiling
`x = L; y = x` (two expression statements) into an empty chunk succeeds, and
running the chunk from an empty stack with any globals returns `OK` after seven
steps (and with any larger budget), with `globals[y] = globals[x] =` the value of
the literal and an empty stack. -/
theorem assign_then_copy (L : String) (x y : Token) (g : String → Option (Value D)) :
    ∃ (c : Chunk D) (vm : VM D),
      compile [some (.Expression (.Assignment x (.Literal L))),
               some (.Expression (.Assignment y (.Variable x)))] ({} : Chunk D) = some (true, c)
        ∧ (∀ k, interpret (k + 7) c { globals := g } = .finished .OK vm)
        ∧ vm.stack = []
        ∧ vm.globals y.lexeme = some (literalValue L)
        ∧ vm.globals x.lexeme = some (literalValue L) := by
  have hnf : nullFreeList [some (.Expression (.Assignment x (.Literal L))),
      some (.Expression (.Assignment y (.Variable x)))] = true := rfl
  have hk := literalCount_le_one L
  refine ⟨_, { ip := (literalCode L 0).length + 9, stack := [],
               globals := fun j => if j = y.lexeme then some (literalValue L)
                 else if j = x.lexeme then some (literalValue L) else g j,
               out := [], err := [] },
    compile_eq _ hnf {}, ?_, rfl, by simp, by simp⟩
  intro n
  simp only [interpret, Chunk.extend, stmtsCode, stmtCode, stmtsConsts, stmtConsts, exprCode,
    exprConsts, stmtCount, List.nil_append, List.append_nil, List.length_nil, Nat.zero_add]
  generalize hcd : ({ code := _, constants := _, lines := _ } : Chunk D) = c
  have hm0 : exprCount (.Literal L) % 256 = exprCount (.Literal L) :=
    Nat.mod_eq_of_lt (by omega)
  have hm1 : (exprCount (.Assignment x (.Literal L)) % 256) = exprCount (.Literal L) + 1 := by
    simp only [exprCount] at hk ⊢
    exact Nat.mod_eq_of_lt (by omega)
  have hm2 : (exprCount (.Assignment x (.Literal L)) + exprCount (.Variable x)) % 256
      = exprCount (.Literal L) + 2 := by
    simp only [exprCount] at hk ⊢
    exact Nat.mod_eq_of_lt (by omega)
  have hcode : c.code = literalCode L 0
      ++ [OpCode.OP_SET_GLOBAL.toByte, exprCount (.Literal L), OpCode.OP_POP.toByte,
          OpCode.OP_GET_GLOBAL.toByte, exprCount (.Literal L) + 1,
          OpCode.OP_SET_GLOBAL.toByte, exprCount (.Literal L) + 2, OpCode.OP_POP.toByte,
          OpCode.OP_RETURN.toByte] := by
    rw [← hcd]
    simp only [hm0, hm1, hm2]
    simp
  have hconsts : c.constants
      = (if isKeywordLiteral L then [] else [(literalValue L : Value D)])
        ++ [.Str x.lexeme, .Str x.lexeme, .Str y.lexeme] := by
    rw [← hcd]
    simp
  have h1 := run_literal L c { globals := g } 0 (n + 6)
    (by rw [hcode]; exact sliceAt_zero _ _) (by rw [hconsts]; exact sliceAt_zero _ _)
    (by simp only [exprCount] at hk; omega)
  have e1 : n + 7 = n + 6 + 1 := by omega
  rw [e1, h1]
  have hlen : (if isKeywordLiteral L then [] else [(literalValue L : Value D)]).length
      = exprCount (.Literal L) := by
    simp only [exprCount]
    split_ifs <;> rfl
  rw [run_assign_copy c _ (literalValue L) x.lexeme y.lexeme ((literalCode L 0).length)
    (exprCount (.Literal L)) n (by simp) rfl
    (by rw [hcode]; exact ⟨literalCode L 0, [], by simp, rfl⟩)
    (by rw [hconsts]; exact ⟨_, [], by simp, hlen⟩)]


end Exec

/-! ## Stack discipline of quiet executions -/

section Quiet
variable {D : Type} [DoubleModel D]

theorem binaryOp_effect (c : Chunk D) (vm vm1 : VM D) (op : OpCode)
    (hop : op = .OP_ADD ∨ op = .OP_SUBTRACT ∨ op = .OP_MULTIPLY ∨ op = .OP_DIVIDE)
    (h : binaryOp c vm op = some vm1) :
    (∃ x, vm1.err = vm.err ++ [x]) ∨ Moves vm vm1 0 2 1 := by
  unfold binaryOp at h
  match hs : vm.stack with
  | [] => simp [VM.peek, hs] at h
  | [b] =>
    cases b <;> simp [VM.peek, hs, Value.isNumber] at h <;>
      (subst h; left; simp [runtimeError])
  | b :: a :: rest =>
    cases b <;> cases a <;> simp [VM.peek, VM.pop, hs, Value.isNumber] at h <;>
      first
      | (subst h; left; simp [runtimeError])
      | (rcases hop with h1 | h1 | h1 | h1 <;> subst h1 <;> simp [VM.push] at h <;> subst h <;>
          right <;> simp [Moves, hs])

theorem compareOp_effect {T : Type} (c : Chunk T) (vm : VM T) (cmp : T → T → Bool) :
    match compareOp c vm cmp with
    | .fault => True
    | .halt r vm1 => r = .RUNTIME_ERROR ∧ ∃ x, vm1.err = vm.err ++ [x]
    | .next vm1 => Moves vm vm1 0 2 1 := by
  unfold compareOp
  match hs : vm.stack with
  | [] => simp [VM.peek, hs]
  | [b] => cases b <;> simp [VM.peek, hs, Value.isNumber, runtimeError]
  | b :: a :: rest =>
    cases b <;> cases a <;>
      simp [VM.peek, VM.pop, VM.push, hs, Value.isNumber, Moves, runtimeError]


theorem readConstant_ip {T : Type} (c : Chunk T) (vm vm1 : VM T) (v : Value T)
    (h : readConstant c vm = some (v, vm1)) : vm1 = { vm with ip := vm.ip + 1 } := by
  unfold readConstant readByte at h
  cases h1 : c.code[vm.ip]? with
  | none => simp [h1] at h
  | some b =>
    cases h2 : c.constants[b]? with
    | none => simp [h1, h2] at h
    | some w =>
      simp [h1, h2] at h
      exact h.2.symm

theorem readString_ip {T : Type} (c : Chunk T) (vm vm1 : VM T) (s : String)
    (h : readString c vm = some (s, vm1)) : vm1 = { vm with ip := vm.ip + 1 } := by
  unfold readString at h
  cases h1 : readConstant c vm with
  | none => simp [h1] at h
  | some r =>
    obtain ⟨v, vm2⟩ := r
    cases v <;> simp [h1] at h
    rw [← h.2]
    exact readConstant_ip c vm vm2 _ h1

theorem step_simple (c : Chunk D) (vm : VM D) (op : OpCode)
    (h0 : c.code[vm.ip]? = some op.toByte) (hs : op.isSimple = true) :
    match step c vm with
    | .fault => True
    | .halt r vm1 => r = .RUNTIME_ERROR ∧ ∃ x, vm1.err = vm.err ++ [x]
    | .next vm1 =>
      (∃ x, vm1.err = vm.err ++ [x]) ∨ Moves vm vm1 (1 + op.operandWidth) op.pops op.pushes := by
  cases op <;> simp only [OpCode.isSimple, Bool.false_eq_true] at hs <;>
    simp only [step, readByte, h0, opcode_ofByte_toByte]
  case OP_CONSTANT =>
    cases h : readConstant c { vm with ip := vm.ip + 1 } with
    | none => trivial
    | some r =>
      obtain ⟨v, vm2⟩ := r
      have := readConstant_ip c _ vm2 v h
      subst this
      simp [Moves, VM.push, OpCode.operandWidth, OpCode.pops, OpCode.pushes, Nat.add_assoc]
  case OP_NIL => simp [Moves, VM.push, OpCode.operandWidth, OpCode.pops, OpCode.pushes]
  case OP_TRUE => simp [Moves, VM.push, OpCode.operandWidth, OpCode.pops, OpCode.pushes]
  case OP_FALSE => simp [Moves, VM.push, OpCode.operandWidth, OpCode.pops, OpCode.pushes]
  case OP_POP =>
    cases hst : vm.stack <;>
      simp [Moves, VM.pop, hst, OpCode.operandWidth, OpCode.pops, OpCode.pushes]
  case OP_GET_GLOBAL =>
    cases h : readString c { vm with ip := vm.ip + 1 } with
    | none => trivial
    | some r =>
      obtain ⟨v, vm2⟩ := r
      have := readString_ip c _ vm2 v h
      subst this
      simp only
      cases vm.globals v <;>
        simp [Moves, VM.push, OpCode.operandWidth, OpCode.pops, OpCode.pushes, Nat.add_assoc]
  case OP_SET_GLOBAL =>
    cases h : readString c { vm with ip := vm.ip + 1 } with
    | none => trivial
    | some r =>
      obtain ⟨v, vm2⟩ := r
      have := readString_ip c _ vm2 v h
      subst this
      cases hst : vm.stack <;>
        simp [Moves, VM.peek, VM.setGlobal, hst, OpCode.operandWidth, OpCode.pops, OpCode.pushes,
          Nat.add_assoc]
  case OP_DEFINE_GLOBAL =>
    cases h : readString c { vm with ip := vm.ip + 1 } with
    | none => trivial
    | some r =>
      obtain ⟨v, vm2⟩ := r
      have := readString_ip c _ vm2 v h
      subst this
      cases hst : vm.stack <;>
        simp [Moves, VM.peek, VM.pop, VM.setGlobal, hst, OpCode.operandWidth, OpCode.pops,
          OpCode.pushes, Nat.add_assoc]
  case OP_EQUAL =>
    match hst : vm.stack with
    | [] => simp [VM.pop, hst]
    | [_] => simp [VM.pop, hst]
    | b :: a :: rest =>
      simp [Moves, VM.pop, VM.push, hst, OpCode.operandWidth, OpCode.pops, OpCode.pushes]
  case OP_GREATER =>
    have h := compareOp_effect c { vm with ip := vm.ip + 1 } DoubleModel.gt
    cases hc : compareOp c { vm with ip := vm.ip + 1 } DoubleModel.gt with
    | fault => trivial
    | halt r vm1 => simpa [hc] using h
    | next vm1 =>
      rw [hc] at h
      right
      simpa [Moves, OpCode.operandWidth, OpCode.pops, OpCode.pushes] using h
  case OP_LESS =>
    have h := compareOp_effect c { vm with ip := vm.ip + 1 } DoubleModel.lt
    cases hc : compareOp c { vm with ip := vm.ip + 1 } DoubleModel.lt with
    | fault => trivial
    | halt r vm1 => simpa [hc] using h
    | next vm1 =>
      rw [hc] at h
      right
      simpa [Moves, OpCode.operandWidth, OpCode.pops, OpCode.pushes] using h
  case OP_ADD =>
    cases hb : binaryOp c { vm with ip := vm.ip + 1 } .OP_ADD with
    | none => trivial
    | some vm1 =>
      rcases binaryOp_effect c _ vm1 _ (by simp) hb with h | h
      · exact Or.inl h
      · right
        simpa [Moves, OpCode.operandWidth, OpCode.pops, OpCode.pushes] using h
  case OP_SUBTRACT =>
    cases hb : binaryOp c { vm with ip := vm.ip + 1 } .OP_SUBTRACT with
    | none => trivial
    | some vm1 =>
      rcases binaryOp_effect c _ vm1 _ (by simp) hb with h | h
      · exact Or.inl h
      · right
        simpa [Moves, OpCode.operandWidth, OpCode.pops, OpCode.pushes] using h
  case OP_MULTIPLY =>
    cases hb : binaryOp c { vm with ip := vm.ip + 1 } .OP_MULTIPLY with
    | none => trivial
    | some vm1 =>
      rcases binaryOp_effect c _ vm1 _ (by simp) hb with h | h
      · exact Or.inl h
      · right
        simpa [Moves, OpCode.operandWidth, OpCode.pops, OpCode.pushes] using h
  case OP_DIVIDE =>
    cases hb : binaryOp c { vm with ip := vm.ip + 1 } .OP_DIVIDE with
    | none => trivial
    | some vm1 =>
      rcases binaryOp_effect c _ vm1 _ (by simp) hb with h | h
      · exact Or.inl h
      · right
        simpa [Moves, OpCode.operandWidth, OpCode.pops, OpCode.pushes] using h
  case OP_NOT =>
    cases hst : vm.stack <;>
      simp [Moves, VM.pop, VM.push, hst, OpCode.operandWidth, OpCode.pops, OpCode.pushes]
  case OP_NEGATE =>
    match hst : vm.stack with
    | [] => simp [VM.peek, hst]
    | v :: rest =>
      cases v <;>
        simp [Moves, VM.peek, VM.pop, VM.push, hst, Value.isNumber, OpCode.operandWidth,
          OpCode.pops, OpCode.pushes, runtimeError]
  case OP_PRINT =>
    cases hst : vm.stack <;>
      simp [Moves, VM.pop, hst, OpCode.operandWidth, OpCode.pops, OpCode.pushes]


theorem decode_short (k : Nat) (h : k ≤ 65535) :
    ((hiByte k <<< 8) ||| loByte k) % 65536 = k := by
  have h1 : hiByte k = k / 256 := by
    rw [hiByte_eq]
    exact Nat.mod_eq_of_lt (by omega)
  have h2 : loByte k < 2 ^ 8 := loByte_lt k
  rw [Nat.shiftLeft_eq, Nat.mul_comm, ← Nat.mul_add_lt_is_or h2, h1, loByte_eq]
  have h3 : 2 ^ 8 * (k / 256) + k % 256 = k := Nat.div_add_mod k 256
  rw [h3]
  exact Nat.mod_eq_of_lt (by omega)

theorem step_jump {c : Chunk D} {vm : VM D} {hi lo : Nat}
    (h0 : c.code[vm.ip]? = some OpCode.OP_JUMP.toByte)
    (h1 : c.code[vm.ip + 1]? = some hi) (h2 : c.code[vm.ip + 2]? = some lo) :
    step c vm = .next { vm with ip := vm.ip + 3 + ((hi <<< 8) ||| lo) % 65536 } := by
  simp [step, readByte, readShort, h0, h1, h2, opcode_ofByte_toByte, Nat.add_assoc]

theorem step_loop {c : Chunk D} {vm : VM D} {hi lo : Nat}
    (h0 : c.code[vm.ip]? = some OpCode.OP_LOOP.toByte)
    (h1 : c.code[vm.ip + 1]? = some hi) (h2 : c.code[vm.ip + 2]? = some lo)
    (hle : ((hi <<< 8) ||| lo) % 65536 ≤ vm.ip + 3) :
    step c vm = .next { vm with ip := vm.ip + 3 - ((hi <<< 8) ||| lo) % 65536 } := by
  simp [step, readByte, readShort, h0, h1, h2, opcode_ofByte_toByte, Nat.add_assoc, hle]

theorem step_jump_if_false {c : Chunk D} {vm : VM D} {hi lo : Nat} {v : Value D}
    {rest : List (Value D)}
    (h0 : c.code[vm.ip]? = some OpCode.OP_JUMP_IF_FALSE.toByte)
    (h1 : c.code[vm.ip + 1]? = some hi) (h2 : c.code[vm.ip + 2]? = some lo)
    (hs : vm.stack = v :: rest) :
    step c vm = .next { vm with
      ip := if isFalsey v then vm.ip + 3 + ((hi <<< 8) ||| lo) % 65536 else vm.ip + 3 } := by
  cases hf : isFalsey v <;>
    simp [step, readByte, readShort, h0, h1, h2, opcode_ofByte_toByte, Nat.add_assoc, VM.peek,
      hs, hf]

theorem step_jump_if_false_empty {c : Chunk D} {vm : VM D} {hi lo : Nat}
    (h0 : c.code[vm.ip]? = some OpCode.OP_JUMP_IF_FALSE.toByte)
    (h1 : c.code[vm.ip + 1]? = some hi) (h2 : c.code[vm.ip + 2]? = some lo)
    (hs : vm.stack = []) :
    step c vm = .fault := by
  simp [step, readByte, readShort, h0, h1, h2, opcode_ofByte_toByte, VM.peek, hs]


theorem ofByte_eq_some {b : Nat} {op : OpCode} (h : OpCode.ofByte b = some op) :
    b = op.toByte := by
  unfold OpCode.ofByte at h
  split at h <;> simp at h <;> subst h <;> rfl

theorem step_err (c : Chunk D) (vm : VM D) :
    match step c vm with
    | .fault => True
    | .halt _ vm1 => ∃ l, vm1.err = vm.err ++ l
    | .next vm1 => ∃ l, vm1.err = vm.err ++ l := by
  cases h0 : c.code[vm.ip]? with
  | none => simp [step, readByte, h0]
  | some b =>
    cases hop : OpCode.ofByte b with
    | none =>
      simp only [step, readByte, h0, hop]
      exact ⟨[], by simp⟩
    | some op =>
      have hb := ofByte_eq_some hop
      subst hb
      by_cases hs : op.isSimple = true
      · have h := step_simple c vm op h0 hs
        cases hst : step c vm with
        | fault => trivial
        | halt r vm1 =>
          rw [hst] at h
          obtain ⟨_, x, hx⟩ := h
          exact ⟨[x], hx⟩
        | next vm1 =>
          rw [hst] at h
          rcases h with ⟨x, hx⟩ | h
          · exact ⟨[x], hx⟩
          · exact ⟨[], by simp [h.2.1]⟩
      · cases op <;> first | exact absurd rfl hs | skip
        · cases h1 : c.code[vm.ip + 1]? <;> cases h2 : c.code[vm.ip + 1 + 1]? <;>
            simp [step, readByte, readShort, h0, h1, h2, opcode_ofByte_toByte]
        · cases h1 : c.code[vm.ip + 1]? with
          | none => simp [step, readByte, readShort, h0, h1, opcode_ofByte_toByte]
          | some hi =>
            cases h2 : c.code[vm.ip + 1 + 1]? with
            | none => simp [step, readByte, readShort, h0, h1, h2, opcode_ofByte_toByte]
            | some lo =>
              cases hst : vm.stack with
              | nil =>
                simp [step, readByte, readShort, h0, h1, h2, opcode_ofByte_toByte, VM.peek, hst]
              | cons v rest =>
                cases hf : isFalsey v <;>
                  simp [step, readByte, readShort, h0, h1, h2, opcode_ofByte_toByte, VM.peek,
                    hst, hf]
        · cases h1 : c.code[vm.ip + 1]? with
          | none => simp [step, readByte, readShort, h0, h1, opcode_ofByte_toByte]
          | some hi =>
            cases h2 : c.code[vm.ip + 1 + 1]? with
            | none => simp [step, readByte, readShort, h0, h1, h2, opcode_ofByte_toByte]
            | some lo =>
              by_cases hle : (hi <<< 8 ||| lo) % 65536 ≤ vm.ip + 1 + 2 <;>
                simp [step, readByte, readShort, h0, h1, h2, opcode_ofByte_toByte, hle]
        · simp [step, readByte, h0, opcode_ofByte_toByte]


theorem quiet_err (c : Chunk D) : ∀ (n : Nat) (vm : VM D), (run c n vm).quiet → vm.err = [] := by
  intro n
  induction n with
  | zero => intro vm h; simp [run, Outcome.quiet] at h
  | succ n ih =>
    intro vm h
    have he := step_err c vm
    simp only [run] at h
    cases hst : step c vm with
    | fault => simp [hst, Outcome.quiet] at h
    | halt r vm1 =>
      rw [hst] at he h
      obtain ⟨l, hl⟩ := he
      cases r <;> simp [Outcome.quiet] at h
      rw [hl] at h
      exact (List.append_eq_nil.mp h).1
    | next vm1 =>
      rw [hst] at he h
      obtain ⟨l, hl⟩ := he
      have := ih vm1 h
      rw [hl] at this
      exact (List.append_eq_nil.mp this).1

theorem sim_simple {c : Chunk D} {vm : VM D} {n : Nat} (op : OpCode)
    (h0 : c.code[vm.ip]? = some op.toByte) (hs : op.isSimple = true)
    (hq : (run c n vm).quiet) :
    ∃ m vm1, m < n ∧ run c n vm = run c m vm1
      ∧ vm1.ip = vm.ip + (1 + op.operandWidth) ∧ op.pops ≤ vm.stack.length
      ∧ vm1.stack.length + op.pops = vm.stack.length + op.pushes := by
  cases n with
  | zero => simp [run, Outcome.quiet] at hq
  | succ m =>
    have hstep := step_simple c vm op h0 hs
    have he := quiet_err c _ vm hq
    simp only [run] at hq ⊢
    cases hst : step c vm with
    | fault => simp [hst, Outcome.quiet] at hq
    | halt r vm1 =>
      rw [hst] at hstep hq
      simp [hstep.1, Outcome.quiet] at hq
    | next vm1 =>
      rw [hst] at hstep hq
      have he1 := quiet_err c _ vm1 hq
      rcases hstep with ⟨x, hx⟩ | hm
      · rw [he1, he] at hx
        simp at hx
      · exact ⟨m, vm1, Nat.lt_succ_self m, rfl, hm.1, hm.2.2.1, hm.2.2.2⟩

theorem sim_jump {c : Chunk D} {vm : VM D} {n hi lo : Nat}
    (h0 : c.code[vm.ip]? = some OpCode.OP_JUMP.toByte)
    (h1 : c.code[vm.ip + 1]? = some hi) (h2 : c.code[vm.ip + 2]? = some lo)
    (hq : (run c n vm).quiet) :
    ∃ m, m < n ∧ run c n vm
      = run c m { vm with ip := vm.ip + 3 + ((hi <<< 8) ||| lo) % 65536 } := by
  cases n with
  | zero => simp [run, Outcome.quiet] at hq
  | succ m => exact ⟨m, Nat.lt_succ_self m, run_next (step_jump h0 h1 h2) m⟩

theorem sim_loop {c : Chunk D} {vm : VM D} {n hi lo : Nat}
    (h0 : c.code[vm.ip]? = some OpCode.OP_LOOP.toByte)
    (h1 : c.code[vm.ip + 1]? = some hi) (h2 : c.code[vm.ip + 2]? = some lo)
    (hle : ((hi <<< 8) ||| lo) % 65536 ≤ vm.ip + 3)
    (hq : (run c n vm).quiet) :
    ∃ m, m < n ∧ run c n vm
      = run c m { vm with ip := vm.ip + 3 - ((hi <<< 8) ||| lo) % 65536 } := by
  cases n with
  | zero => simp [run, Outcome.quiet] at hq
  | succ m => exact ⟨m, Nat.lt_succ_self m, run_next (step_loop h0 h1 h2 hle) m⟩

theorem sim_jump_if_false {c : Chunk D} {vm : VM D} {n hi lo : Nat}
    (h0 : c.code[vm.ip]? = some OpCode.OP_JUMP_IF_FALSE.toByte)
    (h1 : c.code[vm.ip + 1]? = some hi) (h2 : c.code[vm.ip + 2]? = some lo)
    (hq : (run c n vm).quiet) :
    ∃ m, m < n ∧ 1 ≤ vm.stack.length
      ∧ (run c n vm = run c m { vm with ip := vm.ip + 3 }
          ∨ run c n vm = run c m { vm with ip := vm.ip + 3 + ((hi <<< 8) ||| lo) % 65536 }) := by
  cases n with
  | zero => simp [run, Outcome.quiet] at hq
  | succ m =>
    cases hst : vm.stack with
    | nil =>
      rw [run, step_jump_if_false_empty h0 h1 h2 hst] at hq
      simp [Outcome.quiet] at hq
    | cons v rest =>
      refine ⟨m, Nat.lt_succ_self m, by simp, ?_⟩
      have h := run_next (step_jump_if_false h0 h1 h2 hst) m
      cases hf : isFalsey v
      · left
        rw [h]
        simp [hf, hst]
      · right
        rw [h]
        simp [hf, hst]

theorem sim_nil (c : Chunk D) : Sim c [] 0 0 := by
  intro n vm _ _
  exact ⟨n, vm, Nat.le_refl n, rfl, rfl, rfl⟩

theorem sim_append {c : Chunk D} {a b : List Nat} {p1 q1 p2 q2 : Nat}
    (ha : Sim c a p1 q1) (hb : Sim c b p2 q2) : Sim c (a ++ b) (p1 + p2) (q1 + q2) := by
  intro n vm hcode hq
  obtain ⟨m1, vm1, h1le, h1run, h1ip, h1len⟩ := ha n vm (sliceAt_left hcode) hq
  have hs : SliceAt c.code vm1.ip b := by
    rw [h1ip]
    exact sliceAt_right hcode
  obtain ⟨m2, vm2, h2le, h2run, h2ip, h2len⟩ := hb m1 vm1 hs (h1run ▸ hq)
  refine ⟨m2, vm2, Nat.le_trans h2le h1le, h1run.trans h2run, ?_, ?_⟩
  · rw [h2ip, h1ip, List.length_append, Nat.add_assoc]
  · omega

theorem sim_net {c : Chunk D} {code : List Nat} {p q p1 q1 : Nat}
    (h : Sim c code p q) (heq : p1 + q = q1 + p) : Sim c code p1 q1 := by
  intro n vm hcode hq
  obtain ⟨m, vm1, hle, hrun, hip, hlen⟩ := h n vm hcode hq
  exact ⟨m, vm1, hle, hrun, hip, by omega⟩

theorem sim_congr {c : Chunk D} {code code1 : List Nat} {p q p1 q1 : Nat}
    (h : Sim c code p q) (hc : code1 = code) (hp : p1 = p) (hq : q1 = q) : Sim c code1 p1 q1 := by
  subst hc hp hq
  exact h

theorem sim_instr (c : Chunk D) (op : OpCode) (operands : List Nat)
    (hs : op.isSimple = true) (hw : operands.length = op.operandWidth) :
    Sim c (op.toByte :: operands) op.pops op.pushes := by
  intro n vm hcode hq
  obtain ⟨m, vm1, hlt, hrun, hip, _, hlen⟩ := sim_simple op (sliceAt_head hcode) hs hq
  refine ⟨m, vm1, Nat.le_of_lt hlt, hrun, ?_, hlen⟩
  rw [hip, List.length_cons, hw, Nat.add_comm 1]

theorem sim_selected_binary (c : Chunk D) (t : TokenType) (h : (binaryOpcode t).isSome = true) :
    Sim c (selectedCode (binaryOpcode t)) 2 1 := by
  cases t <;> simp [binaryOpcode] at h <;>
    exact sim_instr c _ [] rfl rfl

theorem sim_selected_unary (c : Chunk D) (t : TokenType) :
    Sim c (selectedCode (unaryOpcode t)) 1 1 := by
  cases t <;> simp only [unaryOpcode, selectedCode] <;>
    first
    | exact sim_instr c _ [] rfl rfl
    | exact sim_net (sim_nil c) rfl

theorem sim_literal (c : Chunk D) (val : String) (base : Nat) :
    Sim c (literalCode val base) 0 1 := by
  unfold literalCode
  split_ifs
  · exact sim_instr c .OP_NIL [] rfl rfl
  · exact sim_instr c .OP_TRUE [] rfl rfl
  · exact sim_instr c .OP_FALSE [] rfl rfl
  · exact sim_instr c .OP_CONSTANT [base % 256] rfl rfl

mutual
theorem sim_expr (c : Chunk D) : (e : Expr) → plainExpr e = true → (base : Nat) →
    Sim c (exprCode e base) 0 1
  | .Binary left op right, h, base => by
      simp only [plainExpr, Bool.and_eq_true] at h
      simp only [exprCode]
      exact sim_net (sim_append (sim_append (sim_expr c left h.1.1 base)
        (sim_expr c right h.1.2 _)) (sim_selected_binary c op.type h.2)) rfl
  | .Grouping expression, h, base => by
      simp only [plainExpr] at h
      simp only [exprCode]
      exact sim_expr c expression h base
  | .Literal value, _, base => by
      simp only [exprCode]
      exact sim_literal c value base
  | .Unary op right, h, base => by
      simp only [plainExpr] at h
      simp only [exprCode]
      exact sim_net (sim_append (sim_expr c right h base) (sim_selected_unary c op.type)) rfl
  | .Variable _, _, base => by
      simp only [exprCode]
      exact sim_instr c .OP_GET_GLOBAL [base % 256] rfl rfl
  | .Assignment _ value, h, base => by
      simp only [plainExpr] at h
      simp only [exprCode]
      exact sim_net (sim_append (sim_expr c value h base)
        (sim_instr c .OP_SET_GLOBAL [_] rfl rfl)) rfl
  | .Call callee _ arguments, h, base => by
      simp only [plainExpr, Bool.and_eq_true] at h
      simp only [exprCode, h.1, if_true]
      exact sim_net (sim_append (sim_args c arguments h.2 base) (sim_instr c .OP_NIL [] rfl rfl))
        rfl
theorem sim_args (c : Chunk D) : (args : List Expr) → plainArgs args = true → (base : Nat) →
    Sim c (argsCode args base) 0 0
  | [], _, _ => by
      simp only [argsCode]
      exact sim_nil c
  | arg :: rest, h, base => by
      simp only [plainArgs, Bool.and_eq_true] at h
      simp only [argsCode]
      exact sim_net (sim_append
        (sim_append (sim_expr c arg h.1 base) (sim_instr c .OP_PRINT [] rfl rfl))
        (sim_args c rest h.2 _)) rfl
end


theorem sliceAt_pos {α : Type} {l : List α} {p q : Nat} {s : List α} (h : SliceAt l p s)
    (e : q = p) : SliceAt l q s := e ▸ h

theorem sim_pop (c : Chunk D) : Sim c [OpCode.OP_POP.toByte] 1 0 :=
  sim_instr c .OP_POP [] rfl rfl

theorem sim_if (c : Chunk D) (C T E : List Nat) (hle1 : T.length + 4 ≤ 65535)
    (hle2 : E.length + 1 ≤ 65535) (hC : Sim c C 0 1) (hT : Sim c T 0 0) (hE : Sim c E 0 0) :
    Sim c (C ++ [OpCode.OP_JUMP_IF_FALSE.toByte, hiByte (T.length + 4), loByte (T.length + 4),
                 OpCode.OP_POP.toByte]
             ++ T
             ++ [OpCode.OP_JUMP.toByte, hiByte (E.length + 1), loByte (E.length + 1),
                 OpCode.OP_POP.toByte]
             ++ E) 0 0 := by
  intro n vm hcode hq
  have sC := sliceAt_left (sliceAt_left (sliceAt_left (sliceAt_left hcode)))
  have sJ1 := sliceAt_right (sliceAt_left (sliceAt_left (sliceAt_left hcode)))
  have sT := sliceAt_right (sliceAt_left (sliceAt_left hcode))
  have sJ2 := sliceAt_right (sliceAt_left hcode)
  have sE := sliceAt_right hcode
  simp only [List.length_append, List.length_cons, List.length_nil, Nat.zero_add] at sT sJ2 sE
  obtain ⟨m1, vm1, h1le, h1run, h1ip, h1len⟩ := hC n vm sC hq
  have hq1 : (run c m1 vm1).quiet := h1run ▸ hq
  have sJ1a := sliceAt_pos sJ1 h1ip
  obtain ⟨m2, h2lt, _, h2⟩ := sim_jump_if_false (sliceAt_head sJ1a)
    (sliceAt_head (sliceAt_tail sJ1a)) (sliceAt_head (sliceAt_tail (sliceAt_tail sJ1a))) hq1
  rw [decode_short _ hle1] at h2
  rcases h2 with h2 | h2
  · -- the condition is truthy: POP, then-branch, JUMP over the else part
    have hq2 := h2 ▸ hq1
    obtain ⟨m3, vm3, h3le, h3run, h3ip, h3len⟩ := sim_pop c m2 _
      (sliceAt_tail (sliceAt_tail (sliceAt_tail sJ1a))) hq2
    have hq3 := h3run ▸ hq2
    simp only [List.length_singleton] at h3ip h3len
    obtain ⟨m4, vm4, h4le, h4run, h4ip, h4len⟩ := hT m3 vm3
      (sliceAt_pos sT (by rw [h3ip, h1ip]; omega)) hq3
    have hq4 := h4run ▸ hq3
    have sJ2a : SliceAt c.code vm4.ip _ := sliceAt_pos sJ2 (by rw [h4ip, h3ip, h1ip]; omega)
    obtain ⟨m5, h5lt, h5run⟩ := sim_jump (sliceAt_head sJ2a) (sliceAt_head (sliceAt_tail sJ2a))
      (sliceAt_head (sliceAt_tail (sliceAt_tail sJ2a))) hq4
    rw [decode_short _ hle2] at h5run
    refine ⟨m5, _, by omega, by rw [h1run, h2, h3run, h4run, h5run], ?_, ?_⟩
    · simp only [List.length_append, List.length_cons, List.length_nil]
      rw [h4ip, h3ip, h1ip]
      omega
    · simp only at h3len ⊢
      omega
  · -- the condition is falsey: jump to the second POP, then the else part
    have hq2 := h2 ▸ hq1
    obtain ⟨m3, vm3, h3le, h3run, h3ip, h3len⟩ := sim_pop c m2 _
      (sliceAt_pos (sliceAt_tail (sliceAt_tail (sliceAt_tail sJ2)))
        (by simp only [h1ip]; omega)) hq2
    have hq3 := h3run ▸ hq2
    simp only [List.length_singleton] at h3ip h3len
    obtain ⟨m4, vm4, h4le, h4run, h4ip, h4len⟩ := hE m3 vm3
      (sliceAt_pos sE (by rw [h3ip, h1ip]; omega)) hq3
    refine ⟨m4, vm4, by omega, by rw [h1run, h2, h3run, h4run], ?_, ?_⟩
    · simp only [List.length_append, List.length_cons, List.length_nil]
      rw [h4ip, h3ip, h1ip]
      omega
    · omega


theorem sim_while (c : Chunk D) (C B : List Nat) (hle : C.length + B.length + 7 ≤ 65535)
    (hC : Sim c C 0 1) (hB : Sim c B 0 0) :
    Sim c (C ++ [OpCode.OP_JUMP_IF_FALSE.toByte, hiByte (B.length + 4), loByte (B.length + 4),
                 OpCode.OP_POP.toByte]
             ++ B
             ++ [OpCode.OP_LOOP.toByte, hiByte (C.length + B.length + 7),
                 loByte (C.length + B.length + 7), OpCode.OP_POP.toByte]) 0 0 := by
  intro n
  induction n using Nat.strong_induction_on with
  | _ n ih =>
    intro vm hcode hq
    have sC := sliceAt_left (sliceAt_left (sliceAt_left hcode))
    have sJ1 := sliceAt_right (sliceAt_left (sliceAt_left hcode))
    have sB := sliceAt_right (sliceAt_left hcode)
    have sJ2 := sliceAt_right hcode
    simp only [List.length_append, List.length_cons, List.length_nil, Nat.zero_add] at sB sJ2
    obtain ⟨m1, vm1, h1le, h1run, h1ip, h1len⟩ := hC n vm sC hq
    have hq1 : (run c m1 vm1).quiet := h1run ▸ hq
    have sJ1a := sliceAt_pos sJ1 h1ip
    obtain ⟨m2, h2lt, _, h2⟩ := sim_jump_if_false (sliceAt_head sJ1a)
      (sliceAt_head (sliceAt_tail sJ1a)) (sliceAt_head (sliceAt_tail (sliceAt_tail sJ1a))) hq1
    rw [decode_short _ (by omega)] at h2
    rcases h2 with h2 | h2
    · -- the condition is truthy: POP, body, LOOP back to the condition
      have hq2 := h2 ▸ hq1
      obtain ⟨m3, vm3, h3le, h3run, h3ip, h3len⟩ := sim_pop c m2 _
        (sliceAt_tail (sliceAt_tail (sliceAt_tail sJ1a))) hq2
      have hq3 := h3run ▸ hq2
      simp only [List.length_singleton] at h3ip h3len
      obtain ⟨m4, vm4, h4le, h4run, h4ip, h4len⟩ := hB m3 vm3
        (sliceAt_pos sB (by rw [h3ip, h1ip]; omega)) hq3
      have hq4 := h4run ▸ hq3
      have h4pos : vm4.ip = vm.ip + (C.length + (0 + 1 + 1 + 1 + 1) + B.length) := by
        rw [h4ip, h3ip, h1ip]; omega
      have sJ2a : SliceAt c.code vm4.ip _ := sliceAt_pos sJ2 h4pos
      obtain ⟨m5, h5lt, h5run⟩ := sim_loop (sliceAt_head sJ2a) (sliceAt_head (sliceAt_tail sJ2a))
        (sliceAt_head (sliceAt_tail (sliceAt_tail sJ2a)))
        (by rw [decode_short _ hle, h4pos]; omega) hq4
      rw [decode_short _ hle] at h5run
      have hq5 := h5run ▸ hq4
      have h5ip : vm4.ip + 3 - (C.length + B.length + 7) = vm.ip := by
        rw [h4pos]; omega
      rw [h5ip] at h5run hq5
      obtain ⟨m6, vm6, h6le, h6run, h6ip, h6len⟩ := ih m5 (by omega) { vm4 with ip := vm.ip }
        hcode hq5
      refine ⟨m6, vm6, by omega, by rw [h1run, h2, h3run, h4run, h5run, h6run], h6ip, ?_⟩
      simp only at h6len h3len
      omega
    · -- the condition is falsey: jump to the final POP
      have hq2 := h2 ▸ hq1
      obtain ⟨m3, vm3, h3le, h3run, h3ip, h3len⟩ := sim_pop c m2 _
        (sliceAt_pos (sliceAt_tail (sliceAt_tail (sliceAt_tail sJ2)))
          (by simp only [h1ip]; omega)) hq2
      simp only [List.length_singleton] at h3ip h3len
      refine ⟨m3, vm3, by omega, by rw [h1run, h2, h3run], ?_, ?_⟩
      · simp only [List.length_append, List.length_cons, List.length_nil]
        rw [h3ip, h1ip]
        omega
      · omega


mutual
theorem plainStmt_nullFree : (s : Stmt) → plainStmt s = true → nullFree s = true
  | .Expression _, _ => rfl
  | .Print _, _ => rfl
  | .VarDecl _ _, _ => rfl
  | .Block statements, h => by
      simp only [plainStmt] at h
      simp only [nullFree]
      exact plainStmts_nullFree statements h
  | .If _ thenBranch (some e), h => by
      simp only [plainStmt, Bool.and_eq_true] at h
      simp only [nullFree, Bool.and_eq_true]
      exact ⟨plainStmt_nullFree thenBranch h.1.1.1.2, plainStmt_nullFree e h.1.1.2⟩
  | .If _ thenBranch none, h => by
      simp only [plainStmt, Bool.and_eq_true] at h
      simp only [nullFree]
      exact plainStmt_nullFree thenBranch h.1.2
  | .While _ body, h => by
      simp only [plainStmt, Bool.and_eq_true] at h
      simp only [nullFree]
      exact plainStmt_nullFree body h.1.2
  | .Function _ _ _, _ => rfl
  | .Return _ _, _ => rfl
theorem plainStmts_nullFree : (ss : List (Option Stmt)) → plainStmts ss = true →
    nullFreeList ss = true
  | [], _ => rfl
  | none :: _, h => by simp [plainStmts] at h
  | some s :: rest, h => by
      simp only [plainStmts, Bool.and_eq_true] at h
      simp only [nullFreeList, Bool.and_eq_true]
      exact ⟨plainStmt_nullFree s h.1, plainStmts_nullFree rest h.2⟩
end

mutual
theorem sim_stmt (c : Chunk D) : (s : Stmt) → plainStmt s = true → (base : Nat) →
    Sim c (stmtCode s base) 0 0
  | .Expression expression, h, base => by
      simp only [plainStmt] at h
      simp only [stmtCode]
      exact sim_net (sim_append (sim_expr c expression h base) (sim_pop c)) rfl
  | .Print _, _, _ => by
      simp only [stmtCode]
      exact sim_nil c
  | .VarDecl _ (some e), h, base => by
      simp only [plainStmt] at h
      simp only [stmtCode, optExprCode]
      exact sim_net (sim_append (sim_expr c e h base)
        (sim_instr c .OP_DEFINE_GLOBAL [_] rfl rfl)) rfl
  | .VarDecl _ none, _, base => by
      simp only [stmtCode, optExprCode]
      exact sim_net (sim_append (sim_instr c .OP_NIL [] rfl rfl)
        (sim_instr c .OP_DEFINE_GLOBAL [_] rfl rfl)) rfl
  | .Block statements, h, base => by
      simp only [plainStmt] at h
      simp only [stmtCode]
      exact sim_stmts c statements h base
  | .If condition thenBranch (some e), h, base => by
      simp only [plainStmt, Bool.and_eq_true, decide_eq_true_eq] at h
      simp only [stmtCode]
      have hT := stmtCode_length thenBranch (base + exprCount condition)
      have hE := stmtCode_length e (base + exprCount condition + stmtCount thenBranch)
      have := sim_if c (exprCode condition base)
        (stmtCode thenBranch (base + exprCount condition))
        (stmtCode e (base + exprCount condition + stmtCount thenBranch))
        (by rw [hT]; exact h.1.2) (by rw [hE]; exact h.2)
        (sim_expr c condition h.1.1.1.1 base) (sim_stmt c thenBranch h.1.1.1.2 _)
        (sim_stmt c e h.1.1.2 _)
      rw [hT, hE] at this
      exact this
  | .If condition thenBranch none, h, base => by
      simp only [plainStmt, Bool.and_eq_true, decide_eq_true_eq] at h
      simp only [stmtCode]
      have hT := stmtCode_length thenBranch (base + exprCount condition)
      have := sim_if c (exprCode condition base)
        (stmtCode thenBranch (base + exprCount condition)) []
        (by rw [hT]; exact h.2) (by simp)
        (sim_expr c condition h.1.1 base) (sim_stmt c thenBranch h.1.2 _) (sim_nil c)
      rw [hT] at this
      simpa using this
  | .While condition body, h, base => by
      simp only [plainStmt, Bool.and_eq_true, decide_eq_true_eq] at h
      simp only [stmtCode]
      have hB := stmtCode_length body (base + exprCount condition)
      have hCl := exprCode_length condition base 0
      have := sim_while c (exprCode condition base)
        (stmtCode body (base + exprCount condition))
        (by rw [hB, hCl]; exact h.2)
        (sim_expr c condition h.1.1 base) (sim_stmt c body h.1.2 _)
      rw [hB, hCl] at this
      exact this
  | .Function _ _ _, _, _ => by
      simp only [stmtCode]
      exact sim_nil c
  | .Return _ _, h, _ => by simp [plainStmt] at h
theorem sim_stmts (c : Chunk D) : (ss : List (Option Stmt)) → plainStmts ss = true →
    (base : Nat) → Sim c (stmtsCode ss base) 0 0
  | [], _, _ => by
      simp only [stmtsCode]
      exact sim_nil c
  | none :: _, h, _ => by simp [plainStmts] at h
  | some s :: rest, h, base => by
      simp only [plainStmts, Bool.and_eq_true] at h
      simp only [stmtsCode]
      exact sim_append (sim_stmt c s h.1 base) (sim_stmts c rest h.2 _)
end

/-- C3, as the code behaves: for a statement list without null entries, `return`
statements, binary operators other than `+ - * / == > <` and calls other than
`print`, with every jump distance at most 65,535: if running the compiled chunk
from an empty stack returns `OK` and no operand type mismatch was reported, the
operand stack is empty when the final `OP_RETURN` is executed. -/
theorem plain_program_returns_with_empty_stack (ss : List (Option Stmt))
    (hp : plainStmts ss = true) (g : String → Option (Value D)) (fuel : Nat)
    (c : Chunk D) (vm : VM D)
    (hc : compile ss ({} : Chunk D) = some (true, c))
    (hrun : interpret fuel c { globals := g } = .finished .OK vm)
    (herr : vm.err = []) :
    vm.stack = [] := by
  rw [compile_eq ss (plainStmts_nullFree ss hp) {}] at hc
  simp only [Option.some.injEq, Prod.mk.injEq, true_and] at hc
  have hcode : c.code = stmtsCode ss 0 ++ [OpCode.OP_RETURN.toByte] := by
    rw [← hc]; simp [Chunk.extend]
  unfold interpret at hrun
  have hq : (run c fuel { ip := 0, globals := g }).quiet := by
    rw [hrun]; exact herr
  have hs : SliceAt c.code 0 (stmtsCode ss 0) := by
    rw [hcode]; exact sliceAt_zero _ _
  obtain ⟨m, vm1, _, h1run, h1ip, h1len⟩ := sim_stmts c ss hp 0 fuel _ hs hq
  have hret : c.code[vm1.ip]? = some OpCode.OP_RETURN.toByte := by
    rw [h1ip, hcode]
    simp
  rw [h1run] at hrun
  cases m with
  | zero => simp [run] at hrun
  | succ m =>
    rw [run_halt (step_return hret)] at hrun
    simp only [Outcome.finished.injEq, true_and] at hrun
    rw [← hrun]
    simp only at h1len ⊢
    exact List.length_eq_zero.mp (by simpa using h1len)

/-- The theorem above on `if nil then nil end`, which returns `OK` in four steps. -/
theorem plain_program_returns_with_empty_stack_witness :
    plainStmts (ifProgram 1) = true
      ∧ compile (ifProgram 1) ({} : Chunk Int) = some (true, ifChunk)
      ∧ interpret 4 ifChunk {} = .finished .OK ifFinal
      ∧ ifFinal.err = [] ∧ ifFinal.stack = [] :=
  ⟨by decide, by rfl, by rfl, rfl,
   plain_program_returns_with_empty_stack (ifProgram 1) (by decide) (fun _ => none) 4 ifChunk
     ifFinal (by rfl) (by rfl) rfl⟩

/-- C3 fails on the code: `return nil` compiles to `OP_NIL OP_RETURN OP_RETURN`;
the run returns `OK` at the first `OP_RETURN` with `nil` on the stack. -/
theorem return_statement_leaves_value_on_stack :
    ∃ (c : Chunk Int) (vm : VM Int),
      compile returnProgram ({} : Chunk Int) = some (true, c)
        ∧ interpret 2 c {} = .finished .OK vm
        ∧ vm.err = [] ∧ vm.stack = [.Nil] :=
  ⟨{ code := [1, 21, 21], constants := [], lines := [0, 0, 0] },
   { ip := 2, stack := [.Nil], globals := fun _ => none, out := [], err := [] },
   rfl, rfl, rfl, rfl⟩

end Quiet

/-! ## The bounded loops of the scanner stop at their exit condition

Each inner loop of the scanner is given `source.length - current` iterations.
The lemmas below show that this is enough: the state a loop returns falsifies
the loop condition, as the state after the `while` statement does. -/

section ScannerLoops

theorem peek_of_isAtEnd (lx : Lexer) (h : lx.isAtEnd = true) : lx.peek = Char.ofNat 0 := by
  simp [Lexer.peek, h]

theorem isAtEnd_of_budget_zero (lx : Lexer) (h : lx.source.length - lx.current ≤ 0) :
    lx.isAtEnd = true := by
  simp only [Lexer.isAtEnd, decide_eq_true_eq]
  omega

theorem skipComment_exit : ∀ (budget : Nat) (lx : Lexer),
    lx.source.length - lx.current ≤ budget →
    ¬ ((Lexer.skipComment budget lx).peek ≠ Char.ofNat 10
        ∧ (!(Lexer.skipComment budget lx).isAtEnd) = true)
  | 0, lx, h => by
      simp [Lexer.skipComment, isAtEnd_of_budget_zero lx h]
  | budget + 1, lx, h => by
      unfold Lexer.skipComment
      by_cases hc : lx.peek ≠ Char.ofNat 10 ∧ (!lx.isAtEnd) = true
      · rw [if_pos hc]
        exact skipComment_exit budget lx.advance.2 (by
          show lx.source.length - (lx.current + 1) ≤ budget
          omega)
      · rw [if_neg hc]
        exact hc

theorem stringBody_exit : ∀ (budget : Nat) (lx : Lexer),
    lx.source.length - lx.current ≤ budget →
    ¬ ((Lexer.stringBody budget lx).peek ≠ Char.ofNat 34
        ∧ (!(Lexer.stringBody budget lx).isAtEnd) = true)
  | 0, lx, h => by
      simp [Lexer.stringBody, isAtEnd_of_budget_zero lx h]
  | budget + 1, lx, h => by
      unfold Lexer.stringBody
      by_cases hc : lx.peek ≠ Char.ofNat 34 ∧ (!lx.isAtEnd) = true
      · rw [if_pos hc]
        refine stringBody_exit budget _ ?_
        by_cases hn : lx.peek = Char.ofNat 10
        · simp only [hn, if_true]
          show lx.source.length - (lx.current + 1) ≤ budget
          omega
        · simp only [hn, if_false]
          show lx.source.length - (lx.current + 1) ≤ budget
          omega
      · rw [if_neg hc]
        exact hc

theorem digits_exit : ∀ (budget : Nat) (lx : Lexer),
    lx.source.length - lx.current ≤ budget →
    (Lexer.digits budget lx).peek.isDigit = false
  | 0, lx, h => by
      rw [Lexer.digits, peek_of_isAtEnd lx (isAtEnd_of_budget_zero lx h)]
      decide
  | budget + 1, lx, h => by
      unfold Lexer.digits
      by_cases hc : lx.peek.isDigit = true
      · rw [if_pos hc]
        exact digits_exit budget lx.advance.2 (by
          show lx.source.length - (lx.current + 1) ≤ budget
          omega)
      · rw [if_neg hc]
        simpa using hc

theorem identifierBody_exit : ∀ (budget : Nat) (lx : Lexer),
    lx.source.length - lx.current ≤ budget →
    ¬ ((Lexer.identifierBody budget lx).peek.isAlphanum = true
        ∨ (Lexer.identifierBody budget lx).peek = Char.ofNat 95)
  | 0, lx, h => by
      rw [Lexer.identifierBody, peek_of_isAtEnd lx (isAtEnd_of_budget_zero lx h)]
      decide
  | budget + 1, lx, h => by
      unfold Lexer.identifierBody
      by_cases hc : lx.peek.isAlphanum = true ∨ lx.peek = Char.ofNat 95
      · rw [if_pos hc]
        exact identifierBody_exit budget lx.advance.2 (by
          show lx.source.length - (lx.current + 1) ≤ budget
          omega)
      · rw [if_neg hc]
        exact hc

end ScannerLoops

/-! ## Claims about single instructions -/

section Instructions
variable {D : Type} [DoubleModel D]

theorem scan_printEqual : scanTokens printEqualSource = some printEqualTokens := by decide

theorem parse_printEqual (k : Nat) :
    Parser.parse (k + 30) printEqualTokens = .ok printEqualProgram 6 := by rfl

theorem compile_printEqual :
    compile printEqualProgram ({} : Chunk D) = some (true, printEqualChunk D) := by rfl

theorem interpret_printEqual (k : Nat) :
    interpret (k + 7) (printEqualChunk D) {}
      = .finished .OK { ip := 7, stack := [], globals := fun _ => none, out := ["false"],
                        err := [] } := by rfl

/-- C11, as the code behaves: `valuesEqual a b` is true exactly when `a` and `b`
hold the same alternative with payloads that the `==` of their type makes equal
(two `Nil`, two equal Booleans, two numbers equal by the `==` of `double`, two
equal strings); values of different alternatives are unequal; `OP_EQUAL` on a
stack `b :: a :: rest` continues with the Boolean `valuesEqual a b` in place of
the operands and reports nothing; a number is unequal to every string and to
every Boolean, `Nil` to every Boolean; and the source `print(nil == false)` runs
to `OK` having written `false`. On two numbers the result is the `==` of
`double`, so that a value is equal to itself unless it is a number that `==`
makes unequal to itself, and when `==` on `double` holds of equal numbers only
and of all of them, `valuesEqual a b` is true exactly when `a = b`. -/
theorem valuesEqual_iff_same_tag_and_payload (a b : Value D) :
    (valuesEqual a b = true ↔
        (a = .Nil ∧ b = .Nil)
        ∨ (∃ x y, a = .Boolean x ∧ b = .Boolean y ∧ x = y)
        ∨ (∃ x y, a = .Number x ∧ b = .Number y ∧ DoubleModel.eq x y = true)
        ∨ (∃ x y, a = .Str x ∧ b = .Str y ∧ x = y))
      ∧ (a.index ≠ b.index → valuesEqual a b = false)
      ∧ (∀ (c : Chunk D) (vm : VM D) (rest : List (Value D)),
          c.code[vm.ip]? = some OpCode.OP_EQUAL.toByte → vm.stack = b :: a :: rest →
          step c vm
            = .next { vm with ip := vm.ip + 1, stack := .Boolean (valuesEqual a b) :: rest })
      ∧ (∀ (x : D) (s : String), valuesEqual (.Number x) (.Str s) = false)
      ∧ (∀ (x : D) (t : Bool), valuesEqual (.Number x) (.Boolean t) = false)
      ∧ (∀ (t : Bool), valuesEqual (.Nil : Value D) (.Boolean t) = false)
      ∧ (∀ k, Main.run (D := D) (k + 30) printEqualSource
          = .executed (.finished .OK { ip := 7, stack := [], globals := fun _ => none,
                                       out := ["false"], err := [] }))
      ∧ (∀ x y : D, valuesEqual (.Number x) (.Number y) = DoubleModel.eq x y)
      ∧ (valuesEqual a a = true ↔ ∀ x : D, a = .Number x → DoubleModel.eq x x = true)
      ∧ ((∀ x y : D, DoubleModel.eq x y = true ↔ x = y) → (valuesEqual a b = true ↔ a = b)) := by
  refine ⟨?_, ?_, ?_, ?_, ?_, ?_, ?_, ?_, ?_, ?_⟩
  · cases a <;> cases b <;> simp [valuesEqual, Value.index]
  · intro h
    simp [valuesEqual, h]
  · intro c vm rest h0 hs
    exact step_equal h0 hs
  · intro x s
    simp [valuesEqual, Value.index]
  · intro x t
    simp [valuesEqual, Value.index]
  · intro t
    simp [valuesEqual, Value.index]
  · intro k
    simp only [Main.run, scan_printEqual, parse_printEqual, compile_printEqual]
    rw [show k + 30 = (k + 23) + 7 by omega, interpret_printEqual]
    rfl
  · intro x y
    simp [valuesEqual, Value.index]
  · cases a <;> simp [valuesEqual, Value.index]
  · intro h
    cases a <;> cases b <;> simp [valuesEqual, Value.index, h]

/-- The theorem above in the integer model, whose `==` is equality, on the
number 1 and itself. -/
theorem valuesEqual_iff_same_tag_and_payload_witness :
    (∀ x y : Int, DoubleModel.eq x y = true ↔ x = y)
      ∧ (valuesEqual (Value.Number (1 : Int)) (Value.Number (1 : Int)) = true
          ↔ Value.Number (1 : Int) = Value.Number (1 : Int)) :=
  ⟨fun _ _ => decide_eq_true_iff,
    (valuesEqual_iff_same_tag_and_payload (Value.Number (1 : Int))
      (Value.Number (1 : Int))).2.2.2.2.2.2.2.2.2 (fun _ _ => decide_eq_true_iff)⟩

/-- C12: `OP_GET_GLOBAL` whose operand names `x` pushes `Nil` when `x` is absent
from the globals and the bound value when it is present; in both cases the step
continues (no runtime error) and only the instruction pointer and the stack
change. -/
theorem get_global_pushes_binding_or_nil (c : Chunk D) (vm : VM D) (i : Nat) (x : String)
    (h0 : c.code[vm.ip]? = some OpCode.OP_GET_GLOBAL.toByte)
    (h1 : c.code[vm.ip + 1]? = some i) (hc : c.constants[i]? = some (.Str x)) :
    (vm.globals x = none →
        step c vm = .next { vm with ip := vm.ip + 2, stack := .Nil :: vm.stack })
      ∧ (∀ v, vm.globals x = some v →
        step c vm = .next { vm with ip := vm.ip + 2, stack := v :: vm.stack }) := by
  have h := step_get_global h0 h1 hc
  constructor
  · intro hg
    rw [h, hg]
    rfl
  · intro v hg
    rw [h, hg]
    rfl

/-- The theorem above on the chunk `GET_GLOBAL "x"`: with no global defined the
step pushes `Nil`, with `x` bound to 7 it pushes 7. -/
theorem get_global_pushes_binding_or_nil_witness :
    step getGlobalChunk ({} : VM Int) = .next { ip := 2, stack := [.Nil] }
      ∧ step getGlobalChunk ({ globals := fun _ => some (.Number 7) } : VM Int)
          = .next { ip := 2, stack := [.Number 7], globals := fun _ => some (.Number 7) } :=
  ⟨(get_global_pushes_binding_or_nil getGlobalChunk {} 0 "x" rfl rfl rfl).1 rfl,
   (get_global_pushes_binding_or_nil getGlobalChunk { globals := fun _ => some (.Number 7) }
      0 "x" rfl rfl rfl).2 (.Number 7) rfl⟩

/-- C13: `OP_SET_GLOBAL` whose operand names `x`, on a stack with top `v`,
continues with `globals[x] = v` whether or not `x` was defined, every other
binding as before, and the stack, the output and the error stream unchanged. -/
theorem set_global_binds_and_keeps_stack (c : Chunk D) (vm : VM D) (i : Nat) (x : String)
    (v : Value D) (rest : List (Value D))
    (h0 : c.code[vm.ip]? = some OpCode.OP_SET_GLOBAL.toByte)
    (h1 : c.code[vm.ip + 1]? = some i) (hc : c.constants[i]? = some (.Str x))
    (hs : vm.stack = v :: rest) :
    ∃ vm1, step c vm = .next vm1 ∧ vm1.globals x = some v
      ∧ (∀ y, y ≠ x → vm1.globals y = vm.globals y)
      ∧ vm1.stack = v :: rest ∧ vm1.ip = vm.ip + 2 ∧ vm1.out = vm.out ∧ vm1.err = vm.err := by
  refine ⟨_, step_set_global h0 h1 hc hs, ?_, ?_, hs, rfl, rfl, rfl⟩
  · simp
  · intro y hy
    simp [hy]

/-- The theorem above on the chunk `SET_GLOBAL "x"` with 7 on the stack and `x`
bound to `nil` before. -/
theorem set_global_binds_and_keeps_stack_witness :
    ∃ vm1, step setGlobalChunk ({ stack := [.Number 7], globals := fun _ => some .Nil } : VM Int)
        = .next vm1 ∧ vm1.globals "x" = some (.Number 7)
      ∧ (∀ y, y ≠ "x" → vm1.globals y = some .Nil)
      ∧ vm1.stack = [.Number 7] ∧ vm1.ip = 0 + 2 ∧ vm1.out = [] ∧ vm1.err = [] :=
  set_global_binds_and_keeps_stack setGlobalChunk
    { stack := [.Number 7], globals := fun _ => some .Nil } 0 "x" (.Number 7) [] rfl rfl rfl rfl

/-- C14: `OP_DEFINE_GLOBAL` whose operand names `x`, on a stack with top `v`,
continues with `globals[x] = v` whether or not `x` was defined, every other
binding as before, and exactly the top value removed from the stack. -/
theorem define_global_binds_and_pops (c : Chunk D) (vm : VM D) (i : Nat) (x : String)
    (v : Value D) (rest : List (Value D))
    (h0 : c.code[vm.ip]? = some OpCode.OP_DEFINE_GLOBAL.toByte)
    (h1 : c.code[vm.ip + 1]? = some i) (hc : c.constants[i]? = some (.Str x))
    (hs : vm.stack = v :: rest) :
    ∃ vm1, step c vm = .next vm1 ∧ vm1.globals x = some v
      ∧ (∀ y, y ≠ x → vm1.globals y = vm.globals y)
      ∧ vm1.stack = rest ∧ vm1.ip = vm.ip + 2 ∧ vm1.out = vm.out ∧ vm1.err = vm.err := by
  refine ⟨_, step_define_global h0 h1 hc hs, ?_, ?_, rfl, rfl, rfl, rfl⟩
  · simp
  · intro y hy
    simp [hy]

/-- The theorem above on the chunk `DEFINE_GLOBAL "x"` with 7 on top of `true` and
`x` bound to `nil` before. -/
theorem define_global_binds_and_pops_witness :
    ∃ vm1, step defineGlobalChunk
          ({ stack := [.Number 7, .Boolean true], globals := fun _ => some .Nil } : VM Int)
        = .next vm1 ∧ vm1.globals "x" = some (.Number 7)
      ∧ (∀ y, y ≠ "x" → vm1.globals y = some .Nil)
      ∧ vm1.stack = [.Boolean true] ∧ vm1.ip = 0 + 2 ∧ vm1.out = [] ∧ vm1.err = [] :=
  define_global_binds_and_pops defineGlobalChunk
    { stack := [.Number 7, .Boolean true], globals := fun _ => some .Nil } 0 "x" (.Number 7)
    [.Boolean true] rfl rfl rfl rfl

theorem short_of_bytes (hi lo : Nat) (hhi : hi < 256) (hlo : lo < 256) :
    ((hi <<< 8) ||| lo) % 65536 = hi * 256 + lo := by
  have h2 : lo < 2 ^ 8 := hlo
  rw [Nat.shiftLeft_eq, Nat.mul_comm, ← Nat.mul_add_lt_is_or h2]
  have : 2 ^ 8 * hi + lo < 65536 := by omega
  rw [Nat.mod_eq_of_lt this]

/-- C15: `OP_JUMP_IF_FALSE` with operand bytes `hi lo` (the two-byte operand
`k = hi * 256 + lo`), on a stack with top `v`, continues with the instruction
pointer at the offset after the operand plus `k` when `v` is falsey and at the
offset after the operand otherwise; the stack, the globals, the output and the
error stream are unchanged. -/
theorem jump_if_false_moves_only_ip (c : Chunk D) (vm : VM D) (hi lo : Nat) (v : Value D)
    (rest : List (Value D))
    (h0 : c.code[vm.ip]? = some OpCode.OP_JUMP_IF_FALSE.toByte)
    (h1 : c.code[vm.ip + 1]? = some hi) (h2 : c.code[vm.ip + 2]? = some lo)
    (hhi : hi < 256) (hlo : lo < 256) (hs : vm.stack = v :: rest) :
    step c vm = .next { vm with
      ip := if isFalsey v then vm.ip + 3 + (hi * 256 + lo) else vm.ip + 3 } := by
  rw [step_jump_if_false h0 h1 h2 hs, short_of_bytes hi lo hhi hlo]

/-- The theorem above on the chunk `JUMP_IF_FALSE 0x01 0x02`: with `nil` on the
stack the instruction pointer moves to 3 + 258, with 0 on the stack to 3. -/
theorem jump_if_false_moves_only_ip_witness :
    step jumpIfFalseChunk ({ stack := [.Nil] } : VM Int) = .next { ip := 261, stack := [.Nil] }
      ∧ step jumpIfFalseChunk ({ stack := [.Number 0] } : VM Int)
          = .next { ip := 3, stack := [.Number 0] } :=
  ⟨jump_if_false_moves_only_ip jumpIfFalseChunk { stack := [.Nil] } 1 2 .Nil [] rfl rfl rfl
      (by decide) (by decide) rfl,
   jump_if_false_moves_only_ip jumpIfFalseChunk { stack := [.Number 0] } 1 2 (.Number 0) []
      rfl rfl rfl (by decide) (by decide) rfl⟩

end Instructions

/-! ## States reached by compiled expressions -/

section Trace
variable {D : Type} [DoubleModel D]

theorem stateAfter_succ {c : Chunk D} {r : Nat → Bool} {s t : VM D} (hr : r s.ip = true)
    (h : step c s = .next t) (n : Nat) :
    stateAfter c r (n + 1) s = stateAfter c r n t := by
  simp [stateAfter, hr, h]

theorem stateAfter_one {c : Chunk D} {r : Nat → Bool} {s t : VM D} (hr : r s.ip = true)
    (h : step c s = .next t) : stateAfter c r 1 s = some t := by
  simp [stateAfter, hr, h]

theorem stateAfter_trans {c : Chunk D} {r : Nat → Bool} :
    ∀ (k1 k2 : Nat) (s t u : VM D), stateAfter c r k1 s = some t →
      stateAfter c r k2 t = some u → stateAfter c r (k1 + k2) s = some u
  | 0, k2, s, t, u, h1, h2 => by
      simp only [stateAfter, Option.some.injEq] at h1
      subst h1
      simpa using h2
  | k1 + 1, k2, s, t, u, h1, h2 => by
      have e : k1 + 1 + k2 = (k1 + k2) + 1 := by omega
      rw [e]
      simp only [stateAfter] at h1 ⊢
      by_cases hr : r s.ip = true
      · simp only [hr, if_true] at h1 ⊢
        cases hst : step c s with
        | next s1 =>
          simp only [hst] at h1 ⊢
          exact stateAfter_trans k1 k2 s1 t u h1 h2
        | halt res s1 => simp [hst] at h1
        | fault => simp [hst] at h1
      · simp [hr] at h1

theorem stateAfter_mono {c : Chunk D} {r q : Nat → Bool} (hrq : ∀ ip, r ip = true → q ip = true) :
    ∀ (k : Nat) (s t : VM D), stateAfter c r k s = some t → stateAfter c q k s = some t
  | 0, s, t, h => by simpa [stateAfter] using h
  | k + 1, s, t, h => by
      simp only [stateAfter] at h ⊢
      by_cases hr : r s.ip = true
      · simp only [hr, if_true] at h
        simp only [hrq _ hr, if_true]
        cases hst : step c s with
        | next s1 =>
          simp only [hst] at h ⊢
          exact stateAfter_mono hrq k s1 t h
        | halt res s1 => simp [hst] at h
        | fault => simp [hst] at h
      · simp [hr] at h

theorem stateAfter_run {c : Chunk D} {r : Nat → Bool} :
    ∀ (k : Nat) (s t : VM D), stateAfter c r k s = some t →
      ∀ n, run c (n + k) s = run c n t
  | 0, s, t, h, n => by
      simp only [stateAfter, Option.some.injEq] at h
      subst h
      rfl
  | k + 1, s, t, h, n => by
      simp only [stateAfter] at h
      by_cases hr : r s.ip = true
      · simp only [hr, if_true] at h
        cases hst : step c s with
        | next s1 =>
          simp only [hst] at h
          have e : n + (k + 1) = (n + k) + 1 := by omega
          rw [e, run_next hst]
          exact stateAfter_run k s1 t h n
        | halt res s1 => simp [hst] at h
        | fault => simp [hst] at h
      · simp [hr] at h

theorem inRange_widen {lo hi lo1 hi1 : Nat} (h1 : lo1 ≤ lo) (h2 : hi ≤ hi1) :
    ∀ ip, inRange lo hi ip = true → inRange lo1 hi1 ip = true := by
  intro ip h
  simp only [inRange, Bool.and_eq_true, decide_eq_true_eq] at h ⊢
  omega

theorem inRange_self {lo hi : Nat} (h : lo < hi) : inRange lo hi lo = true := by
  simp only [inRange, Bool.and_eq_true, decide_eq_true_eq]
  omega

theorem inRange_at {lo hi ip : Nat} (h1 : lo ≤ ip) (h2 : ip < hi) : inRange lo hi ip = true := by
  simp only [inRange, Bool.and_eq_true, decide_eq_true_eq]
  omega

theorem step_print {c : Chunk D} {vm : VM D} {v : Value D} {t : List (Value D)}
    (h0 : c.code[vm.ip]? = some OpCode.OP_PRINT.toByte) (hs : vm.stack = v :: t) :
    step c vm = .next { vm with ip := vm.ip + 1, stack := t, out := vm.out ++ [printValue v] } := by
  simp [step, readByte, h0, opcode_ofByte_toByte, VM.pop, hs]

theorem literalCode_pos (value : String) (base : Nat) : 0 < (literalCode value base).length := by
  unfold literalCode
  split_ifs <;> simp

theorem step_literal (value : String) (c : Chunk D) (vm : VM D) (base : Nat)
    (hcode : SliceAt c.code vm.ip (literalCode value base))
    (hconst : SliceAt c.constants base
      (if isKeywordLiteral value then [] else [(literalValue value : Value D)]))
    (hb : base + (if isKeywordLiteral value then 0 else 1) ≤ 256) :
    step c vm
      = .next { vm with ip := vm.ip + (literalCode value base).length,
                        stack := literalValue value :: vm.stack } := by
  by_cases hk : isKeywordLiteral value = true
  · have hcode0 : literalCode value base = literalCode value 0 := by
      unfold isKeywordLiteral at hk
      unfold literalCode
      by_cases h1 : value = "nil"
      · simp [h1]
      · by_cases h2 : value = "true"
        · simp [h2]
        · by_cases h3 : value = "false"
          · simp [h3]
          · simp [h1, h2, h3] at hk
    rw [hcode0] at hcode ⊢
    rcases literalValue_keyword (D := D) value hk with ⟨h1, h2⟩ | ⟨h1, h2⟩ | ⟨h1, h2⟩
    · rw [h1] at hcode ⊢
      rw [h2, step_nil (sliceAt_head hcode)]
      rfl
    · rw [h1] at hcode ⊢
      rw [h2, step_true (sliceAt_head hcode)]
      rfl
    · rw [h1] at hcode ⊢
      rw [h2, step_false (sliceAt_head hcode)]
      rfl
  · have hk2 : isKeywordLiteral value = false := by simpa using hk
    have hcode1 : literalCode value base = [OpCode.OP_CONSTANT.toByte, base % 256] := by
      unfold isKeywordLiteral at hk2
      unfold literalCode
      simp only [Bool.or_eq_false_iff, decide_eq_false_iff_not] at hk2
      simp [hk2.1.1, hk2.1.2, hk2.2]
    rw [hk2] at hconst hb
    simp only [Bool.false_eq_true, if_false] at hconst hb
    rw [hcode1] at hcode ⊢
    have hmod : base % 256 = base := Nat.mod_eq_of_lt (by omega)
    rw [hmod] at hcode
    rw [step_constant (sliceAt_head hcode) (sliceAt_head (sliceAt_tail hcode))
      (sliceAt_head hconst)]
    rfl

mutual
theorem exec_expr : (e : Expr) → (v : Value D) → (s1 : Store D) → (c : Chunk D) → (vm : VM D) →
    (base : Nat) → evalIn e ⟨vm.globals, vm.out⟩ = some (v, s1) →
    SliceAt c.code vm.ip (exprCode e base) → SliceAt c.constants base (exprConsts e) →
    base + exprCount e ≤ 256 →
    stateAfter c (inRange vm.ip (vm.ip + (exprCode e base).length)) (exprSteps e) vm
      = some { vm with ip := vm.ip + (exprCode e base).length, stack := v :: vm.stack,
                       globals := s1.globals, out := s1.out }
  | .Binary left op right, v, s1, c, vm, base, hv, hcode, hconst, hb => by
      simp only [evalIn] at hv
      simp only [exprCode, exprConsts, exprCount, exprSteps] at hcode hconst hb ⊢
      cases hoc : binaryOpcode op.type with
      | none => simp [hoc] at hv
      | some oc =>
        cases ha : evalIn left ⟨vm.globals, vm.out⟩ with
        | none => simp [hoc, ha] at hv
        | some ra =>
          obtain ⟨a, sa⟩ := ra
          cases hbv : evalIn right sa with
          | none => simp [hoc, ha, hbv] at hv
          | some rb =>
            obtain ⟨b, sb⟩ := rb
            cases hab : applyBinary oc a b with
            | none => simp [hoc, ha, hbv, hab] at hv
            | some w =>
              simp only [hoc, ha, hbv, hab, Option.some.injEq, Prod.mk.injEq] at hv
              obtain ⟨hv1, hv2⟩ := hv
              subst hv1 hv2
              simp only [hoc, selectedCode, List.length_append, List.length_singleton] at hcode ⊢
              have hl := exec_expr left a sa c vm base ha
                (sliceAt_left (sliceAt_left hcode)) (sliceAt_left hconst) (by omega)
              have hcr : SliceAt c.constants (base + exprCount left) (exprConsts right) := by
                have := sliceAt_right hconst
                rwa [exprConsts_length] at this
              have hr := exec_expr right b sb c
                { vm with ip := vm.ip + (exprCode left base).length, stack := a :: vm.stack,
                          globals := sa.globals, out := sa.out }
                (base + exprCount left) hbv
                (sliceAt_right (sliceAt_left hcode)) hcr (by omega)
              have hop := sliceAt_head (sliceAt_right hcode)
              have hst := step_binary (c := c)
                (s := { vm with
                  ip := vm.ip + (exprCode left base).length
                    + (exprCode right (base + exprCount left)).length,
                  stack := b :: a :: vm.stack, globals := sb.globals, out := sb.out })
                (r := vm.stack) hoc (by simpa [Nat.add_assoc] using hop) rfl hab
              have h1 := stateAfter_mono (q := inRange vm.ip (vm.ip + ((exprCode left base).length
                  + (exprCode right (base + exprCount left)).length + 1)))
                (inRange_widen (Nat.le_refl _) (by omega)) _ _ _ hl
              have h2 := stateAfter_mono (q := inRange vm.ip (vm.ip + ((exprCode left base).length
                  + (exprCode right (base + exprCount left)).length + 1)))
                (inRange_widen (by simp) (by simp; omega)) _ _ _ hr
              have h3 := stateAfter_one (r := inRange vm.ip (vm.ip + ((exprCode left base).length
                  + (exprCode right (base + exprCount left)).length + 1)))
                (inRange_at (by simp; omega) (by simp; omega)) hst
              have h12 := stateAfter_trans _ _ _ _ _ h1 h2
              have h123 := stateAfter_trans _ _ _ _ _ h12 h3
              rw [h123]
              simp [Nat.add_assoc]
  | .Grouping expression, v, s1, c, vm, base, hv, hcode, hconst, hb => by
      simp only [evalIn] at hv
      simp only [exprCode, exprConsts, exprCount, exprSteps] at hcode hconst hb ⊢
      exact exec_expr expression v s1 c vm base hv hcode hconst hb
  | .Literal value, v, s1, c, vm, base, hv, hcode, hconst, hb => by
      simp only [evalIn, Option.some.injEq, Prod.mk.injEq] at hv
      simp only [exprCode, exprConsts, exprCount, exprSteps] at hcode hconst hb ⊢
      obtain ⟨hv1, hv2⟩ := hv
      subst hv1 hv2
      rw [stateAfter_one (inRange_self (by have := literalCode_pos value base; omega))
        (step_literal value c vm base hcode hconst hb)]
  | .Unary op right, v, s1, c, vm, base, hv, hcode, hconst, hb => by
      simp only [evalIn] at hv
      simp only [exprCode, exprConsts, exprCount, exprSteps] at hcode hconst hb ⊢
      cases hoc : unaryOpcode op.type with
      | none => simp [hoc] at hv
      | some oc =>
        cases ha : evalIn right ⟨vm.globals, vm.out⟩ with
        | none => simp [hoc, ha] at hv
        | some ra =>
          obtain ⟨a, sa⟩ := ra
          cases hab : applyUnary oc a with
          | none => simp [hoc, ha, hab] at hv
          | some w =>
            simp only [hoc, ha, hab, Option.some.injEq, Prod.mk.injEq] at hv
            obtain ⟨hv1, hv2⟩ := hv
            subst hv1 hv2
            simp only [hoc, selectedCode, List.length_append, List.length_singleton] at hcode ⊢
            have hr := exec_expr right a sa c vm base ha (sliceAt_left hcode) hconst hb
            have hop := sliceAt_head (sliceAt_right hcode)
            have hst := step_unary (c := c)
              (s := { vm with ip := vm.ip + (exprCode right base).length, stack := a :: vm.stack,
                              globals := sa.globals, out := sa.out })
              (r := vm.stack) hoc hop rfl hab
            have h1 := stateAfter_mono
              (q := inRange vm.ip (vm.ip + ((exprCode right base).length + 1)))
              (inRange_widen (Nat.le_refl _) (by omega)) _ _ _ hr
            have h2 := stateAfter_one
              (r := inRange vm.ip (vm.ip + ((exprCode right base).length + 1)))
              (inRange_at (by simp) (by simp)) hst
            rw [stateAfter_trans _ _ _ _ _ h1 h2]
            simp [Nat.add_assoc]
  | .Variable name, v, s1, c, vm, base, hv, hcode, hconst, hb => by
      simp only [evalIn, Option.some.injEq, Prod.mk.injEq] at hv
      simp only [exprCode, exprConsts, exprCount, exprSteps] at hcode hconst hb ⊢
      obtain ⟨hv1, hv2⟩ := hv
      subst hv1 hv2
      have hmod : base % 256 = base := Nat.mod_eq_of_lt (by omega)
      rw [hmod] at hcode
      rw [stateAfter_one (inRange_self (by simp))
        (step_get_global (sliceAt_head hcode) (sliceAt_head (sliceAt_tail hcode))
          (sliceAt_head hconst))]
      rfl
  | .Assignment name value, v, s1, c, vm, base, hv, hcode, hconst, hb => by
      simp only [evalIn] at hv
      simp only [exprCode, exprConsts, exprCount, exprSteps] at hcode hconst hb ⊢
      cases ha : evalIn value ⟨vm.globals, vm.out⟩ with
      | none => simp [ha] at hv
      | some ra =>
        obtain ⟨a, sa⟩ := ra
        simp only [ha, Option.some.injEq, Prod.mk.injEq] at hv
        obtain ⟨hv1, hv2⟩ := hv
        subst hv1 hv2
        have hmod : (base + exprCount value) % 256 = base + exprCount value :=
          Nat.mod_eq_of_lt (by omega)
        rw [hmod] at hcode
        simp only [List.length_append, List.length_cons, List.length_nil] at hcode ⊢
        have hr := exec_expr value a sa c vm base ha (sliceAt_left hcode) (sliceAt_left hconst)
          (by omega)
        have hk : SliceAt c.constants (base + exprCount value) [(.Str name.lexeme : Value D)] := by
          have := sliceAt_right hconst
          rwa [exprConsts_length] at this
        have hs2 := sliceAt_right hcode
        have hst := @step_set_global D _ c
          { vm with ip := vm.ip + (exprCode value base).length, stack := a :: vm.stack,
                    globals := sa.globals, out := sa.out }
          _ name.lexeme a vm.stack
          (sliceAt_head hs2) (sliceAt_head (sliceAt_tail hs2)) (sliceAt_head hk) rfl
        have h1 := stateAfter_mono
          (q := inRange vm.ip (vm.ip + ((exprCode value base).length + (0 + 1 + 1))))
          (inRange_widen (Nat.le_refl _) (by omega)) _ _ _ hr
        have h2 := stateAfter_one
          (r := inRange vm.ip (vm.ip + ((exprCode value base).length + (0 + 1 + 1))))
          (inRange_at (by simp) (by simp)) hst
        rw [stateAfter_trans _ _ _ _ _ h1 h2]
        simp [Nat.add_assoc]
  | .Call callee paren arguments, v, s1, c, vm, base, hv, hcode, hconst, hb => by
      simp only [evalIn] at hv
      simp only [exprCode, exprConsts, exprCount, exprSteps] at hcode hconst hb ⊢
      cases hp : isPrintCallee callee with
      | false => simp [hp] at hv
      | true =>
        simp only [hp, if_true] at hv hcode hconst hb ⊢
        cases ha : printArgsIn arguments ⟨vm.globals, vm.out⟩ with
        | none => simp [ha] at hv
        | some sa =>
          simp only [ha, Option.some.injEq, Prod.mk.injEq] at hv
          obtain ⟨hv1, hv2⟩ := hv
          subst hv1 hv2
          simp only [List.length_append, List.length_singleton] at hcode ⊢
          have hr := exec_args arguments sa c vm base ha (sliceAt_left hcode) hconst hb
          have hst := @step_nil D _ c
            { vm with ip := vm.ip + (argsCode arguments base).length,
                      globals := sa.globals, out := sa.out }
            (sliceAt_head (sliceAt_right hcode))
          have h1 := stateAfter_mono
            (q := inRange vm.ip (vm.ip + ((argsCode arguments base).length + 1)))
            (inRange_widen (Nat.le_refl _) (by omega)) _ _ _ hr
          have h2 := stateAfter_one
            (r := inRange vm.ip (vm.ip + ((argsCode arguments base).length + 1)))
            (inRange_at (by simp) (by simp)) hst
          rw [stateAfter_trans _ _ _ _ _ h1 h2]
          simp [Nat.add_assoc]
theorem exec_args : (args : List Expr) → (s1 : Store D) → (c : Chunk D) → (vm : VM D) →
    (base : Nat) → printArgsIn args ⟨vm.globals, vm.out⟩ = some s1 →
    SliceAt c.code vm.ip (argsCode args base) → SliceAt c.constants base (argsConsts args) →
    base + argsCount args ≤ 256 →
    stateAfter c (inRange vm.ip (vm.ip + (argsCode args base).length)) (argsSteps args) vm
      = some { vm with ip := vm.ip + (argsCode args base).length,
                       globals := s1.globals, out := s1.out }
  | [], s1, c, vm, base, hv, hcode, hconst, hb => by
      simp only [printArgsIn, Option.some.injEq] at hv
      subst hv
      simp [argsCode, argsSteps, stateAfter]
  | arg :: rest, s1, c, vm, base, hv, hcode, hconst, hb => by
      simp only [printArgsIn] at hv
      simp only [argsCode, argsConsts, argsCount, argsSteps] at hcode hconst hb ⊢
      cases ha : evalIn arg ⟨vm.globals, vm.out⟩ with
      | none => simp [ha] at hv
      | some ra =>
        obtain ⟨a, sa⟩ := ra
        simp only [ha] at hv
        simp only [List.length_append, List.length_singleton] at hcode ⊢
        have hl := exec_expr arg a sa c vm base ha (sliceAt_left (sliceAt_left hcode))
          (sliceAt_left hconst) (by omega)
        have hst := @step_print D _ c
          { vm with ip := vm.ip + (exprCode arg base).length, stack := a :: vm.stack,
                    globals := sa.globals, out := sa.out }
          a vm.stack (sliceAt_head (sliceAt_right (sliceAt_left hcode))) rfl
        have hcr : SliceAt c.constants (base + exprCount arg) (argsConsts rest) := by
          have := sliceAt_right hconst
          rwa [exprConsts_length] at this
        have hcd : SliceAt c.code (vm.ip + (exprCode arg base).length + 1)
            (argsCode rest (base + exprCount arg)) := by
          have := sliceAt_right hcode
          simpa [Nat.add_assoc] using this
        have hr := exec_args rest s1 c
          { vm with ip := vm.ip + (exprCode arg base).length + 1, stack := vm.stack,
                    globals := sa.globals, out := sa.out ++ [printValue a] }
          (base + exprCount arg) hv hcd hcr (by omega)
        have h1 := stateAfter_mono
          (q := inRange vm.ip (vm.ip + ((exprCode arg base).length + 1
            + (argsCode rest (base + exprCount arg)).length)))
          (inRange_widen (Nat.le_refl _) (by omega)) _ _ _ hl
        have h2 := stateAfter_one
          (r := inRange vm.ip (vm.ip + ((exprCode arg base).length + 1
            + (argsCode rest (base + exprCount arg)).length)))
          (inRange_at (by simp) (by simp; omega)) hst
        have h3 := stateAfter_mono
          (q := inRange vm.ip (vm.ip + ((exprCode arg base).length + 1
            + (argsCode rest (base + exprCount arg)).length)))
          (inRange_widen (by simp; omega) (by simp; omega)) _ _ _ hr
        have h12 := stateAfter_trans _ _ _ _ _ h1 h2
        have h123 := stateAfter_trans _ _ _ _ _ h12 h3
        rw [h123]
        simp [Nat.add_assoc]
end

end Trace

/-! ## A condition that is false -/

section Guard
variable {D : Type} [DoubleModel D]

theorem evalIn_of_evalExpr (g : String → Option (Value D)) (out : List String) :
    (e : Expr) → (v : Value D) → evalExpr g e = some v →
      evalIn e ⟨g, out⟩ = some (v, ⟨g, out⟩)
  | .Binary left op right, v, hv => by
      simp only [evalExpr] at hv
      simp only [evalIn]
      cases hoc : binaryOpcode op.type with
      | none => simp [hoc] at hv
      | some oc =>
        cases ha : evalExpr g left with
        | none => simp [hoc, ha] at hv
        | some a =>
          cases hbv : evalExpr g right with
          | none => simp [hoc, ha, hbv] at hv
          | some b =>
            simp only [hoc, ha, hbv] at hv
            simp only [evalIn_of_evalExpr g out left a ha, evalIn_of_evalExpr g out right b hbv, hv]
  | .Grouping expression, v, hv => by
      simp only [evalExpr] at hv
      simp only [evalIn]
      exact evalIn_of_evalExpr g out expression v hv
  | .Literal value, v, hv => by
      simp only [evalExpr, Option.some.injEq] at hv
      simp [evalIn, hv]
  | .Unary op right, v, hv => by
      simp only [evalExpr] at hv
      simp only [evalIn]
      cases hoc : unaryOpcode op.type with
      | none => simp [hoc] at hv
      | some oc =>
        cases ha : evalExpr g right with
        | none => simp [hoc, ha] at hv
        | some a =>
          simp only [hoc, ha] at hv
          simp only [evalIn_of_evalExpr g out right a ha, hv]
  | .Variable name, v, hv => by
      simp only [evalExpr, Option.some.injEq] at hv
      simp [evalIn, hv]
  | .Assignment _ _, v, hv => by
      simp [evalExpr] at hv
  | .Call _ _ _, v, hv => by
      simp [evalExpr] at hv

theorem outside_of_lt {lo hi ip : Nat} (h : ip < lo) : outsideRange lo hi ip = true := by
  simp only [outsideRange, inRange, Bool.not_eq_true', Bool.and_eq_false_iff,
    decide_eq_false_iff_not]
  omega

theorem outside_of_ge {lo hi ip : Nat} (h : hi ≤ ip) : outsideRange lo hi ip = true := by
  simp only [outsideRange, inRange, Bool.not_eq_true', Bool.and_eq_false_iff,
    decide_eq_false_iff_not]
  omega

/-- The code shape shared by `while` and by `if` without `else`: condition, a
`JUMP_IF_FALSE` over `body` and three more bytes, `POP`, `body`, a three-byte
jump, `POP`. When the condition evaluates to a falsey value and the distance
fits in 16 bits, the VM goes from the first byte to the byte after the last `POP`
without fetching an opcode inside `body`, and only the instruction pointer has
changed. -/
theorem exec_false_guard (c : Chunk D) (vm : VM D) (C : Expr) (base : Nat) (v : Value D)
    (body : List Nat) (x y z : Nat)
    (hcode : SliceAt c.code vm.ip
      (exprCode C base
        ++ [OpCode.OP_JUMP_IF_FALSE.toByte, hiByte (body.length + 4), loByte (body.length + 4),
            OpCode.OP_POP.toByte]
        ++ body ++ [x, y, z, OpCode.OP_POP.toByte]))
    (hconst : SliceAt c.constants base (exprConsts C)) (hb : base + exprCount C ≤ 256)
    (hv : evalExpr vm.globals C = some v) (hf : isFalsey v = true)
    (hsize : body.length + 4 ≤ 65535) :
    stateAfter c
        (outsideRange (vm.ip + (exprCode C base).length + 4)
          (vm.ip + (exprCode C base).length + 4 + body.length))
        (exprSteps C + 2) vm
      = some { vm with ip := vm.ip + (exprCode C base).length + 4 + body.length + 4 } := by
  have hC := exec_expr C v ⟨vm.globals, vm.out⟩ c vm base
    (evalIn_of_evalExpr vm.globals vm.out C v hv)
    (sliceAt_left (sliceAt_left (sliceAt_left hcode))) hconst hb
  have h1 := stateAfter_mono
    (q := outsideRange (vm.ip + (exprCode C base).length + 4)
      (vm.ip + (exprCode C base).length + 4 + body.length))
    (fun ip h => by
      simp only [inRange, Bool.and_eq_true, decide_eq_true_eq] at h
      exact outside_of_lt (by omega)) _ _ _ hC
  have hj := sliceAt_right (sliceAt_left (sliceAt_left hcode))
  have hjif := @step_jump_if_false D _ c
    { vm with ip := vm.ip + (exprCode C base).length, stack := v :: vm.stack }
    _ _ v vm.stack
    (sliceAt_head hj) (sliceAt_head (sliceAt_tail hj))
    (sliceAt_head (sliceAt_tail (sliceAt_tail hj))) rfl
  rw [decode_short _ hsize, hf] at hjif
  simp only [if_true] at hjif
  have h2 := stateAfter_one
    (r := outsideRange (vm.ip + (exprCode C base).length + 4)
      (vm.ip + (exprCode C base).length + 4 + body.length))
    (s := { vm with ip := vm.ip + (exprCode C base).length, stack := v :: vm.stack })
    (outside_of_lt (by simp)) hjif
  have hp := sliceAt_right hcode
  simp only [List.length_append, List.length_cons, List.length_nil] at hp
  have hpop := @step_pop D _ c
    { vm with ip := vm.ip + (exprCode C base).length + 3 + (body.length + 4),
              stack := v :: vm.stack }
    v vm.stack
    (by
      have := sliceAt_head (sliceAt_tail (sliceAt_tail (sliceAt_tail hp)))
      have e : vm.ip + ((exprCode C base).length + (0 + 1 + 1 + 1 + 1) + body.length) + 1 + 1 + 1
          = vm.ip + (exprCode C base).length + 3 + (body.length + 4) := by omega
      rw [e] at this
      exact this) rfl
  have h3 := stateAfter_one
    (r := outsideRange (vm.ip + (exprCode C base).length + 4)
      (vm.ip + (exprCode C base).length + 4 + body.length))
    (s := { vm with ip := vm.ip + (exprCode C base).length + 3 + (body.length + 4),
                    stack := v :: vm.stack })
    (outside_of_ge (by simp; omega)) hpop
  have h12 := stateAfter_trans _ _ _ _ _ h1 h2
  have h123 := stateAfter_trans _ _ _ _ _ h12 h3
  have e : exprSteps C + 2 = exprSteps C + 1 + 1 := by omega
  rw [e, h123]
  have e2 : vm.ip + (exprCode C base).length + 3 + (body.length + 4) + 1
      = vm.ip + (exprCode C base).length + 4 + body.length + 4 := by omega
  simp only [e2]

/-- A `while` whose condition evaluates to a falsey value, with a body of at most
65,531 bytes: from the first byte of the loop the VM reaches the byte after the
loop in `exprSteps C + 2` steps, none of which fetches an opcode of the body, and
only the instruction pointer has changed (stack, globals, output as before). -/
theorem while_false_skips_body (C : Expr) (B : Stmt) (c : Chunk D) (vm : VM D) (base : Nat)
    (v : Value D)
    (hcode : SliceAt c.code vm.ip (stmtCode (.While C B) base))
    (hconst : SliceAt c.constants base (exprConsts C)) (hb : base + exprCount C ≤ 256)
    (hv : evalExpr vm.globals C = some v) (hf : isFalsey v = true)
    (hsize : stmtSize B + 4 ≤ 65535) :
    stateAfter c
        (outsideRange (vm.ip + (exprCode C base).length + 4)
          (vm.ip + (exprCode C base).length + 4 + stmtSize B))
        (exprSteps C + 2) vm
      = some { vm with ip := vm.ip + stmtSize (.While C B) } := by
  simp only [stmtCode] at hcode
  rw [← stmtCode_length B (base + exprCount C)] at hcode hsize ⊢
  have h := exec_false_guard c vm C base v _ _ _ _ hcode hconst hb hv hf hsize
  rw [h]
  simp only [stmtSize, stmtCode_length, exprCode_length C 0 base, Nat.add_assoc]

/-- An `if` without `else` whose condition evaluates to a falsey value, with a
then-branch of at most 65,531 bytes: from the first byte of the statement the VM
reaches the byte after it in `exprSteps C + 2` steps, none of which fetches an
opcode of the then-branch, and only the instruction pointer has changed. -/
theorem if_false_skips_then (C : Expr) (T : Stmt) (c : Chunk D) (vm : VM D) (base : Nat)
    (v : Value D)
    (hcode : SliceAt c.code vm.ip (stmtCode (.If C T none) base))
    (hconst : SliceAt c.constants base (exprConsts C)) (hb : base + exprCount C ≤ 256)
    (hv : evalExpr vm.globals C = some v) (hf : isFalsey v = true)
    (hsize : stmtSize T + 4 ≤ 65535) :
    stateAfter c
        (outsideRange (vm.ip + (exprCode C base).length + 4)
          (vm.ip + (exprCode C base).length + 4 + stmtSize T))
        (exprSteps C + 2) vm
      = some { vm with ip := vm.ip + stmtSize (.If C T none) } := by
  simp only [stmtCode] at hcode
  rw [← stmtCode_length T (base + exprCount C)] at hcode hsize ⊢
  have h := exec_false_guard c vm C base v _ _ _ _ hcode hconst hb hv hf hsize
  rw [h]
  simp only [stmtSize, stmtCode_length, exprCode_length C 0 base, Nat.add_assoc]

end Guard

/-! ## Jumps over more than 65,535 bytes at run time -/

section Oversized
variable {D : Type} [DoubleModel D]

theorem code_of_take {l p : List Nat} {n : Nat} (h : l.take n = p) (k : Nat) (hk : k < n) :
    l[k]? = p[k]? := by
  rw [← h, List.getElem?_take_of_lt hk]

theorem isPrintCallee_ident : isPrintCallee (.Variable (ident "print")) = true := rfl

theorem printNilBlock_size (n : Nat) : stmtSize (printNilBlock n) = n * 2 + 4 := by
  simp only [printNilBlock, stmtSize, stmtsSize]
  rw [stmtsSize_replicate]
  simp only [printNilStmt, nilStmt, stmtSize, exprCode, literalCode, if_true, argsCode,
    isPrintCallee_ident]
  simp
  omega

theorem printNilBlock_nullFree (n : Nat) : nullFree (printNilBlock n) = true := by
  simp only [printNilBlock, nullFree, nullFreeList, printNilStmt, Bool.true_and]
  exact nullFreeList_replicate nilStmt rfl n

theorem whilePrintProgram_compile (n : Nat) :
    ∃ c : Chunk D, compile (whilePrintProgram n) ({} : Chunk D) = some (true, c)
      ∧ c.code.take 7 = [OpCode.OP_NIL.toByte, OpCode.OP_JUMP_IF_FALSE.toByte,
          hiByte (n * 2 + 4 + 4), loByte (n * 2 + 4 + 4), OpCode.OP_POP.toByte,
          OpCode.OP_NIL.toByte, OpCode.OP_PRINT.toByte] := by
  have hnf : nullFreeList (whilePrintProgram n) = true := by
    simp only [whilePrintProgram, nullFreeList, nullFree, Bool.and_true]
    exact printNilBlock_nullFree n
  refine ⟨_, compile_eq _ hnf {}, ?_⟩
  simp only [Chunk.extend, List.nil_append, List.length_nil]
  simp only [whilePrintProgram, stmtsCode, stmtCode, printNilBlock_size, exprCode, literalCode,
    if_true]
  simp only [printNilBlock, stmtCode, stmtsCode, printNilStmt, exprCode, argsCode, literalCode,
    ident]
  rfl

theorem ifPrintProgram_compile (n : Nat) :
    ∃ c : Chunk D, compile (ifPrintProgram n) ({} : Chunk D) = some (true, c)
      ∧ c.code.take 7 = [OpCode.OP_NIL.toByte, OpCode.OP_JUMP_IF_FALSE.toByte,
          hiByte (n * 2 + 4 + 4), loByte (n * 2 + 4 + 4), OpCode.OP_POP.toByte,
          OpCode.OP_NIL.toByte, OpCode.OP_PRINT.toByte] := by
  have hnf : nullFreeList (ifPrintProgram n) = true := by
    simp only [ifPrintProgram, nullFreeList, nullFree, Bool.and_true]
    exact printNilBlock_nullFree n
  refine ⟨_, compile_eq _ hnf {}, ?_⟩
  simp only [Chunk.extend, List.nil_append, List.length_nil]
  simp only [ifPrintProgram, stmtsCode, stmtCode, printNilBlock_size, exprCode, literalCode,
    if_true]
  simp only [printNilBlock, stmtCode, stmtsCode, printNilStmt, exprCode, argsCode, literalCode,
    ident]
  rfl

/-- A chunk that starts with `NIL`, `JUMP_IF_FALSE 0x00 0x00`, `POP`, `NIL`,
`PRINT`: the jump of distance 0 falls through to the `POP`, and the two
instructions after it are executed. -/
theorem run_zero_jump (c : Chunk D)
    (h : c.code.take 7 = [OpCode.OP_NIL.toByte, OpCode.OP_JUMP_IF_FALSE.toByte, 0, 0,
      OpCode.OP_POP.toByte, OpCode.OP_NIL.toByte, OpCode.OP_PRINT.toByte]) :
    stateAfter c anywhere 3 {} = some { ip := 5 }
      ∧ stateAfter c anywhere 5 {} = some { ip := 7, out := ["nil"] } := by
  have b0 : c.code[0]? = some OpCode.OP_NIL.toByte := code_of_take h 0 (by decide)
  have b1 : c.code[1]? = some OpCode.OP_JUMP_IF_FALSE.toByte := code_of_take h 1 (by decide)
  have b2 : c.code[2]? = some 0 := code_of_take h 2 (by decide)
  have b3 : c.code[3]? = some 0 := code_of_take h 3 (by decide)
  have b4 : c.code[4]? = some OpCode.OP_POP.toByte := code_of_take h 4 (by decide)
  have b5 : c.code[5]? = some OpCode.OP_NIL.toByte := code_of_take h 5 (by decide)
  have b6 : c.code[6]? = some OpCode.OP_PRINT.toByte := code_of_take h 6 (by decide)
  have s1 : step c ({} : VM D) = .next { ip := 1, stack := [.Nil] } := step_nil b0
  have s2 : step c ({ ip := 1, stack := [.Nil] } : VM D) = .next { ip := 4, stack := [.Nil] } :=
    @step_jump_if_false D _ c { ip := 1, stack := [.Nil] } 0 0 .Nil [] b1 b2 b3 rfl
  have s3 : step c ({ ip := 4, stack := [.Nil] } : VM D) = .next { ip := 5 } :=
    @step_pop D _ c { ip := 4, stack := [.Nil] } .Nil [] b4 rfl
  have s4 : step c ({ ip := 5 } : VM D) = .next { ip := 6, stack := [.Nil] } :=
    @step_nil D _ c { ip := 5 } b5
  have s5 : step c ({ ip := 6, stack := [.Nil] } : VM D) = .next { ip := 7, out := ["nil"] } :=
    @step_print D _ c { ip := 6, stack := [.Nil] } .Nil [] b6 rfl
  have t3 : stateAfter c anywhere 3 {} = some { ip := 5 } := by
    rw [stateAfter_succ rfl s1, stateAfter_succ rfl s2, stateAfter_succ rfl s3]
    rfl
  refine ⟨t3, ?_⟩
  have t2 : stateAfter c anywhere 2 ({ ip := 5 } : VM D) = some { ip := 7, out := ["nil"] } := by
    rw [stateAfter_succ rfl s4, stateAfter_succ rfl s5]
    rfl
  exact stateAfter_trans 3 2 _ _ _ t3 t2

end Oversized

/-- C16 at the failing input `while nil do print(nil) nil ... nil end` with 32764
statements `nil`: the body is 65,532 bytes long, the distance of the exit jump is
65,536, `compile` returns true and the operand written is `0x00 0x00`; the VM,
started on the chunk, evaluates the condition to `nil`, falls through the jump,
stands at the first byte of the body (offset 5) after three steps and has
written `nil` after five. -/
theorem while_false_runs_oversized_body :
    stmtSize (printNilBlock 32764) + 4 = 65536
      ∧ ∃ c : Chunk Int, compile (whilePrintProgram 32764) ({} : Chunk Int) = some (true, c)
          ∧ c.code.take 5 = [OpCode.OP_NIL.toByte, OpCode.OP_JUMP_IF_FALSE.toByte, 0, 0,
              OpCode.OP_POP.toByte]
          ∧ stateAfter c anywhere 3 {} = some { ip := 5 }
          ∧ stateAfter c anywhere 5 {} = some { ip := 7, out := ["nil"] } := by
  obtain ⟨c, hc, hcode⟩ := whilePrintProgram_compile (D := Int) 32764
  have h7 : c.code.take 7 = [OpCode.OP_NIL.toByte, OpCode.OP_JUMP_IF_FALSE.toByte, 0, 0,
      OpCode.OP_POP.toByte, OpCode.OP_NIL.toByte, OpCode.OP_PRINT.toByte] := by
    rw [hcode]
    rfl
  have h5 : c.code.take 5 = (c.code.take 7).take 5 := by
    rw [List.take_take]
    rfl
  refine ⟨by rw [printNilBlock_size], c, hc, ?_, run_zero_jump c h7⟩
  rw [h5, h7]
  rfl

/-- C17 at the failing input `if nil then print(nil) nil ... nil end` with 32764
statements `nil`: the then-branch is 65,532 bytes long, the distance of the jump
over it is 65,536, `compile` returns true and the operand written is
`0x00 0x00`; the VM, started on the chunk, evaluates the condition to `nil`, falls
through the jump, stands at the first byte of the then-branch (offset 5) after
three steps and has written `nil` after five. -/
theorem if_false_runs_oversized_then :
    stmtSize (printNilBlock 32764) + 4 = 65536
      ∧ ∃ c : Chunk Int, compile (ifPrintProgram 32764) ({} : Chunk Int) = some (true, c)
          ∧ c.code.take 5 = [OpCode.OP_NIL.toByte, OpCode.OP_JUMP_IF_FALSE.toByte, 0, 0,
              OpCode.OP_POP.toByte]
          ∧ stateAfter c anywhere 3 {} = some { ip := 5 }
          ∧ stateAfter c anywhere 5 {} = some { ip := 7, out := ["nil"] } := by
  obtain ⟨c, hc, hcode⟩ := ifPrintProgram_compile (D := Int) 32764
  have h7 : c.code.take 7 = [OpCode.OP_NIL.toByte, OpCode.OP_JUMP_IF_FALSE.toByte, 0, 0,
      OpCode.OP_POP.toByte, OpCode.OP_NIL.toByte, OpCode.OP_PRINT.toByte] := by
    rw [hcode]
    rfl
  have h5 : c.code.take 5 = (c.code.take 7).take 5 := by
    rw [List.take_take]
    rfl
  refine ⟨by rw [printNilBlock_size], c, hc, ?_, run_zero_jump c h7⟩
  rw [h5, h7]
  rfl

/-! ## Literals and calls of `print` -/

section Literals
variable {D : Type} [DoubleModel D]

theorem parseWholeNumber_some (L : String) (n : D)
    (h : DoubleModel.stod L = some (n, L.length)) : parseWholeNumber L = some n := by
  simp [parseWholeNumber, h]

theorem parseWholeNumber_none (L : String)
    (h : ∀ n : D, DoubleModel.stod L ≠ some (n, L.length)) :
    (parseWholeNumber L : Option D) = none := by
  unfold parseWholeNumber
  cases hs : (DoubleModel.stod L : Option (D × Nat)) with
  | none => rfl
  | some p =>
    obtain ⟨num, idx⟩ := p
    by_cases hi : idx = L.length
    · subst hi
      exact absurd hs (h num)
    · simp [hi]

theorem list_between (q : Char) : ∀ (l : List Char), 2 ≤ l.length → l.head? = some q →
    l.getLast? = some q → l = q :: ((l.drop 1).take (l.length - 2) ++ [q])
  | [], h, _, _ => by simp at h
  | [_], h, _, _ => by simp at h
  | a :: b :: t, _, hh, hl => by
      simp only [List.head?_cons, Option.some.injEq] at hh
      subst hh
      have hne : b :: t ≠ [] := by simp
      have hl2 : (b :: t).getLast? = some a := by
        rw [List.getLast?_cons_cons] at hl
        exact hl
      have hd : (b :: t).dropLast ++ [a] = b :: t := by
        have := List.dropLast_append_getLast? a hl2
        exact this
      have ht : ((a :: b :: t).drop 1).take ((a :: b :: t).length - 2) = (b :: t).dropLast := by
        rw [List.dropLast_eq_take]
        simp
      rw [ht, hd]

theorem getLast?_between (a q : Char) (l : List Char) : (a :: (l ++ [q])).getLast? = some q := by
  have e : a :: (l ++ [q]) = (a :: l) ++ [q] := rfl
  rw [e, List.getLast?_concat]

theorem stripQuotes_quoted (body : String) : stripQuotes (quoted body) = body := by
  have h1 : (quoted body).length = body.toList.length + 2 := by
    show (Char.ofNat 34 :: (body.toList ++ [Char.ofNat 34])).length = _
    simp
  have h2 : (quoted body).toList = Char.ofNat 34 :: (body.toList ++ [Char.ofNat 34]) := rfl
  have hc : (quoted body).length ≥ 2 ∧ (quoted body).toList.head? = some (Char.ofNat 34)
      ∧ (quoted body).toList.getLast? = some (Char.ofNat 34) := by
    rw [h1, h2]
    exact ⟨by omega, rfl, getLast?_between _ _ _⟩
  unfold stripQuotes
  rw [if_pos hc, h1, h2]
  simp

theorem quoted_of_ends (L : String) (h : L.length ≥ 2 ∧ L.toList.head? = some (Char.ofNat 34)
    ∧ L.toList.getLast? = some (Char.ofNat 34)) : L = quoted (stripQuotes L) := by
  have hl := list_between (Char.ofNat 34) L.toList h.1 h.2.1 h.2.2
  have hs : stripQuotes L = String.mk ((L.toList.drop 1).take (L.length - 2)) := by
    unfold stripQuotes
    rw [if_pos h]
  rw [hs]
  exact congrArg String.mk hl

/-- C19: what `visitLiteralExpr` appends for a lexeme `L`. For `nil`, `true` and
`false` it is the single opcode `OP_NIL`, `OP_TRUE`, `OP_FALSE` and no constant.
Otherwise it is `OP_CONSTANT` with the index of one new constant (the pool size
before, as a byte): the number `n` when `std::stod` reads `n` from the whole of
`L`; else the string `body` when `L` has length at least 2 and starts and ends
with a double quote, where `L` is `body` between two double quotes; else the
string `L` itself. While the pool holds fewer than 256 constants the operand
byte is the index of the new constant. -/
theorem literal_emits_by_lexeme (c : Chunk D) (L : String) :
    (L = "nil" → visitLiteralExpr c L = c.extend [OpCode.OP_NIL.toByte] [])
      ∧ (L = "true" → visitLiteralExpr c L = c.extend [OpCode.OP_TRUE.toByte] [])
      ∧ (L = "false" → visitLiteralExpr c L = c.extend [OpCode.OP_FALSE.toByte] [])
      ∧ (L ≠ "nil" → L ≠ "true" → L ≠ "false" →
          (∀ n : D, DoubleModel.stod L = some (n, L.length) →
            visitLiteralExpr c L
              = c.extend [OpCode.OP_CONSTANT.toByte, c.constants.length % 256] [.Number n])
          ∧ ((∀ n : D, DoubleModel.stod L ≠ some (n, L.length)) →
              (L.length ≥ 2 ∧ L.toList.head? = some (Char.ofNat 34)
                  ∧ L.toList.getLast? = some (Char.ofNat 34) →
                ∃ body : String, L = quoted body ∧ visitLiteralExpr c L
                  = c.extend [OpCode.OP_CONSTANT.toByte, c.constants.length % 256] [.Str body])
              ∧ (¬ (L.length ≥ 2 ∧ L.toList.head? = some (Char.ofNat 34)
                  ∧ L.toList.getLast? = some (Char.ofNat 34)) →
                visitLiteralExpr c L
                  = c.extend [OpCode.OP_CONSTANT.toByte, c.constants.length % 256] [.Str L])))
      ∧ (∀ v : Value D, c.constants.length < 256 →
          (c.extend [OpCode.OP_CONSTANT.toByte, c.constants.length % 256] [v]).constants[
              c.constants.length % 256]? = some v) := by
  refine ⟨?_, ?_, ?_, ?_, ?_⟩
  · intro h
    subst h
    simp [visitLiteralExpr, emitOp_eq]
  · intro h
    subst h
    simp [visitLiteralExpr, emitOp_eq]
  · intro h
    subst h
    simp [visitLiteralExpr, emitOp_eq]
  · intro h1 h2 h3
    refine ⟨?_, ?_⟩
    · intro n hn
      simp only [visitLiteralExpr, h1, h2, h3, if_false, parseWholeNumber_some L n hn,
        emitConstant_eq]
    · intro hn
      have hp := parseWholeNumber_none (D := D) L hn
      refine ⟨?_, ?_⟩
      · intro hq
        refine ⟨stripQuotes L, quoted_of_ends L hq, ?_⟩
        simp only [visitLiteralExpr, h1, h2, h3, if_false, hp, emitConstant_eq]
      · intro hq
        have hs : stripQuotes L = L := by
          unfold stripQuotes
          rw [if_neg hq]
        simp only [visitLiteralExpr, h1, h2, h3, if_false, hp, emitConstant_eq, hs]
  · intro v hlt
    simp [Chunk.extend, Nat.mod_eq_of_lt hlt]

end Literals

section PrintCall
variable {D : Type} [DoubleModel D]

theorem isPrintCallee_of_lexeme (name : Token) (h : name.lexeme = "print") :
    isPrintCallee (.Variable name) = true := by
  simp [isPrintCallee, h]

theorem printArgsIn_pure (g : String → Option (Value D)) :
    ∀ (args : List Expr) (vals : List (Value D)) (out : List String),
      List.Forall₂ (fun a v => evalExpr g a = some v) args vals →
      printArgsIn args ⟨g, out⟩ = some ⟨g, out ++ vals.map printValue⟩
  | [], vals, out, h => by
      cases h
      simp [printArgsIn]
  | a :: rest, vals, out, h => by
      cases h with
      | cons hv hrest =>
        rename_i v vs
        simp only [printArgsIn, evalIn_of_evalExpr g out a v hv]
        rw [printArgsIn_pure g rest vs (out ++ [printValue v]) hrest]
        simp

/-- C20, amended: a call whose callee is the variable `print` compiles to the code
of each argument followed by `OP_PRINT`, then `OP_NIL`, and to the constants of
the arguments. When the arguments have a reference evaluation (`printArgsIn`:
each is built from literals, variables, grouping, assignment, calls of `print`,
unary `-`/`not` and binary `+ - * / == > <` and raises no type error) and the
pool indices fit in a byte, executing that code from any state runs
`argsSteps args + 1` instructions inside it and ends after its last byte with
`Nil` pushed on the stack, the arguments evaluated in order and the value of
each written after its evaluation. For arguments without assignments and calls
the output grows by the texts of their values, in order. -/
theorem print_call_emits_args_then_nil (name paren : Token) (args : List Expr)
    (hname : name.lexeme = "print") :
    (∀ c0 : Chunk D, visitExpr (.Call (.Variable name) paren args) c0
        = c0.extend (argsCode args c0.constants.length ++ [OpCode.OP_NIL.toByte])
            (argsConsts args))
      ∧ (∀ (c : Chunk D) (vm : VM D) (base : Nat) (s1 : Store D),
          SliceAt c.code vm.ip (argsCode args base ++ [OpCode.OP_NIL.toByte]) →
          SliceAt c.constants base (argsConsts args) → base + argsCount args ≤ 256 →
          printArgsIn args ⟨vm.globals, vm.out⟩ = some s1 →
          stateAfter c (inRange vm.ip (vm.ip + ((argsCode args base).length + 1)))
              (argsSteps args + 1) vm
            = some { vm with ip := vm.ip + ((argsCode args base).length + 1),
                             stack := .Nil :: vm.stack, globals := s1.globals, out := s1.out })
      ∧ (∀ (g : String → Option (Value D)) (out : List String) (vals : List (Value D)),
          List.Forall₂ (fun a v => evalExpr g a = some v) args vals →
          printArgsIn args ⟨g, out⟩ = some ⟨g, out ++ vals.map printValue⟩) := by
  have hp := isPrintCallee_of_lexeme name hname
  refine ⟨?_, ?_, ?_⟩
  · intro c0
    rw [visitExpr_eq]
    simp only [exprCode, exprConsts, hp, if_true]
  · intro c vm base s1 hcode hconst hb hv
    have he : evalIn (.Call (.Variable name) paren args) ⟨vm.globals, vm.out⟩
        = some (.Nil, s1) := by
      simp only [evalIn, hp, if_true, hv]
    have h := exec_expr (.Call (.Variable name) paren args) .Nil s1 c vm base he
      (by simpa only [exprCode, hp, if_true] using hcode)
      (by simpa only [exprConsts, hp, if_true] using hconst)
      (by simpa only [exprCount, hp, if_true] using hb)
    simpa only [exprCode, exprSteps, hp, if_true, List.length_append, List.length_singleton]
      using h
  · intro g out vals h
    exact printArgsIn_pure g args vals out h

/-- The theorem above on `print(1, 2)`: the code is `CONSTANT 0, PRINT,
CONSTANT 1, PRINT, NIL` with the constants 1 and 2, and executing it from a fresh
VM writes `1` and `2` and leaves `Nil` on the stack. -/
theorem print_call_emits_args_then_nil_witness :
    (ident "print").lexeme = "print"
      ∧ visitExpr printTwoCall ({} : Chunk Int) = printTwoChunk
      ∧ stateAfter printTwoChunk (inRange 0 7) 5 {}
          = some { ip := 7, stack := [.Nil], out := ["1", "2"] } :=
  ⟨rfl,
   (print_call_emits_args_then_nil (D := Int) (ident "print")
      { type := .RIGHT_PAREN, lexeme := ")", line := 1, column := 1 }
      [.Literal "1", .Literal "2"] rfl).1 {},
   (print_call_emits_args_then_nil (D := Int) (ident "print")
      { type := .RIGHT_PAREN, lexeme := ")", line := 1, column := 1 }
      [.Literal "1", .Literal "2"] rfl).2.1 printTwoChunk {} 0 ⟨fun _ => none, ["1", "2"]⟩
      ⟨[], [], rfl, rfl⟩ ⟨[], [], rfl, rfl⟩ (by decide) rfl⟩

/-- C20 fails on the code: the call `print(1 != 2)` compiles to `CONSTANT 0,
CONSTANT 1, PRINT, NIL` (no opcode for `!=`); executing these four instructions
from an empty stack writes `2` and leaves two values, `Nil` on top of 1. -/
theorem print_call_leaves_two_values :
    (visitExpr printNotEqualCall ({} : Chunk Int)).code = [0, 0, 0, 1, 17, 1]
      ∧ stateAfter (visitExpr printNotEqualCall ({} : Chunk Int)) anywhere 4 {}
          = some { ip := 6, stack := [.Nil, .Number 1], out := ["2"] } :=
  ⟨rfl, rfl⟩

end PrintCall

/-! ## The counting loop, from source text to output -/

section Counting
variable {D : Type} [DoubleModel D]

theorem scan_count : scanTokens countSource = some countTokens := by decide

theorem parse_count (k : Nat) : Parser.parse (k + 33) countTokens = .ok countStatements 19 := by
  rfl

theorem compile_count (z t o : D)
    (h0 : DoubleModel.stod "0" = some (z, 1)) (h1 : DoubleModel.stod "1" = some (o, 1))
    (h3 : DoubleModel.stod "3" = some (t, 1)) :
    compile countStatements ({} : Chunk D) = some (true, countChunk z t o) := by
  rw [compile_eq _ (rfl : nullFreeList countStatements = true)]
  have hcode : stmtsCode countStatements 0 ++ [OpCode.OP_RETURN.toByte]
      = (countChunk z t o).code := rfl
  have p0 : (parseWholeNumber "0" : Option D) = some z := by
    unfold parseWholeNumber
    rw [h0]
    rfl
  have p1 : (parseWholeNumber "1" : Option D) = some o := by
    unfold parseWholeNumber
    rw [h1]
    rfl
  have p3 : (parseWholeNumber "3" : Option D) = some t := by
    unfold parseWholeNumber
    rw [h3]
    rfl
  have v0 : (literalValue "0" : Value D) = .Number z := by
    unfold literalValue
    rw [p0]
    rfl
  have v1 : (literalValue "1" : Value D) = .Number o := by
    unfold literalValue
    rw [p1]
    rfl
  have v3 : (literalValue "3" : Value D) = .Number t := by
    unfold literalValue
    rw [p3]
    rfl
  have hconst : (stmtsConsts countStatements : List (Value D)) = (countChunk z t o).constants := by
    simp only [countStatements, stmtsConsts, stmtConsts, optExprConsts, exprConsts, argsConsts,
      v0, v1, v3]
    rfl
  simp only [Chunk.extend, List.nil_append, List.length_nil]
  rw [hcode, hconst]
  rfl

/-- One turn of the loop: with `i` bound to a number `a` below `t`, fifteen
instructions from the loop start write the text of `a`, bind `i` to `a + o` and
come back to the loop start. -/
theorem count_turn (z t o a : D) (g : String → Option (Value D)) (out : List String)
    (err : List (String × Int)) (hg : g "i" = some (.Number a))
    (hlt : DoubleModel.lt a t = true) :
    stateAfter (countChunk z t o) anywhere 15 ⟨4, [], g, out, err⟩
      = some ⟨4, [], fun k => if k = "i" then some (.Number (DoubleModel.add a o)) else g k,
              out ++ [DoubleModel.fmt a], err⟩ := by
  simp [stateAfter, anywhere, step, readByte, readConstant, readString, readShort, countChunk,
    OpCode.ofByte, VM.push, VM.pop, VM.peek, VM.setGlobal, compareOp, binaryOp, Value.isNumber,
    isFalsey, hg, hlt, printValue]


/-- The statements before the loop: `i` is bound to `z`. -/
theorem count_start (z t o : D) :
    stateAfter (countChunk z t o) anywhere 2 {}
      = some ⟨4, [], fun k => if k = "i" then some (.Number z) else none, [], []⟩ := by
  simp [stateAfter, anywhere, step, readByte, readConstant, readString, readShort, countChunk,
    OpCode.ofByte, VM.push, VM.pop, VM.peek, VM.setGlobal]

/-- Leaving the loop: with `i` bound to a number `a` not below `t`, six
instructions from the loop start end the run with `OK`. -/
theorem count_exit (z t o a : D) (g : String → Option (Value D)) (out : List String)
    (err : List (String × Int)) (hg : g "i" = some (.Number a))
    (hlt : DoubleModel.lt a t = false) (n : Nat) :
    run (countChunk z t o) (n + 6) ⟨4, [], g, out, err⟩
      = .finished .OK ⟨31, [], g, out, err⟩ := by
  simp [run, step, readByte, readConstant, readString, readShort, countChunk,
    OpCode.ofByte, VM.push, VM.pop, VM.peek, VM.setGlobal, compareOp, Value.isNumber,
    isFalsey, hg, hlt]

theorem interpret_count (z t o : D)
    (l0 : DoubleModel.lt z t = true) (l1 : DoubleModel.lt (DoubleModel.add z o) t = true)
    (l2 : DoubleModel.lt (DoubleModel.add (DoubleModel.add z o) o) t = true)
    (l3 : DoubleModel.lt (DoubleModel.add (DoubleModel.add (DoubleModel.add z o) o) o) t = false)
    (k : Nat) :
    interpret (k + 53) (countChunk z t o) {} = .finished .OK (countFinal z o) := by
  have s0 := count_start z t o
  have s1 := count_turn z t o z (fun k => if k = "i" then some (.Number z) else none) [] []
    (by simp) l0
  have s2 := count_turn z t o (DoubleModel.add z o)
    (fun k => if k = "i" then some (.Number (DoubleModel.add z o))
      else if k = "i" then some (.Number z) else none)
    ([] ++ [DoubleModel.fmt z]) [] (by simp) l1
  have s3 := count_turn z t o (DoubleModel.add (DoubleModel.add z o) o)
    (fun k => if k = "i" then some (.Number (DoubleModel.add (DoubleModel.add z o) o))
      else if k = "i" then some (.Number (DoubleModel.add z o))
      else if k = "i" then some (.Number z) else none)
    ([] ++ [DoubleModel.fmt z] ++ [DoubleModel.fmt (DoubleModel.add z o)]) [] (by simp) l2
  have s01 := stateAfter_trans _ _ _ _ _ s0 s1
  have s012 := stateAfter_trans _ _ _ _ _ s01 s2
  have s0123 := stateAfter_trans _ _ _ _ _ s012 s3
  have hrun := stateAfter_run _ _ _ s0123 (k + 6)
  have e : k + 53 = k + 6 + (2 + 15 + 15 + 15) := by omega
  unfold interpret
  rw [e]
  have hvm : ({ ({} : VM D) with ip := 0 } : VM D) = {} := rfl
  rw [hvm, hrun]
  exact count_exit z t o _ _ _ _ (by simp) l3 k

/-- C18: for every model of `double` in which `std::stod` reads the lexemes `0`,
`1` and `3` in full as numbers `z`, `o` and `t` with `z < t`, `z + o < t`,
`z + o + o < t`, not `z + o + o + o < t` and `z + o + o + o = t`, and writes `z`,
`z + o`, `z + o + o` as `0`, `1`, `2` (all facts of IEEE arithmetic): scanning,
parsing, compiling and executing the source
`local i = 0 while i < 3 do print(i) i = i + 1 end` returns `OK` within 53
iterations of the dispatch loop (and with any larger budget), having written
exactly `0`, `1`, `2` in this order, with `globals["i"]` the number `t` read from
`3`, an empty stack and no runtime error. -/
theorem counting_loop_prints_0_1_2 (z o t : D)
    (h0 : DoubleModel.stod "0" = some (z, 1)) (h1 : DoubleModel.stod "1" = some (o, 1))
    (h3 : DoubleModel.stod "3" = some (t, 1))
    (l0 : DoubleModel.lt z t = true) (l1 : DoubleModel.lt (DoubleModel.add z o) t = true)
    (l2 : DoubleModel.lt (DoubleModel.add (DoubleModel.add z o) o) t = true)
    (l3 : DoubleModel.lt (DoubleModel.add (DoubleModel.add (DoubleModel.add z o) o) o) t = false)
    (f0 : DoubleModel.fmt z = "0") (f1 : DoubleModel.fmt (DoubleModel.add z o) = "1")
    (f2 : DoubleModel.fmt (DoubleModel.add (DoubleModel.add z o) o) = "2")
    (e3 : DoubleModel.add (DoubleModel.add (DoubleModel.add z o) o) o = t) :
    ∃ vm : VM D, (∀ k, Main.run (k + 53) countSource = .executed (.finished .OK vm))
      ∧ vm.out = ["0", "1", "2"] ∧ vm.globals "i" = some (.Number t)
      ∧ vm.stack = [] ∧ vm.err = [] := by
  refine ⟨countFinal z o, fun k => ?_, ?_, ?_, rfl, rfl⟩
  · have hp := parse_count (k + 20)
    have e : k + 20 + 33 = k + 53 := by omega
    rw [e] at hp
    simp only [Main.run, scan_count, hp, compile_count z t o h0 h1 h3]
    rw [interpret_count z t o l0 l1 l2 l3 k]
    rfl
  · simp [countFinal, f0, f1, f2]
  · simp [countFinal, e3]

/-- The theorem above in the integer model of `double`: the run writes `0`, `1`,
`2` and leaves `i` bound to 3. -/
theorem counting_loop_prints_0_1_2_witness :
    ∃ vm : VM Int, (∀ k, Main.run (k + 53) countSource = .executed (.finished .OK vm))
      ∧ vm.out = ["0", "1", "2"] ∧ vm.globals "i" = some (.Number 3)
      ∧ vm.stack = [] ∧ vm.err = [] :=
  counting_loop_prints_0_1_2 (D := Int) 0 1 3 (by decide) (by decide) (by decide) (by decide)
    (by decide) (by decide) (by decide) (by decide) (by decide) (by decide) (by decide)

end Counting

/-! ## The line map of a compiled chunk -/

section LineMap
variable {D : Type} [DoubleModel D]

theorem scan_negateNil : scanTokens negateNilSource = some negateNilTokens := by decide

theorem parse_negateNil (k : Nat) :
    Parser.parse (k + 18) negateNilTokens = .ok negateNilProgram 7 := by rfl

theorem compile_negateNil :
    compile negateNilProgram ({} : Chunk D) = some (true, negateNilChunk D) := by rfl

theorem interpret_negateNil (k : Nat) :
    interpret (k + 5) (negateNilChunk D) {} = .finished .RUNTIME_ERROR (negateNilFinal D) := by
  rfl

/-- C21 (fails on the code): every entry of the line map of a compiled chunk is
0, whatever the source lines of the statements, which start at 1. The program
`x = nil`, `y = -x` on two lines has its unary minus on line 2; the run stops at
that `OP_NEGATE` with a runtime error, and the line reported is 0. -/
theorem line_map_is_all_zero :
    (∀ (T : Type) [DoubleModel T] (ss : List (Option Stmt)), nullFreeList ss = true →
        ∃ c : Chunk T, compile ss ({} : Chunk T) = some (true, c)
          ∧ c.lines = List.replicate c.code.length 0)
      ∧ (scanTokens negateNilSource).map (fun ts => ts.map (fun t => (t.lexeme, t.line)))
          = some [("x", 1), ("=", 1), ("nil", 1), ("y", 2), ("=", 2), ("-", 2), ("x", 2), ("", 2)]
      ∧ (∀ (T : Type) [DoubleModel T] (k : Nat),
          (Main.run (k + 18) negateNilSource : RunResult T)
              = .executed (.finished .RUNTIME_ERROR (negateNilFinal T))
            ∧ (negateNilFinal T).err = [("Operand must be a number.", 0)]
            ∧ (negateNilChunk T).code[(negateNilFinal T).ip - 1]?
                = some OpCode.OP_NEGATE.toByte) := by
  refine ⟨?_, by decide, ?_⟩
  · intro T _ ss h
    refine ⟨_, compile_eq ss h {}, ?_⟩
    simp [Chunk.extend]
  · intro T _ k
    refine ⟨?_, rfl, by rfl⟩
    simp only [Main.run, scan_negateNil, parse_negateNil]
    rw [compile_negateNil]
    have h := @interpret_negateNil T _ (k + 13)
    have e : k + 13 + 5 = k + 18 := by omega
    rw [e] at h
    simp only [h]
    rfl

end LineMap

/-! ## The scanner reaches the end of every source -/

section ScanTotal

theorem extends_refl (a : Lexer) : Lexer.Extends a a := ⟨rfl, Nat.le_refl _, fun h => h⟩

theorem extends_trans {a b c : Lexer} (h1 : Lexer.Extends a b) (h2 : Lexer.Extends b c) :
    Lexer.Extends a c :=
  ⟨h2.1.trans h1.1, Nat.le_trans h1.2.1 h2.2.1, fun h => h2.2.2 (h1.2.2 h)⟩

theorem extends_advance (a : Lexer) : Lexer.Extends a a.advance.2 :=
  ⟨rfl, Nat.le_succ _, fun h => h⟩

theorem extends_matchChar (a : Lexer) (ch : Char) : Lexer.Extends a (a.matchChar ch).2 := by
  unfold Lexer.matchChar
  split
  · exact extends_refl a
  · split
    · exact extends_refl a
    · exact ⟨rfl, Nat.le_succ _, fun h => h⟩

theorem extends_addTokenWith (a : Lexer) (ty : TokenType) (text : String)
    (h : ty ≠ .TOKEN_EOF) : Lexer.Extends a (a.addTokenWith ty text) := by
  refine ⟨rfl, Nat.le_refl _, ?_⟩
  intro ha t ht
  simp only [Lexer.addTokenWith, List.mem_append, List.mem_singleton] at ht
  rcases ht with ht | ht
  · exact ha t ht
  · subst ht
    exact h

theorem extends_addToken (a : Lexer) (ty : TokenType) (h : ty ≠ .TOKEN_EOF) :
    Lexer.Extends a (a.addToken ty) :=
  extends_addTokenWith a ty _ h

theorem extends_skipComment : ∀ (budget : Nat) (a : Lexer),
    Lexer.Extends a (Lexer.skipComment budget a)
  | 0, a => extends_refl a
  | budget + 1, a => by
      unfold Lexer.skipComment
      split
      · exact extends_trans (extends_advance a) (extends_skipComment budget _)
      · exact extends_refl a

theorem extends_stringBody : ∀ (budget : Nat) (a : Lexer),
    Lexer.Extends a (Lexer.stringBody budget a)
  | 0, a => extends_refl a
  | budget + 1, a => by
      unfold Lexer.stringBody
      split
      · refine extends_trans ?_ (extends_stringBody budget _)
        split
        · exact ⟨rfl, Nat.le_succ _, fun h => h⟩
        · exact extends_advance a
      · exact extends_refl a

theorem extends_string (a : Lexer) : Lexer.Extends a a.string := by
  unfold Lexer.string
  refine extends_trans (b := Lexer.stringBody (a.source.length - a.current) a)
    (extends_stringBody _ a) ?_
  show Lexer.Extends _ (if _ then _ else _)
  split
  · exact ⟨rfl, Nat.le_refl _, fun h => h⟩
  · exact extends_trans (extends_advance _) (extends_addTokenWith _ _ _ (by decide))

theorem extends_digits : ∀ (budget : Nat) (a : Lexer), Lexer.Extends a (Lexer.digits budget a)
  | 0, a => extends_refl a
  | budget + 1, a => by
      unfold Lexer.digits
      split
      · exact extends_trans (extends_advance a) (extends_digits budget _)
      · exact extends_refl a

theorem extends_number (a : Lexer) : Lexer.Extends a a.number := by
  unfold Lexer.number
  refine extends_trans (b := Lexer.digits (a.source.length - a.current) a)
    (extends_digits _ a) (extends_trans ?_ (extends_addToken _ _ (by decide)))
  show Lexer.Extends _ (if _ then _ else _)
  split
  · exact extends_trans (extends_advance _) (extends_digits _ _)
  · exact extends_refl _

theorem extends_identifierBody : ∀ (budget : Nat) (a : Lexer),
    Lexer.Extends a (Lexer.identifierBody budget a)
  | 0, a => extends_refl a
  | budget + 1, a => by
      unfold Lexer.identifierBody
      split
      · exact extends_trans (extends_advance a) (extends_identifierBody budget _)
      · exact extends_refl a

theorem lookup_mem_pair {β : Type} (k : String) (v : β) :
    ∀ l : List (String × β), l.lookup k = some v → (k, v) ∈ l
  | [], h => by simp [List.lookup] at h
  | (a, b) :: rest, h => by
      simp only [List.lookup] at h
      split at h
      · rename_i heq
        simp only [Option.some.injEq] at h
        have e : k = a := by simpa using heq
        simp [e, h]
      · exact List.mem_cons_of_mem _ (lookup_mem_pair k v rest h)

theorem keyword_type_ne_eof (text : String) :
    (keywords.lookup text).getD .IDENTIFIER ≠ .TOKEN_EOF := by
  cases h : keywords.lookup text with
  | none => simp
  | some ty =>
    have hall : ∀ p ∈ keywords, p.2 ≠ TokenType.TOKEN_EOF := by decide
    exact hall (text, ty) (lookup_mem_pair text ty keywords h)

theorem extends_identifier (a : Lexer) : Lexer.Extends a a.identifier := by
  unfold Lexer.identifier
  exact extends_trans (extends_identifierBody _ a) (extends_addToken _ _ (keyword_type_ne_eof _))

/-- A call of `scanToken` keeps the source, reads at least one character and
adds no end-of-input token. -/
theorem scanToken_extends (a : Lexer) :
    Lexer.Extends a a.scanToken ∧ a.current + 1 ≤ a.scanToken.current := by
  have key : ∀ b : Lexer, Lexer.Extends a.advance.2 b →
      Lexer.Extends a b ∧ a.current + 1 ≤ b.current := fun b hb =>
    ⟨extends_trans (extends_advance a) hb, hb.2.1⟩
  have ite : ∀ (p : Prop) [Decidable p] (x y : Lexer),
      (Lexer.Extends a x ∧ a.current + 1 ≤ x.current) →
      (Lexer.Extends a y ∧ a.current + 1 ≤ y.current) →
      (Lexer.Extends a (if p then x else y) ∧ a.current + 1 ≤ (if p then x else y).current) := by
    intro p _ x y hx hy
    split
    · exact hx
    · exact hy
  have tok : ∀ ty : TokenType, ty ≠ .TOKEN_EOF →
      (Lexer.Extends a (a.advance.2.addToken ty)
        ∧ a.current + 1 ≤ (a.advance.2.addToken ty).current) := fun ty h =>
    key _ (extends_addToken _ _ h)
  have two : ∀ (ch : Char) (t1 t2 : TokenType), t1 ≠ .TOKEN_EOF → t2 ≠ .TOKEN_EOF →
      (Lexer.Extends a ((a.advance.2.matchChar ch).2.addToken
          (if (a.advance.2.matchChar ch).1 = true then t1 else t2))
        ∧ a.current + 1 ≤ ((a.advance.2.matchChar ch).2.addToken
          (if (a.advance.2.matchChar ch).1 = true then t1 else t2)).current) := by
    intro ch t1 t2 h1 h2
    refine key _ (extends_trans (extends_matchChar _ _) (extends_addToken _ _ ?_))
    split
    · exact h1
    · exact h2
  unfold Lexer.scanToken
  exact ite _ _ _ (tok _ (by decide)) <| ite _ _ _ (tok _ (by decide)) <|
    ite _ _ _ (tok _ (by decide)) <| ite _ _ _ (tok _ (by decide)) <|
    ite _ _ _ (tok _ (by decide)) <| ite _ _ _ (tok _ (by decide)) <|
    ite _ _ _
      (ite _ _ _ (key _ (extends_trans (extends_matchChar _ _) (extends_skipComment _ _)))
        (key _ (extends_trans (extends_matchChar _ _) (extends_addToken _ _ (by decide))))) <|
    ite _ _ _ (tok _ (by decide)) <| ite _ _ _ (tok _ (by decide)) <|
    ite _ _ _ (tok _ (by decide)) <|
    ite _ _ _ (two _ _ _ (by decide) (by decide)) <|
    ite _ _ _ (two _ _ _ (by decide) (by decide)) <|
    ite _ _ _ (two _ _ _ (by decide) (by decide)) <|
    ite _ _ _ (two _ _ _ (by decide) (by decide)) <|
    ite _ _ _ (tok _ (by decide)) <|
    ite _ _ _ (key _ (extends_refl _)) <|
    ite _ _ _ (key _ ⟨rfl, Nat.le_refl _, fun h => h⟩) <|
    ite _ _ _ (key _ (extends_string _)) <|
    ite _ _ _ (key _ (extends_number _)) <|
    ite _ _ _ (key _ (extends_identifier _)) (key _ ⟨rfl, Nat.le_refl _, fun h => h⟩)

theorem scanLoop_total : ∀ (budget : Nat) (a : Lexer), a.source.length - a.current ≤ budget →
    ∃ b : Lexer, Lexer.scanLoop budget a = some b ∧ Lexer.Extends a b ∧ b.isAtEnd = true
  | 0, a, h => by
      have he := isAtEnd_of_budget_zero a h
      exact ⟨a, by simp [Lexer.scanLoop, he], extends_refl a, he⟩
  | budget + 1, a, h => by
      unfold Lexer.scanLoop
      by_cases he : a.isAtEnd = true
      · exact ⟨a, by simp [he], extends_refl a, he⟩
      · rw [if_neg he]
        have hs := scanToken_extends { a with start := a.current }
        obtain ⟨b, hb, hab, hend⟩ := scanLoop_total budget
          (Lexer.scanToken { a with start := a.current }) (by
            have h1 := hs.1.1
            have h2 := hs.2
            rw [h1]
            show a.source.length - _ ≤ budget
            have h3 : a.current + 1 ≤ (Lexer.scanToken { a with start := a.current }).current := h2
            omega)
        refine ⟨b, hb, ?_, hend⟩
        exact extends_trans (b := Lexer.scanToken { a with start := a.current })
          ⟨hs.1.1, Nat.le_of_succ_le hs.2, hs.1.2.2⟩ hab

/-- C22: for every source, `scanTokens` returns a token list that ends with the
end-of-input token and holds no other token of that kind. -/
theorem scanTokens_ends_with_single_eof (source : String) :
    ∃ (tokens : List Token) (last : Token),
      scanTokens source = some (tokens ++ [last])
        ∧ last.type = .TOKEN_EOF
        ∧ ∀ t ∈ tokens, t.type ≠ .TOKEN_EOF := by
  obtain ⟨b, hb, hab, _⟩ := scanLoop_total source.length { source := source.toList } (by
    show source.toList.length - 0 ≤ source.toList.length
    omega)
  refine ⟨b.tokens, { type := .TOKEN_EOF, lexeme := "", line := b.line, column := b.column },
    ?_, rfl, hab.2.2 (fun t ht => absurd ht (List.not_mem_nil t))⟩
  unfold scanTokens Lexer.scan
  rw [hb]
  rfl

end ScanTotal

/-! ## Identifiers, reserved words and string literals -/

section Words

theorem lexer_at_cons (lx : Lexer) (ch : Char) (tail : List Char)
    (h : lx.source.drop lx.current = ch :: tail) :
    lx.isAtEnd = false ∧ lx.charAt lx.current = ch ∧ lx.peek = ch
      ∧ lx.source.drop (lx.current + 1) = tail := by
  have hlt : lx.current < lx.source.length := by
    by_contra hge
    rw [List.drop_eq_nil_iff.mpr (by omega)] at h
    cases h
  have hend : lx.isAtEnd = false := by
    simp only [Lexer.isAtEnd, decide_eq_false_iff_not]
    omega
  have hch : lx.charAt lx.current = ch := by
    have h1 := List.head?_drop lx.source lx.current
    rw [h] at h1
    simp only [List.head?_cons] at h1
    simp only [Lexer.charAt, List.getD_eq_getElem?_getD, ← h1, Option.getD_some]
  refine ⟨hend, hch, ?_, ?_⟩
  · simp only [Lexer.peek, hend, hch]
    rfl
  · rw [← List.tail_drop, h]
    rfl

theorem lexer_at_nil (lx : Lexer) (h : lx.source.drop lx.current = []) :
    lx.isAtEnd = true ∧ lx.peek = Char.ofNat 0 := by
  have hend : lx.isAtEnd = true := by
    simp only [Lexer.isAtEnd, decide_eq_true_eq]
    exact List.drop_eq_nil_iff.mp h
  exact ⟨hend, peek_of_isAtEnd lx hend⟩

theorem alpha_not_digit (c : Char) (h : c.isAlpha = true) : c.isDigit = false := by
  simp only [Char.isAlpha, Char.isUpper, Char.isLower, Char.isDigit, Bool.or_eq_true,
    Bool.and_eq_true, decide_eq_true_eq, Bool.and_eq_false_iff, decide_eq_false_iff_not,
    ge_iff_le, UInt32.le_def, BitVec.le_def] at *
  have e1 : (UInt32.toBitVec 65).toNat = 65 := rfl
  have e2 : (UInt32.toBitVec 90).toNat = 90 := rfl
  have e3 : (UInt32.toBitVec 97).toNat = 97 := rfl
  have e4 : (UInt32.toBitVec 122).toNat = 122 := rfl
  have e5 : (UInt32.toBitVec 48).toNat = 48 := rfl
  have e6 : (UInt32.toBitVec 57).toNat = 57 := rfl
  rw [e1, e2, e3, e4] at h
  rw [e5, e6]
  omega

/-- The loop of `Lexer::identifier` reads a run of letters, digits and
underscores up to a character that is none of these, or up to the end. -/
theorem identifierBody_run : ∀ (run : List Char) (n : Nat) (lx : Lexer) (post : List Char),
    (∀ ch ∈ run, ch.isAlphanum = true ∨ ch = Char.ofNat 95) →
    (∀ ch, post.head? = some ch → ¬ (ch.isAlphanum = true ∨ ch = Char.ofNat 95)) →
    lx.source.drop lx.current = run ++ post →
    Lexer.identifierBody (run.length + n) lx
      = { lx with current := lx.current + run.length, column := lx.column + run.length }
  | [], n, lx, post, _, hpost, hsrc => by
      have e : ({ lx with current := lx.current + ([] : List Char).length,
                          column := lx.column + (([] : List Char).length : Nat) } : Lexer) = lx := by
        simp
      rw [e, List.length_nil, Nat.zero_add]
      cases n with
      | zero => rfl
      | succ n =>
        unfold Lexer.identifierBody
        rw [if_neg]
        cases post with
        | nil =>
          rw [(lexer_at_nil lx hsrc).2]
          decide
        | cons ch tail =>
          rw [(lexer_at_cons lx ch tail hsrc).2.2.1]
          exact hpost ch rfl
  | ch :: rest, n, lx, post, hrun, hpost, hsrc => by
      have hat := lexer_at_cons lx ch (rest ++ post) hsrc
      have e : (ch :: rest).length + n = (rest.length + n) + 1 := by
        simp only [List.length_cons]
        omega
      rw [e]
      unfold Lexer.identifierBody
      rw [if_pos (by rw [hat.2.2.1]; exact hrun ch (List.mem_cons_self _ _))]
      rw [identifierBody_run rest n lx.advance.2 post
        (fun x hx => hrun x (List.mem_cons_of_mem _ hx)) hpost hat.2.2.2]
      simp only [Lexer.advance, List.length_cons, Nat.cast_add, Nat.cast_one]
      congr 1
      · omega
      · omega

/-- The dispatch of `scanToken` on a letter or an underscore: the character is
read and `identifier` is called. -/
theorem scanToken_of_letter (lx0 : Lexer)
    (hc : lx0.advance.1.isAlpha = true ∨ lx0.advance.1 = Char.ofNat 95) :
    lx0.scanToken = lx0.advance.2.identifier := by
  have hne : ∀ k : Char, k.isAlpha = false → k ≠ Char.ofNat 95 → ¬ lx0.advance.1 = k := by
    intro k hk1 hk2 he
    rw [he] at hc
    rcases hc with h | h
    · rw [hk1] at h
      cases h
    · exact hk2 h
  have hd : ¬ lx0.advance.1.isDigit = true := by
    rcases hc with h | h
    · rw [alpha_not_digit _ h]
      decide
    · rw [h]
      decide
  unfold Lexer.scanToken
  show (if lx0.advance.1 = Char.ofNat 40 then _ else _) = _
  rw [if_neg (hne _ (by decide) (by decide)), if_neg (hne _ (by decide) (by decide)),
    if_neg (hne _ (by decide) (by decide)), if_neg (hne _ (by decide) (by decide)),
    if_neg (hne _ (by decide) (by decide)), if_neg (hne _ (by decide) (by decide)),
    if_neg (hne _ (by decide) (by decide)), if_neg (hne _ (by decide) (by decide)),
    if_neg (hne _ (by decide) (by decide)), if_neg (hne _ (by decide) (by decide)),
    if_neg (hne _ (by decide) (by decide)), if_neg (hne _ (by decide) (by decide)),
    if_neg (hne _ (by decide) (by decide)), if_neg (hne _ (by decide) (by decide)),
    if_neg (hne _ (by decide) (by decide)),
    if_neg (by
      rintro (h | h | h)
      · exact hne _ (by decide) (by decide) h
      · exact hne _ (by decide) (by decide) h
      · exact hne _ (by decide) (by decide) h),
    if_neg (hne _ (by decide) (by decide)), if_neg (hne _ (by decide) (by decide)),
    if_neg hd, if_pos hc]

/-- A call of `scanToken` at the first character of a run of letters, digits and
underscores that starts with a letter or an underscore and is followed by no
such character: one token is added, its lexeme the run and its kind the entry of
`keywords` for the run, `IDENTIFIER` without one. -/
theorem scanToken_word (lx0 : Lexer) (c : Char) (rest post : List Char)
    (hstart : lx0.start = lx0.current)
    (hsrc : lx0.source.drop lx0.current = c :: rest ++ post)
    (hc : c.isAlpha = true ∨ c = Char.ofNat 95)
    (hrest : ∀ ch ∈ rest, ch.isAlphanum = true ∨ ch = Char.ofNat 95)
    (hpost : ∀ ch, post.head? = some ch → ¬ (ch.isAlphanum = true ∨ ch = Char.ofNat 95)) :
    lx0.scanToken
      = { lx0 with
          current := lx0.current + 1 + rest.length
          column := lx0.column + 1 + rest.length
          tokens := lx0.tokens ++
            [{ type := (keywords.lookup (String.mk (c :: rest))).getD .IDENTIFIER
               lexeme := String.mk (c :: rest)
               line := lx0.line
               column := lx0.column + 1 + rest.length }] } := by
  have hat := lexer_at_cons lx0 c (rest ++ post) hsrc
  have hlen : lx0.source.length - (lx0.current + 1) = rest.length + post.length := by
    have h := congrArg List.length hat.2.2.2
    simp only [List.length_drop, List.length_append] at h
    exact h
  have hbody := identifierBody_run rest post.length lx0.advance.2 post hrest hpost hat.2.2.2
  have htext : substr lx0.source lx0.current (lx0.current + 1 + rest.length - lx0.current)
      = String.mk (c :: rest) := by
    unfold substr
    rw [hsrc]
    have e : lx0.current + 1 + rest.length - lx0.current = (c :: rest).length := by
      simp only [List.length_cons]
      omega
    rw [e]
    have e2 : c :: rest ++ post = (c :: rest) ++ post := rfl
    rw [e2, List.take_left]
  rw [scanToken_of_letter lx0 (by
    show (lx0.charAt lx0.current).isAlpha = true ∨ lx0.charAt lx0.current = Char.ofNat 95
    rw [hat.2.1]
    exact hc)]
  have hb : Lexer.identifierBody (lx0.advance.2.source.length - lx0.advance.2.current)
      lx0.advance.2
      = { lx0.advance.2 with current := lx0.advance.2.current + rest.length,
                             column := lx0.advance.2.column + rest.length } := by
    have e : lx0.advance.2.source.length - lx0.advance.2.current
        = rest.length + post.length := hlen
    rw [e, hbody]
  unfold Lexer.identifier
  simp only [hb]
  simp only [Lexer.addToken, Lexer.addTokenWith, Lexer.advance, hstart, htext]

theorem keywords_lookup_of_mem (w : String) (k : TokenType) (h : (w, k) ∈ keywords) :
    keywords.lookup w = some k := by
  have hall : ∀ p ∈ keywords, keywords.lookup p.1 = some p.2 := by decide
  exact hall (w, k) h

theorem keywords_lookup_none (w : String) (h : w ∉ keywords.map Prod.fst) :
    keywords.lookup w = none := by
  cases hl : keywords.lookup w with
  | none => rfl
  | some k =>
    exact absurd (List.mem_map_of_mem Prod.fst (lookup_mem_pair w k keywords hl)) h

theorem scanLoop_of_isAtEnd (budget : Nat) (lx : Lexer) (h : lx.isAtEnd = true) :
    Lexer.scanLoop budget lx = some lx := by
  cases budget with
  | zero => simp [Lexer.scanLoop, h]
  | succ n => simp [Lexer.scanLoop, h]

/-- When `scanToken` starts at the first character of a run of letters,
digits and underscores that begins with a letter or an underscore and is followed
by no such character, it reads exactly the run and adds exactly one token, whose
lexeme is the run; the kind of the token is the kind the table of the 21 reserved
words gives for the run, and it is `IDENTIFIER` exactly when the run is none of
the 21 words. -/
theorem scanToken_word_kind (lx0 : Lexer) (c : Char) (rest post : List Char)
    (hstart : lx0.start = lx0.current)
    (hsrc : lx0.source.drop lx0.current = c :: rest ++ post)
    (hc : c.isAlpha = true ∨ c = Char.ofNat 95)
    (hrest : ∀ ch ∈ rest, ch.isAlphanum = true ∨ ch = Char.ofNat 95)
    (hpost : ∀ ch, post.head? = some ch → ¬ (ch.isAlphanum = true ∨ ch = Char.ofNat 95)) :
    ∃ kind : TokenType,
      lx0.scanToken
          = { lx0 with
              current := lx0.current + 1 + rest.length
              column := lx0.column + 1 + rest.length
              tokens := lx0.tokens ++
                [{ type := kind, lexeme := String.mk (c :: rest), line := lx0.line,
                   column := lx0.column + 1 + rest.length }] }
        ∧ (∀ k : TokenType,
            (String.mk (c :: rest), k)
                ∈ [("and", TokenType.AND), ("break", .BREAK), ("do", .DO), ("else", .ELSE),
                   ("elseif", .ELSEIF), ("end", .END), ("false", .FALSE), ("for", .FOR),
                   ("function", .FUNCTION), ("if", .IF), ("in", .IN), ("local", .LOCAL),
                   ("nil", .NIL), ("not", .NOT), ("or", .OR), ("repeat", .REPEAT),
                   ("return", .RETURN), ("then", .THEN), ("true", .TRUE), ("until", .UNTIL),
                   ("while", .WHILE)] →
            kind = k)
        ∧ (kind = .IDENTIFIER
            ↔ String.mk (c :: rest)
                ∉ ["and", "break", "do", "else", "elseif", "end", "false", "for", "function",
                   "if", "in", "local", "nil", "not", "or", "repeat", "return", "then", "true",
                   "until", "while"]) := by
  refine ⟨(keywords.lookup (String.mk (c :: rest))).getD .IDENTIFIER,
    scanToken_word lx0 c rest post hstart hsrc hc hrest hpost, ?_, ?_⟩
  · intro k hk
    rw [keywords_lookup_of_mem _ k hk]
    rfl
  · constructor
    · intro hkind hmem
      have hm : String.mk (c :: rest) ∈ keywords.map Prod.fst := hmem
      obtain ⟨p, hp, hp1⟩ := List.mem_map.mp hm
      have hl := keywords_lookup_of_mem p.1 p.2 hp
      rw [hp1] at hl
      rw [hl] at hkind
      simp only [Option.getD_some] at hkind
      have hall : ∀ q ∈ keywords, q.2 ≠ TokenType.IDENTIFIER := by decide
      exact hall p hp hkind
    · intro hmem
      rw [keywords_lookup_none _ hmem]
      rfl

/-- The theorem above on the source `while x`, scanned from its first
character. -/
theorem scanToken_word_kind_example :
    ({ source := "while x".toList } : Lexer).start = ({ source := "while x".toList } : Lexer).current
      ∧ ({ source := "while x".toList } : Lexer).source.drop
            ({ source := "while x".toList } : Lexer).current
          = Char.ofNat 119 :: "hile".toList ++ " x".toList
      ∧ ((Char.ofNat 119).isAlpha = true ∨ Char.ofNat 119 = Char.ofNat 95)
      ∧ (∀ ch ∈ "hile".toList, ch.isAlphanum = true ∨ ch = Char.ofNat 95)
      ∧ (∀ ch, " x".toList.head? = some ch → ¬ (ch.isAlphanum = true ∨ ch = Char.ofNat 95))
      ∧ ∃ kind : TokenType,
        ({ source := "while x".toList } : Lexer).scanToken
            = { source := "while x".toList, current := 0 + 1 + "hile".toList.length,
                column := 1 + 1 + ("hile".toList.length : Nat),
                tokens := [] ++
                  [{ type := kind, lexeme := String.mk (Char.ofNat 119 :: "hile".toList),
                     line := 1, column := 1 + 1 + ("hile".toList.length : Nat) }] }
          ∧ (∀ k : TokenType,
              (String.mk (Char.ofNat 119 :: "hile".toList), k)
                  ∈ [("and", TokenType.AND), ("break", .BREAK), ("do", .DO), ("else", .ELSE),
                     ("elseif", .ELSEIF), ("end", .END), ("false", .FALSE), ("for", .FOR),
                     ("function", .FUNCTION), ("if", .IF), ("in", .IN), ("local", .LOCAL),
                     ("nil", .NIL), ("not", .NOT), ("or", .OR), ("repeat", .REPEAT),
                     ("return", .RETURN), ("then", .THEN), ("true", .TRUE), ("until", .UNTIL),
                     ("while", .WHILE)] →
              kind = k)
          ∧ (kind = .IDENTIFIER
              ↔ String.mk (Char.ofNat 119 :: "hile".toList)
                  ∉ ["and", "break", "do", "else", "elseif", "end", "false", "for", "function",
                     "if", "in", "local", "nil", "not", "or", "repeat", "return", "then",
                     "true", "until", "while"]) :=
  ⟨rfl, by decide, by decide, by decide, by decide,
    scanToken_word_kind { source := "while x".toList } (Char.ofNat 119) "hile".toList
      " x".toList rfl (by decide) (by decide) (by decide) (by decide)⟩

/-- The loop of `Lexer::string` reads up to the next double quote, or up to the
end of the source when there is none; it moves the cursor and changes the line
and the column only. -/
theorem stringBody_run : ∀ (body : List Char) (n : Nat) (lx : Lexer) (post : List Char),
    (∀ ch ∈ body, ch ≠ Char.ofNat 34) →
    (∀ ch, post.head? = some ch → ch = Char.ofNat 34) →
    lx.source.drop lx.current = body ++ post →
    ∃ (l col : Int), Lexer.stringBody (body.length + n) lx
      = { lx with current := lx.current + body.length, line := l, column := col }
  | [], n, lx, post, _, hpost, hsrc => by
      refine ⟨lx.line, lx.column, ?_⟩
      rw [List.length_nil, Nat.zero_add]
      cases n with
      | zero => rfl
      | succ n =>
        unfold Lexer.stringBody
        rw [if_neg]
        · rfl
        · cases post with
          | nil => simp [(lexer_at_nil lx hsrc).1]
          | cons ch tail =>
            rw [(lexer_at_cons lx ch tail hsrc).2.2.1, hpost ch rfl]
            simp
  | ch :: rest, n, lx, post, hbody, hpost, hsrc => by
      have hat := lexer_at_cons lx ch (rest ++ post) hsrc
      have e : (ch :: rest).length + n = (rest.length + n) + 1 := by
        simp only [List.length_cons]
        omega
      rw [e]
      unfold Lexer.stringBody
      rw [if_pos ⟨by rw [hat.2.2.1]; exact hbody ch (List.mem_cons_self _ _), by simp [hat.1]⟩]
      have hrec : ∀ lx1 : Lexer, lx1.source = lx.source → lx1.current = lx.current →
          lx1.tokens = lx.tokens → lx1.start = lx.start → lx1.errors = lx.errors →
          ∃ (l col : Int), Lexer.stringBody (rest.length + n) lx1.advance.2
            = { lx with current := lx.current + (ch :: rest).length, line := l, column := col } := by
        intro lx1 h1 h2 h3 h4 h5
        obtain ⟨l, col, h⟩ := stringBody_run rest n lx1.advance.2 post
          (fun x hx => hbody x (List.mem_cons_of_mem _ hx)) hpost (by
            show lx1.source.drop (lx1.current + 1) = rest ++ post
            rw [h1, h2]
            exact hat.2.2.2)
        refine ⟨l, col, ?_⟩
        rw [h]
        simp only [Lexer.advance, h1, h2, h3, h4, h5, List.length_cons]
        congr 1
        omega
      split
      · exact hrec _ rfl rfl rfl rfl rfl
      · exact hrec _ rfl rfl rfl rfl rfl

/-- The dispatch of `scanToken` on a double quote: the character is read and
`string` is called. -/
theorem scanToken_of_quote (lx0 : Lexer) (hc : lx0.advance.1 = Char.ofNat 34) :
    lx0.scanToken = lx0.advance.2.string := by
  have hne : ∀ k : Char, k ≠ Char.ofNat 34 → ¬ lx0.advance.1 = k := by
    intro k hk he
    rw [hc] at he
    exact hk he.symm
  unfold Lexer.scanToken
  show (if lx0.advance.1 = Char.ofNat 40 then _ else _) = _
  rw [if_neg (hne _ (by decide)), if_neg (hne _ (by decide)),
    if_neg (hne _ (by decide)), if_neg (hne _ (by decide)),
    if_neg (hne _ (by decide)), if_neg (hne _ (by decide)),
    if_neg (hne _ (by decide)), if_neg (hne _ (by decide)),
    if_neg (hne _ (by decide)), if_neg (hne _ (by decide)),
    if_neg (hne _ (by decide)), if_neg (hne _ (by decide)),
    if_neg (hne _ (by decide)), if_neg (hne _ (by decide)),
    if_neg (hne _ (by decide)),
    if_neg (by
      rintro (h | h | h)
      · exact hne _ (by decide) h
      · exact hne _ (by decide) h
      · exact hne _ (by decide) h),
    if_neg (hne _ (by decide)), if_pos hc]

/-- A call of `scanToken` at a double quote that is closed by the next double
quote of the source: one `STRING` token is added, its lexeme the text between the
quotes. -/
theorem scanToken_closed_string (lx0 : Lexer) (body post : List Char)
    (hstart : lx0.start = lx0.current)
    (hsrc : lx0.source.drop lx0.current = Char.ofNat 34 :: body ++ Char.ofNat 34 :: post)
    (hbody : ∀ ch ∈ body, ch ≠ Char.ofNat 34) :
    ∃ (l col : Int), lx0.scanToken
      = { lx0 with
          current := lx0.current + body.length + 2, line := l, column := col
          tokens := lx0.tokens ++
            [{ type := .STRING, lexeme := String.mk body, line := l, column := col }] } := by
  have hat := lexer_at_cons lx0 (Char.ofNat 34) (body ++ Char.ofNat 34 :: post) hsrc
  have hlen : lx0.advance.2.source.length - lx0.advance.2.current
      = body.length + (post.length + 1) := by
    have h := congrArg List.length hat.2.2.2
    simp only [List.length_drop, List.length_append, List.length_cons] at h
    exact h
  obtain ⟨l, col, hrun⟩ := stringBody_run body (post.length + 1) lx0.advance.2
    (Char.ofNat 34 :: post) hbody (fun ch h => by
      simp only [List.head?_cons, Option.some.injEq] at h
      exact h.symm) hat.2.2.2
  rw [← hlen] at hrun
  have hnot : (⟨lx0.source, lx0.tokens, lx0.start, lx0.current + 1 + body.length, l, col,
      lx0.errors⟩ : Lexer).isAtEnd = false := by
    have h := congrArg List.length hsrc
    simp only [List.length_drop, List.length_append, List.length_cons] at h
    simp only [Lexer.isAtEnd, decide_eq_false_iff_not]
    omega
  simp only [Lexer.advance] at hrun
  have htext : substr lx0.source (lx0.current + 1)
      (lx0.current + 1 + body.length + 1 - lx0.current - 2) = String.mk body := by
    unfold substr
    rw [hat.2.2.2]
    have e : lx0.current + 1 + body.length + 1 - lx0.current - 2 = body.length := by omega
    rw [e, List.take_left]
  refine ⟨l, col + 1, ?_⟩
  rw [scanToken_of_quote lx0 (by
    show lx0.charAt lx0.current = Char.ofNat 34
    exact hat.2.1)]
  unfold Lexer.string
  simp only [Lexer.advance, hrun, hnot]
  simp only [Lexer.addTokenWith, Lexer.advance, hstart, htext, Bool.false_eq_true, if_false]
  congr 1
  omega

/-- A call of `scanToken` at a double quote after which the source holds no
double quote: the rest of the source is read, the error is reported and no token
is added. -/
theorem scanToken_open_string (lx0 : Lexer) (body : List Char)
    (hsrc : lx0.source.drop lx0.current = Char.ofNat 34 :: body)
    (hbody : ∀ ch ∈ body, ch ≠ Char.ofNat 34) :
    ∃ (l col : Int), lx0.scanToken
      = { lx0 with
          current := lx0.source.length, line := l, column := col
          errors := lx0.errors ++ ["Unterminated string at line " ++ toString l] } := by
  have hat := lexer_at_cons lx0 (Char.ofNat 34) (body ++ []) (by simpa using hsrc)
  have hlen : lx0.advance.2.source.length - lx0.advance.2.current = body.length + 0 := by
    have h := congrArg List.length hat.2.2.2
    simp only [List.length_drop, List.length_append, List.length_nil] at h
    exact h
  obtain ⟨l, col, hrun⟩ := stringBody_run body 0 lx0.advance.2 [] hbody
    (fun ch h => by simp at h) hat.2.2.2
  rw [← hlen] at hrun
  have hcur : lx0.current + 1 + body.length = lx0.source.length := by
    have h := congrArg List.length hsrc
    simp only [List.length_drop, List.length_cons] at h
    omega
  have hend : (⟨lx0.source, lx0.tokens, lx0.start, lx0.current + 1 + body.length, l, col,
      lx0.errors⟩ : Lexer).isAtEnd = true := by
    simp only [Lexer.isAtEnd, decide_eq_true_eq]
    omega
  simp only [Lexer.advance] at hrun
  refine ⟨l, col, ?_⟩
  rw [scanToken_of_quote lx0 (by
    show lx0.charAt lx0.current = Char.ofNat 34
    exact hat.2.1)]
  unfold Lexer.string
  simp only [Lexer.advance, hrun, hend]
  simp only [Lexer.advance, hcur, if_true]

/-- C24: for a string `s` without a double quote, scanning the source made of a
double quote, `s` and a double quote gives exactly a `STRING` token with lexeme
`s` followed by the end-of-input token; scanning the source made of a double
quote and `s`, where the literal is not closed, reports the error
`Unterminated string` and gives the end-of-input token alone; and whenever
`scanToken` starts at a double quote after which the source holds no double
quote, it reads the rest of the source, reports that error and adds no token. -/
theorem string_literal_scans_to_body (s : String) (hs : ∀ ch ∈ s.toList, ch ≠ Char.ofNat 34) :
    (∃ (l1 c1 l2 c2 : Int),
        scanTokens (quoted s)
          = some [{ type := .STRING, lexeme := s, line := l1, column := c1 },
                  { type := .TOKEN_EOF, lexeme := "", line := l2, column := c2 }])
      ∧ (∃ (lx : Lexer) (l c : Int),
          Lexer.scan (String.mk (Char.ofNat 34 :: s.toList)) = some lx
            ∧ lx.tokens = [{ type := .TOKEN_EOF, lexeme := "", line := l, column := c }]
            ∧ lx.errors = ["Unterminated string at line " ++ toString l])
      ∧ (∀ lx0 : Lexer, lx0.source.drop lx0.current = Char.ofNat 34 :: s.toList →
          ∃ (l col : Int), lx0.scanToken
            = { lx0 with
                current := lx0.source.length, line := l, column := col
                errors := lx0.errors ++ ["Unterminated string at line " ++ toString l] }) := by
  refine ⟨?_, ?_, fun lx0 h => scanToken_open_string lx0 s.toList h hs⟩
  · obtain ⟨l, col, h⟩ := scanToken_closed_string
      { source := Char.ofNat 34 :: (s.toList ++ [Char.ofNat 34]) } s.toList [] rfl rfl hs
    refine ⟨l, col, l, col, ?_⟩
    unfold scanTokens Lexer.scan
    have hlen : (quoted s).length = (s.toList.length + 1) + 1 := by
      show (Char.ofNat 34 :: (s.toList ++ [Char.ofNat 34])).length = _
      simp
    have hsrc : (quoted s).toList = Char.ofNat 34 :: (s.toList ++ [Char.ofNat 34]) := rfl
    rw [hlen, hsrc]
    unfold Lexer.scanLoop
    rw [if_neg (by simp [Lexer.isAtEnd])]
    have h1 : Lexer.scanToken
        { ({ source := Char.ofNat 34 :: (s.toList ++ [Char.ofNat 34]) } : Lexer) with
          start := ({ source := Char.ofNat 34 :: (s.toList ++ [Char.ofNat 34]) } : Lexer).current }
        = _ := h
    rw [h1, scanLoop_of_isAtEnd _ _ (by simp [Lexer.isAtEnd])]
    rfl
  · obtain ⟨l, col, h⟩ := scanToken_open_string
      { source := Char.ofNat 34 :: s.toList } s.toList rfl hs
    refine ⟨⟨Char.ofNat 34 :: s.toList,
        [{ type := .TOKEN_EOF, lexeme := "", line := l, column := col }], 0,
        (Char.ofNat 34 :: s.toList).length, l, col,
        ["Unterminated string at line " ++ toString l]⟩, l, col, ?_, rfl, rfl⟩
    unfold Lexer.scan
    have hlen : (String.mk (Char.ofNat 34 :: s.toList)).length = s.toList.length + 1 := rfl
    have hsrc : (String.mk (Char.ofNat 34 :: s.toList)).toList = Char.ofNat 34 :: s.toList := rfl
    rw [hlen, hsrc]
    unfold Lexer.scanLoop
    rw [if_neg (by simp [Lexer.isAtEnd])]
    have h1 : Lexer.scanToken
        { ({ source := Char.ofNat 34 :: s.toList } : Lexer) with
          start := ({ source := Char.ofNat 34 :: s.toList } : Lexer).current }
        = _ := h
    rw [h1, scanLoop_of_isAtEnd _ _ (by simp [Lexer.isAtEnd])]
    rfl

/-- The theorem above on the string `ab`. -/
theorem string_literal_scans_to_body_witness :
    (∀ ch ∈ "ab".toList, ch ≠ Char.ofNat 34)
      ∧ (∃ (l1 c1 l2 c2 : Int),
          scanTokens (quoted "ab")
            = some [{ type := .STRING, lexeme := "ab", line := l1, column := c1 },
                    { type := .TOKEN_EOF, lexeme := "", line := l2, column := c2 }])
      ∧ (∃ (lx : Lexer) (l c : Int),
          Lexer.scan (String.mk (Char.ofNat 34 :: "ab".toList)) = some lx
            ∧ lx.tokens = [{ type := .TOKEN_EOF, lexeme := "", line := l, column := c }]
            ∧ lx.errors = ["Unterminated string at line " ++ toString l])
      ∧ (∀ lx0 : Lexer, lx0.source.drop lx0.current = Char.ofNat 34 :: "ab".toList →
          ∃ (l col : Int), lx0.scanToken
            = { lx0 with
                current := lx0.source.length, line := l, column := col
                errors := lx0.errors ++ ["Unterminated string at line " ++ toString l] }) :=
  ⟨by decide, string_literal_scans_to_body "ab" (by decide)⟩

end Words

/-! ## The precedence ladder of the parser -/

section Ladder
open Parser

theorem bind_ok {α β : Type} {m : ParserM α} {f : α → ParserM β} {T : List Token} {k k1 : Nat}
    {a : α} (h : m T k = .ok a k1) : (m >>= f) T k = f a T k1 := by
  show (match m T k with
    | .ok a current1 => f a T current1
    | .error message current1 => .error message current1
    | .fault => .fault
    | .timeout => .timeout) = _
  rw [h]

theorem returns_mono {α : Type} {m : Nat → ParserM α} {T : List Token} {k k1 : Nat} {e : α}
    {N M : Nat} (h : Returns m T k e k1 N) (hle : N ≤ M) : Returns m T k e k1 M := by
  intro n
  have e1 : n + M = (n + (M - N)) + N := by omega
  rw [e1]
  exact h _

theorem peek_at {T : List Token} {k : Nat} {t : Token} (h : T[k]? = some t) :
    Parser.peek T k = .ok t k := by
  simp [Parser.peek, h]

theorem isAtEnd_at {T : List Token} {k : Nat} {t : Token} (h : T[k]? = some t) :
    Parser.isAtEnd T k = .ok (t.type == .TOKEN_EOF) k := by
  unfold Parser.isAtEnd
  rw [bind_ok (peek_at h)]
  rfl

theorem check_at {T : List Token} {k : Nat} {t : Token} (h : T[k]? = some t) (ty : TokenType) :
    Parser.check ty T k = .ok (!(t.type == .TOKEN_EOF) && t.type == ty) k := by
  unfold Parser.check
  rw [bind_ok (isAtEnd_at h)]
  cases he : t.type == TokenType.TOKEN_EOF
  · simp only [Bool.false_eq_true, if_false]
    rw [bind_ok (peek_at h)]
    rfl
  · rfl

theorem previous_at {T : List Token} {k : Nat} {t : Token} (h : T[k]? = some t) :
    Parser.previous T (k + 1) = .ok t (k + 1) := by
  simp [Parser.previous, h]

theorem advance_at {T : List Token} {k : Nat} {t : Token} (h : T[k]? = some t)
    (hne : t.type ≠ .TOKEN_EOF) : Parser.advance T k = .ok t (k + 1) := by
  unfold Parser.advance
  have hb : (t.type == TokenType.TOKEN_EOF) = false := by simpa using hne
  rw [bind_ok (isAtEnd_at h), hb]
  exact previous_at h

/-- The method `Parser::match` at a token: it is consumed when its type is in
the list and it is not the end-of-input token. -/
theorem matchTypes_at {T : List Token} {k : Nat} {t : Token} (h : T[k]? = some t) :
    ∀ tys : List TokenType, Parser.matchTypes tys T k
      = if t.type ≠ .TOKEN_EOF ∧ t.type ∈ tys then .ok true (k + 1) else .ok false k
  | [] => by
      unfold Parser.matchTypes
      simp
      rfl
  | ty :: rest => by
      unfold Parser.matchTypes
      rw [bind_ok (check_at h ty)]
      by_cases he : t.type = .TOKEN_EOF
      · have hb : (t.type == TokenType.TOKEN_EOF) = true := by simpa using he
        simp only [hb, Bool.not_true, Bool.false_and, Bool.false_eq_true, if_false]
        rw [matchTypes_at h rest]
        simp [he]
      · have hb : (t.type == TokenType.TOKEN_EOF) = false := by simpa using he
        by_cases hty : t.type = ty
        · have hb2 : (t.type == ty) = true := by simpa using hty
          simp only [hb, hb2, Bool.not_false, Bool.and_self, if_true]
          rw [bind_ok (advance_at h he), if_pos ⟨he, by simp [hty]⟩]
          rfl
        · have hb2 : (t.type == ty) = false := by simpa using hty
          simp only [hb, hb2, Bool.and_false, Bool.false_eq_true, if_false]
          rw [matchTypes_at h rest]
          simp [he, hty]

theorem matchTypes_hit {T : List Token} {k : Nat} {t : Token} (h : T[k]? = some t)
    {tys : List TokenType} (h1 : t.type ∈ tys) (h2 : t.type ≠ .TOKEN_EOF) :
    Parser.matchTypes tys T k = .ok true (k + 1) := by
  rw [matchTypes_at h, if_pos ⟨h2, h1⟩]

theorem matchTypes_miss {T : List Token} {k : Nat} {t : Token} (h : T[k]? = some t)
    {tys : List TokenType} (h1 : t.type ∉ tys) :
    Parser.matchTypes tys T k = .ok false k := by
  rw [matchTypes_at h, if_neg (fun hh => h1 hh.2)]

theorem ladder_succ (i : Nat) (h1 : 1 ≤ i) (h6 : i ≤ 6) (b : Nat) :
    Parser.ladder i (b + 1) = (Parser.ladder (i + 1) b >>= Parser.ladderLoop i b) := by
  interval_cases i
  · show Parser.orExpr (b + 1) = _
    rw [Parser.orExpr]
    rfl
  · show Parser.andExpr (b + 1) = _
    rw [Parser.andExpr]
    rfl
  · show Parser.equality (b + 1) = _
    rw [Parser.equality]
    rfl
  · show Parser.comparison (b + 1) = _
    rw [Parser.comparison]
    rfl
  · show Parser.term (b + 1) = _
    rw [Parser.term]
    rfl
  · show Parser.factor (b + 1) = _
    rw [Parser.factor]
    rfl

theorem ladderLoop_succ (i : Nat) (h1 : 1 ≤ i) (h6 : i ≤ 6) (b : Nat) (e : Expr) :
    Parser.ladderLoop i (b + 1) e
      = (Parser.matchTypes (Parser.ladderOps i) >>= fun c =>
          if c = true then
            Parser.previous >>= fun op =>
              Parser.ladder (i + 1) b >>= fun right =>
                Parser.ladderLoop i b (.Binary e op right)
          else pure e) := by
  interval_cases i
  · show Parser.orLoop (b + 1) e = _
    rw [Parser.orLoop]
    rfl
  · show Parser.andLoop (b + 1) e = _
    rw [Parser.andLoop]
    rfl
  · show Parser.equalityLoop (b + 1) e = _
    rw [Parser.equalityLoop]
    rfl
  · show Parser.comparisonLoop (b + 1) e = _
    rw [Parser.comparisonLoop]
    rfl
  · show Parser.termLoop (b + 1) e = _
    rw [Parser.termLoop]
    rfl
  · show Parser.factorLoop (b + 1) e = _
    rw [Parser.factorLoop]
    rfl

theorem mem_ladderOps (i : Nat) (h1 : 1 ≤ i) (h6 : i ≤ 6) (ty : TokenType) :
    ty ∈ Parser.ladderOps i ↔ precedence ty = i := by
  interval_cases i <;> cases ty <;> simp [Parser.ladderOps, precedence]

theorem precedence_eof : precedence .TOKEN_EOF = 0 := rfl

/-- The loop of a level stops at a token of another level. -/
theorem ladderLoop_miss (i : Nat) (h1 : 1 ≤ i) (h6 : i ≤ 6) (b : Nat) (e : Expr)
    {T : List Token} {k : Nat} {q : Token} (hq : T[k]? = some q)
    (hp : precedence q.type ≠ i) :
    Parser.ladderLoop i (b + 1) e T k = .ok e k := by
  rw [ladderLoop_succ i h1 h6,
    bind_ok (matchTypes_miss hq (fun h => hp ((mem_ladderOps i h1 h6 _).mp h)))]
  rfl

/-- The loop of a level at an operator of that level reads the operator and an
operand of the next level, and goes on with the `Binary` node. -/
theorem ladderLoop_hit (i : Nat) (h1 : 1 ≤ i) (h6 : i ≤ 6) (b : Nat) (e : Expr)
    {T : List Token} {k : Nat} {o : Token} (ho : T[k]? = some o)
    (hp : precedence o.type = i) {r : Expr} {k1 : Nat}
    (hr : Parser.ladder (i + 1) b T (k + 1) = .ok r k1) :
    Parser.ladderLoop i (b + 1) e T k = Parser.ladderLoop i b (.Binary e o r) T k1 := by
  have hne : o.type ≠ .TOKEN_EOF := by
    intro h
    rw [h, precedence_eof] at hp
    omega
  rw [ladderLoop_succ i h1 h6,
    bind_ok (matchTypes_hit ho ((mem_ladderOps i h1 h6 _).mpr hp) hne)]
  simp only [if_true]
  rw [bind_ok (previous_at ho), bind_ok hr]

theorem primary_operand (b : Nat) {T : List Token} {k : Nat} {p : Token}
    (hp : T[k]? = some p) (hop : isOperand p.type = true) :
    Parser.primary (b + 1) T k = .ok (operandExpr p) (k + 1) := by
  have hne : p.type ≠ .TOKEN_EOF := by
    intro h
    rw [h] at hop
    cases hop
  rw [Parser.primary]
  cases hty : p.type <;> rw [hty] at hop <;> try (exact absurd hop (by decide))
  · rw [bind_ok (matchTypes_miss hp (by simp [hty])), if_neg (by simp),
      bind_ok (matchTypes_miss hp (by simp [hty])), if_neg (by simp),
      bind_ok (matchTypes_miss hp (by simp [hty])), if_neg (by simp),
      bind_ok (matchTypes_miss hp (by simp [hty])), if_neg (by simp),
      bind_ok (matchTypes_hit hp (by simp [hty]) hne), if_pos rfl, bind_ok (previous_at hp)]
    simp only [operandExpr, hty]
    rfl
  · rw [bind_ok (matchTypes_miss hp (by simp [hty])), if_neg (by simp),
      bind_ok (matchTypes_miss hp (by simp [hty])), if_neg (by simp),
      bind_ok (matchTypes_miss hp (by simp [hty])), if_neg (by simp),
      bind_ok (matchTypes_hit hp (by simp [hty]) hne), if_pos rfl, bind_ok (previous_at hp)]
    simp only [operandExpr, hty]
    rfl
  · rw [bind_ok (matchTypes_miss hp (by simp [hty])), if_neg (by simp),
      bind_ok (matchTypes_miss hp (by simp [hty])), if_neg (by simp),
      bind_ok (matchTypes_miss hp (by simp [hty])), if_neg (by simp),
      bind_ok (matchTypes_hit hp (by simp [hty]) hne), if_pos rfl, bind_ok (previous_at hp)]
    simp only [operandExpr, hty]
    rfl
  · rw [bind_ok (matchTypes_hit hp (by simp [hty]) hne), if_pos rfl]
    simp only [operandExpr, hty]
    rfl
  · rw [bind_ok (matchTypes_miss hp (by simp [hty])), if_neg (by simp),
      bind_ok (matchTypes_miss hp (by simp [hty])), if_neg (by simp),
      bind_ok (matchTypes_hit hp (by simp [hty]) hne), if_pos rfl]
    simp only [operandExpr, hty]
    rfl
  · rw [bind_ok (matchTypes_miss hp (by simp [hty])), if_neg (by simp),
      bind_ok (matchTypes_hit hp (by simp [hty]) hne), if_pos rfl]
    simp only [operandExpr, hty]
    rfl

theorem bind_fault {α β : Type} {m : ParserM α} (f : α → ParserM β) {T : List Token}
    {k : Nat} (h : m T k = .fault) : (m >>= f) T k = .fault := by
  show (match m T k with
    | .ok a current1 => f a T current1
    | .error message current1 => .error message current1
    | .fault => .fault
    | .timeout => .timeout) = _
  rw [h]

theorem matchTypes_none {T : List Token} {k : Nat} (h : T[k]? = none) (ty : TokenType)
    (rest : List TokenType) : Parser.matchTypes (ty :: rest) T k = .fault := by
  have hp : Parser.peek T k = .fault := by simp [Parser.peek, h]
  unfold Parser.matchTypes
  exact bind_fault _ (bind_fault _ (bind_fault _ hp))

/-- A token span that `primary` parses starts with a token, and that token is no
unary operator. -/
theorem primary_first {b : Nat} {T : List Token} {k k1 : Nat} {e : Expr}
    (h : Parser.primary b T k = .ok e k1) :
    ∃ t, T[k]? = some t ∧ t.type ∉ [TokenType.BANG, .MINUS, .NOT] := by
  cases b with
  | zero => cases h
  | succ b =>
    rw [Parser.primary] at h
    cases ht : T[k]? with
    | none =>
      rw [bind_fault _ (matchTypes_none ht _ _)] at h
      cases h
    | some t =>
      refine ⟨t, rfl, ?_⟩
      intro hmem
      have hm : ∀ tys : List TokenType, (∀ ty ∈ tys, ty ∉ [TokenType.BANG, .MINUS, .NOT]) →
          Parser.matchTypes tys T k = .ok false k := by
        intro tys htys
        exact matchTypes_miss ht (fun hin => htys _ hin hmem)
      rw [bind_ok (hm _ (by decide)), if_neg (by simp),
        bind_ok (hm _ (by decide)), if_neg (by simp),
        bind_ok (hm _ (by decide)), if_neg (by simp),
        bind_ok (hm _ (by decide)), if_neg (by simp),
        bind_ok (hm _ (by decide)), if_neg (by simp),
        bind_ok (hm _ (by decide)), if_neg (by simp)] at h
      cases h

/-- The method `unary` on a primary expression that no `(` follows. -/
theorem unary_of_primary {T : List Token} {k k1 N : Nat} {e : Expr} {q : Token}
    (h : Returns Parser.primary T k e k1 N) (hq : T[k1]? = some q)
    (hparen : q.type ≠ .LEFT_PAREN) :
    Returns Parser.unary T k e k1 (N + 3) := by
  intro n
  obtain ⟨t, ht, hpre⟩ := primary_first (h 0)
  show Parser.unary ((n + N + 2) + 1) T k = _
  rw [Parser.unary, bind_ok (matchTypes_miss ht hpre), if_neg (by simp)]
  show Parser.call ((n + N + 1) + 1) T k = _
  have e1 : n + N + 1 = (n + 1) + N := by omega
  rw [Parser.call, bind_ok (by rw [e1]; exact h (n + 1))]
  show Parser.callLoop ((n + N) + 1) _ T k1 = _
  rw [Parser.callLoop, bind_ok (matchTypes_miss hq (by simpa using hparen)), if_neg (by simp)]
  rfl

/-- A result of a level is the result of every lower level down to the level
of the token that follows. -/
theorem returns_lift : ∀ (d i : Nat), 1 ≤ i → i + d ≤ 7 →
    ∀ {T : List Token} {k k1 N : Nat} {e : Expr} {q : Token},
      Returns (Parser.ladder (i + d)) T k e k1 (N + 1) → T[k1]? = some q →
      precedence q.type < i → Returns (Parser.ladder i) T k e k1 (N + 1 + d)
  | 0, _, _, _, _, _, _, _, _, _, h, _, _ => h
  | d + 1, i, h1, h7, T, k, k1, N, e, q, h, hq, hp => by
      have e1 : i + (d + 1) = (i + 1) + d := by omega
      rw [e1] at h
      have ih := returns_lift d (i + 1) (by omega) (by omega) h hq (by omega)
      intro n
      have e2 : n + (N + 1 + (d + 1)) = (n + (N + 1 + d)) + 1 := by omega
      rw [e2, ladder_succ i h1 (by omega), bind_ok (ih n)]
      have e3 : n + (N + 1 + d) = (n + N + d) + 1 := by omega
      rw [e3]
      exact ladderLoop_miss i h1 (by omega) _ e hq (by omega)

/-- Every level from 1 to `unary` returns a primary expression that is followed
by an operator of a lower level or by a token that is no operator and no `(`. -/
theorem operand_at_level (i : Nat) (h1 : 1 ≤ i) (h7 : i ≤ 7) {T : List Token}
    {k k1 N : Nat} {e : Expr} {q : Token} (hp : Returns Parser.primary T k e k1 N)
    (hq : T[k1]? = some q) (hprec : precedence q.type < i) (hparen : q.type ≠ .LEFT_PAREN) :
    Returns (Parser.ladder i) T k e k1 (N + 9) := by
  have hu : Returns (Parser.ladder (i + (7 - i))) T k e k1 (N + 2 + 1) := by
    have e : i + (7 - i) = 7 := by omega
    rw [e]
    exact unary_of_primary hp hq hparen
  exact returns_mono (returns_lift (7 - i) i h1 (by omega) hu hq hprec) (by omega)

theorem loop_miss_returns (i : Nat) (h1 : 1 ≤ i) (h6 : i ≤ 6) (e : Expr)
    {T : List Token} {k : Nat} {q : Token} (hq : T[k]? = some q)
    (hp : precedence q.type ≠ i) :
    Returns (fun b => Parser.ladderLoop i b e) T k e k 1 := by
  intro n
  exact ladderLoop_miss i h1 h6 n e hq hp

theorem loop_hit_returns (i : Nat) (h1 : 1 ≤ i) (h6 : i ≤ 6) (e : Expr)
    {T : List Token} {k k1 k2 N1 N2 : Nat} {o : Token} {r e1 : Expr} (ho : T[k]? = some o)
    (hp : precedence o.type = i)
    (hr : Returns (Parser.ladder (i + 1)) T (k + 1) r k1 N1)
    (hl : Returns (fun b => Parser.ladderLoop i b (.Binary e o r)) T k1 e1 k2 N2) :
    Returns (fun b => Parser.ladderLoop i b e) T k e1 k2 (N1 + N2 + 1) := by
  intro n
  show Parser.ladderLoop i ((n + (N1 + N2)) + 1) e T k = _
  have e2 : n + (N1 + N2) = (n + N2) + N1 := by omega
  rw [ladderLoop_hit i h1 h6 _ e ho hp (by rw [e2]; exact hr (n + N2))]
  have e3 : n + (N1 + N2) = (n + N1) + N2 := by omega
  rw [e3]
  exact hl (n + N1)

theorem level_returns (i : Nat) (h1 : 1 ≤ i) (h6 : i ≤ 6)
    {T : List Token} {k k1 k2 N1 N2 : Nat} {e e1 : Expr}
    (hr : Returns (Parser.ladder (i + 1)) T k e k1 N1)
    (hl : Returns (fun b => Parser.ladderLoop i b e) T k1 e1 k2 N2) :
    Returns (Parser.ladder i) T k e1 k2 (N1 + N2 + 1) := by
  intro n
  show Parser.ladder i ((n + (N1 + N2)) + 1) T k = _
  have e2 : n + (N1 + N2) = (n + N2) + N1 := by omega
  rw [ladder_succ i h1 h6, bind_ok (by rw [e2]; exact hr (n + N2))]
  have e3 : n + (N1 + N2) = (n + N1) + N2 := by omega
  rw [e3]
  exact hl (n + N1)

theorem precedence_paren {ty : TokenType} (h : 1 ≤ precedence ty) : ty ≠ .LEFT_PAREN := by
  intro he
  rw [he] at h
  exact absurd h (by decide)

theorem precedence_le (ty : TokenType) : precedence ty ≤ 6 := by
  cases ty <;> simp [precedence]

/-- The method `orExpr` on `p1 o1 p2 o2 p3` followed by a token that is no
binary operator and no `(`, for primary expressions `p1`, `p2`, `p3`. -/
theorem orExpr_two_operators {T : List Token} {k k1 k2 k3 N : Nat} {e1 e2 e3 : Expr}
    {o1 o2 q : Token}
    (h1 : Returns Parser.primary T k e1 k1 N) (t1 : T[k1]? = some o1)
    (h2 : Returns Parser.primary T (k1 + 1) e2 k2 N) (t3 : T[k2]? = some o2)
    (h3 : Returns Parser.primary T (k2 + 1) e3 k3 N) (t5 : T[k3]? = some q)
    (ha : 1 ≤ precedence o1.type) (hb : 1 ≤ precedence o2.type)
    (hq : precedence q.type = 0) (hparen : q.type ≠ .LEFT_PAREN) :
    Returns Parser.orExpr T k
      (if precedence o1.type < precedence o2.type then .Binary e1 o1 (.Binary e2 o2 e3)
       else .Binary (.Binary e1 o1 e2) o2 e3) k3 (3 * N + 50) := by
  have ha6 := precedence_le o1.type
  have hb6 := precedence_le o2.type
  have r1 := operand_at_level (precedence o1.type + 1) (by omega) (by omega) h1 t1
    (by omega) (precedence_paren ha)
  have final : ∀ (i : Nat) (e : Expr), 1 ≤ i → i ≤ 6 →
      Returns (Parser.ladder i) T k e k3 (3 * N + 40) →
      Returns Parser.orExpr T k e k3 (3 * N + 50) := by
    intro i e hi1 hi6 h
    have e1 : i = 1 + (i - 1) := by omega
    rw [e1] at h
    exact returns_mono (returns_lift (i - 1) 1 (by omega) (by omega) h t5 (by omega)) (by omega)
  by_cases hlt : precedence o1.type < precedence o2.type
  · rw [if_pos hlt]
    -- the right operand of `o1` is the whole of `p2 o2 p3`
    have r2 := operand_at_level (precedence o2.type + 1) (by omega) (by omega) h2 t3
      (by omega) (precedence_paren hb)
    have r3 := operand_at_level (precedence o2.type + 1) (by omega) (by omega) h3 t5
      (by omega) hparen
    have l2 := loop_hit_returns (precedence o2.type) hb hb6 e2 t3 rfl r3
      (loop_miss_returns (precedence o2.type) hb hb6 _ t5 (by omega))
    have b2 := level_returns (precedence o2.type) hb hb6 r2 l2
    have ea : (precedence o1.type + 1) + (precedence o2.type - (precedence o1.type + 1))
        = precedence o2.type := by omega
    have b2l := returns_lift (precedence o2.type - (precedence o1.type + 1))
      (precedence o1.type + 1) (by omega) (by omega) (by rw [ea]; exact b2) t5 (by omega)
    have l1 := loop_hit_returns (precedence o1.type) ha ha6 e1 t1 rfl b2l
      (loop_miss_returns (precedence o1.type) ha ha6 _ t5 (by omega))
    exact final _ _ ha ha6 (returns_mono (level_returns (precedence o1.type) ha ha6 r1 l1)
      (by omega))
  · rw [if_neg hlt]
    have r2 := operand_at_level (precedence o1.type + 1) (by omega) (by omega) h2 t3
      (by omega) (precedence_paren hb)
    by_cases heq : precedence o2.type = precedence o1.type
    · -- the loop of the level reads both operators
      have r3 := operand_at_level (precedence o1.type + 1) (by omega) (by omega) h3 t5
        (by omega) hparen
      have l2 := loop_hit_returns (precedence o1.type) ha ha6 (.Binary e1 o1 e2) t3 heq r3
        (loop_miss_returns (precedence o1.type) ha ha6 _ t5 (by omega))
      have l1 := loop_hit_returns (precedence o1.type) ha ha6 e1 t1 rfl r2 l2
      exact final _ _ ha ha6 (returns_mono (level_returns (precedence o1.type) ha ha6 r1 l1)
        (by omega))
    · -- the level of `o1` returns `p1 o1 p2`, which the level of `o2` takes as left operand
      have l1 := loop_hit_returns (precedence o1.type) ha ha6 e1 t1 rfl r2
        (loop_miss_returns (precedence o1.type) ha ha6 _ t3 (by omega))
      have b1 := level_returns (precedence o1.type) ha ha6 r1 l1
      have ea : (precedence o2.type + 1) + (precedence o1.type - (precedence o2.type + 1))
          = precedence o1.type := by omega
      have b1l := returns_lift (precedence o1.type - (precedence o2.type + 1))
        (precedence o2.type + 1) (by omega) (by omega) (by rw [ea]; exact b1) t3 (by omega)
      have r3 := operand_at_level (precedence o2.type + 1) (by omega) (by omega) h3 t5
        (by omega) hparen
      have l2 := loop_hit_returns (precedence o2.type) hb hb6 (.Binary e1 o1 e2) t3 rfl r3
        (loop_miss_returns (precedence o2.type) hb hb6 _ t5 (by omega))
      exact final _ _ hb hb6 (returns_mono (level_returns (precedence o2.type) hb hb6 b1l l2)
        (by omega))

theorem expression_of_orExpr {T : List Token} {k k1 N : Nat} {e : Expr} {q : Token}
    (h : Returns Parser.orExpr T k e k1 N) (hq : T[k1]? = some q) (hne : q.type ≠ .EQUAL) :
    Returns Parser.expression T k e k1 (N + 2) := by
  intro n
  show Parser.expression ((n + N + 1) + 1) T k = _
  rw [Parser.expression]
  show Parser.assignment ((n + N) + 1) T k = _
  rw [Parser.assignment, bind_ok (h n), bind_ok (matchTypes_miss hq (by simpa using hne)),
    if_neg (by simp)]
  rfl

/-- The method `orExpr` on a unary operator, a primary expression, a binary
operator and a primary expression: the unary operator applies to the first
operand alone. -/
theorem orExpr_unary_then_binary {T : List Token} {k k1 k2 N : Nat} {e1 e2 : Expr}
    {u o q : Token} (t0 : T[k]? = some u) (hu : u.type ∈ [TokenType.BANG, .MINUS, .NOT])
    (h1 : Returns Parser.primary T (k + 1) e1 k1 N) (t2 : T[k1]? = some o)
    (h2 : Returns Parser.primary T (k1 + 1) e2 k2 N) (t4 : T[k2]? = some q)
    (ha : 1 ≤ precedence o.type) (hq : precedence q.type = 0) (hparen : q.type ≠ .LEFT_PAREN) :
    Returns Parser.orExpr T k (.Binary (.Unary u e1) o e2) k2 (3 * N + 50) := by
  have ha6 := precedence_le o.type
  have hune : u.type ≠ .TOKEN_EOF := by
    intro h
    rw [h] at hu
    exact absurd hu (by decide)
  have ru : Returns (Parser.ladder (precedence o.type + 1 + (7 - (precedence o.type + 1))))
      T k (.Unary u e1) k1 (N + 3 + 1) := by
    have e : precedence o.type + 1 + (7 - (precedence o.type + 1)) = 7 := by omega
    rw [e]
    intro n
    show Parser.unary ((n + (N + 3)) + 1) T k = _
    rw [Parser.unary, bind_ok (matchTypes_hit t0 hu hune), if_pos rfl, bind_ok (previous_at t0),
      bind_ok (unary_of_primary h1 t2 (precedence_paren ha) n)]
    rfl
  have r1 := returns_lift (7 - (precedence o.type + 1)) (precedence o.type + 1) (by omega)
    (by omega) ru t2 (by omega)
  have r2 := operand_at_level (precedence o.type + 1) (by omega) (by omega) h2 t4
    (by omega) hparen
  have l1 := loop_hit_returns (precedence o.type) ha ha6 (.Unary u e1) t2 rfl r2
    (loop_miss_returns (precedence o.type) ha ha6 _ t4 (by omega))
  have b1 := level_returns (precedence o.type) ha ha6 r1 l1
  have ea : 1 + (precedence o.type - 1) = precedence o.type := by omega
  exact returns_mono (returns_lift (precedence o.type - 1) 1 (by omega) (by omega)
    (by rw [ea]; exact b1) t4 (by omega)) (by omega)

/-- C25: with the levels of the ladder `or` (1), `and` (2), `==` `!=` (3),
`<` `<=` `>` `>=` (4), `+` `-` (5), `*` `/` (6), for primary expressions `p1`,
`p2`, `p3` (token spans that `primary` parses to `e1`, `e2`, `e3`) and binary
operators `o1`, `o2`, the tokens `p1 o1 p2 o2 p3`, followed by a token that is no
binary operator, no `(` and no `=`, parse to `Binary(e1, o1, Binary(e2, o2, e3))`
when `o2` is on a strictly higher level than `o1` and to
`Binary(Binary(e1, o1, e2), o2, e3)` otherwise; and a unary operator binds tighter
than every binary operator: `u p1 o1 p2` parses to `Binary(Unary(u, e1), o1, e2)`.
The results hold from a budget of `3 * N + 52` on, where `N` is a budget that is
enough for the operands. -/
theorem binary_operators_parse_by_precedence (T : List Token) (k k1 k2 k3 N : Nat)
    (e1 e2 e3 : Expr) (o1 o2 q : Token)
    (h1 : ∀ n, Parser.primary (n + N) T k = .ok e1 k1) (t1 : T[k1]? = some o1)
    (h2 : ∀ n, Parser.primary (n + N) T (k1 + 1) = .ok e2 k2) (t2 : T[k2]? = some o2)
    (h3 : ∀ n, Parser.primary (n + N) T (k2 + 1) = .ok e3 k3) (t3 : T[k3]? = some q)
    (ha : 1 ≤ precedence o1.type) (hb : 1 ≤ precedence o2.type)
    (hq : precedence q.type = 0) (hparen : q.type ≠ .LEFT_PAREN) (hassign : q.type ≠ .EQUAL) :
    (∀ n, Parser.expression (n + (3 * N + 52)) T k
        = .ok (if precedence o1.type < precedence o2.type then .Binary e1 o1 (.Binary e2 o2 e3)
               else .Binary (.Binary e1 o1 e2) o2 e3) k3)
      ∧ (∀ (U : List Token) (j j1 j2 M : Nat) (u o r : Token) (a b : Expr),
          U[j]? = some u → u.type ∈ [TokenType.BANG, .MINUS, .NOT] →
          (∀ n, Parser.primary (n + M) U (j + 1) = .ok a j1) → U[j1]? = some o →
          1 ≤ precedence o.type →
          (∀ n, Parser.primary (n + M) U (j1 + 1) = .ok b j2) → U[j2]? = some r →
          precedence r.type = 0 → r.type ≠ .LEFT_PAREN → r.type ≠ .EQUAL →
          ∀ n, Parser.expression (n + (3 * M + 52)) U j
            = .ok (.Binary (.Unary u a) o b) j2) :=
  ⟨expression_of_orExpr (orExpr_two_operators h1 t1 h2 t2 h3 t3 ha hb hq hparen) t3 hassign,
    fun _ _ _ _ _ _ _ _ _ _ tj hu ha1 tv ho hb1 tr hr0 hr1 hr2 =>
      expression_of_orExpr (orExpr_unary_then_binary tj hu ha1 tv hb1 tr ho hr0 hr1) tr hr2⟩

/-- The theorem above on the tokens of `1 + 2 * 3`. -/
theorem binary_operators_parse_by_precedence_witness :
    (∀ n, Parser.primary (n + 1) sumProductTokens 0 = .ok (.Literal "1") 1)
      ∧ sumProductTokens[1]? = some { type := .PLUS, lexeme := "+", line := 1, column := 4 }
      ∧ (∀ n, Parser.primary (n + 1) sumProductTokens (1 + 1) = .ok (.Literal "2") 3)
      ∧ sumProductTokens[3]? = some { type := .STAR, lexeme := "*", line := 1, column := 8 }
      ∧ (∀ n, Parser.primary (n + 1) sumProductTokens (3 + 1) = .ok (.Literal "3") 5)
      ∧ sumProductTokens[5]? = some { type := .TOKEN_EOF, lexeme := "", line := 1, column := 10 }
      ∧ 1 ≤ precedence .PLUS ∧ 1 ≤ precedence .STAR
      ∧ precedence .TOKEN_EOF = 0 ∧ TokenType.TOKEN_EOF ≠ .LEFT_PAREN
      ∧ TokenType.TOKEN_EOF ≠ .EQUAL
      ∧ scanTokens "1 + 2 * 3" = some sumProductTokens
      ∧ (∀ n, Parser.expression (n + (3 * 1 + 52)) sumProductTokens 0
          = .ok (.Binary (.Literal "1") { type := .PLUS, lexeme := "+", line := 1, column := 4 }
              (.Binary (.Literal "2") { type := .STAR, lexeme := "*", line := 1, column := 8 }
                (.Literal "3"))) 5) :=
  ⟨fun n => primary_operand n (p := sumProductTokens.get ⟨0, by decide⟩) rfl rfl, rfl,
    fun n => primary_operand n (p := sumProductTokens.get ⟨2, by decide⟩) rfl rfl, rfl,
    fun n => primary_operand n (p := sumProductTokens.get ⟨4, by decide⟩) rfl rfl, by decide,
    by decide, by decide, rfl, by decide, by decide, by decide,
    (binary_operators_parse_by_precedence sumProductTokens 0 1 3 5 1
      (.Literal "1") (.Literal "2") (.Literal "3")
      { type := .PLUS, lexeme := "+", line := 1, column := 4 }
      { type := .STAR, lexeme := "*", line := 1, column := 8 }
      { type := .TOKEN_EOF, lexeme := "", line := 1, column := 10 }
      (fun n => primary_operand n (p := sumProductTokens.get ⟨0, by decide⟩) rfl rfl) rfl
      (fun n => primary_operand n (p := sumProductTokens.get ⟨2, by decide⟩) rfl rfl) rfl
      (fun n => primary_operand n (p := sumProductTokens.get ⟨4, by decide⟩) rfl rfl)
      (by decide) (by decide) (by decide) rfl (by decide) (by decide)).1⟩

theorem assignment_to_variable {T : List Token} {k k1 k2 N1 N2 : Nat} {name eq : Token}
    {v : Expr} (h1 : Returns Parser.orExpr T k (.Variable name) k1 N1)
    (heq : T[k1]? = some eq) (hty : eq.type = .EQUAL)
    (h2 : Returns Parser.assignment T (k1 + 1) v k2 N2) :
    Returns Parser.assignment T k (.Assignment name v) k2 (N1 + N2 + 1) := by
  intro n
  show Parser.assignment ((n + (N1 + N2)) + 1) T k = _
  have e1 : n + (N1 + N2) = (n + N2) + N1 := by omega
  have e2 : n + (N1 + N2) = (n + N1) + N2 := by omega
  rw [Parser.assignment, bind_ok (by rw [e1]; exact h1 (n + N2)),
    bind_ok (matchTypes_hit heq (by simp [hty]) (by simp [hty])), if_pos rfl,
    bind_ok (previous_at heq), bind_ok (by rw [e2]; exact h2 (n + N1))]
  rfl

theorem assignment_of_orExpr {T : List Token} {k k1 N : Nat} {e : Expr} {q : Token}
    (h : Returns Parser.orExpr T k e k1 N) (hq : T[k1]? = some q) (hne : q.type ≠ .EQUAL) :
    Returns Parser.assignment T k e k1 (N + 1) := by
  intro n
  show Parser.assignment ((n + N) + 1) T k = _
  rw [Parser.assignment, bind_ok (h n), bind_ok (matchTypes_miss hq (by simpa using hne)),
    if_neg (by simp)]
  rfl

/-- An `=` after an expression that is no `Variable` node: once the right-hand
side is parsed, `assignment` throws. -/
theorem assignment_invalid_target (budget : Nat) (T : List Token) (k k1 k2 : Nat)
    (e v : Expr) (eq : Token) (h1 : Parser.orExpr budget T k = .ok e k1)
    (heq : T[k1]? = some eq) (hty : eq.type = .EQUAL)
    (h2 : Parser.assignment budget T (k1 + 1) = .ok v k2)
    (hvar : ∀ name : Token, e ≠ .Variable name) :
    Parser.assignment (budget + 1) T k = .error "Invalid assignment target." k2 := by
  rw [Parser.assignment, bind_ok h1,
    bind_ok (matchTypes_hit heq (by simp [hty]) (by simp [hty])), if_pos rfl,
    bind_ok (previous_at heq), bind_ok h2]
  cases e with
  | Variable name => exact absurd rfl (hvar name)
  | _ => rfl

/-- C26: for identifiers `a`, `b`, `c`, the tokens `a = b = c`, followed by a
token that is no binary operator, no `(` and no `=`, parse to
`Assignment(a, Assignment(b, Variable c))`. Whenever the left operand of an `=`
parses to a node that is no `Variable` and the right-hand side parses, the parser
throws `Invalid assignment target.` and returns no node; so it does for the left
operands `1`, `(a)`, `a + b` and `f()`, whose statement becomes a null entry. -/
theorem assignment_is_right_associative_onto_variables :
    (∀ (a eq1 b eq2 c q : Token) (rest : List Token) (n : Nat),
        a.type = .IDENTIFIER → b.type = .IDENTIFIER → c.type = .IDENTIFIER →
        eq1.type = .EQUAL → eq2.type = .EQUAL →
        precedence q.type = 0 → q.type ≠ .LEFT_PAREN → q.type ≠ .EQUAL →
        Parser.expression (n + 40) (a :: eq1 :: b :: eq2 :: c :: q :: rest) 0
          = .ok (.Assignment a (.Assignment b (.Variable c))) 5)
      ∧ (∀ (budget : Nat) (T : List Token) (k k1 k2 : Nat) (e v : Expr) (eq : Token),
          Parser.orExpr budget T k = .ok e k1 → T[k1]? = some eq → eq.type = .EQUAL →
          Parser.assignment budget T (k1 + 1) = .ok v k2 →
          (∀ name : Token, e ≠ .Variable name) →
          Parser.expression (budget + 2) T k = .error "Invalid assignment target." k2)
      ∧ scanTokens "a = b = c" = some chainTokens
      ∧ (∀ n : Nat, Parser.parse (n + 26) chainTokens
          = .ok [some (.Expression
              (.Assignment { type := .IDENTIFIER, lexeme := "a", line := 1, column := 2 }
                (.Assignment { type := .IDENTIFIER, lexeme := "b", line := 1, column := 6 }
                  (.Variable { type := .IDENTIFIER, lexeme := "c", line := 1, column := 10 }))))]
              5)
      ∧ scanTokens "1 = 2" = some literalTargetTokens
      ∧ scanTokens "(a) = 1" = some groupingTargetTokens
      ∧ scanTokens "a + b = 1" = some binaryTargetTokens
      ∧ scanTokens "f() = 1" = some callTargetTokens
      ∧ (∀ n : Nat,
          Parser.expression (n + 26) literalTargetTokens 0
              = .error "Invalid assignment target." 3
            ∧ Parser.expression (n + 26) groupingTargetTokens 0
              = .error "Invalid assignment target." 5
            ∧ Parser.expression (n + 26) binaryTargetTokens 0
              = .error "Invalid assignment target." 5
            ∧ Parser.expression (n + 26) callTargetTokens 0
              = .error "Invalid assignment target." 5
            ∧ Parser.parse (n + 26) literalTargetTokens = .ok [none] 3
            ∧ Parser.parse (n + 26) groupingTargetTokens = .ok [none] 5
            ∧ Parser.parse (n + 26) binaryTargetTokens = .ok [none] 5
            ∧ Parser.parse (n + 26) callTargetTokens = .ok [none] 5) := by
  refine ⟨?_, ?_, by decide, fun n => by rfl, by decide, by decide, by decide, by decide,
    fun n => ⟨by rfl, by rfl, by rfl, by rfl, by rfl, by rfl, by rfl, by rfl⟩⟩
  · intro a eq1 b eq2 c q rest n ha hb hc h1 h2 hq hparen hassign
    have t0 : (a :: eq1 :: b :: eq2 :: c :: q :: rest)[0]? = some a := rfl
    have t1 : (a :: eq1 :: b :: eq2 :: c :: q :: rest)[0 + 1]? = some eq1 := rfl
    have t2 : (a :: eq1 :: b :: eq2 :: c :: q :: rest)[1 + 1]? = some b := rfl
    have t3 : (a :: eq1 :: b :: eq2 :: c :: q :: rest)[2 + 1]? = some eq2 := rfl
    have t4 : (a :: eq1 :: b :: eq2 :: c :: q :: rest)[3 + 1]? = some c := rfl
    have t5 : (a :: eq1 :: b :: eq2 :: c :: q :: rest)[4 + 1]? = some q := by simp
    have va : operandExpr a = .Variable a := by simp [operandExpr, ha]
    have vb : operandExpr b = .Variable b := by simp [operandExpr, hb]
    have vc : operandExpr c = .Variable c := by simp [operandExpr, hc]
    have pa : Returns Parser.primary (a :: eq1 :: b :: eq2 :: c :: q :: rest) 0
        (operandExpr a) (0 + 1) 1 := fun m => primary_operand m t0 (by rw [ha]; rfl)
    have pb : Returns Parser.primary (a :: eq1 :: b :: eq2 :: c :: q :: rest) (1 + 1)
        (operandExpr b) (2 + 1) 1 := fun m => primary_operand m t2 (by rw [hb]; rfl)
    have pc : Returns Parser.primary (a :: eq1 :: b :: eq2 :: c :: q :: rest) (3 + 1)
        (operandExpr c) (4 + 1) 1 := fun m => primary_operand m t4 (by rw [hc]; rfl)
    have ra := operand_at_level 1 (by omega) (by omega) pa t1
      (by rw [h1]; decide) (by rw [h1]; decide)
    have rb := operand_at_level 1 (by omega) (by omega) pb t3
      (by rw [h2]; decide) (by rw [h2]; decide)
    have rc := operand_at_level 1 (by omega) (by omega) pc t5
      (by omega) hparen
    rw [va] at ra
    rw [vb] at rb
    rw [vc] at rc
    have ac := assignment_of_orExpr rc t5 hassign
    have ab := assignment_to_variable rb t3 h2 ac
    have aa := assignment_to_variable ra t1 h1 ab
    have e1 : n + 40 = (n + 6) + (1 + 9 + (1 + 9 + (1 + 9 + 1) + 1) + 1) + 1 := by omega
    rw [e1, Parser.expression]
    exact aa _
  · intro budget T k k1 k2 e v eq h1 heq hty h2 hvar
    show Parser.expression ((budget + 1) + 1) T k = _
    rw [Parser.expression]
    exact assignment_invalid_target budget T k k1 k2 e v eq h1 heq hty h2 hvar

end Ladder

/-! ## Layout of `if` and `while`, and `patchJump` -/

section Jumps
variable {D : Type} [DoubleModel D]

theorem elseCode_length (E : Option Stmt) (base : Nat) :
    (elseCode E base).length = elseSize E := by
  cases E with
  | none => rfl
  | some e => exact stmtCode_length e base

theorem visitElse_code (E : Option Stmt) (h : ∀ e, E = some e → nullFree e = true)
    (c : Chunk D) :
    ∃ c1 : Chunk D, visitElse E c = some c1
      ∧ c1.code = c.code ++ elseCode E c.constants.length := by
  cases E with
  | none => exact ⟨c, by simp [visitElse], by simp [elseCode]⟩
  | some e =>
    refine ⟨c.extend (stmtCode e c.constants.length) (stmtConsts e), ?_, ?_⟩
    · simp only [visitElse]
      exact visitStmt_eq e (h e rfl) c
    · simp [Chunk.extend, elseCode]

theorem stmtCode_if (C : Expr) (T : Stmt) (E : Option Stmt) (base : Nat) :
    stmtCode (.If C T E) base
      = exprCode C base
        ++ [OpCode.OP_JUMP_IF_FALSE.toByte, hiByte (stmtSize T + 4), loByte (stmtSize T + 4),
            OpCode.OP_POP.toByte]
        ++ stmtCode T (base + exprCount C)
        ++ [OpCode.OP_JUMP.toByte, hiByte (elseSize E + 1), loByte (elseSize E + 1),
            OpCode.OP_POP.toByte]
        ++ elseCode E (base + exprCount C + stmtCount T) := by
  cases E with
  | none => simp [stmtCode, elseSize, elseCode]
  | some e => simp [stmtCode, elseSize, elseCode]

/-- C27: an `if` statement without null statements whose then-branch is at most
65,531 bytes and whose else-branch is at most 65,534 bytes appends code(C),
`OP_JUMP_IF_FALSE k1`, `OP_POP`, code(T), `OP_JUMP k2`, `OP_POP`, code(E), where
code(C), code(T) and code(E) are what the visitors of the parts append (nothing
for an absent `else`), the operands decode to `k1 = |code(T)| + 4` and
`k2 = |code(E)| + 1`, a taken `OP_JUMP_IF_FALSE` lands on the second `OP_POP`
and the `OP_JUMP` lands on the first byte after the statement. -/
theorem if_code_and_jump_targets (C : Expr) (T : Stmt) (E : Option Stmt) (c : Chunk D)
    (hn : nullFree (.If C T E) = true)
    (h1 : stmtSize T + 4 ≤ 65535) (h2 : elseSize E + 1 ≤ 65535) :
    ∃ (codeC codeT codeE : List Nat) (hi1 lo1 hi2 lo2 : Nat) (c1 : Chunk D),
      (visitExpr C c).code = c.code ++ codeC
      ∧ (∀ cT : Chunk D, cT.constants.length = c.constants.length + exprCount C →
          ∃ cT1, visitStmt T cT = some cT1 ∧ cT1.code = cT.code ++ codeT)
      ∧ (∀ cE : Chunk D, cE.constants.length = c.constants.length + exprCount C + stmtCount T →
          ∃ cE1, visitElse E cE = some cE1 ∧ cE1.code = cE.code ++ codeE)
      ∧ (E = none → codeE = [])
      ∧ visitStmt (.If C T E) c = some c1
      ∧ c1.code = c.code ++ codeC
          ++ [OpCode.OP_JUMP_IF_FALSE.toByte, hi1, lo1, OpCode.OP_POP.toByte] ++ codeT
          ++ [OpCode.OP_JUMP.toByte, hi2, lo2, OpCode.OP_POP.toByte] ++ codeE
      ∧ ((hi1 <<< 8) ||| lo1) % 65536 = codeT.length + 4
      ∧ ((hi2 <<< 8) ||| lo2) % 65536 = codeE.length + 1
      ∧ (∀ (vm : VM D) (v : Value D) (rest : List (Value D)),
          vm.ip = c.code.length + codeC.length → vm.stack = v :: rest → isFalsey v = true →
          step c1 vm = .next { vm with ip := c.code.length + codeC.length + 4 + codeT.length + 3 })
      ∧ c1.code[c.code.length + codeC.length + 4 + codeT.length + 3]? = some OpCode.OP_POP.toByte
      ∧ (∀ vm : VM D, vm.ip = c.code.length + codeC.length + 4 + codeT.length →
          step c1 vm = .next { vm with ip := c1.code.length }) := by
  have hT : nullFree T = true := by
    cases E with
    | none => simpa [nullFree] using hn
    | some e =>
      simp only [nullFree, Bool.and_eq_true] at hn
      exact hn.1
  have hE : ∀ e, E = some e → nullFree e = true := by
    intro e he
    subst he
    simp only [nullFree, Bool.and_eq_true] at hn
    exact hn.2
  have hcode : (c.extend (stmtCode (.If C T E) c.constants.length) (stmtConsts (.If C T E))).code
      = c.code ++ exprCode C c.constants.length
          ++ [OpCode.OP_JUMP_IF_FALSE.toByte, hiByte (stmtSize T + 4), loByte (stmtSize T + 4),
              OpCode.OP_POP.toByte]
          ++ stmtCode T (c.constants.length + exprCount C)
          ++ [OpCode.OP_JUMP.toByte, hiByte (elseSize E + 1), loByte (elseSize E + 1),
              OpCode.OP_POP.toByte]
          ++ elseCode E (c.constants.length + exprCount C + stmtCount T) := by
    rw [stmtCode_if]
    simp [Chunk.extend]
  have hall : SliceAt (c.extend (stmtCode (.If C T E) c.constants.length)
        (stmtConsts (.If C T E))).code c.code.length
      (exprCode C c.constants.length
        ++ [OpCode.OP_JUMP_IF_FALSE.toByte, hiByte (stmtSize T + 4), loByte (stmtSize T + 4),
            OpCode.OP_POP.toByte]
        ++ stmtCode T (c.constants.length + exprCount C)
        ++ [OpCode.OP_JUMP.toByte, hiByte (elseSize E + 1), loByte (elseSize E + 1),
            OpCode.OP_POP.toByte]
        ++ elseCode E (c.constants.length + exprCount C + stmtCount T)) :=
    ⟨c.code, [], by simp [hcode], rfl⟩
  have hjif := sliceAt_right (sliceAt_left (sliceAt_left (sliceAt_left hall)))
  have hjmp := sliceAt_pos (sliceAt_right (sliceAt_left hall))
    (q := c.code.length + (exprCode C c.constants.length).length + 4
      + (stmtCode T (c.constants.length + exprCount C)).length)
    (by simp only [List.length_append, List.length_cons, List.length_nil]; omega)
  refine ⟨exprCode C c.constants.length, stmtCode T (c.constants.length + exprCount C),
    elseCode E (c.constants.length + exprCount C + stmtCount T),
    hiByte (stmtSize T + 4), loByte (stmtSize T + 4), hiByte (elseSize E + 1),
    loByte (elseSize E + 1), _, ?_, ?_, ?_, ?_, visitStmt_eq (.If C T E) hn c, hcode, ?_, ?_,
    ?_, ?_, ?_⟩
  · rw [visitExpr_eq]
    rfl
  · intro cT hb
    refine ⟨_, visitStmt_eq T hT cT, ?_⟩
    rw [hb]
    rfl
  · intro cE hb
    have h := visitElse_code E hE cE
    rw [hb] at h
    exact h
  · intro he
    subst he
    rfl
  · rw [stmtCode_length, decode_short _ h1]
  · rw [elseCode_length, decode_short _ h2]
  · intro vm v rest hip hs hf
    have hj := sliceAt_pos hjif hip
    have h := @step_jump_if_false D _ _ vm _ _ v rest (sliceAt_head hj)
      (sliceAt_head (sliceAt_tail hj)) (sliceAt_head (sliceAt_tail (sliceAt_tail hj))) hs
    rw [h, decode_short _ h1, hf, stmtCode_length, hip]
    simp only [if_true]
    congr 2
    omega
  · have h := sliceAt_head (sliceAt_tail (sliceAt_tail (sliceAt_tail hjmp)))
    exact h
  · intro vm hip
    have hj := sliceAt_pos hjmp hip
    have h := @step_jump D _ _ vm _ _ (sliceAt_head hj)
      (sliceAt_head (sliceAt_tail hj)) (sliceAt_head (sliceAt_tail (sliceAt_tail hj)))
    rw [h, decode_short _ h2, hip, hcode]
    congr 2
    simp only [List.length_append, List.length_cons, List.length_nil, elseCode_length]
    omega

/-- The theorem above on `if nil then nil else nil end` compiled into an empty
chunk. -/
theorem if_code_and_jump_targets_witness :
    nullFree (.If (.Literal "nil") nilStmt (some nilStmt)) = true
      ∧ stmtSize nilStmt + 4 ≤ 65535 ∧ elseSize (some nilStmt) + 1 ≤ 65535
      ∧ ∃ (codeC codeT codeE : List Nat) (hi1 lo1 hi2 lo2 : Nat) (c1 : Chunk Int),
        (visitExpr (.Literal "nil") ({} : Chunk Int)).code = ({} : Chunk Int).code ++ codeC
        ∧ (∀ cT : Chunk Int,
            cT.constants.length = ({} : Chunk Int).constants.length + exprCount (.Literal "nil") →
            ∃ cT1, visitStmt nilStmt cT = some cT1 ∧ cT1.code = cT.code ++ codeT)
        ∧ (∀ cE : Chunk Int,
            cE.constants.length
              = ({} : Chunk Int).constants.length + exprCount (.Literal "nil") + stmtCount nilStmt →
            ∃ cE1, visitElse (some nilStmt) cE = some cE1 ∧ cE1.code = cE.code ++ codeE)
        ∧ (some nilStmt = none → codeE = [])
        ∧ visitStmt (.If (.Literal "nil") nilStmt (some nilStmt)) ({} : Chunk Int) = some c1
        ∧ c1.code = ({} : Chunk Int).code ++ codeC
            ++ [OpCode.OP_JUMP_IF_FALSE.toByte, hi1, lo1, OpCode.OP_POP.toByte] ++ codeT
            ++ [OpCode.OP_JUMP.toByte, hi2, lo2, OpCode.OP_POP.toByte] ++ codeE
        ∧ ((hi1 <<< 8) ||| lo1) % 65536 = codeT.length + 4
        ∧ ((hi2 <<< 8) ||| lo2) % 65536 = codeE.length + 1
        ∧ (∀ (vm : VM Int) (v : Value Int) (rest : List (Value Int)),
            vm.ip = ({} : Chunk Int).code.length + codeC.length → vm.stack = v :: rest →
            isFalsey v = true →
            step c1 vm = .next { vm with
              ip := ({} : Chunk Int).code.length + codeC.length + 4 + codeT.length + 3 })
        ∧ c1.code[({} : Chunk Int).code.length + codeC.length + 4 + codeT.length + 3]?
            = some OpCode.OP_POP.toByte
        ∧ (∀ vm : VM Int,
            vm.ip = ({} : Chunk Int).code.length + codeC.length + 4 + codeT.length →
            step c1 vm = .next { vm with ip := c1.code.length }) :=
  ⟨by decide, by decide, by decide,
    if_code_and_jump_targets (.Literal "nil") nilStmt (some nilStmt) ({} : Chunk Int)
      (by decide) (by decide) (by decide)⟩

/-- C28: a `while` statement without null statements whose compiled size is at
most 65,535 bytes appends code(C), `OP_JUMP_IF_FALSE k1`, `OP_POP`, code(B),
`OP_LOOP k2`, `OP_POP`, where code(C) and code(B) are what the visitors of the
parts append, the operands decode to `k1 = |code(B)| + 4` and
`k2 = |code(C)| + |code(B)| + 7`, a taken `OP_JUMP_IF_FALSE` lands on the final
`OP_POP` and `OP_LOOP` sets the instruction pointer to the first byte of
code(C). -/
theorem while_code_and_jump_targets (C : Expr) (B : Stmt) (c : Chunk D)
    (hn : nullFree (.While C B) = true) (hsize : stmtSize (.While C B) ≤ 65535) :
    ∃ (codeC codeB : List Nat) (hi1 lo1 hi2 lo2 : Nat) (c1 : Chunk D),
      (visitExpr C c).code = c.code ++ codeC
      ∧ (∀ cB : Chunk D, cB.constants.length = c.constants.length + exprCount C →
          ∃ cB1, visitStmt B cB = some cB1 ∧ cB1.code = cB.code ++ codeB)
      ∧ visitStmt (.While C B) c = some c1
      ∧ c1.code = c.code ++ codeC
          ++ [OpCode.OP_JUMP_IF_FALSE.toByte, hi1, lo1, OpCode.OP_POP.toByte] ++ codeB
          ++ [OpCode.OP_LOOP.toByte, hi2, lo2, OpCode.OP_POP.toByte]
      ∧ ((hi1 <<< 8) ||| lo1) % 65536 = codeB.length + 4
      ∧ ((hi2 <<< 8) ||| lo2) % 65536 = codeC.length + codeB.length + 7
      ∧ (∀ (vm : VM D) (v : Value D) (rest : List (Value D)),
          vm.ip = c.code.length + codeC.length → vm.stack = v :: rest → isFalsey v = true →
          step c1 vm = .next { vm with ip := c.code.length + codeC.length + 4 + codeB.length + 3 })
      ∧ c1.code[c.code.length + codeC.length + 4 + codeB.length + 3]? = some OpCode.OP_POP.toByte
      ∧ c1.code.length = c.code.length + codeC.length + 4 + codeB.length + 4
      ∧ (∀ vm : VM D, vm.ip = c.code.length + codeC.length + 4 + codeB.length →
          step c1 vm = .next { vm with ip := c.code.length }) := by
  have hB : nullFree B = true := by simpa [nullFree] using hn
  simp only [stmtSize] at hsize
  rw [← stmtCode_length B (c.constants.length + exprCount C),
    exprCode_length C 0 c.constants.length] at hsize
  have hk2 : ((hiByte ((exprCode C 0).length + stmtSize B + 7) <<< 8)
      ||| loByte ((exprCode C 0).length + stmtSize B + 7)) % 65536
      = (exprCode C c.constants.length).length
        + (stmtCode B (c.constants.length + exprCount C)).length + 7 := by
    rw [decode_short, stmtCode_length, exprCode_length C 0 c.constants.length]
    rw [← stmtCode_length B (c.constants.length + exprCount C),
      exprCode_length C 0 c.constants.length]
    omega
  have hcode : (c.extend (stmtCode (.While C B) c.constants.length)
        (stmtConsts (.While C B))).code
      = c.code ++ exprCode C c.constants.length
          ++ [OpCode.OP_JUMP_IF_FALSE.toByte, hiByte (stmtSize B + 4), loByte (stmtSize B + 4),
              OpCode.OP_POP.toByte]
          ++ stmtCode B (c.constants.length + exprCount C)
          ++ [OpCode.OP_LOOP.toByte, hiByte ((exprCode C 0).length + stmtSize B + 7),
              loByte ((exprCode C 0).length + stmtSize B + 7), OpCode.OP_POP.toByte] := by
    simp [Chunk.extend, stmtCode]
  have hall : SliceAt (c.extend (stmtCode (.While C B) c.constants.length)
        (stmtConsts (.While C B))).code c.code.length
      (exprCode C c.constants.length
        ++ [OpCode.OP_JUMP_IF_FALSE.toByte, hiByte (stmtSize B + 4), loByte (stmtSize B + 4),
            OpCode.OP_POP.toByte]
        ++ stmtCode B (c.constants.length + exprCount C)
        ++ [OpCode.OP_LOOP.toByte, hiByte ((exprCode C 0).length + stmtSize B + 7),
            loByte ((exprCode C 0).length + stmtSize B + 7), OpCode.OP_POP.toByte]) :=
    ⟨c.code, [], by simp [hcode], rfl⟩
  have hjif := sliceAt_right (sliceAt_left (sliceAt_left hall))
  have hloop := sliceAt_pos (sliceAt_right hall)
    (q := c.code.length + (exprCode C c.constants.length).length + 4
      + (stmtCode B (c.constants.length + exprCount C)).length)
    (by simp only [List.length_append, List.length_cons, List.length_nil]; omega)
  refine ⟨exprCode C c.constants.length, stmtCode B (c.constants.length + exprCount C),
    hiByte (stmtSize B + 4), loByte (stmtSize B + 4),
    hiByte ((exprCode C 0).length + stmtSize B + 7),
    loByte ((exprCode C 0).length + stmtSize B + 7), _, ?_, ?_,
    visitStmt_eq (.While C B) hn c, hcode, ?_, hk2, ?_, ?_, ?_, ?_⟩
  · rw [visitExpr_eq]
    rfl
  · intro cB hb
    refine ⟨_, visitStmt_eq B hB cB, ?_⟩
    rw [hb]
    rfl
  · rw [stmtCode_length, decode_short]
    rw [← stmtCode_length B (c.constants.length + exprCount C)]
    omega
  · intro vm v rest hip hs hf
    have hj := sliceAt_pos hjif hip
    have h := @step_jump_if_false D _ _ vm _ _ v rest (sliceAt_head hj)
      (sliceAt_head (sliceAt_tail hj)) (sliceAt_head (sliceAt_tail (sliceAt_tail hj))) hs
    have hk1 : ((hiByte (stmtSize B + 4) <<< 8) ||| loByte (stmtSize B + 4)) % 65536
        = (stmtCode B (c.constants.length + exprCount C)).length + 4 := by
      rw [stmtCode_length, decode_short]
      rw [← stmtCode_length B (c.constants.length + exprCount C)]
      omega
    rw [h, hk1, hf, hip]
    simp only [if_true]
    congr 2
    omega
  · exact sliceAt_head (sliceAt_tail (sliceAt_tail (sliceAt_tail hloop)))
  · rw [hcode]
    simp only [List.length_append, List.length_cons, List.length_nil]
  · intro vm hip
    have hj := sliceAt_pos hloop hip
    have h := @step_loop D _ _ vm _ _ (sliceAt_head hj)
      (sliceAt_head (sliceAt_tail hj)) (sliceAt_head (sliceAt_tail (sliceAt_tail hj)))
      (by rw [hk2, hip]; omega)
    rw [h, hk2, hip]
    congr 2
    omega

/-- The theorem above on `while nil do nil end` compiled into an empty chunk. -/
theorem while_code_and_jump_targets_witness :
    nullFree (.While (.Literal "nil") nilStmt) = true
      ∧ stmtSize (.While (.Literal "nil") nilStmt) ≤ 65535
      ∧ ∃ (codeC codeB : List Nat) (hi1 lo1 hi2 lo2 : Nat) (c1 : Chunk Int),
        (visitExpr (.Literal "nil") ({} : Chunk Int)).code = ({} : Chunk Int).code ++ codeC
        ∧ (∀ cB : Chunk Int,
            cB.constants.length = ({} : Chunk Int).constants.length + exprCount (.Literal "nil") →
            ∃ cB1, visitStmt nilStmt cB = some cB1 ∧ cB1.code = cB.code ++ codeB)
        ∧ visitStmt (.While (.Literal "nil") nilStmt) ({} : Chunk Int) = some c1
        ∧ c1.code = ({} : Chunk Int).code ++ codeC
            ++ [OpCode.OP_JUMP_IF_FALSE.toByte, hi1, lo1, OpCode.OP_POP.toByte] ++ codeB
            ++ [OpCode.OP_LOOP.toByte, hi2, lo2, OpCode.OP_POP.toByte]
        ∧ ((hi1 <<< 8) ||| lo1) % 65536 = codeB.length + 4
        ∧ ((hi2 <<< 8) ||| lo2) % 65536 = codeC.length + codeB.length + 7
        ∧ (∀ (vm : VM Int) (v : Value Int) (rest : List (Value Int)),
            vm.ip = ({} : Chunk Int).code.length + codeC.length → vm.stack = v :: rest →
            isFalsey v = true →
            step c1 vm = .next { vm with
              ip := ({} : Chunk Int).code.length + codeC.length + 4 + codeB.length + 3 })
        ∧ c1.code[({} : Chunk Int).code.length + codeC.length + 4 + codeB.length + 3]?
            = some OpCode.OP_POP.toByte
        ∧ c1.code.length = ({} : Chunk Int).code.length + codeC.length + 4 + codeB.length + 4
        ∧ (∀ vm : VM Int,
            vm.ip = ({} : Chunk Int).code.length + codeC.length + 4 + codeB.length →
            step c1 vm = .next { vm with ip := ({} : Chunk Int).code.length }) :=
  ⟨by decide, by decide,
    while_code_and_jump_targets (.Literal "nil") nilStmt ({} : Chunk Int) (by decide)
      (by decide)⟩

/-- C29: for an operand offset `p` with `p + 2 ≤ |code|`, `patchJump` keeps the
length of the code, writes the big-endian bytes of `n = |code| - p - 2` at `p`
and `p + 1`, changes no other byte, no line and no constant; and when
`n ≤ 65535`, `READ_SHORT` at `p` returns `n`. -/
theorem patchJump_writes_big_endian_operand {T : Type} (c : Chunk T) (p : Nat)
    (hp : p + 2 ≤ c.code.length) :
    (patchJump c p).code.length = c.code.length
      ∧ (patchJump c p).code[p]? = some ((c.code.length - p - 2) / 256 % 256)
      ∧ (patchJump c p).code[p + 1]? = some ((c.code.length - p - 2) % 256)
      ∧ (∀ i : Nat, i ≠ p → i ≠ p + 1 → (patchJump c p).code[i]? = c.code[i]?)
      ∧ (patchJump c p).lines = c.lines
      ∧ (patchJump c p).constants = c.constants
      ∧ (c.code.length - p - 2 ≤ 65535 → ∀ vm : VM T, vm.ip = p →
          readShort (patchJump c p) vm
            = some (c.code.length - p - 2, { vm with ip := p + 2 })) := by
  have hcode : (patchJump c p).code
      = (c.code.set p (hiByte (c.code.length - p - 2))).set (p + 1)
          (loByte (c.code.length - p - 2)) := rfl
  have h0 : (patchJump c p).code[p]? = some (hiByte (c.code.length - p - 2)) := by
    rw [hcode, List.getElem?_set_ne (by omega), List.getElem?_set_eq_of_lt _ (by omega)]
  have h1 : (patchJump c p).code[p + 1]? = some (loByte (c.code.length - p - 2)) := by
    rw [hcode, List.getElem?_set_eq_of_lt _ (by simp; omega)]
  refine ⟨by simp [hcode], ?_, ?_, ?_, rfl, rfl, ?_⟩
  · rw [h0, hiByte_eq]
  · rw [h1, loByte_eq]
  · intro i hi0 hi1
    rw [hcode, List.getElem?_set_ne (by omega), List.getElem?_set_ne (by omega)]
  · intro hn vm hip
    unfold readShort
    rw [hip, h0, h1]
    simp only [decode_short _ hn]

theorem patchChunk_length : 1 + 2 ≤ patchChunk.code.length := by
  show 1 + 2 ≤ ([OpCode.OP_JUMP.toByte, 255, 255]
    ++ List.replicate 300 OpCode.OP_POP.toByte).length
  rw [List.length_append, List.length_replicate]
  decide

/-- The theorem above on the chunk `patchChunk`, whose placeholder at offset 1
is followed by 300 bytes. -/
theorem patchJump_writes_big_endian_operand_witness :
    1 + 2 ≤ patchChunk.code.length
      ∧ (patchJump patchChunk 1).code.length = patchChunk.code.length
      ∧ (patchJump patchChunk 1).code[1]? = some ((patchChunk.code.length - 1 - 2) / 256 % 256)
      ∧ (patchJump patchChunk 1).code[1 + 1]? = some ((patchChunk.code.length - 1 - 2) % 256)
      ∧ (∀ i : Nat, i ≠ 1 → i ≠ 1 + 1 → (patchJump patchChunk 1).code[i]? = patchChunk.code[i]?)
      ∧ (patchJump patchChunk 1).lines = patchChunk.lines
      ∧ (patchJump patchChunk 1).constants = patchChunk.constants
      ∧ (patchChunk.code.length - 1 - 2 ≤ 65535 → ∀ vm : VM Int, vm.ip = 1 →
          readShort (patchJump patchChunk 1) vm
            = some (patchChunk.code.length - 1 - 2, { vm with ip := 1 + 2 })) :=
  ⟨patchChunk_length, patchJump_writes_big_endian_operand patchChunk 1 patchChunk_length⟩

end Jumps

/-! ## Operators without an opcode -/

section Unmapped
variable {D : Type} [DoubleModel D]

theorem exec_unmapped_binary (l r : Expr) (op : Token) (c : Chunk D) (vm : VM D) (base : Nat)
    (a b : Value D) (s1 s2 : Store D) (hop : binaryOpcode op.type = none)
    (ha : evalIn l ⟨vm.globals, vm.out⟩ = some (a, s1)) (hb : evalIn r s1 = some (b, s2))
    (hcode : SliceAt c.code vm.ip (exprCode (.Binary l op r) base))
    (hconst : SliceAt c.constants base (exprConsts (.Binary l op r)))
    (hle : base + exprCount (.Binary l op r) ≤ 256) :
    stateAfter c (inRange vm.ip (vm.ip + (exprCode (.Binary l op r) base).length))
        (exprSteps (.Binary l op r)) vm
      = some { vm with ip := vm.ip + (exprCode (.Binary l op r) base).length,
                       stack := b :: a :: vm.stack, globals := s2.globals, out := s2.out } := by
  simp only [exprCode, exprConsts, exprCount, exprSteps, hop, selectedCode, List.append_nil,
    List.length_append, List.length_nil, Nat.add_zero] at hcode hconst hle ⊢
  have hl := exec_expr l a s1 c vm base ha (sliceAt_left hcode) (sliceAt_left hconst) (by omega)
  have hcr : SliceAt c.constants (base + exprCount l) (exprConsts r) := by
    have := sliceAt_right hconst
    rwa [exprConsts_length] at this
  have hr := exec_expr r b s2 c
    { vm with ip := vm.ip + (exprCode l base).length, stack := a :: vm.stack,
              globals := s1.globals, out := s1.out }
    (base + exprCount l) hb (sliceAt_right hcode) hcr (by omega)
  have h1 := stateAfter_mono (q := inRange vm.ip (vm.ip + ((exprCode l base).length
      + (exprCode r (base + exprCount l)).length)))
    (inRange_widen (Nat.le_refl _) (by omega)) _ _ _ hl
  have h2 := stateAfter_mono (q := inRange vm.ip (vm.ip + ((exprCode l base).length
      + (exprCode r (base + exprCount l)).length)))
    (inRange_widen (by simp) (by simp; omega)) _ _ _ hr
  rw [stateAfter_trans _ _ _ _ _ h1 h2]
  simp [Nat.add_assoc]

/-- C30: the binary operators of the grammar that `visitBinaryExpr` maps to no
opcode are `!=`, `<=`, `>=`, `and`, `or`, and the unary operator of the grammar
that `visitUnaryExpr` does not map is `!`. A `Binary` node with an unmapped
operator compiles to the code of its left operand followed by the code of its
right operand, and running that code pushes both values (right on top); a
`Unary` node with an unmapped operator compiles to the code of its operand, and
running that code pushes the value of the operand. So `1 != 2` leaves 1 and 2 on
the stack and `!true` leaves `true`. -/
theorem unmapped_operator_emits_no_opcode :
    (∀ ty : TokenType,
        ty ∈ [TokenType.OR, .AND, .BANG_EQUAL, .EQUAL_EQUAL, .GREATER, .GREATER_EQUAL, .LESS,
              .LESS_EQUAL, .MINUS, .PLUS, .SLASH, .STAR] →
        (binaryOpcode ty = none
          ↔ ty ∈ [TokenType.BANG_EQUAL, .LESS_EQUAL, .GREATER_EQUAL, .AND, .OR]))
      ∧ (∀ ty : TokenType, ty ∈ [TokenType.BANG, .MINUS, .NOT] →
          (unaryOpcode ty = none ↔ ty = .BANG))
      ∧ (∀ (T : Type) [DoubleModel T] (l r : Expr) (op : Token) (c : Chunk T),
          binaryOpcode op.type = none →
          visitExpr (.Binary l op r) c = visitExpr r (visitExpr l c))
      ∧ (∀ (T : Type) [DoubleModel T] (l r : Expr) (op : Token) (c : Chunk T) (vm : VM T)
          (base : Nat) (a b : Value T) (s1 s2 : Store T),
          binaryOpcode op.type = none →
          evalIn l ⟨vm.globals, vm.out⟩ = some (a, s1) → evalIn r s1 = some (b, s2) →
          SliceAt c.code vm.ip (exprCode (.Binary l op r) base) →
          SliceAt c.constants base (exprConsts (.Binary l op r)) →
          base + exprCount (.Binary l op r) ≤ 256 →
          stateAfter c (inRange vm.ip (vm.ip + (exprCode (.Binary l op r) base).length))
              (exprSteps (.Binary l op r)) vm
            = some { vm with ip := vm.ip + (exprCode (.Binary l op r) base).length,
                             stack := b :: a :: vm.stack, globals := s2.globals,
                             out := s2.out })
      ∧ (∀ (T : Type) [DoubleModel T] (e : Expr) (op : Token) (c : Chunk T),
          unaryOpcode op.type = none → visitExpr (.Unary op e) c = visitExpr e c)
      ∧ (∀ (T : Type) [DoubleModel T] (e : Expr) (op : Token) (c : Chunk T) (vm : VM T)
          (base : Nat) (v : Value T) (s1 : Store T),
          unaryOpcode op.type = none →
          evalIn e ⟨vm.globals, vm.out⟩ = some (v, s1) →
          SliceAt c.code vm.ip (exprCode (.Unary op e) base) →
          SliceAt c.constants base (exprConsts (.Unary op e)) →
          base + exprCount (.Unary op e) ≤ 256 →
          stateAfter c (inRange vm.ip (vm.ip + (exprCode (.Unary op e) base).length))
              (exprSteps (.Unary op e)) vm
            = some { vm with ip := vm.ip + (exprCode (.Unary op e) base).length,
                             stack := v :: vm.stack, globals := s1.globals, out := s1.out })
      ∧ (visitExpr notEqualExpr ({} : Chunk Int)).code = [0, 0, 0, 1]
      ∧ stateAfter (visitExpr notEqualExpr ({} : Chunk Int)) anywhere 2 {}
          = some { ip := 4, stack := [.Number 2, .Number 1] }
      ∧ (visitExpr bangTrueExpr ({} : Chunk Int)).code = [OpCode.OP_TRUE.toByte]
      ∧ stateAfter (visitExpr bangTrueExpr ({} : Chunk Int)) anywhere 1 {}
          = some { ip := 1, stack := [.Boolean true] } := by
  refine ⟨by decide, by decide, ?_, ?_, ?_, ?_, rfl, rfl, rfl, rfl⟩
  · intro T _ l r op c hop
    simp only [visitExpr, hop, emitSelected]
  · intro T _ l r op c vm base a b s1 s2 hop ha hb hcode hconst hle
    exact exec_unmapped_binary l r op c vm base a b s1 s2 hop ha hb hcode hconst hle
  · intro T _ e op c hop
    simp only [visitExpr, hop, emitSelected]
  · intro T _ e op c vm base v s1 hop hv hcode hconst hle
    simp only [exprCode, exprConsts, exprCount, exprSteps, hop, selectedCode, List.append_nil,
      List.length_nil, Nat.add_zero] at hcode hconst hle ⊢
    exact exec_expr e v s1 c vm base hv hcode hconst hle

end Unmapped

/-! ## Calls of other functions than `print` -/

section OtherCalls
variable {D : Type} [DoubleModel D]

theorem isPrintCallee_false (callee : Expr)
    (h : ∀ name : Token, callee = .Variable name → name.lexeme ≠ "print") :
    isPrintCallee callee = false := by
  cases callee with
  | Variable name => simpa [isPrintCallee] using h name rfl
  | _ => rfl

theorem step_pop_empty {c : Chunk D} {vm : VM D}
    (h0 : c.code[vm.ip]? = some OpCode.OP_POP.toByte) (hs : vm.stack = []) :
    step c vm = .fault := by
  simp [step, readByte, h0, opcode_ofByte_toByte, VM.pop, hs]

/-- C31: for a call whose callee is not a variable named `print`, `visitCallExpr`
leaves the chunk as it is (no byte, no constant, whatever the callee and the
arguments), so the expression statement of such a call appends the single byte
`OP_POP`; run from the offset of that byte, the `OP_POP` removes the top of the
stack, a value the call did not push, and on an empty stack it pops the empty
stack. -/
theorem other_call_emits_nothing (callee : Expr) (paren : Token) (arguments : List Expr)
    (c : Chunk D) (h : ∀ name : Token, callee = .Variable name → name.lexeme ≠ "print") :
    visitExpr (.Call callee paren arguments) c = c
      ∧ visitStmt (.Expression (.Call callee paren arguments)) c
          = some { c with code := c.code ++ [OpCode.OP_POP.toByte], lines := c.lines ++ [0] }
      ∧ (∀ (c1 : Chunk D) (vm : VM D) (v : Value D) (rest : List (Value D)),
          visitStmt (.Expression (.Call callee paren arguments)) c = some c1 →
          vm.ip = c.code.length → vm.stack = v :: rest →
          step c1 vm = .next { vm with ip := vm.ip + 1, stack := rest })
      ∧ (∀ (c1 : Chunk D) (vm : VM D),
          visitStmt (.Expression (.Call callee paren arguments)) c = some c1 →
          vm.ip = c.code.length → vm.stack = [] → step c1 vm = .fault) := by
  have hp := isPrintCallee_false callee h
  have hv : visitExpr (.Call callee paren arguments) c = c := by
    simp [visitExpr, hp]
  have hs : visitStmt (.Expression (.Call callee paren arguments)) c
      = some { c with code := c.code ++ [OpCode.OP_POP.toByte], lines := c.lines ++ [0] } := by
    simp only [visitStmt, hv]
    rfl
  refine ⟨hv, hs, ?_, ?_⟩
  · intro c1 vm v rest hc hip hst
    rw [hs] at hc
    simp only [Option.some.injEq] at hc
    subst hc
    exact step_pop (by rw [hip]; simp) hst
  · intro c1 vm hc hip hst
    rw [hs] at hc
    simp only [Option.some.injEq] at hc
    subst hc
    exact step_pop_empty (by rw [hip]; simp) hst

/-- The theorem above on the call `f()` compiled into an empty chunk. -/
theorem other_call_emits_nothing_witness :
    (∀ name : Token,
        (.Variable { type := .IDENTIFIER, lexeme := "f", line := 1, column := 2 } : Expr)
          = .Variable name → name.lexeme ≠ "print")
      ∧ visitExpr callOfF ({} : Chunk Int) = {}
      ∧ visitStmt (.Expression callOfF) ({} : Chunk Int)
          = some { ({} : Chunk Int) with
              code := ({} : Chunk Int).code ++ [OpCode.OP_POP.toByte],
              lines := ({} : Chunk Int).lines ++ [0] }
      ∧ (∀ (c1 : Chunk Int) (vm : VM Int) (v : Value Int) (rest : List (Value Int)),
          visitStmt (.Expression callOfF) ({} : Chunk Int) = some c1 →
          vm.ip = ({} : Chunk Int).code.length → vm.stack = v :: rest →
          step c1 vm = .next { vm with ip := vm.ip + 1, stack := rest })
      ∧ (∀ (c1 : Chunk Int) (vm : VM Int),
          visitStmt (.Expression callOfF) ({} : Chunk Int) = some c1 →
          vm.ip = ({} : Chunk Int).code.length → vm.stack = [] → step c1 vm = .fault) :=
  ⟨fun name hn => by
      cases hn
      decide,
    other_call_emits_nothing _ _ [] ({} : Chunk Int) (fun name hn => by
      cases hn
      decide)⟩

end OtherCalls

/-! ## Quoted literals through the scanner, the parser and the compiler -/

section QuotedLiterals
variable {D : Type} [DoubleModel D]

theorem compiled_of_stages {source : String} (tokens : List Token)
    (statements : List (Option Stmt)) (p : Nat) {budget : Nat} {chunk : Chunk D}
    (hs : scanTokens source = some tokens)
    (hp : Parser.parse budget tokens = .ok statements p)
    (hn : statements.isEmpty = false)
    (hc : compile statements ({} : Chunk D) = some (true, chunk)) :
    Main.compiled budget source = some chunk := by
  simp only [Main.compiled, hs, hp, hn, hc]
  rfl

theorem compiled_quoted_nil (k : Nat) :
    (Main.compiled (k + 15) (quoted "nil") : Option (Chunk D))
      = some (codeChunk D [OpCode.OP_NIL.toByte, OpCode.OP_POP.toByte,
          OpCode.OP_RETURN.toByte]) :=
  compiled_of_stages
    [{ type := .STRING, lexeme := "nil", line := 1, column := 6 },
                { type := .TOKEN_EOF, lexeme := "", line := 1, column := 6 }]
    [some (.Expression (.Literal "nil"))] 1
    (by decide) (by rfl) rfl (by rfl)

theorem compiled_quoted_true (k : Nat) :
    (Main.compiled (k + 15) (quoted "true") : Option (Chunk D))
      = some (codeChunk D [OpCode.OP_TRUE.toByte, OpCode.OP_POP.toByte,
          OpCode.OP_RETURN.toByte]) :=
  compiled_of_stages
    [{ type := .STRING, lexeme := "true", line := 1, column := 7 },
                { type := .TOKEN_EOF, lexeme := "", line := 1, column := 7 }]
    [some (.Expression (.Literal "true"))] 1
    (by decide) (by rfl) rfl (by rfl)

theorem compiled_quoted_false (k : Nat) :
    (Main.compiled (k + 15) (quoted "false") : Option (Chunk D))
      = some (codeChunk D [OpCode.OP_FALSE.toByte, OpCode.OP_POP.toByte,
          OpCode.OP_RETURN.toByte]) :=
  compiled_of_stages
    [{ type := .STRING, lexeme := "false", line := 1, column := 8 },
                { type := .TOKEN_EOF, lexeme := "", line := 1, column := 8 }]
    [some (.Expression (.Literal "false"))] 1
    (by decide) (by rfl) rfl (by rfl)

theorem literalValue_number (L : String) (d : D) (h : DoubleModel.stod L = some (d, L.length))
    (h1 : L ≠ "nil") (h2 : L ≠ "true") (h3 : L ≠ "false") :
    (literalValue L : Value D) = .Number d := by
  unfold literalValue
  rw [if_neg h1, if_neg h2, if_neg h3, parseWholeNumber_some L d h]

theorem compiled_quoted_number (d12 : D) (h12 : DoubleModel.stod "12" = some (d12, 2))
    (k : Nat) :
    (Main.compiled (k + 15) (quoted "12") : Option (Chunk D))
      = some { code := [OpCode.OP_CONSTANT.toByte, 0, OpCode.OP_POP.toByte,
                        OpCode.OP_RETURN.toByte],
               constants := [.Number d12], lines := [0, 0, 0, 0] } := by
  refine compiled_of_stages
    [{ type := .STRING, lexeme := "12", line := 1, column := 5 },
                { type := .TOKEN_EOF, lexeme := "", line := 1, column := 5 }]
    [some (.Expression (.Literal "12"))] 1
    (by decide) (by rfl) rfl ?_
  rw [compile_eq _ (by rfl)]
  have hv : (literalValue "12" : Value D) = .Number d12 :=
    literalValue_number "12" d12 h12 (by decide) (by decide) (by decide)
  have hconst : (stmtsConsts [some (.Expression (.Literal "12"))] : List (Value D))
      = [.Number d12] := by
    simp only [stmtsConsts, stmtConsts, exprConsts, hv]
    rfl
  rw [hconst]
  rfl

theorem compile_printQuotedSum (d1 d2 : D) (h1 : DoubleModel.stod "1" = some (d1, 1))
    (h2 : DoubleModel.stod "2" = some (d2, 1)) :
    compile printQuotedSumProgram ({} : Chunk D)
      = some (true, { code := [0, 0, 0, 1, OpCode.OP_ADD.toByte, 17, 1, 4, 21],
                      constants := [.Number d1, .Number d2],
                      lines := [0, 0, 0, 0, 0, 0, 0, 0, 0] }) := by
  rw [compile_eq _ (by rfl)]
  have v1 : (literalValue "1" : Value D) = .Number d1 :=
    literalValue_number "1" d1 h1 (by decide) (by decide) (by decide)
  have v2 : (literalValue "2" : Value D) = .Number d2 :=
    literalValue_number "2" d2 h2 (by decide) (by decide) (by decide)
  have hconst : (stmtsConsts printQuotedSumProgram : List (Value D))
      = [.Number d1, .Number d2] := by
    simp only [printQuotedSumProgram, stmtsConsts, stmtConsts, exprConsts, argsConsts, v1, v2]
    rfl
  rw [hconst]
  rfl

theorem interpret_printQuotedSum (d1 d2 : D) (k : Nat) :
    interpret (k + 7)
        ({ code := [0, 0, 0, 1, OpCode.OP_ADD.toByte, 17, 1, 4, 21], constants := [.Number d1, .Number d2],
           lines := [0, 0, 0, 0, 0, 0, 0, 0, 0] } : Chunk D) {}
      = .finished .OK { ip := 9, stack := [], out := [DoubleModel.fmt (DoubleModel.add d1 d2)] } := by
  rfl

theorem scanTokens_quoted (s : String) (hs : ∀ ch ∈ s.toList, ch ≠ Char.ofNat 34) :
    ∃ (l c : Int), scanTokens (quoted s)
      = some [{ type := .STRING, lexeme := s, line := l, column := c },
              { type := .TOKEN_EOF, lexeme := "", line := l, column := c }] := by
  obtain ⟨l, col, h⟩ := scanToken_closed_string
    { source := Char.ofNat 34 :: (s.toList ++ [Char.ofNat 34]) } s.toList [] rfl rfl hs
  refine ⟨l, col, ?_⟩
  unfold scanTokens Lexer.scan
  have hlen : (quoted s).length = (s.toList.length + 1) + 1 := by
    show (Char.ofNat 34 :: (s.toList ++ [Char.ofNat 34])).length = _
    simp
  have hsrc : (quoted s).toList = Char.ofNat 34 :: (s.toList ++ [Char.ofNat 34]) := rfl
  rw [hlen, hsrc]
  unfold Lexer.scanLoop
  rw [if_neg (by simp [Lexer.isAtEnd])]
  have h1 : Lexer.scanToken
      { ({ source := Char.ofNat 34 :: (s.toList ++ [Char.ofNat 34]) } : Lexer) with
        start := ({ source := Char.ofNat 34 :: (s.toList ++ [Char.ofNat 34]) } : Lexer).current }
      = _ := h
  rw [h1, scanLoop_of_isAtEnd _ _ (by simp [Lexer.isAtEnd])]
  rfl

/-- The source made of one quoted string whose body reads in full as a number
compiles to that number as the only constant. -/
theorem compiled_quoted_numeric (s : String) (d : D)
    (hs : ∀ ch ∈ s.toList, ch ≠ Char.ofNat 34) (h1 : s ≠ "nil") (h2 : s ≠ "true")
    (h3 : s ≠ "false") (hd : parseWholeNumber s = some d) (k : Nat) :
    (Main.compiled (k + 15) (quoted s) : Option (Chunk D))
      = some { code := [OpCode.OP_CONSTANT.toByte, 0, OpCode.OP_POP.toByte,
                        OpCode.OP_RETURN.toByte],
               constants := [.Number d], lines := [0, 0, 0, 0] } := by
  obtain ⟨l, c, hscan⟩ := scanTokens_quoted s hs
  refine compiled_of_stages _ [some (.Expression (.Literal s))] 1 hscan (by rfl) rfl ?_
  simp [compile, visitStmts, visitStmt, visitExpr, visitLiteralExpr, h1, h2, h3, hd,
    emitConstant, makeConstant, Chunk.addConstant, emitBytes, emitByte, emitOp, Chunk.write,
    OpCode.toByte]

/-- C32: through `scanTokens`, `Parser::parse` and `Compiler::compile`, a source
made of one quoted string whose body (any text without a double quote, other
than `nil`, `true`, `false`) `std::stod` reads in full as a number `d` compiles
to `OP_CONSTANT 0` with `Number d` as the only constant; the sources `"nil"`,
`"true"`, `"false"` compile to `OP_NIL`, `OP_TRUE`, `OP_FALSE` (then `OP_POP`,
`OP_RETURN`) without any constant, and `"12"` compiles to `OP_CONSTANT 0` with
the constant `Number 12`, for every model of `double` in which `std::stod` reads
`12`, `1`, `2` in full as numbers `d12`, `d1`, `d2` and `d1 + d2` is written
`3`. The source `print("1" + 2)` then runs to `OK`, writes `3` and reports no
runtime error, and the code of `"nil" == nil` is `OP_NIL, OP_NIL, OP_EQUAL`,
which leaves `true` on the stack. -/
theorem quoted_literal_compiles_by_body (d12 d1 d2 : D)
    (h12 : DoubleModel.stod "12" = some (d12, 2)) (h1 : DoubleModel.stod "1" = some (d1, 1))
    (h2 : DoubleModel.stod "2" = some (d2, 1))
    (hsum : DoubleModel.fmt (DoubleModel.add d1 d2) = "3") :
    (∀ (s : String) (d : D), (∀ ch ∈ s.toList, ch ≠ Char.ofNat 34) →
        s ≠ "nil" → s ≠ "true" → s ≠ "false" → parseWholeNumber s = some d →
        ∀ k, (Main.compiled (k + 15) (quoted s) : Option (Chunk D))
          = some { code := [OpCode.OP_CONSTANT.toByte, 0, OpCode.OP_POP.toByte,
                            OpCode.OP_RETURN.toByte],
                   constants := [.Number d], lines := [0, 0, 0, 0] })
      ∧ (∀ k, (Main.compiled (k + 15) (quoted "nil") : Option (Chunk D))
          = some (codeChunk D [OpCode.OP_NIL.toByte, OpCode.OP_POP.toByte,
              OpCode.OP_RETURN.toByte]))
      ∧ (∀ k, (Main.compiled (k + 15) (quoted "true") : Option (Chunk D))
          = some (codeChunk D [OpCode.OP_TRUE.toByte, OpCode.OP_POP.toByte,
              OpCode.OP_RETURN.toByte]))
      ∧ (∀ k, (Main.compiled (k + 15) (quoted "false") : Option (Chunk D))
          = some (codeChunk D [OpCode.OP_FALSE.toByte, OpCode.OP_POP.toByte,
              OpCode.OP_RETURN.toByte]))
      ∧ (∀ k, (Main.compiled (k + 15) (quoted "12") : Option (Chunk D))
          = some { code := [OpCode.OP_CONSTANT.toByte, 0, OpCode.OP_POP.toByte,
                            OpCode.OP_RETURN.toByte],
                   constants := [.Number d12], lines := [0, 0, 0, 0] })
      ∧ (∃ vm : VM D,
          (∀ k, Main.run (k + 29) printQuotedSumSource = .executed (.finished .OK vm))
            ∧ vm.out = ["3"] ∧ vm.err = [] ∧ vm.stack = [])
      ∧ (∀ k, (Main.compiled (k + 16) quotedNilEqualsSource : Option (Chunk D))
          = some (codeChunk D [OpCode.OP_NIL.toByte, OpCode.OP_NIL.toByte,
              OpCode.OP_EQUAL.toByte, OpCode.OP_POP.toByte, OpCode.OP_RETURN.toByte]))
      ∧ stateAfter (codeChunk D [OpCode.OP_NIL.toByte, OpCode.OP_NIL.toByte,
            OpCode.OP_EQUAL.toByte, OpCode.OP_POP.toByte, OpCode.OP_RETURN.toByte]) anywhere 3 {}
          = some { ip := 3, stack := [.Boolean true] } := by
  refine ⟨compiled_quoted_numeric, compiled_quoted_nil, compiled_quoted_true,
    compiled_quoted_false, compiled_quoted_number d12 h12, ?_, ?_, by rfl⟩
  · refine ⟨{ ip := 9, stack := [], out := [DoubleModel.fmt (DoubleModel.add d1 d2)] },
      fun k => ?_, by simp [hsum], rfl, rfl⟩
    have hs : scanTokens printQuotedSumSource = some printQuotedSumTokens := by decide
    have hp : Parser.parse (k + 29) printQuotedSumTokens = .ok printQuotedSumProgram 6 := by
      rfl
    simp only [Main.run, hs, hp, compile_printQuotedSum d1 d2 h1 h2]
    have hi := interpret_printQuotedSum d1 d2 (k + 22)
    have e : k + 22 + 7 = k + 29 := by omega
    rw [e] at hi
    rw [hi]
    rfl
  · intro k
    exact compiled_of_stages
      [{ type := .STRING, lexeme := "nil", line := 1, column := 6 },
                  { type := .EQUAL_EQUAL, lexeme := "==", line := 1, column := 9 },
                  { type := .NIL, lexeme := "nil", line := 1, column := 13 },
                  { type := .TOKEN_EOF, lexeme := "", line := 1, column := 13 }]
      [some (.Expression (.Binary (.Literal "nil")
        { type := .EQUAL_EQUAL, lexeme := "==", line := 1, column := 9 } (.Literal "nil")))]
      3 (by decide) (by rfl) rfl (by rfl)

/-- The theorem above in the integer model of `double`. -/
theorem quoted_literal_compiles_by_body_witness :
    (DoubleModel.stod "12" : Option (Int × Nat)) = some (12, 2)
      ∧ (DoubleModel.stod "1" : Option (Int × Nat)) = some (1, 1)
      ∧ (DoubleModel.stod "2" : Option (Int × Nat)) = some (2, 1)
      ∧ DoubleModel.fmt (DoubleModel.add (1 : Int) 2) = "3"
      ∧ (∀ k, (Main.compiled (k + 15) (quoted "12") : Option (Chunk Int))
          = some { code := [OpCode.OP_CONSTANT.toByte, 0, OpCode.OP_POP.toByte,
                            OpCode.OP_RETURN.toByte],
                   constants := [.Number 12], lines := [0, 0, 0, 0] })
      ∧ (∃ vm : VM Int,
          (∀ k, Main.run (k + 29) printQuotedSumSource = .executed (.finished .OK vm))
            ∧ vm.out = ["3"] ∧ vm.err = [] ∧ vm.stack = []) :=
  ⟨by decide, by decide, by decide, by decide,
    (quoted_literal_compiles_by_body (D := Int) 12 1 2 (by decide) (by decide) (by decide)
      (by decide)).2.2.2.2.1,
    (quoted_literal_compiles_by_body (D := Int) 12 1 2 (by decide) (by decide) (by decide)
      (by decide)).2.2.2.2.2.1⟩

end QuotedLiterals

/-! ## Termination of the parser -/

section Termination
open Parser

variable {T : List Token} {e : Nat}

theorem eofAt_token (H : EofAt T e) {j : Nat} (hj : j ≤ e) : ∃ x, T[j]? = some x := by
  obtain ⟨te, he, _⟩ := H
  have hlt : e < T.length := by
    rcases Nat.lt_or_ge e T.length with h | h
    · exact h
    · rw [List.getElem?_eq_none h] at he
      cases he
  exact ⟨T[j], List.getElem?_eq_getElem (by omega)⟩

theorem eofAt_lt (H : EofAt T e) {k : Nat} {t : Token} (hk : k ≤ e) (ht : T[k]? = some t)
    (hne : t.type ≠ .TOKEN_EOF) : k + 1 ≤ e := by
  obtain ⟨te, he, hte⟩ := H
  rcases Nat.lt_or_ge k e with h | h
  · exact h
  · have hke : k = e := by omega
    subst hke
    rw [he] at ht
    cases ht
    exact (hne hte).elim

theorem bind_error {α β : Type} {m : ParserM α} {f : α → ParserM β} {k k1 : Nat}
    {msg : String} (h : m T k = .error msg k1) : (m >>= f) T k = .error msg k1 := by
  show (match m T k with
    | .ok a current1 => f a T current1
    | .error message current1 => .error message current1
    | .fault => .fault
    | .timeout => .timeout) = _
  rw [h]

theorem within_mono {α : Type} {r : ParseResult α} {k0 k : Nat} (h : k0 ≤ k)
    (hr : Within e k r) : Within e k0 r := by
  cases r with
  | ok v p => exact ⟨Nat.le_trans h hr.1, hr.2⟩
  | error m p => exact ⟨Nat.le_trans h hr.1, hr.2⟩
  | fault => exact hr
  | timeout => exact hr

theorem advances_within {α : Type} {r : ParseResult α} {k : Nat} (hr : Advances e k r) :
    Within e k r := by
  cases r with
  | ok v p => exact ⟨Nat.le_of_lt hr.1, hr.2⟩
  | error m p => exact hr
  | fault => exact hr
  | timeout => exact hr

theorem within_succ {α : Type} {r : ParseResult α} {k : Nat} (hr : Within e (k + 1) r) :
    Advances e k r := by
  cases r with
  | ok v p => exact ⟨hr.1, hr.2⟩
  | error m p => exact ⟨Nat.le_of_lt hr.1, hr.2⟩
  | fault => exact hr
  | timeout => exact hr

theorem completes_advances {α : Type} {r : ParseResult α} {k : Nat} (hr : Completes e k 1 r) :
    Advances e k r := by
  cases r with
  | ok v p => exact hr
  | error m p => exact hr.elim
  | fault => exact hr
  | timeout => exact hr

theorem within_pure {α : Type} (a : α) {k : Nat} (hk : k ≤ e) :
    Within e k ((pure a : ParserM α) T k) :=
  ⟨Nat.le_refl k, hk⟩

theorem advances_throw {α : Type} (message : String) {k : Nat} (hk : k ≤ e) :
    Advances e k ((throwParseError message : ParserM α) T k) :=
  ⟨Nat.le_refl k, hk⟩

theorem within_bind {α β : Type} {m : ParserM α} {f : α → ParserM β} {k : Nat}
    (hm : Within e k (m T k)) (hf : ∀ v p, k ≤ p → p ≤ e → Within e p (f v T p)) :
    Within e k ((m >>= f) T k) := by
  show Within e k (match m T k with
    | .ok a current1 => f a T current1
    | .error message current1 => .error message current1
    | .fault => .fault
    | .timeout => .timeout)
  cases h : m T k with
  | ok v p =>
      rw [h] at hm
      exact within_mono hm.1 (hf v p hm.1 hm.2)
  | error msg p =>
      rw [h] at hm
      exact hm
  | fault =>
      rw [h] at hm
      exact hm.elim
  | timeout =>
      rw [h] at hm
      exact hm.elim

theorem advances_bind_left {α β : Type} {m : ParserM α} {f : α → ParserM β} {k : Nat}
    (hm : Advances e k (m T k)) (hf : ∀ v p, k < p → p ≤ e → Within e p (f v T p)) :
    Advances e k ((m >>= f) T k) := by
  show Advances e k (match m T k with
    | .ok a current1 => f a T current1
    | .error message current1 => .error message current1
    | .fault => .fault
    | .timeout => .timeout)
  cases h : m T k with
  | ok v p =>
      rw [h] at hm
      exact within_succ (within_mono hm.1 (hf v p hm.1 hm.2))
  | error msg p =>
      rw [h] at hm
      exact hm
  | fault =>
      rw [h] at hm
      exact hm.elim
  | timeout =>
      rw [h] at hm
      exact hm.elim

theorem advances_mono {α : Type} {r : ParseResult α} {k0 k : Nat} (h : k0 ≤ k)
    (hr : Advances e k r) : Advances e k0 r := by
  cases r with
  | ok v p => exact ⟨Nat.lt_of_le_of_lt h hr.1, hr.2⟩
  | error m p => exact ⟨Nat.le_trans h hr.1, hr.2⟩
  | fault => exact hr
  | timeout => exact hr

theorem advances_bind_right {α β : Type} {m : ParserM α} {f : α → ParserM β} {k : Nat}
    (hm : Within e k (m T k)) (hf : ∀ v p, k ≤ p → p ≤ e → Advances e p (f v T p)) :
    Advances e k ((m >>= f) T k) := by
  show Advances e k (match m T k with
    | .ok a current1 => f a T current1
    | .error message current1 => .error message current1
    | .fault => .fault
    | .timeout => .timeout)
  cases h : m T k with
  | ok v p =>
      rw [h] at hm
      exact advances_mono hm.1 (hf v p hm.1 hm.2)
  | error msg p =>
      rw [h] at hm
      exact hm
  | fault =>
      rw [h] at hm
      exact hm.elim
  | timeout =>
      rw [h] at hm
      exact hm.elim

/-- The method `Parser::match` at a cursor `k ≤ e` consumes one token and stays
below `e`, or consumes nothing. -/
theorem matchTypes_cases (H : EofAt T e) {k : Nat} (hk : k ≤ e) (tys : List TokenType) :
    (matchTypes tys T k = .ok true (k + 1) ∧ k + 1 ≤ e) ∨ matchTypes tys T k = .ok false k := by
  obtain ⟨t, ht⟩ := eofAt_token H hk
  rw [matchTypes_at ht]
  by_cases h : t.type ≠ .TOKEN_EOF ∧ t.type ∈ tys
  · rw [if_pos h]
    exact Or.inl ⟨rfl, eofAt_lt H hk ht h.1⟩
  · rw [if_neg h]
    exact Or.inr rfl

theorem within_matchTypes_bind (H : EofAt T e) {α : Type} {k : Nat} (hk : k ≤ e)
    (tys : List TokenType) {f : Bool → ParserM α}
    (hA : k + 1 ≤ e → Within e (k + 1) (f true T (k + 1))) (hB : Within e k (f false T k)) :
    Within e k ((matchTypes tys >>= f) T k) := by
  rcases matchTypes_cases H hk tys with ⟨h, h1⟩ | h
  · rw [bind_ok h]
    exact within_mono (Nat.le_succ k) (hA h1)
  · rw [bind_ok h]
    exact hB

theorem advances_matchTypes_bind (H : EofAt T e) {α : Type} {k : Nat} (hk : k ≤ e)
    (tys : List TokenType) {f : Bool → ParserM α}
    (hA : k + 1 ≤ e → Within e (k + 1) (f true T (k + 1))) (hB : Advances e k (f false T k)) :
    Advances e k ((matchTypes tys >>= f) T k) := by
  rcases matchTypes_cases H hk tys with ⟨h, h1⟩ | h
  · rw [bind_ok h]
    exact within_succ (hA h1)
  · rw [bind_ok h]
    exact hB

theorem within_matchTypes (H : EofAt T e) {α : Type} {k : Nat} (hk : k ≤ e)
    (tys : List TokenType) {A B : ParserM α}
    (hA : k + 1 ≤ e → Within e (k + 1) (A T (k + 1))) (hB : Within e k (B T k)) :
    Within e k ((matchTypes tys >>= fun c => if c = true then A else B) T k) :=
  within_matchTypes_bind H hk tys hA hB

theorem advances_matchTypes (H : EofAt T e) {α : Type} {k : Nat} (hk : k ≤ e)
    (tys : List TokenType) {A B : ParserM α}
    (hA : k + 1 ≤ e → Within e (k + 1) (A T (k + 1))) (hB : Advances e k (B T k)) :
    Advances e k ((matchTypes tys >>= fun c => if c = true then A else B) T k) :=
  advances_matchTypes_bind H hk tys hA hB

theorem within_check (H : EofAt T e) {α : Type} {k : Nat} (hk : k ≤ e) (ty : TokenType)
    {f : Bool → ParserM α} (hf : ∀ c, Within e k (f c T k)) :
    Within e k ((check ty >>= f) T k) := by
  obtain ⟨t, ht⟩ := eofAt_token H hk
  rw [bind_ok (check_at ht ty)]
  exact hf _

theorem within_isAtEnd (H : EofAt T e) {α : Type} {k : Nat} (hk : k ≤ e)
    {f : Bool → ParserM α} (hf : ∀ t, T[k]? = some t → Within e k (f (t.type == .TOKEN_EOF) T k)) :
    Within e k ((isAtEnd >>= f) T k) := by
  obtain ⟨t, ht⟩ := eofAt_token H hk
  rw [bind_ok (isAtEnd_at ht)]
  exact hf t ht

/-- The method `Parser::consume` at a cursor `k ≤ e` consumes one token and
stays below `e`, or throws at `k`. -/
theorem consume_cases (H : EofAt T e) {k : Nat} (hk : k ≤ e) (ty : TokenType)
    (message : String) :
    (∃ t, consume ty message T k = .ok t (k + 1) ∧ k + 1 ≤ e)
      ∨ consume ty message T k = .error message k := by
  obtain ⟨t, ht⟩ := eofAt_token H hk
  unfold Parser.consume
  rw [bind_ok (check_at ht ty)]
  by_cases hne : t.type = .TOKEN_EOF
  · right
    have hb : (t.type == TokenType.TOKEN_EOF) = true := by simpa using hne
    simp only [hb, Bool.not_true, Bool.false_and, Bool.false_eq_true, if_false]
    rfl
  · have hb : (t.type == TokenType.TOKEN_EOF) = false := by simpa using hne
    cases hty : t.type == ty
    · right
      simp only [hb, Bool.not_false, Bool.true_and, Bool.false_eq_true, if_false]
      rfl
    · left
      simp only [hb, Bool.not_false, Bool.true_and, if_true]
      exact ⟨t, advance_at ht hne, eofAt_lt H hk ht hne⟩

theorem within_consume (H : EofAt T e) {α : Type} {k : Nat} (hk : k ≤ e) (ty : TokenType)
    (message : String) {f : Token → ParserM α}
    (hf : ∀ t, k + 1 ≤ e → Within e (k + 1) (f t T (k + 1))) :
    Within e k ((consume ty message >>= f) T k) := by
  rcases consume_cases H hk ty message with ⟨t, h, h1⟩ | h
  · rw [bind_ok h]
    exact within_mono (Nat.le_succ k) (hf t h1)
  · rw [bind_error h]
    exact ⟨Nat.le_refl k, hk⟩

theorem within_previous (H : EofAt T e) {α : Type} {k : Nat} (hk1 : 1 ≤ k) (hk : k ≤ e)
    {f : Token → ParserM α} (hf : ∀ t, Within e k (f t T k)) :
    Within e k ((previous >>= f) T k) := by
  obtain ⟨j, rfl⟩ : ∃ j, k = j + 1 := ⟨k - 1, by omega⟩
  obtain ⟨t, ht⟩ := eofAt_token H (Nat.le_of_succ_le hk)
  rw [bind_ok (previous_at ht)]
  exact hf t

theorem eofAt_length (H : EofAt T e) : e < T.length := by
  obtain ⟨te, he, _⟩ := H
  rcases Nat.lt_or_ge e T.length with h | h
  · exact h
  · rw [List.getElem?_eq_none h] at he
    cases he

theorem stopsAt_succ {k : Nat} {t q : Token} (hq : T[k]? = some q) (ht : T[k + 1]? = some t) :
    stopsAt T (k + 1)
      = (t.type == .TOKEN_EOF || q.type == .SEMICOLON || startsStatement t.type) := by
  simp [stopsAt, hq, ht]

/-- The loop of `Parser::synchronize` entered at `k` with enough iterations
returns at the first cursor from `k` on at which it stops. -/
theorem synchronizeLoop_spec (H : EofAt T e) :
    ∀ b k, 1 ≤ k → k ≤ e → e - k < b →
      ∃ p, synchronizeLoop b T k = .ok () p ∧ k ≤ p ∧ p ≤ e ∧ stopsAt T p = true
        ∧ ∀ j, k ≤ j → j < p → stopsAt T j = false := by
  intro b
  induction b with
  | zero =>
    intro k _ _ h
    omega
  | succ b ih =>
    intro k hk1 hk hb
    obtain ⟨j, rfl⟩ : ∃ j, k = j + 1 := ⟨k - 1, by omega⟩
    obtain ⟨q, hq⟩ := eofAt_token H (Nat.le_of_succ_le hk)
    obtain ⟨t, ht⟩ := eofAt_token H hk
    have hstop := stopsAt_succ hq ht
    rw [Parser.synchronizeLoop, bind_ok (isAtEnd_at ht)]
    by_cases h1 : t.type = .TOKEN_EOF
    · have hb1 : (t.type == TokenType.TOKEN_EOF) = true := by simpa using h1
      rw [hb1, if_pos rfl]
      refine ⟨j + 1, rfl, Nat.le_refl _, hk, ?_, ?_⟩
      · rw [hstop, hb1]
        rfl
      · intro i h2 h3
        omega
    · have hb1 : (t.type == TokenType.TOKEN_EOF) = false := by simpa using h1
      rw [hb1, if_neg Bool.false_ne_true, bind_ok (previous_at hq)]
      by_cases h2 : q.type = .SEMICOLON
      · have hb2 : (q.type == TokenType.SEMICOLON) = true := by simpa using h2
        rw [hb2, if_pos rfl]
        refine ⟨j + 1, rfl, Nat.le_refl _, hk, ?_, ?_⟩
        · rw [hstop, hb2]
          simp
        · intro i h3 h4
          omega
      · have hb2 : (q.type == TokenType.SEMICOLON) = false := by simpa using h2
        rw [hb2, if_neg Bool.false_ne_true, bind_ok (peek_at ht)]
        cases h3 : startsStatement t.type
        · rw [if_neg Bool.false_ne_true, bind_ok (advance_at ht h1)]
          have hlt := eofAt_lt H hk ht h1
          obtain ⟨p, hp, hp1, hp2, hp3, hp4⟩ := ih (j + 1 + 1) (by omega) hlt (by omega)
          refine ⟨p, hp, by omega, hp2, hp3, ?_⟩
          intro i h4 h5
          rcases Nat.eq_or_lt_of_le h4 with h6 | h6
          · rw [← h6, hstop, hb1, hb2, h3]
            rfl
          · exact hp4 i h6 h5
        · rw [if_pos rfl]
          refine ⟨j + 1, rfl, Nat.le_refl _, hk, ?_, ?_⟩
          · rw [hstop, h3]
            simp
          · intro i h4 h5
            omega

theorem advance_at_eof {k : Nat} {t q : Token} (hq : T[k]? = some q) (ht : T[k + 1]? = some t)
    (h : t.type = .TOKEN_EOF) : Parser.advance T (k + 1) = .ok q (k + 1) := by
  unfold Parser.advance
  have hb : (t.type == TokenType.TOKEN_EOF) = true := by simpa using h
  rw [bind_ok (isAtEnd_at ht), hb]
  exact previous_at hq

/-- The method `Parser::synchronize` entered at `c`: it consumes the token at
`c` unless that is the end-of-input token, and returns at the first cursor from
there on at which its loop stops. -/
theorem synchronize_spec (H : EofAt T e) (c : Nat) (hce : c ≤ e)
    (hc : 1 ≤ c ∨ ∃ x, T[c]? = some x ∧ x.type ≠ .TOKEN_EOF) :
    ∃ p, synchronize T c = .ok () p ∧ c ≤ p ∧ p ≤ e
      ∧ ((∃ x, T[c]? = some x ∧ x.type ≠ .TOKEN_EOF) → c + 1 ≤ p)
      ∧ stopsAt T p = true ∧ ∀ j, c + 1 ≤ j → j < p → stopsAt T j = false := by
  obtain ⟨t, ht⟩ := eofAt_token H hce
  have hlen := eofAt_length H
  unfold Parser.synchronize
  by_cases h1 : t.type = .TOKEN_EOF
  · have hc1 : 1 ≤ c := by
      rcases hc with h | ⟨x, hx, hne⟩
      · exact h
      · rw [ht] at hx
        cases hx
        exact (hne h1).elim
    obtain ⟨j, rfl⟩ : ∃ j, c = j + 1 := ⟨c - 1, by omega⟩
    obtain ⟨q, hq⟩ := eofAt_token H (Nat.le_of_succ_le hce)
    rw [bind_ok (advance_at_eof hq ht h1)]
    obtain ⟨p, hp, hp1, hp2, hp3, hp4⟩ :=
      synchronizeLoop_spec (⟨t, ht, h1⟩ : EofAt T (j + 1)) (T.length - (j + 1)) (j + 1)
        (by omega) (Nat.le_refl _) (by omega)
    refine ⟨p, hp, hp1, by omega, ?_, hp3, ?_⟩
    · rintro ⟨x, hx, hne⟩
      rw [ht] at hx
      cases hx
      exact (hne h1).elim
    · intro i h2 h3
      omega
  · rw [bind_ok (advance_at ht h1)]
    have hlt := eofAt_lt H hce ht h1
    obtain ⟨p, hp, hp1, hp2, hp3, hp4⟩ :=
      synchronizeLoop_spec H (T.length - c) (c + 1) (by omega) hlt (by omega)
    exact ⟨p, hp, by omega, hp2, fun _ => hp1, hp3, hp4⟩

theorem parameters_within (H : EofAt T e) :
    ∀ b k acc, k ≤ e → e - k < b → Within e k (parameters b acc T k) := by
  intro b
  induction b with
  | zero =>
    intro k _ _ h
    omega
  | succ b ih =>
    intro k acc hk hb
    rw [Parser.parameters]
    exact within_consume H hk _ _ (fun name h1 =>
      within_matchTypes H h1 _ (fun h2 => ih _ _ h2 (by omega)) (within_pure _ h1))

theorem loop_within (H : EofAt T e) {k : Nat} (hk : k ≤ e) (tys : List TokenType)
    {operand : ParserM Expr} {loop : Expr → ParserM Expr} (x : Expr)
    (ho : k + 1 ≤ e → Advances e (k + 1) (operand T (k + 1)))
    (hl : ∀ y p, k + 1 < p → p ≤ e → Within e p (loop y T p)) :
    Within e k ((matchTypes tys >>= fun c =>
      if c = true then previous >>= fun op => operand >>= fun right =>
        loop (.Binary x op right) else pure x) T k) :=
  within_matchTypes H hk tys
    (fun h1 => within_previous H (Nat.succ_le_succ (Nat.zero_le k)) h1 (fun _ =>
      advances_within (advances_bind_left (ho h1) (fun _ p hp hpe => hl _ p hp hpe))))
    (within_pure x hk)

theorem declaration_eq (b : Nat) (k : Nat) :
    declaration (b + 1) T k
      = match declarationBody b T k with
        | .ok s current1 => .ok (some s) current1
        | .error _ current1 =>
          match synchronize T current1 with
          | .ok _ current2 => .ok none current2
          | .error message current2 => .error message current2
          | .fault => .fault
          | .timeout => .timeout
        | .fault => .fault
        | .timeout => .timeout := by
  rw [Parser.declaration]
  rfl

theorem declarationBody_advances (H : EofAt T e) {b : Nat} (ih : Bounded T e b) {k : Nat}
    (hk : k ≤ e) (hb : 20 * (e - k) + 13 ≤ b) : Advances e k (declarationBody b T k) := by
  unfold Parser.declarationBody
  refine advances_matchTypes H hk _ (fun h1 => ih.functionDeclaration _ h1 (by omega)) ?_
  refine advances_matchTypes H hk _ (fun h1 => ih.varDeclaration _ h1 (by omega)) ?_
  exact ih.statement k hk (by omega)

/-- The two ways `Parser::declaration` returns when its `try` block stays within
the tokens: with the statement read, or with a null statement after
`synchronize`. -/
theorem declaration_cases (H : EofAt T e) {b k : Nat} {t : Token}
    (ht : T[k]? = some t) (hne : t.type ≠ .TOKEN_EOF)
    (hbody : Advances e k (declarationBody b T k)) :
    (∃ s p, declarationBody b T k = .ok s p ∧ declaration (b + 1) T k = .ok (some s) p
        ∧ k + 1 ≤ p ∧ p ≤ e)
      ∨ (∃ msg c p, declarationBody b T k = .error msg c ∧ k ≤ c ∧ c ≤ e
        ∧ synchronize T c = .ok () p ∧ declaration (b + 1) T k = .ok none p
        ∧ k + 1 ≤ p ∧ c ≤ p ∧ p ≤ e
        ∧ ((∃ x, T[c]? = some x ∧ x.type ≠ .TOKEN_EOF) → c + 1 ≤ p)
        ∧ stopsAt T p = true ∧ ∀ j, c + 1 ≤ j → j < p → stopsAt T j = false) := by
  rw [declaration_eq]
  cases h : declarationBody b T k with
  | ok s p =>
      rw [h] at hbody
      exact Or.inl ⟨s, p, rfl, rfl, hbody.1, hbody.2⟩
  | error msg c =>
      rw [h] at hbody
      have hkc : k ≤ c := hbody.1
      have hc : 1 ≤ c ∨ ∃ x, T[c]? = some x ∧ x.type ≠ .TOKEN_EOF := by
        rcases Nat.eq_or_lt_of_le hkc with h1 | h1
        · exact Or.inr ⟨t, h1 ▸ ht, hne⟩
        · exact Or.inl (by omega)
      obtain ⟨p, hp, hp1, hp2, hp3, hp4, hp5⟩ := synchronize_spec H c hbody.2 hc
      have hkp : k + 1 ≤ p := by
        rcases Nat.eq_or_lt_of_le hkc with h1 | h1
        · have := hp3 ⟨t, h1 ▸ ht, hne⟩
          omega
        · omega
      refine Or.inr ⟨msg, c, p, rfl, hkc, hbody.2, hp, ?_, hkp, hp1, hp2, hp3, hp4, hp5⟩
      show (match synchronize T c with
        | .ok _ current2 => (.ok none current2 : ParseResult (Option Stmt))
        | .error message current2 => .error message current2
        | .fault => .fault
        | .timeout => .timeout) = _
      rw [hp]
  | fault =>
      rw [h] at hbody
      exact hbody.elim
  | timeout =>
      rw [h] at hbody
      exact hbody.elim

theorem bounded_zero : Bounded T e 0 := by
  constructor <;> intros <;> omega

theorem bounded_succ (H : EofAt T e) (b : Nat) (ih : Bounded T e b) : Bounded T e (b + 1) where
  primary := fun k hk hb => by
    rw [Parser.primary]
    refine advances_matchTypes H hk _ (fun h1 => within_pure _ h1) ?_
    refine advances_matchTypes H hk _ (fun h1 => within_pure _ h1) ?_
    refine advances_matchTypes H hk _ (fun h1 => within_pure _ h1) ?_
    refine advances_matchTypes H hk _
      (fun h1 => within_previous H (by omega) h1 (fun t => within_pure _ h1)) ?_
    refine advances_matchTypes H hk _
      (fun h1 => within_previous H (by omega) h1 (fun t => within_pure _ h1)) ?_
    refine advances_matchTypes H hk _
      (fun h1 => within_bind (advances_within (ih.expression _ h1 (by omega)))
        (fun v p hp hpe => within_consume H hpe _ _ (fun t hp1 => within_pure _ hp1))) ?_
    exact advances_throw _ hk
  callLoop := fun k x hk hb => by
    rw [Parser.callLoop]
    exact within_matchTypes H hk _
      (fun h1 => within_bind (ih.finishCall _ _ h1 (by omega))
        (fun v p hp hpe => ih.callLoop p v hpe (by omega)))
      (within_pure _ hk)
  call := fun k hk hb => by
    rw [Parser.call]
    exact advances_bind_left (ih.primary k hk (by omega))
      (fun v p hp hpe => ih.callLoop p v hpe (by omega))
  unary := fun k hk hb => by
    rw [Parser.unary]
    exact advances_matchTypes H hk _
      (fun h1 => within_previous H (by omega) h1 (fun op =>
        within_bind (advances_within (ih.unary _ h1 (by omega)))
          (fun v p hp hpe => within_pure _ hpe)))
      (ih.call k hk (by omega))
  factorLoop := fun k x hk hb => by
    rw [Parser.factorLoop]
    exact loop_within H hk _ x (fun h1 => ih.unary _ h1 (by omega))
      (fun y p hp hpe => ih.factorLoop p y hpe (by omega))
  factor := fun k hk hb => by
    rw [Parser.factor]
    exact advances_bind_left (ih.unary k hk (by omega))
      (fun v p hp hpe => ih.factorLoop p v hpe (by omega))
  termLoop := fun k x hk hb => by
    rw [Parser.termLoop]
    exact loop_within H hk _ x (fun h1 => ih.factor _ h1 (by omega))
      (fun y p hp hpe => ih.termLoop p y hpe (by omega))
  term := fun k hk hb => by
    rw [Parser.term]
    exact advances_bind_left (ih.factor k hk (by omega))
      (fun v p hp hpe => ih.termLoop p v hpe (by omega))
  comparisonLoop := fun k x hk hb => by
    rw [Parser.comparisonLoop]
    exact loop_within H hk _ x (fun h1 => ih.term _ h1 (by omega))
      (fun y p hp hpe => ih.comparisonLoop p y hpe (by omega))
  comparison := fun k hk hb => by
    rw [Parser.comparison]
    exact advances_bind_left (ih.term k hk (by omega))
      (fun v p hp hpe => ih.comparisonLoop p v hpe (by omega))
  equalityLoop := fun k x hk hb => by
    rw [Parser.equalityLoop]
    exact loop_within H hk _ x (fun h1 => ih.comparison _ h1 (by omega))
      (fun y p hp hpe => ih.equalityLoop p y hpe (by omega))
  equality := fun k hk hb => by
    rw [Parser.equality]
    exact advances_bind_left (ih.comparison k hk (by omega))
      (fun v p hp hpe => ih.equalityLoop p v hpe (by omega))
  andLoop := fun k x hk hb => by
    rw [Parser.andLoop]
    exact loop_within H hk _ x (fun h1 => ih.equality _ h1 (by omega))
      (fun y p hp hpe => ih.andLoop p y hpe (by omega))
  andExpr := fun k hk hb => by
    rw [Parser.andExpr]
    exact advances_bind_left (ih.equality k hk (by omega))
      (fun v p hp hpe => ih.andLoop p v hpe (by omega))
  orLoop := fun k x hk hb => by
    rw [Parser.orLoop]
    exact loop_within H hk _ x (fun h1 => ih.andExpr _ h1 (by omega))
      (fun y p hp hpe => ih.orLoop p y hpe (by omega))
  orExpr := fun k hk hb => by
    rw [Parser.orExpr]
    exact advances_bind_left (ih.andExpr k hk (by omega))
      (fun v p hp hpe => ih.orLoop p v hpe (by omega))
  assignment := fun k hk hb => by
    rw [Parser.assignment]
    refine advances_bind_left (ih.orExpr k hk (by omega)) (fun v p hp hpe => ?_)
    refine within_matchTypes H hpe _ (fun h1 => ?_) (within_pure _ hpe)
    refine within_previous H (by omega) h1 (fun _ => ?_)
    refine within_bind (advances_within (ih.assignment _ h1 (by omega))) (fun value q hq hqe => ?_)
    cases v <;> first
      | exact within_pure _ hqe
      | exact advances_within (advances_throw _ hqe)
  expression := fun k hk hb => by
    rw [Parser.expression]
    exact ih.assignment k hk (by omega)
  argumentsLoop := fun k acc hk hb => by
    rw [Parser.argumentsLoop]
    exact within_bind (advances_within (ih.expression k hk (by omega)))
      (fun v p hp hpe => within_matchTypes H hpe _
        (fun h1 => ih.argumentsLoop _ _ h1 (by omega)) (within_pure _ hpe))
  finishCall := fun k callee hk hb => by
    rw [Parser.finishCall]
    refine within_bind (within_check H hk _ (fun c => ?_))
      (fun v p hp hpe => within_consume H hpe _ _ (fun t h1 => within_pure _ h1))
    cases c
    · exact ih.argumentsLoop k [] hk (by omega)
    · exact within_pure _ hk
  expressionStatement := fun k hk hb => by
    rw [Parser.expressionStatement]
    exact advances_bind_left (ih.expression k hk (by omega))
      (fun v p hp hpe => within_pure _ hpe)
  returnStatement := fun k hk1 hk hb => by
    rw [Parser.returnStatement]
    refine within_previous H hk1 hk (fun keyword => ?_)
    refine within_bind ?_ (fun v p hp hpe =>
      within_matchTypes_bind H hpe _ (fun h1 => within_pure _ h1) (within_pure _ hpe))
    refine within_check H hk _ (fun c1 => within_check H hk _ (fun c2 =>
      within_check H hk _ (fun c3 => within_check H hk _ (fun c4 => ?_))))
    split
    · refine within_check H hk _ (fun c5 => ?_)
      cases c5
      · exact within_bind (advances_within (ih.expression k hk (by omega)))
          (fun v p hp hpe => within_pure _ hpe)
      · exact within_pure _ hk
    · exact within_pure _ hk
  varDeclaration := fun k hk hb => by
    rw [Parser.varDeclaration]
    exact within_consume H hk _ _ (fun name h1 =>
      within_matchTypes H h1 _
        (fun h2 => within_bind (advances_within (ih.expression _ h2 (by omega)))
          (fun v p hp hpe => within_pure _ hpe))
        (within_pure _ h1))
  whileStatement := fun k hk hb => by
    rw [Parser.whileStatement]
    exact within_bind (advances_within (ih.expression k hk (by omega)))
      (fun cond p hp hpe => within_consume H hpe _ _ (fun _ h1 =>
        within_bind (ih.block _ [] h1 (by omega))
          (fun body q hq hqe => within_consume H hqe _ _ (fun _ h2 => within_pure _ h2))))
  ifStatement := fun k hk hb => by
    rw [Parser.ifStatement]
    refine within_bind (advances_within (ih.expression k hk (by omega)))
      (fun cond p hp hpe => within_consume H hpe _ _ (fun _ h1 =>
        within_bind (ih.block _ [] h1 (by omega)) (fun thenStmts q hq hqe => ?_)))
    exact within_matchTypes H hqe _
      (fun h2 => within_bind (ih.block _ [] h2 (by omega))
        (fun elseStmts r hr hre => within_consume H hre _ _ (fun _ h3 => within_pure _ h3)))
      (within_consume H hqe _ _ (fun _ h3 => within_pure _ h3))
  functionDeclaration := fun k hk hb => by
    rw [Parser.functionDeclaration]
    refine within_consume H hk _ _ (fun name h1 => within_consume H h1 _ _ (fun _ h2 => ?_))
    refine within_bind (within_check H h2 _ (fun c => ?_)) (fun params p hp hpe =>
      within_consume H hpe _ _ (fun _ h3 => within_bind (ih.block _ [] h3 (by omega))
        (fun body q hq hqe => within_consume H hqe _ _ (fun _ h4 => within_pure _ h4))))
    cases c
    · exact parameters_within H b _ [] h2 (by omega)
    · exact within_pure _ h2
  statement := fun k hk hb => by
    rw [Parser.statement]
    refine advances_matchTypes H hk _ (fun h1 => ih.ifStatement _ h1 (by omega)) ?_
    refine advances_matchTypes H hk _ (fun h1 => ih.whileStatement _ h1 (by omega)) ?_
    refine advances_matchTypes H hk _
      (fun h1 => within_bind (ih.block _ [] h1 (by omega))
        (fun stmts q hq hqe => within_consume H hqe _ _ (fun _ h2 => within_pure _ h2))) ?_
    refine advances_matchTypes H hk _
      (fun h1 => ih.returnStatement _ (by omega) h1 (by omega)) ?_
    exact ih.expressionStatement k hk (by omega)
  declaration := fun k hk hne hb => by
    obtain ⟨t, ht, hne⟩ := hne
    rcases declaration_cases H ht hne (declarationBody_advances H ih hk (by omega)) with
      ⟨s, p, _, h2, h3, h4⟩ | ⟨msg, c, p, _, _, _, _, h2, h3, _, h4, _⟩
    · rw [h2]
      exact ⟨h3, h4⟩
    · rw [h2]
      exact ⟨h3, h4⟩
  block := fun k acc hk hb => by
    rw [Parser.block]
    refine within_check H hk _ (fun c1 => within_check H hk _ (fun c2 =>
      within_check H hk _ (fun c3 => within_check H hk _ (fun c4 =>
        within_isAtEnd H hk (fun t ht => ?_)))))
    split
    · rename_i hcond
      have hne : t.type ≠ .TOKEN_EOF := by
        intro h
        simp [h] at hcond
      exact advances_within (advances_bind_left
        (completes_advances (ih.declaration k hk ⟨t, ht, hne⟩ (by omega)))
        (fun s p hp hpe => ih.block p _ hpe (by omega)))
    · exact within_pure _ hk

/-- Every method of the parser stays within the tokens up to an end-of-input
token, whatever the budget above its rank. -/
theorem bounded_all (H : EofAt T e) : ∀ b, Bounded T e b
  | 0 => bounded_zero
  | b + 1 => bounded_succ H b (bounded_all H b)

theorem parseLoop_completes (H : EofAt T e) :
    ∀ b k acc, k ≤ e → 20 * (e - k) + 16 ≤ b → Completes e k 0 (parseLoop b acc T k) := by
  intro b
  induction b with
  | zero =>
    intro k _ _ h
    omega
  | succ b ih =>
    intro k acc hk hb
    obtain ⟨t, ht⟩ := eofAt_token H hk
    rw [Parser.parseLoop, bind_ok (isAtEnd_at ht)]
    by_cases h1 : t.type = .TOKEN_EOF
    · have hb1 : (t.type == TokenType.TOKEN_EOF) = true := by simpa using h1
      rw [hb1]
      exact ⟨Nat.le_refl _, hk⟩
    · have hb1 : (t.type == TokenType.TOKEN_EOF) = false := by simpa using h1
      rw [hb1]
      have hd := (bounded_all H b).declaration k hk ⟨t, ht, h1⟩ (by omega)
      cases h : declaration b T k with
      | ok s p =>
          rw [h] at hd
          show Completes e k 0 ((declaration b >>= fun s => parseLoop b (acc ++ [s])) T k)
          rw [bind_ok h]
          have hd1 : k + 1 ≤ p := hd.1
          have hd2 : p ≤ e := hd.2
          have hr := ih p (acc ++ [s]) hd2 (by omega)
          cases h2 : parseLoop b (acc ++ [s]) T p with
          | ok ss q =>
              rw [h2] at hr
              exact ⟨Nat.le_trans (by omega) hr.1, hr.2⟩
          | error msg q =>
              rw [h2] at hr
              exact hr.elim
          | fault =>
              rw [h2] at hr
              exact hr.elim
          | timeout =>
              rw [h2] at hr
              exact hr.elim
      | error msg c =>
          rw [h] at hd
          exact hd.elim
      | fault =>
          rw [h] at hd
          exact hd.elim
      | timeout =>
          rw [h] at hd
          exact hd.elim

theorem parseLoop_step {b k p : Nat} {t : Token} {s : Option Stmt} (ht : T[k]? = some t)
    (hne : t.type ≠ .TOKEN_EOF) (hd : declaration b T k = .ok s p) (stmts : List (Option Stmt)) :
    parseLoop (b + 1) stmts T k = parseLoop b (stmts ++ [s]) T p := by
  have hb1 : (t.type == TokenType.TOKEN_EOF) = false := by simpa using hne
  rw [Parser.parseLoop, bind_ok (isAtEnd_at ht), hb1]
  show (declaration b >>= fun s => parseLoop b (stmts ++ [s])) T k = _
  rw [bind_ok hd]

/-- C35: let an end-of-input token stand at the index `e` of the token vector
(its last index when the vector ends with that token). Then `Parser::parse`,
given a recursion budget above `20 * e + 16`, returns a statement list with the
cursor at most `e`: it neither runs out of budget, nor reads outside the vector,
nor lets a `ParseError` escape. Every call of `declaration()` at a cursor
`k ≤ e` whose token is not end-of-input returns with the cursor in `(k, e]`,
either with the statement its `try` block read, or, when that block threw at a
cursor `c` in `[k, e]`, with a null statement at the cursor where `synchronize`
returned. -/
theorem parse_terminates (T : List Token) (e : Nat) (t : Token) (he : T[e]? = some t)
    (hty : t.type = .TOKEN_EOF) :
    (∀ b, 20 * e + 16 ≤ b → ∃ stmts p, Parser.parse b T = .ok stmts p ∧ p ≤ e)
      ∧ (∀ b k x, k ≤ e → T[k]? = some x → x.type ≠ .TOKEN_EOF → 20 * (e - k) + 13 ≤ b →
          ∃ s p, Parser.declaration (b + 1) T k = .ok s p ∧ k < p ∧ p ≤ e
            ∧ ((∃ s1, Parser.declarationBody b T k = .ok s1 p ∧ s = some s1)
              ∨ (∃ msg c, Parser.declarationBody b T k = .error msg c ∧ k ≤ c ∧ c ≤ e
                  ∧ Parser.synchronize T c = .ok () p ∧ s = none))) := by
  have H : EofAt T e := ⟨t, he, hty⟩
  constructor
  · intro b hb
    have h := parseLoop_completes H b 0 [] (Nat.zero_le e) (by omega)
    unfold Parser.parse
    cases h1 : parseLoop b [] T 0 with
    | ok stmts p =>
        rw [h1] at h
        exact ⟨stmts, p, rfl, h.2⟩
    | error msg q =>
        rw [h1] at h
        exact h.elim
    | fault =>
        rw [h1] at h
        exact h.elim
    | timeout =>
        rw [h1] at h
        exact h.elim
  · intro b k x hk hx hne hb
    rcases declaration_cases H hx hne (declarationBody_advances H (bounded_all H b) hk hb) with
      ⟨s, p, h1, h2, h3, h4⟩ | ⟨msg, c, p, h1, hkc, hce, hs, h2, h3, _, h4, _⟩
    · exact ⟨some s, p, h2, h3, h4, Or.inl ⟨s, h1, rfl⟩⟩
    · exact ⟨none, p, h2, h3, h4, Or.inr ⟨msg, c, h1, hkc, hce, hs, rfl⟩⟩

/-- The theorem above on the tokens of `1 = 2`. -/
theorem parse_terminates_witness :
    literalTargetTokens[3]? = some { type := .TOKEN_EOF, lexeme := "", line := 1, column := 6 }
      ∧ (∀ b, 20 * 3 + 16 ≤ b →
          ∃ stmts p, Parser.parse b literalTargetTokens = .ok stmts p ∧ p ≤ 3) :=
  ⟨rfl, (parse_terminates literalTargetTokens 3 _ rfl rfl).1⟩

/-- The source `1 = 2`: its declaration throws at the end-of-input token, and
`synchronize` returns there, where the previous token is no `;` and the current
token is none of `function`, `local`, `for`, `if`, `while`, `return`, `repeat`. -/
theorem synchronize_stops_at_end_of_input :
    scanTokens "1 = 2" = some literalTargetTokens
      ∧ (∀ n, Parser.declarationBody (n + 14) literalTargetTokens 0
          = .error "Invalid assignment target." 3)
      ∧ Parser.synchronize literalTargetTokens 3 = .ok () 3
      ∧ (∀ n, Parser.declaration (n + 15) literalTargetTokens 0 = .ok none 3)
      ∧ (∀ n, Parser.parse (n + 16) literalTargetTokens = .ok [none] 3)
      ∧ ¬ (∃ prev, literalTargetTokens[3 - 1]? = some prev ∧ prev.type = .SEMICOLON)
      ∧ ¬ (∃ cur, literalTargetTokens[3]? = some cur ∧ Parser.startsStatement cur.type = true) :=
  ⟨by decide, fun _ => rfl, rfl, fun _ => rfl, fun _ => rfl, by decide, by decide⟩

/-- C33: let an end-of-input token stand at the index `e`, and let the `try`
block of a declaration entered at a token `k ≤ e` that is not end-of-input throw
a `ParseError` at the cursor `c`. Then `synchronize` returns at a cursor `p` and
the declaration returns a null statement there, which the loop of `parse`
appends to its list; `k ≤ c ≤ p ≤ e` and `k < p`; the token at `c` is consumed
unless it is the end-of-input token; and `p` is the first cursor from there on at
which the previous token is a `;` or the current token is one of `function`,
`local`, `for`, `if`, `while`, `return`, `repeat` or the end-of-input token. The
source `x = 1; y = x` parses to three entries of which the middle one is
null. -/
theorem parse_error_gives_null_entry (T : List Token) (e k c b : Nat) (t x : Token)
    (message : String) (he : T[e]? = some t) (hty : t.type = .TOKEN_EOF) (hk : k ≤ e)
    (hx : T[k]? = some x) (hne : x.type ≠ .TOKEN_EOF) (hb : 20 * (e - k) + 13 ≤ b)
    (herr : Parser.declarationBody b T k = .error message c) :
    (∃ p, Parser.synchronize T c = .ok () p
        ∧ Parser.declaration (b + 1) T k = .ok none p
        ∧ (∀ stmts, Parser.parseLoop (b + 2) stmts T k
            = Parser.parseLoop (b + 1) (stmts ++ [none]) T p)
        ∧ k ≤ c ∧ c ≤ p ∧ k < p ∧ p ≤ e
        ∧ ((∃ y, T[c]? = some y ∧ y.type ≠ .TOKEN_EOF) → c + 1 ≤ p)
        ∧ Parser.stopsAt T p = true
        ∧ ∀ j, c + 1 ≤ j → j < p → Parser.stopsAt T j = false)
      ∧ scanTokens semicolonSource = some semicolonTokens
      ∧ ∀ n, Parser.parse (n + 18) semicolonTokens = .ok semicolonProgram 7 := by
  have H : EofAt T e := ⟨t, he, hty⟩
  refine ⟨?_, by decide, fun _ => rfl⟩
  rcases declaration_cases H hx hne (declarationBody_advances H (bounded_all H b) hk hb) with
    ⟨s, p, h1, _⟩ | ⟨msg, c1, p, h1, hkc, hce, hs, h2, h3, h4, h5, h6, h7, h8⟩
  · rw [herr] at h1
    cases h1
  · rw [herr] at h1
    cases h1
    exact ⟨p, hs, h2, fun stmts => parseLoop_step hx hne h2 stmts, hkc, h4, h3, h5, h6, h7, h8⟩

/-- The theorem above on the second declaration of `x = 1; y = x`, which is
entered at the `;`. -/
theorem parse_error_gives_null_entry_witness :
    Parser.declarationBody 93 semicolonTokens 3 = .error "Expect expression." 3
      ∧ ∃ p, Parser.synchronize semicolonTokens 3 = .ok () p
        ∧ Parser.declaration (93 + 1) semicolonTokens 3 = .ok none p
        ∧ Parser.stopsAt semicolonTokens p = true :=
  ⟨rfl,
    (parse_error_gives_null_entry semicolonTokens 7 3 3 93 _ _ "Expect expression." rfl rfl
      (by decide) rfl (by decide) (by decide) rfl).1.imp
      (fun _ h => ⟨h.1, h.2.1, h.2.2.2.2.2.2.2.2.1⟩)⟩

end Termination

/-! ## The stack is empty between statements -/

section Between
variable {D : Type} [DoubleModel D]

theorem exprCode_binary_length (left right : Expr) (op : Token) :
    (exprCode (.Binary left op right) 0).length
      = (exprCode left 0).length + (exprCode right 0).length
        + (selectedCode (binaryOpcode op.type)).length := by
  simp only [exprCode, List.length_append]
  rw [exprCode_length right (0 + exprCount left) 0]

theorem argsCode_cons_length (arg : Expr) (rest : List Expr) :
    (argsCode (arg :: rest) 0).length
      = (exprCode arg 0).length + 1 + (argsCode rest 0).length := by
  simp only [argsCode, List.length_append, List.length_singleton]
  rw [argsCode_length rest (0 + exprCount arg) 0]

mutual
theorem exprHeights_spec : (e : Expr) → plainExpr e = true → (pos h : Nat) →
    (pos, h) ∈ exprHeights e pos h
      ∧ ∀ ip k, (ip, k) ∈ exprHeights e pos h →
          pos ≤ ip ∧ ip < pos + (exprCode e 0).length ∧ (ip = pos → k = h)
  | .Binary left op right, hp, pos, h => by
      simp only [plainExpr, Bool.and_eq_true] at hp
      obtain ⟨oc, hoc⟩ := Option.isSome_iff_exists.mp hp.2
      have hl := exprHeights_spec left hp.1.1 pos h
      have hr := exprHeights_spec right hp.1.2 (pos + (exprCode left 0).length) (h + 1)
      have h1 := hl.2 pos h hl.1
      rw [exprCode_binary_length]
      simp only [exprHeights, hoc, selectedHeights, selectedCode, List.mem_append,
        List.mem_singleton, Prod.mk.injEq, List.length_singleton]
      refine ⟨Or.inl (Or.inl hl.1), ?_⟩
      intro ip k hm
      rcases hm with (hm | hm) | hm
      · have := hl.2 ip k hm
        omega
      · have := hr.2 ip k hm
        omega
      · omega
  | .Grouping expression, hp, pos, h => by
      simp only [plainExpr] at hp
      simp only [exprHeights, exprCode]
      exact exprHeights_spec expression hp pos h
  | .Literal value, _, pos, h => by
      have hlen : 1 ≤ (exprCode (.Literal value) 0).length := by
        simp only [exprCode, literalCode]
        split_ifs <;> simp
      simp only [exprHeights, List.mem_singleton, Prod.mk.injEq, true_and]
      intro ip k hm
      omega
  | .Unary op right, hp, pos, h => by
      simp only [plainExpr] at hp
      have hr := exprHeights_spec right hp pos h
      have h1 := hr.2 pos h hr.1
      simp only [exprHeights, exprCode, List.mem_append, List.length_append]
      refine ⟨Or.inl hr.1, ?_⟩
      intro ip k hm
      rcases hm with hm | hm
      · have := hr.2 ip k hm
        omega
      · cases ho : unaryOpcode op.type with
        | none => simp [ho, selectedHeights] at hm
        | some oc =>
            simp only [ho, selectedHeights, List.mem_singleton, Prod.mk.injEq] at hm
            simp only [selectedCode, List.length_singleton]
            omega
  | .Variable _, _, pos, h => by
      simp only [exprHeights, exprCode, List.mem_singleton, Prod.mk.injEq, true_and,
        List.length_cons, List.length_nil]
      intro ip k hm
      omega
  | .Assignment _ value, hp, pos, h => by
      simp only [plainExpr] at hp
      have hv := exprHeights_spec value hp pos h
      have h1 := hv.2 pos h hv.1
      simp only [exprHeights, exprCode, List.mem_append, List.mem_singleton, Prod.mk.injEq,
        List.length_append, List.length_cons, List.length_nil]
      refine ⟨Or.inl hv.1, ?_⟩
      intro ip k hm
      rcases hm with hm | hm
      · have := hv.2 ip k hm
        omega
      · omega
  | .Call callee _ arguments, hp, pos, h => by
      simp only [plainExpr, Bool.and_eq_true] at hp
      have ha := argsHeights_spec arguments hp.2 pos h
      simp only [exprHeights, exprCode, hp.1, if_true, List.length_append, List.length_singleton]
      refine ⟨ha.1, ?_⟩
      intro ip k hm
      simp only [List.mem_append, List.mem_singleton, Prod.mk.injEq] at hm
      rcases hm with hm | hm
      · have := ha.2 ip k hm
        omega
      · omega
theorem argsHeights_spec : (args : List Expr) → plainArgs args = true → (pos h : Nat) →
    (pos, h) ∈ argsHeights args pos h ++ [(pos + (argsCode args 0).length, h)]
      ∧ ∀ ip k, (ip, k) ∈ argsHeights args pos h →
          pos ≤ ip ∧ ip < pos + (argsCode args 0).length ∧ (ip = pos → k = h)
  | [], _, pos, h => by
      simp [argsHeights, argsCode]
  | arg :: rest, hp, pos, h => by
      simp only [plainArgs, Bool.and_eq_true] at hp
      have ha := exprHeights_spec arg hp.1 pos h
      have hr := argsHeights_spec rest hp.2 (pos + (exprCode arg 0).length + 1) h
      have h1 := ha.2 pos h ha.1
      rw [argsCode_cons_length]
      simp only [argsHeights, List.mem_append, List.mem_singleton, Prod.mk.injEq]
      refine ⟨Or.inl (Or.inl (Or.inl ha.1)), ?_⟩
      intro ip k hm
      rcases hm with (hm | hm) | hm
      · have := ha.2 ip k hm
        omega
      · omega
      · have := hr.2 ip k hm
        omega
end

theorem flow_nil (c : Chunk D) (B : List (Nat × Nat)) : Flow c [] B := by
  intro vm vm1 hin
  simp at hin

theorem flow_append {c : Chunk D} {A1 A2 B : List (Nat × Nat)} (h1 : Flow c A1 B)
    (h2 : Flow c A2 B) : Flow c (A1 ++ A2) B := by
  intro vm vm1 hin hstep herr
  rcases List.mem_append.mp hin with h | h
  · exact h1 vm vm1 h hstep herr
  · exact h2 vm vm1 h hstep herr

theorem flow_sub {c : Chunk D} {A B1 B : List (Nat × Nat)} {x : Nat × Nat}
    (f : Flow c A (B1 ++ [x])) (h1 : ∀ y, y ∈ B1 → y ∈ B) (hx : x ∈ B) : Flow c A B := by
  intro vm vm1 hin hstep herr
  rcases List.mem_append.mp (f vm vm1 hin hstep herr) with h | h
  · exact h1 _ h
  · rw [List.mem_singleton.mp h]
    exact hx

theorem flow_to {c : Chunk D} {A B : List (Nat × Nat)} {x : Nat × Nat}
    (f : Flow c A [x]) (hx : x ∈ B) : Flow c A B := by
  intro vm vm1 hin hstep herr
  rw [List.mem_singleton.mp (f vm vm1 hin hstep herr)]
  exact hx

theorem flow_to2 {c : Chunk D} {A B : List (Nat × Nat)} {x y : Nat × Nat}
    (f : Flow c A [x, y]) (hx : x ∈ B) (hy : y ∈ B) : Flow c A B := by
  intro vm vm1 hin hstep herr
  have h := f vm vm1 hin hstep herr
  simp only [List.mem_cons, List.mem_singleton, List.not_mem_nil, or_false] at h
  rcases h with h | h
  · rw [h]
    exact hx
  · rw [h]
    exact hy

/-- An instruction that falls through: from the height `h` it goes to the next
instruction with the height its stack effect gives. -/
theorem flow_simple (c : Chunk D) (op : OpCode) (pos h q k : Nat) (hs : op.isSimple = true)
    (h0 : c.code[pos]? = some op.toByte) (hq : q = pos + 1 + op.operandWidth)
    (hk : k + op.pops = h + op.pushes) : Flow c [(pos, h)] [(q, k)] := by
  intro vm vm1 hin hstep herr
  simp only [List.mem_singleton, Prod.mk.injEq] at hin ⊢
  obtain ⟨hip, hlen⟩ := hin
  have hh := step_simple c vm op (by rw [hip]; exact h0) hs
  simp only [hstep] at hh
  rcases hh with ⟨x, hx⟩ | hm
  · rw [herr] at hx
    simp at hx
  · obtain ⟨m1, _, m3, m4⟩ := hm
    omega

theorem flow_jump (c : Chunk D) (pos h d : Nat) (hd : d ≤ 65535)
    (h0 : c.code[pos]? = some OpCode.OP_JUMP.toByte)
    (h1 : c.code[pos + 1]? = some (hiByte d)) (h2 : c.code[pos + 2]? = some (loByte d)) :
    Flow c [(pos, h)] [(pos + 3 + d, h)] := by
  intro vm vm1 hin hstep _
  simp only [List.mem_singleton, Prod.mk.injEq] at hin ⊢
  obtain ⟨hip, hlen⟩ := hin
  rw [step_jump (by rw [hip]; exact h0) (by rw [hip]; exact h1) (by rw [hip]; exact h2),
    decode_short d hd] at hstep
  cases hstep
  exact ⟨by simp [hip], hlen⟩

theorem flow_loop (c : Chunk D) (pos h d : Nat) (hd : d ≤ 65535) (hle : d ≤ pos + 3)
    (h0 : c.code[pos]? = some OpCode.OP_LOOP.toByte)
    (h1 : c.code[pos + 1]? = some (hiByte d)) (h2 : c.code[pos + 2]? = some (loByte d)) :
    Flow c [(pos, h)] [(pos + 3 - d, h)] := by
  intro vm vm1 hin hstep _
  simp only [List.mem_singleton, Prod.mk.injEq] at hin ⊢
  obtain ⟨hip, hlen⟩ := hin
  rw [step_loop (by rw [hip]; exact h0) (by rw [hip]; exact h1) (by rw [hip]; exact h2)
    (by rw [decode_short d hd, hip]; exact hle), decode_short d hd] at hstep
  cases hstep
  exact ⟨by simp [hip], hlen⟩

theorem flow_jump_if_false (c : Chunk D) (pos h d : Nat) (hd : d ≤ 65535)
    (h0 : c.code[pos]? = some OpCode.OP_JUMP_IF_FALSE.toByte)
    (h1 : c.code[pos + 1]? = some (hiByte d)) (h2 : c.code[pos + 2]? = some (loByte d)) :
    Flow c [(pos, h)] [(pos + 3, h), (pos + 3 + d, h)] := by
  intro vm vm1 hin hstep _
  simp only [List.mem_singleton, Prod.mk.injEq] at hin
  obtain ⟨hip, hlen⟩ := hin
  cases hst : vm.stack with
  | nil =>
      rw [step_jump_if_false_empty (by rw [hip]; exact h0) (by rw [hip]; exact h1)
        (by rw [hip]; exact h2) hst] at hstep
      cases hstep
  | cons v rest =>
      rw [step_jump_if_false (by rw [hip]; exact h0) (by rw [hip]; exact h1)
        (by rw [hip]; exact h2) hst, decode_short d hd] at hstep
      cases hstep
      cases isFalsey v <;> simp [hip, hlen]

theorem binaryOpcode_effect {t : TokenType} {oc : OpCode} (h : binaryOpcode t = some oc) :
    oc.isSimple = true ∧ oc.pops = 2 ∧ oc.pushes = 1 ∧ oc.operandWidth = 0 := by
  cases t <;> simp [binaryOpcode] at h <;> subst h <;> exact ⟨rfl, rfl, rfl, rfl⟩

theorem unaryOpcode_effect {t : TokenType} {oc : OpCode} (h : unaryOpcode t = some oc) :
    oc.isSimple = true ∧ oc.pops = 1 ∧ oc.pushes = 1 ∧ oc.operandWidth = 0 := by
  cases t <;> simp [unaryOpcode] at h <;> subst h <;> exact ⟨rfl, rfl, rfl, rfl⟩

mutual
/-- The code of an expression: every instruction in it goes to another of its
instructions or to the offset past it, where the stack is one value higher. -/
theorem expr_flow (c : Chunk D) : (e : Expr) → plainExpr e = true → (base pos h : Nat) →
    SliceAt c.code pos (exprCode e base) →
    Flow c (exprHeights e pos h) (exprHeights e pos h ++ [(pos + (exprCode e 0).length, h + 1)])
  | .Binary left op right, hp, base, pos, h, hs => by
      simp only [plainExpr, Bool.and_eq_true] at hp
      obtain ⟨oc, hoc⟩ := Option.isSome_iff_exists.mp hp.2
      obtain ⟨e1, e2, e3, e4⟩ := binaryOpcode_effect hoc
      simp only [exprCode, hoc, selectedCode] at hs
      have sL := sliceAt_left (sliceAt_left hs)
      have sR := sliceAt_right (sliceAt_left hs)
      have sO := sliceAt_right hs
      rw [List.length_append, exprCode_length left base 0,
        exprCode_length right (base + exprCount left) 0, ← Nat.add_assoc] at sO
      rw [exprCode_length left base 0] at sR
      have fL := expr_flow c left hp.1.1 base pos h sL
      have fR := expr_flow c right hp.1.2 _ _ (h + 1) sR
      have hr := exprHeights_spec right hp.1.2 (pos + (exprCode left 0).length) (h + 1)
      have fO := flow_simple c oc _ (h + 2) (pos + (exprCode (.Binary left op right) 0).length)
        (h + 1) e1 (sliceAt_head sO)
        (by rw [exprCode_binary_length, hoc, e4]
            simp only [selectedCode, List.length_singleton]
            omega)
        (by omega)
      simp only [exprHeights, hoc, selectedHeights]
      refine flow_append (flow_append (flow_sub fL ?_ ?_) (flow_sub fR ?_ ?_)) (flow_to fO ?_)
      · intro y hy
        simp only [List.mem_append]
        exact Or.inl (Or.inl (Or.inl hy))
      · simp only [List.mem_append]
        exact Or.inl (Or.inl (Or.inr hr.1))
      · intro y hy
        simp only [List.mem_append]
        exact Or.inl (Or.inl (Or.inr hy))
      · simp
      · simp
  | .Grouping expression, hp, base, pos, h, hs => by
      simp only [plainExpr] at hp
      simp only [exprCode] at hs
      simp only [exprHeights, exprCode]
      exact expr_flow c expression hp base pos h hs
  | .Literal value, _, base, pos, h, hs => by
      simp only [exprHeights, exprCode] at hs ⊢
      unfold literalCode at hs ⊢
      split_ifs at hs ⊢
      · exact flow_to (flow_simple c .OP_NIL pos h _ (h + 1) rfl (sliceAt_head hs) rfl rfl)
          (by simp [OpCode.operandWidth])
      · exact flow_to (flow_simple c .OP_TRUE pos h _ (h + 1) rfl (sliceAt_head hs) rfl rfl)
          (by simp [OpCode.operandWidth])
      · exact flow_to (flow_simple c .OP_FALSE pos h _ (h + 1) rfl (sliceAt_head hs) rfl rfl)
          (by simp [OpCode.operandWidth])
      · exact flow_to (flow_simple c .OP_CONSTANT pos h _ (h + 1) rfl (sliceAt_head hs) rfl rfl)
          (by simp [OpCode.operandWidth])
  | .Unary op right, hp, base, pos, h, hs => by
      simp only [plainExpr] at hp
      simp only [exprCode] at hs
      have sR := sliceAt_left hs
      have sO := sliceAt_right hs
      rw [exprCode_length right base 0] at sO
      have fR := expr_flow c right hp base pos h sR
      cases ho : unaryOpcode op.type with
      | none =>
          simp only [exprHeights, exprCode, ho, selectedHeights, selectedCode, List.append_nil]
          exact fR
      | some oc =>
          obtain ⟨e1, e2, e3, e4⟩ := unaryOpcode_effect ho
          simp only [ho, selectedCode] at sO
          have fO := flow_simple c oc _ (h + 1) (pos + (exprCode (.Unary op right) 0).length)
            (h + 1) e1 (sliceAt_head sO)
            (by simp only [exprCode, ho, selectedCode, List.length_append, List.length_singleton,
                  e4]
                omega)
            (by omega)
          simp only [exprHeights, ho, selectedHeights]
          refine flow_append (flow_sub fR ?_ ?_) (flow_to fO ?_)
          · intro y hy
            simp only [List.mem_append]
            exact Or.inl (Or.inl hy)
          · simp
          · simp
  | .Variable _, _, base, pos, h, hs => by
      simp only [exprHeights, exprCode] at hs ⊢
      exact flow_to (flow_simple c .OP_GET_GLOBAL pos h _ (h + 1) rfl (sliceAt_head hs) rfl rfl)
        (by simp [OpCode.operandWidth])
  | .Assignment name value, hp, base, pos, h, hs => by
      simp only [plainExpr] at hp
      simp only [exprCode] at hs
      have sV := sliceAt_left hs
      have sO := sliceAt_right hs
      rw [exprCode_length value base 0] at sO
      have fV := expr_flow c value hp base pos h sV
      have fO := flow_simple c .OP_SET_GLOBAL _ (h + 1)
        (pos + (exprCode (.Assignment name value) 0).length) (h + 1) rfl (sliceAt_head sO)
        (by simp only [exprCode, List.length_append, List.length_cons, List.length_nil,
              OpCode.operandWidth]
            omega)
        rfl
      simp only [exprHeights]
      refine flow_append (flow_sub fV ?_ ?_) (flow_to fO ?_)
      · intro y hy
        simp only [List.mem_append]
        exact Or.inl (Or.inl hy)
      · simp
      · simp
  | .Call callee paren arguments, hp, base, pos, h, hs => by
      simp only [plainExpr, Bool.and_eq_true] at hp
      simp only [exprCode, hp.1, if_true] at hs
      have sA := sliceAt_left hs
      have sO := sliceAt_right hs
      rw [argsCode_length arguments base 0] at sO
      have fA := args_flow c arguments hp.2 base pos h sA
      have fO := flow_simple c .OP_NIL _ h
        (pos + (exprCode (.Call callee paren arguments) 0).length) (h + 1) rfl (sliceAt_head sO)
        (by simp only [exprCode, hp.1, if_true, List.length_append, List.length_singleton,
              OpCode.operandWidth]
            omega)
        rfl
      simp only [exprHeights, hp.1, if_true]
      refine flow_append (flow_sub fA ?_ ?_) (flow_to fO ?_)
      · intro y hy
        simp only [List.mem_append]
        exact Or.inl (Or.inl hy)
      · simp
      · simp
/-- The code of the arguments of a `print` call: every instruction in it goes to
another of its instructions or to the offset past it, at the same height. -/
theorem args_flow (c : Chunk D) : (args : List Expr) → plainArgs args = true →
    (base pos h : Nat) → SliceAt c.code pos (argsCode args base) →
    Flow c (argsHeights args pos h)
      (argsHeights args pos h ++ [(pos + (argsCode args 0).length, h)])
  | [], _, _, _, _, _ => by
      simp only [argsHeights]
      exact flow_nil c _
  | arg :: rest, hp, base, pos, h, hs => by
      simp only [plainArgs, Bool.and_eq_true] at hp
      simp only [argsCode] at hs
      have sA := sliceAt_left (sliceAt_left hs)
      have sP := sliceAt_right (sliceAt_left hs)
      have sR := sliceAt_right hs
      rw [exprCode_length arg base 0] at sP
      rw [List.length_append, exprCode_length arg base 0, List.length_singleton,
        ← Nat.add_assoc] at sR
      have fA := expr_flow c arg hp.1 base pos h sA
      have fP := flow_simple c .OP_PRINT _ (h + 1) (pos + (exprCode arg 0).length + 1) h rfl
        (sliceAt_head sP) rfl rfl
      have fR := args_flow c rest hp.2 _ _ h sR
      have hr := (argsHeights_spec rest hp.2 (pos + (exprCode arg 0).length + 1) h).1
      have hpos : pos + (argsCode (arg :: rest) 0).length
          = pos + (exprCode arg 0).length + 1 + (argsCode rest 0).length := by
        rw [argsCode_cons_length]
        omega
      rw [hpos]
      simp only [argsHeights]
      refine flow_append (flow_append (flow_sub fA ?_ ?_) (flow_to fP ?_)) (flow_sub fR ?_ ?_)
      · intro y hy
        simp only [List.mem_append]
        exact Or.inl (Or.inl (Or.inl hy))
      · simp
      · simp only [List.mem_append, List.mem_singleton] at hr ⊢
        rcases hr with hr | hr
        · exact Or.inl (Or.inr hr)
        · exact Or.inr hr
      · intro y hy
        simp only [List.mem_append]
        exact Or.inl (Or.inr hy)
      · simp
end

theorem optExprHeights_spec (o : Option Expr) (hp : ∀ e, o = some e → plainExpr e = true)
    (pos : Nat) :
    (pos, 0) ∈ optExprHeights o pos
      ∧ ∀ ip k, (ip, k) ∈ optExprHeights o pos →
          pos ≤ ip ∧ ip < pos + (optExprCode o 0).length ∧ (ip = pos → k = 0) := by
  cases o with
  | none =>
      simp only [optExprHeights, optExprCode, List.mem_singleton, Prod.mk.injEq,
        List.length_singleton, true_and]
      intro ip k hm
      omega
  | some e => exact exprHeights_spec e (hp e rfl) pos 0

mutual
/-- Where the instructions and the statement starts of the code of a statement
lie: the instructions within the code, the first of them at the height 0, the
starts within the code or at its end, and every instruction at a start at the
height 0. -/
theorem stmtHeights_spec : (s : Stmt) → plainStmt s = true → (pos : Nat) →
    ((pos, 0) ∈ stmtHeights s pos ∨ stmtSize s = 0)
      ∧ (∀ ip k, (ip, k) ∈ stmtHeights s pos →
          pos ≤ ip ∧ ip < pos + stmtSize s ∧ (ip = pos → k = 0))
      ∧ (∀ ip, ip ∈ stmtStarts s pos → pos ≤ ip ∧ ip ≤ pos + stmtSize s)
      ∧ (∀ ip k, (ip, k) ∈ stmtHeights s pos → ip ∈ stmtStarts s pos → k = 0)
  | .Expression expression, hp, pos => by
      simp only [plainStmt] at hp
      have hc := exprHeights_spec expression hp pos 0
      have h1 := hc.2 pos 0 hc.1
      simp only [stmtHeights, stmtStarts, stmtSize, List.mem_append, List.mem_singleton,
        Prod.mk.injEq]
      refine ⟨Or.inl (Or.inl hc.1), ?_, ?_, ?_⟩
      · intro ip k hm
        rcases hm with hm | hm
        · have := hc.2 ip k hm
          omega
        · omega
      · intro ip hs
        omega
      · intro ip k hm hs
        rcases hm with hm | hm
        · have := hc.2 ip k hm
          omega
        · omega
  | .VarDecl _ (some e), hp, pos => by
      simp only [plainStmt] at hp
      have hc := exprHeights_spec e hp pos 0
      have h1 := hc.2 pos 0 hc.1
      simp only [stmtHeights, stmtStarts, stmtSize, optExprHeights, optExprCode, List.mem_append,
        List.mem_singleton, Prod.mk.injEq]
      refine ⟨Or.inl (Or.inl hc.1), ?_, ?_, ?_⟩
      · intro ip k hm
        rcases hm with hm | hm
        · have := hc.2 ip k hm
          omega
        · omega
      · intro ip hs
        omega
      · intro ip k hm hs
        rcases hm with hm | hm
        · have := hc.2 ip k hm
          omega
        · omega
  | .VarDecl _ none, _, pos => by
      simp only [stmtHeights, stmtStarts, stmtSize, optExprHeights, optExprCode, List.mem_append,
        List.mem_singleton, Prod.mk.injEq, List.length_singleton]
      refine ⟨by simp, ?_, ?_, ?_⟩
      · intro ip k hm
        omega
      · intro ip hs
        omega
      · intro ip k hm hs
        omega
  | .Block statements, hp, pos => by
      simp only [plainStmt] at hp
      have hb := stmtsHeights_spec statements hp pos
      simp only [stmtHeights, stmtStarts, stmtSize, List.mem_cons]
      refine ⟨hb.1, hb.2.1, ?_, ?_⟩
      · intro ip hs
        rcases hs with hs | hs
        · omega
        · exact hb.2.2.1 ip hs
      · intro ip k hm hs
        rcases hs with hs | hs
        · exact (hb.2.1 ip k hm).2.2 hs
        · exact hb.2.2.2 ip k hm hs
  | .If condition thenBranch (some e), hp, pos => by
      simp only [plainStmt, Bool.and_eq_true, decide_eq_true_eq] at hp
      obtain ⟨⟨⟨⟨hpc, hpt⟩, hpe⟩, _⟩, _⟩ := hp
      have hc := exprHeights_spec condition hpc pos 0
      have ht := stmtHeights_spec thenBranch hpt (pos + (exprCode condition 0).length + 4)
      have he := stmtHeights_spec e hpe
        (pos + (exprCode condition 0).length + 4 + stmtSize thenBranch + 4)
      have h1 := hc.2 pos 0 hc.1
      simp only [stmtHeights, stmtStarts, stmtSize, List.mem_append, List.mem_cons,
        List.mem_singleton, Prod.mk.injEq, List.not_mem_nil, or_false]
      refine ⟨Or.inl (Or.inl (Or.inl (Or.inl (Or.inl hc.1)))), ?_, ?_, ?_⟩
      · intro ip k hm
        rcases hm with (((hm | hm | hm) | hm) | hm | hm) | hm <;>
          first
            | omega
            | (have r0 := hc.2 ip k hm; omega)
            | (have r0 := ht.2.1 ip k hm; omega)
            | (have r0 := he.2.1 ip k hm; omega)
      · intro ip hs
        rcases hs with hs | hs | hs <;>
          first
            | omega
            | (have r0 := ht.2.2.1 ip hs; omega)
            | (have r0 := he.2.2.1 ip hs; omega)
      · intro ip k hm hs
        rcases hm with (((hm | hm | hm) | hm) | hm | hm) | hm <;>
          rcases hs with hs | hs | hs <;>
          first
            | exact ht.2.2.2 ip k hm hs
            | exact he.2.2.2 ip k hm hs
            | (try have r1 := hc.2 ip k hm
               try have r2 := ht.2.1 ip k hm
               try have r3 := he.2.1 ip k hm
               try have r4 := ht.2.2.1 ip hs
               try have r5 := he.2.2.1 ip hs
               omega)
  | .If condition thenBranch none, hp, pos => by
      simp only [plainStmt, Bool.and_eq_true, decide_eq_true_eq] at hp
      obtain ⟨⟨hpc, hpt⟩, _⟩ := hp
      have hc := exprHeights_spec condition hpc pos 0
      have ht := stmtHeights_spec thenBranch hpt (pos + (exprCode condition 0).length + 4)
      have h1 := hc.2 pos 0 hc.1
      simp only [stmtHeights, stmtStarts, stmtSize, List.mem_append, List.mem_cons,
        List.mem_singleton, Prod.mk.injEq, List.not_mem_nil, or_false]
      refine ⟨Or.inl (Or.inl (Or.inl (Or.inl hc.1))), ?_, ?_, ?_⟩
      · intro ip k hm
        rcases hm with ((hm | hm | hm) | hm) | hm | hm <;>
          first
            | omega
            | (have r0 := hc.2 ip k hm; omega)
            | (have r0 := ht.2.1 ip k hm; omega)
      · intro ip hs
        rcases hs with hs | hs <;>
          first
            | omega
            | (have r0 := ht.2.2.1 ip hs; omega)
      · intro ip k hm hs
        rcases hm with ((hm | hm | hm) | hm) | hm | hm <;>
          rcases hs with hs | hs <;>
          first
            | exact ht.2.2.2 ip k hm hs
            | (try have r1 := hc.2 ip k hm
               try have r2 := ht.2.1 ip k hm
               try have r4 := ht.2.2.1 ip hs
               omega)
  | .While condition body, hp, pos => by
      simp only [plainStmt, Bool.and_eq_true, decide_eq_true_eq] at hp
      obtain ⟨⟨hpc, hpt⟩, _⟩ := hp
      have hc := exprHeights_spec condition hpc pos 0
      have ht := stmtHeights_spec body hpt (pos + (exprCode condition 0).length + 4)
      have h1 := hc.2 pos 0 hc.1
      simp only [stmtHeights, stmtStarts, stmtSize, List.mem_append, List.mem_cons,
        List.mem_singleton, Prod.mk.injEq, List.not_mem_nil, or_false]
      refine ⟨Or.inl (Or.inl (Or.inl (Or.inl hc.1))), ?_, ?_, ?_⟩
      · intro ip k hm
        rcases hm with ((hm | hm | hm) | hm) | hm | hm <;>
          first
            | omega
            | (have r0 := hc.2 ip k hm; omega)
            | (have r0 := ht.2.1 ip k hm; omega)
      · intro ip hs
        rcases hs with hs | hs <;>
          first
            | omega
            | (have r0 := ht.2.2.1 ip hs; omega)
      · intro ip k hm hs
        rcases hm with ((hm | hm | hm) | hm) | hm | hm <;>
          rcases hs with hs | hs <;>
          first
            | exact ht.2.2.2 ip k hm hs
            | (try have r1 := hc.2 ip k hm
               try have r2 := ht.2.1 ip k hm
               try have r4 := ht.2.2.1 ip hs
               omega)
  | .Print _, _, pos => by
      simp [stmtHeights, stmtStarts, stmtSize]
  | .Function _ _ _, _, pos => by
      simp [stmtHeights, stmtStarts, stmtSize]
  | .Return _ _, hp, _ => by simp [plainStmt] at hp
theorem stmtsHeights_spec : (ss : List (Option Stmt)) → plainStmts ss = true → (pos : Nat) →
    ((pos, 0) ∈ stmtsHeights ss pos ∨ stmtsSize ss = 0)
      ∧ (∀ ip k, (ip, k) ∈ stmtsHeights ss pos →
          pos ≤ ip ∧ ip < pos + stmtsSize ss ∧ (ip = pos → k = 0))
      ∧ (∀ ip, ip ∈ stmtsStarts ss pos → pos ≤ ip ∧ ip ≤ pos + stmtsSize ss)
      ∧ (∀ ip k, (ip, k) ∈ stmtsHeights ss pos → ip ∈ stmtsStarts ss pos → k = 0)
  | [], _, pos => by
      simp [stmtsHeights, stmtsStarts, stmtsSize]
  | none :: _, hp, _ => by simp [plainStmts] at hp
  | some s :: rest, hp, pos => by
      simp only [plainStmts, Bool.and_eq_true] at hp
      have hs := stmtHeights_spec s hp.1 pos
      have hr := stmtsHeights_spec rest hp.2 (pos + stmtSize s)
      simp only [stmtsHeights, stmtsStarts, stmtsSize, List.mem_append]
      refine ⟨?_, ?_, ?_, ?_⟩
      · rcases hs.1 with h | h
        · exact Or.inl (Or.inl h)
        · rcases hr.1 with h2 | h2
          · rw [h, Nat.add_zero] at h2
            exact Or.inl (Or.inr (by rw [h, Nat.add_zero]; exact h2))
          · exact Or.inr (by omega)
      · intro ip k hm
        rcases hm with hm | hm
        · have := hs.2.1 ip k hm
          omega
        · have := hr.2.1 ip k hm
          omega
      · intro ip hst
        rcases hst with hst | hst
        · have := hs.2.2.1 ip hst
          omega
        · have := hr.2.2.1 ip hst
          omega
      · intro ip k hm hst
        rcases hm with hm | hm <;> rcases hst with hst | hst <;>
          first
            | exact hs.2.2.2 ip k hm hst
            | exact hr.2.2.2 ip k hm hst
            | (try have r1 := hs.2.1 ip k hm
               try have r2 := hr.2.1 ip k hm
               try have r3 := hs.2.2.1 ip hst
               try have r4 := hr.2.2.1 ip hst
               omega)
end

theorem mem5_1 {α : Type} {a b c d e f : List α} {y : α} (h : y ∈ a) :
    y ∈ a ++ b ++ c ++ d ++ e ++ f :=
  List.mem_append_left _ (List.mem_append_left _ (List.mem_append_left _
    (List.mem_append_left _ (List.mem_append_left _ h))))

theorem mem5_2 {α : Type} {a b c d e f : List α} {y : α} (h : y ∈ b) :
    y ∈ a ++ b ++ c ++ d ++ e ++ f :=
  List.mem_append_left _ (List.mem_append_left _ (List.mem_append_left _
    (List.mem_append_left _ (List.mem_append_right _ h))))

theorem mem5_3 {α : Type} {a b c d e f : List α} {y : α} (h : y ∈ c) :
    y ∈ a ++ b ++ c ++ d ++ e ++ f :=
  List.mem_append_left _ (List.mem_append_left _ (List.mem_append_left _
    (List.mem_append_right _ h)))

theorem mem5_4 {α : Type} {a b c d e f : List α} {y : α} (h : y ∈ d) :
    y ∈ a ++ b ++ c ++ d ++ e ++ f :=
  List.mem_append_left _ (List.mem_append_left _ (List.mem_append_right _ h))

theorem mem5_5 {α : Type} {a b c d e f : List α} {y : α} (h : y ∈ e) :
    y ∈ a ++ b ++ c ++ d ++ e ++ f :=
  List.mem_append_left _ (List.mem_append_right _ h)

theorem mem5_6 {α : Type} {a b c d e f : List α} {y : α} (h : y ∈ f) :
    y ∈ a ++ b ++ c ++ d ++ e ++ f :=
  List.mem_append_right _ h

theorem mem4_1 {α : Type} {a b c d f : List α} {y : α} (h : y ∈ a) :
    y ∈ a ++ b ++ c ++ d ++ f :=
  List.mem_append_left _ (List.mem_append_left _ (List.mem_append_left _
    (List.mem_append_left _ h)))

theorem mem4_2 {α : Type} {a b c d f : List α} {y : α} (h : y ∈ b) :
    y ∈ a ++ b ++ c ++ d ++ f :=
  List.mem_append_left _ (List.mem_append_left _ (List.mem_append_left _
    (List.mem_append_right _ h)))

theorem mem4_3 {α : Type} {a b c d f : List α} {y : α} (h : y ∈ c) :
    y ∈ a ++ b ++ c ++ d ++ f :=
  List.mem_append_left _ (List.mem_append_left _ (List.mem_append_right _ h))

theorem mem4_4 {α : Type} {a b c d f : List α} {y : α} (h : y ∈ d) :
    y ∈ a ++ b ++ c ++ d ++ f :=
  List.mem_append_left _ (List.mem_append_right _ h)

theorem mem4_5 {α : Type} {a b c d f : List α} {y : α} (h : y ∈ f) :
    y ∈ a ++ b ++ c ++ d ++ f :=
  List.mem_append_right _ h

theorem mem_fst {a b h : Nat} {L : List (Nat × Nat)} (e : a = b) : (a, h) ∈ (b, h) :: L := by
  rw [e]
  exact List.mem_cons_self _ _

theorem mem_snd {a b h : Nat} {x : Nat × Nat} {L : List (Nat × Nat)} (e : a = b) :
    (a, h) ∈ x :: (b, h) :: L :=
  List.mem_cons_of_mem _ (mem_fst e)

theorem flow_cons {c : Chunk D} {a : Nat × Nat} {L B : List (Nat × Nat)}
    (h1 : Flow c [a] B) (h2 : Flow c L B) : Flow c (a :: L) B := by
  show Flow c ([a] ++ L) B
  exact flow_append h1 h2

mutual
/-- The code of a statement: every instruction in it goes to another of its
instructions or to the offset past it, where the stack is empty. -/
theorem stmt_flow (c : Chunk D) : (s : Stmt) → plainStmt s = true → (base pos : Nat) →
    SliceAt c.code pos (stmtCode s base) →
    Flow c (stmtHeights s pos) (stmtHeights s pos ++ [(pos + stmtSize s, 0)])
  | .Expression expression, hp, base, pos, hs => by
      simp only [plainStmt] at hp
      simp only [stmtCode] at hs
      have sC := sliceAt_left hs
      have sP := sliceAt_right hs
      rw [exprCode_length expression base 0] at sP
      have fC := expr_flow c expression hp base pos 0 sC
      have fP := flow_simple c .OP_POP _ 1 (pos + stmtSize (.Expression expression)) 0 rfl
        (sliceAt_head sP) (by simp only [stmtSize, OpCode.operandWidth]; omega) rfl
      simp only [stmtHeights]
      refine flow_append (flow_sub fC ?_ ?_) (flow_to fP ?_)
      · intro y hy
        simp only [List.mem_append]
        exact Or.inl (Or.inl hy)
      · simp
      · simp
  | .VarDecl name (some e), hp, base, pos, hs => by
      simp only [plainStmt] at hp
      simp only [stmtCode, optExprCode] at hs
      have sC := sliceAt_left hs
      have sP := sliceAt_right hs
      rw [exprCode_length e base 0] at sP
      have fC := expr_flow c e hp base pos 0 sC
      have fP := flow_simple c .OP_DEFINE_GLOBAL _ 1 (pos + stmtSize (.VarDecl name (some e))) 0
        rfl (sliceAt_head sP) (by simp only [stmtSize, optExprCode, OpCode.operandWidth]; omega)
        rfl
      simp only [stmtHeights, optExprHeights, optExprCode]
      refine flow_append (flow_sub fC ?_ ?_) (flow_to fP ?_)
      · intro y hy
        simp only [List.mem_append]
        exact Or.inl (Or.inl hy)
      · simp
      · simp
  | .VarDecl name none, _, base, pos, hs => by
      simp only [stmtCode, optExprCode] at hs
      have sC := sliceAt_left hs
      have sP := sliceAt_right hs
      simp only [List.length_singleton] at sP
      have fC := flow_simple c .OP_NIL pos 0 (pos + 1) 1 rfl (sliceAt_head sC) rfl rfl
      have fP := flow_simple c .OP_DEFINE_GLOBAL _ 1 (pos + stmtSize (.VarDecl name none)) 0
        rfl (sliceAt_head sP)
        (by simp only [stmtSize, optExprCode, OpCode.operandWidth, List.length_singleton])
        rfl
      simp only [stmtHeights, optExprHeights, optExprCode, List.length_singleton]
      refine flow_append (flow_to fC ?_) (flow_to fP ?_)
      · simp
      · simp
  | .Block statements, hp, base, pos, hs => by
      simp only [plainStmt] at hp
      simp only [stmtCode] at hs
      simp only [stmtHeights, stmtSize]
      exact stmts_flow c statements hp base pos hs
  | .If condition thenBranch (some e), hp, base, pos, hs => by
      simp only [plainStmt, Bool.and_eq_true, decide_eq_true_eq] at hp
      obtain ⟨⟨⟨⟨hpc, hpt⟩, hpe⟩, hb1⟩, hb2⟩ := hp
      simp only [stmtCode] at hs
      have sC := sliceAt_left (sliceAt_left (sliceAt_left (sliceAt_left hs)))
      have sJ1 := sliceAt_right (sliceAt_left (sliceAt_left (sliceAt_left hs)))
      have sT := sliceAt_right (sliceAt_left (sliceAt_left hs))
      have sJ2 := sliceAt_right (sliceAt_left hs)
      have sE := sliceAt_right hs
      simp only [List.length_append, List.length_cons, List.length_nil, Nat.zero_add,
        exprCode_length condition base 0, stmtCode_length] at sJ1 sT sJ2 sE
      have sT := sliceAt_pos sT (q := pos + (exprCode condition 0).length + 4) (by omega)
      have sJ2 := sliceAt_pos sJ2
        (q := pos + (exprCode condition 0).length + 4 + stmtSize thenBranch) (by omega)
      have sE := sliceAt_pos sE
        (q := pos + (exprCode condition 0).length + 4 + stmtSize thenBranch + 4) (by omega)
      have fC := expr_flow c condition hpc base pos 0 sC
      have fJ1 := flow_jump_if_false c (pos + (exprCode condition 0).length) 1
        (stmtSize thenBranch + 4) hb1 (sliceAt_head sJ1) (sliceAt_head (sliceAt_tail sJ1))
        (sliceAt_head (sliceAt_tail (sliceAt_tail sJ1)))
      have fP1 := flow_simple c .OP_POP (pos + (exprCode condition 0).length + 3) 1
        (pos + (exprCode condition 0).length + 4) 0 rfl
        (sliceAt_head (sliceAt_tail (sliceAt_tail (sliceAt_tail sJ1)))) rfl rfl
      have fT := stmt_flow c thenBranch hpt _ _ sT
      have fJ2 := flow_jump c (pos + (exprCode condition 0).length + 4 + stmtSize thenBranch) 0
        (stmtSize e + 1) hb2 (sliceAt_head sJ2) (sliceAt_head (sliceAt_tail sJ2))
        (sliceAt_head (sliceAt_tail (sliceAt_tail sJ2)))
      have fP2 := flow_simple c .OP_POP
        (pos + (exprCode condition 0).length + 4 + stmtSize thenBranch + 3) 1
        (pos + (exprCode condition 0).length + 4 + stmtSize thenBranch + 4) 0 rfl
        (sliceAt_head (sliceAt_tail (sliceAt_tail (sliceAt_tail sJ2)))) rfl rfl
      have fE := stmt_flow c e hpe _ _ sE
      have entT := (stmtHeights_spec thenBranch hpt
        (pos + (exprCode condition 0).length + 4)).1
      have entE := (stmtHeights_spec e hpe
        (pos + (exprCode condition 0).length + 4 + stmtSize thenBranch + 4)).1
      simp only [stmtHeights]
      have hP1 : (pos + (exprCode condition 0).length + 4, 0)
          ∈ stmtHeights thenBranch (pos + (exprCode condition 0).length + 4)
            ++ [(pos + (exprCode condition 0).length + 4 + stmtSize thenBranch, 0),
                (pos + (exprCode condition 0).length + 4 + stmtSize thenBranch + 3, 1)] := by
        rcases entT with h | h
        · exact List.mem_append_left _ h
        · exact List.mem_append_right _ (mem_fst (by omega))
      have hP2 : (pos + (exprCode condition 0).length + 4 + stmtSize thenBranch + 4, 0)
          ∈ stmtHeights e (pos + (exprCode condition 0).length + 4 + stmtSize thenBranch + 4)
            ++ [(pos + stmtSize (.If condition thenBranch (some e)), 0)] := by
        rcases entE with h | h
        · exact List.mem_append_left _ h
        · exact List.mem_append_right _ (mem_fst (by simp only [stmtSize]; omega))
      refine flow_append (flow_append (flow_append (flow_append
        (flow_sub fC (fun y hy => mem5_1 hy) (mem5_2 (mem_fst rfl)))
        (flow_cons (flow_to2 fJ1 (mem5_2 (mem_snd rfl)) (mem5_4 (mem_snd (by omega))))
          (flow_to fP1 ?_)))
        (flow_sub fT (fun y hy => mem5_3 hy) (mem5_4 (mem_fst rfl))))
        (flow_cons (flow_to fJ2 (mem5_6 (mem_fst (by simp only [stmtSize]; omega))))
          (flow_to fP2 ?_)))
        (flow_sub fE (fun y hy => mem5_5 hy) (mem5_6 (mem_fst (by simp only [stmtSize]; omega))))
      · rcases List.mem_append.mp hP1 with h | h
        · exact mem5_3 h
        · exact mem5_4 h
      · rcases List.mem_append.mp hP2 with h | h
        · exact mem5_5 h
        · exact mem5_6 h
  | .If condition thenBranch none, hp, base, pos, hs => by
      simp only [plainStmt, Bool.and_eq_true, decide_eq_true_eq] at hp
      obtain ⟨⟨hpc, hpt⟩, hb1⟩ := hp
      simp only [stmtCode] at hs
      have sC := sliceAt_left (sliceAt_left (sliceAt_left hs))
      have sJ1 := sliceAt_right (sliceAt_left (sliceAt_left hs))
      have sT := sliceAt_right (sliceAt_left hs)
      have sJ2 := sliceAt_right hs
      simp only [List.length_append, List.length_cons, List.length_nil, Nat.zero_add,
        exprCode_length condition base 0, stmtCode_length] at sJ1 sT sJ2
      have sT := sliceAt_pos sT (q := pos + (exprCode condition 0).length + 4) (by omega)
      have sJ2 := sliceAt_pos sJ2
        (q := pos + (exprCode condition 0).length + 4 + stmtSize thenBranch) (by omega)
      have fC := expr_flow c condition hpc base pos 0 sC
      have fJ1 := flow_jump_if_false c (pos + (exprCode condition 0).length) 1
        (stmtSize thenBranch + 4) hb1 (sliceAt_head sJ1) (sliceAt_head (sliceAt_tail sJ1))
        (sliceAt_head (sliceAt_tail (sliceAt_tail sJ1)))
      have fP1 := flow_simple c .OP_POP (pos + (exprCode condition 0).length + 3) 1
        (pos + (exprCode condition 0).length + 4) 0 rfl
        (sliceAt_head (sliceAt_tail (sliceAt_tail (sliceAt_tail sJ1)))) rfl rfl
      have fT := stmt_flow c thenBranch hpt _ _ sT
      have fJ2 := flow_jump c (pos + (exprCode condition 0).length + 4 + stmtSize thenBranch) 0
        1 (by omega) (sliceAt_head sJ2) (sliceAt_head (sliceAt_tail sJ2))
        (sliceAt_head (sliceAt_tail (sliceAt_tail sJ2)))
      have fP2 := flow_simple c .OP_POP
        (pos + (exprCode condition 0).length + 4 + stmtSize thenBranch + 3) 1
        (pos + (exprCode condition 0).length + 4 + stmtSize thenBranch + 4) 0 rfl
        (sliceAt_head (sliceAt_tail (sliceAt_tail (sliceAt_tail sJ2)))) rfl rfl
      have entT := (stmtHeights_spec thenBranch hpt
        (pos + (exprCode condition 0).length + 4)).1
      simp only [stmtHeights]
      have hP1 : (pos + (exprCode condition 0).length + 4, 0)
          ∈ stmtHeights thenBranch (pos + (exprCode condition 0).length + 4)
            ++ [(pos + (exprCode condition 0).length + 4 + stmtSize thenBranch, 0),
                (pos + (exprCode condition 0).length + 4 + stmtSize thenBranch + 3, 1)] := by
        rcases entT with h | h
        · exact List.mem_append_left _ h
        · exact List.mem_append_right _ (mem_fst (by omega))
      refine flow_append (flow_append (flow_append
        (flow_sub fC (fun y hy => mem4_1 hy) (mem4_2 (mem_fst rfl)))
        (flow_cons (flow_to2 fJ1 (mem4_2 (mem_snd rfl)) (mem4_4 (mem_snd (by omega))))
          (flow_to fP1 ?_)))
        (flow_sub fT (fun y hy => mem4_3 hy) (mem4_4 (mem_fst rfl))))
        (flow_cons (flow_to fJ2 (mem4_5 (mem_fst (by simp only [stmtSize]; omega))))
          (flow_to fP2 (mem4_5 (mem_fst (by simp only [stmtSize]; omega)))))
      rcases List.mem_append.mp hP1 with h | h
      · exact mem4_3 h
      · exact mem4_4 h
  | .While condition body, hp, base, pos, hs => by
      simp only [plainStmt, Bool.and_eq_true, decide_eq_true_eq] at hp
      obtain ⟨⟨hpc, hpt⟩, hb1⟩ := hp
      simp only [stmtCode] at hs
      have sC := sliceAt_left (sliceAt_left (sliceAt_left hs))
      have sJ1 := sliceAt_right (sliceAt_left (sliceAt_left hs))
      have sT := sliceAt_right (sliceAt_left hs)
      have sJ2 := sliceAt_right hs
      simp only [List.length_append, List.length_cons, List.length_nil, Nat.zero_add,
        exprCode_length condition base 0, stmtCode_length] at sJ1 sT sJ2
      have sT := sliceAt_pos sT (q := pos + (exprCode condition 0).length + 4) (by omega)
      have sJ2 := sliceAt_pos sJ2
        (q := pos + (exprCode condition 0).length + 4 + stmtSize body) (by omega)
      have fC := expr_flow c condition hpc base pos 0 sC
      have fJ1 := flow_jump_if_false c (pos + (exprCode condition 0).length) 1
        (stmtSize body + 4) (by omega) (sliceAt_head sJ1) (sliceAt_head (sliceAt_tail sJ1))
        (sliceAt_head (sliceAt_tail (sliceAt_tail sJ1)))
      have fP1 := flow_simple c .OP_POP (pos + (exprCode condition 0).length + 3) 1
        (pos + (exprCode condition 0).length + 4) 0 rfl
        (sliceAt_head (sliceAt_tail (sliceAt_tail (sliceAt_tail sJ1)))) rfl rfl
      have fT := stmt_flow c body hpt _ _ sT
      have fJ2 := flow_loop c (pos + (exprCode condition 0).length + 4 + stmtSize body) 0
        ((exprCode condition 0).length + stmtSize body + 7) hb1 (by omega) (sliceAt_head sJ2)
        (sliceAt_head (sliceAt_tail sJ2)) (sliceAt_head (sliceAt_tail (sliceAt_tail sJ2)))
      have hback : pos + (exprCode condition 0).length + 4 + stmtSize body + 3
          - ((exprCode condition 0).length + stmtSize body + 7) = pos := by omega
      rw [hback] at fJ2
      have fP2 := flow_simple c .OP_POP
        (pos + (exprCode condition 0).length + 4 + stmtSize body + 3) 1
        (pos + (exprCode condition 0).length + 4 + stmtSize body + 4) 0 rfl
        (sliceAt_head (sliceAt_tail (sliceAt_tail (sliceAt_tail sJ2)))) rfl rfl
      have entT := (stmtHeights_spec body hpt (pos + (exprCode condition 0).length + 4)).1
      have entC := (exprHeights_spec condition hpc pos 0).1
      simp only [stmtHeights]
      have hP1 : (pos + (exprCode condition 0).length + 4, 0)
          ∈ stmtHeights body (pos + (exprCode condition 0).length + 4)
            ++ [(pos + (exprCode condition 0).length + 4 + stmtSize body, 0),
                (pos + (exprCode condition 0).length + 4 + stmtSize body + 3, 1)] := by
        rcases entT with h | h
        · exact List.mem_append_left _ h
        · exact List.mem_append_right _ (mem_fst (by omega))
      refine flow_append (flow_append (flow_append
        (flow_sub fC (fun y hy => mem4_1 hy) (mem4_2 (mem_fst rfl)))
        (flow_cons (flow_to2 fJ1 (mem4_2 (mem_snd rfl)) (mem4_4 (mem_snd (by omega))))
          (flow_to fP1 ?_)))
        (flow_sub fT (fun y hy => mem4_3 hy) (mem4_4 (mem_fst rfl))))
        (flow_cons (flow_to fJ2 (mem4_1 entC))
          (flow_to fP2 (mem4_5 (mem_fst (by simp only [stmtSize]; omega)))))
      rcases List.mem_append.mp hP1 with h | h
      · exact mem4_3 h
      · exact mem4_4 h
  | .Print _, _, _, _, _ => by
      simp only [stmtHeights]
      exact flow_nil c _
  | .Function _ _ _, _, _, _, _ => by
      simp only [stmtHeights]
      exact flow_nil c _
  | .Return _ _, hp, _, _, _ => by simp [plainStmt] at hp
/-- The code of a statement vector: every instruction in it goes to another of
its instructions or to the offset past it, where the stack is empty. -/
theorem stmts_flow (c : Chunk D) : (ss : List (Option Stmt)) → plainStmts ss = true →
    (base pos : Nat) → SliceAt c.code pos (stmtsCode ss base) →
    Flow c (stmtsHeights ss pos) (stmtsHeights ss pos ++ [(pos + stmtsSize ss, 0)])
  | [], _, _, _, _ => by
      simp only [stmtsHeights]
      exact flow_nil c _
  | none :: _, hp, _, _, _ => by simp [plainStmts] at hp
  | some s :: rest, hp, base, pos, hs => by
      simp only [plainStmts, Bool.and_eq_true] at hp
      simp only [stmtsCode] at hs
      have sS := sliceAt_left hs
      have sR := sliceAt_right hs
      rw [stmtCode_length] at sR
      have fS := stmt_flow c s hp.1 base pos sS
      have fR := stmts_flow c rest hp.2 _ _ sR
      have entR := (stmtsHeights_spec rest hp.2 (pos + stmtSize s)).1
      simp only [stmtsHeights]
      refine flow_append
        (flow_sub fS (fun y hy => List.mem_append_left _ (List.mem_append_left _ hy)) ?_)
        (flow_sub fR (fun y hy => List.mem_append_left _ (List.mem_append_right _ hy))
          (List.mem_append_right _ (mem_fst (by simp only [stmtsSize]; omega))))
      rcases entR with h | h
      · exact List.mem_append_left _ (List.mem_append_right _ h)
      · exact List.mem_append_right _ (mem_fst (by simp only [stmtsSize]; omega))
end

theorem stateAfter_err (c : Chunk D) (region : Nat → Bool) :
    ∀ (n : Nat) (vm vm1 : VM D), stateAfter c region n vm = some vm1 →
      ∃ l, vm1.err = vm.err ++ l := by
  intro n
  induction n with
  | zero =>
    intro vm vm1 h
    simp only [stateAfter, Option.some.injEq] at h
    exact ⟨[], by rw [h, List.append_nil]⟩
  | succ n ih =>
    intro vm vm1 h
    simp only [stateAfter] at h
    split at h
    · have he := step_err c vm
      cases hstep : step c vm with
      | next vm2 =>
          simp only [hstep] at h he
          obtain ⟨l1, h1⟩ := he
          obtain ⟨l2, h2⟩ := ih vm2 vm1 h
          exact ⟨l1 ++ l2, by rw [h2, h1, List.append_assoc]⟩
      | halt r vm2 => simp [hstep] at h
      | fault => simp [hstep] at h
    · cases h

/-- Along iterations that report no error, a set of offsets and stack heights
that the dispatch loop cannot leave holds every state reached from it. -/
theorem stateAfter_flow (c : Chunk D) (A : List (Nat × Nat)) (hflow : Flow c A A) :
    ∀ (n : Nat) (vm vm1 : VM D), (vm.ip, vm.stack.length) ∈ A →
      stateAfter c anywhere n vm = some vm1 → vm1.err = vm.err →
      (vm1.ip, vm1.stack.length) ∈ A := by
  intro n
  induction n with
  | zero =>
    intro vm vm1 hin h _
    simp only [stateAfter, Option.some.injEq] at h
    rw [← h]
    exact hin
  | succ n ih =>
    intro vm vm1 hin h herr
    simp only [stateAfter, anywhere, if_true] at h
    cases hstep : step c vm with
    | next vm2 =>
        simp only [hstep] at h
        have he := step_err c vm
        simp only [hstep] at he
        obtain ⟨l1, h1⟩ := he
        obtain ⟨l2, h2⟩ := stateAfter_err c anywhere n vm2 vm1 h
        have hl : l1 = [] := by
          rw [h1, List.append_assoc, herr] at h2
          have h3 := List.self_eq_append_right.mp h2
          exact (List.append_eq_nil.mp h3).1
        rw [hl, List.append_nil] at h1
        exact ih vm2 vm1 (hflow vm vm2 hin hstep h1) h (by rw [herr, h1])
    | halt r vm2 => simp [hstep] at h
    | fault => simp [hstep] at h

/-- C34: for a statement list of expression statements, variable declarations,
blocks, `if` and `while` statements (and the `Print` and `Function` statements,
which emit nothing) whose binary operators are among `+ - * / == > <` and whose
calls are calls of `print`, with every jump distance at most 65,535: whenever
the dispatch loop, started on the compiled chunk with an empty stack, has met no
operand type mismatch and stands at the offset where the code of a statement of
the list or of a statement nested in it begins, or at the final `OP_RETURN`, the
operand stack is empty. The number of constants plays no part. -/
theorem statement_starts_have_empty_stack (ss : List (Option Stmt))
    (hp : plainStmts ss = true) (c : Chunk D)
    (hc : compile ss ({} : Chunk D) = some (true, c))
    (g : String → Option (Value D)) (n : Nat) (vm : VM D)
    (hrun : stateAfter c anywhere n { globals := g } = some vm) (herr : vm.err = [])
    (hat : vm.ip ∈ stmtsStarts ss 0 ∨ vm.ip = stmtsSize ss) : vm.stack = [] := by
  rw [compile_eq ss (plainStmts_nullFree ss hp) {}] at hc
  simp only [Option.some.injEq, Prod.mk.injEq, true_and] at hc
  have hcode : c.code = stmtsCode ss 0 ++ [OpCode.OP_RETURN.toByte] := by
    rw [← hc]
    simp [Chunk.extend]
  have hs : SliceAt c.code 0 (stmtsCode ss 0) := by
    rw [hcode]
    exact sliceAt_zero _ _
  have hret : c.code[stmtsSize ss]? = some OpCode.OP_RETURN.toByte := by
    rw [hcode, ← stmtsCode_length ss 0]
    simp
  have spec := stmtsHeights_spec ss hp 0
  have fS := stmts_flow c ss hp 0 0 hs
  rw [Nat.zero_add] at fS
  have fR : Flow c [(stmtsSize ss, 0)] (stmtsHeights ss 0 ++ [(stmtsSize ss, 0)]) := by
    intro v v1 hin hstep _
    simp only [List.mem_singleton, Prod.mk.injEq] at hin
    rw [step_return (by rw [hin.1]; exact hret)] at hstep
    cases hstep
  have hinit : ((0 : Nat), (0 : Nat)) ∈ stmtsHeights ss 0 ++ [(stmtsSize ss, 0)] := by
    rcases spec.1 with h | h
    · exact List.mem_append_left _ h
    · exact List.mem_append_right _ (mem_fst h.symm)
  have hinv := stateAfter_flow c _ (flow_append fS fR) n { globals := g } vm hinit hrun herr
  have hlen : vm.stack.length = 0 := by
    simp only [List.mem_append, List.mem_singleton, Prod.mk.injEq] at hinv
    rcases hinv with h | h
    · rcases hat with h1 | h1
      · exact spec.2.2.2 _ _ h h1
      · have := spec.2.1 _ _ h
        omega
    · exact h.2
  exact List.length_eq_zero.mp hlen

/-- The theorem above on the counting loop: after seven iterations the dispatch
loop stands at the first byte of the loop body. -/
theorem statement_starts_have_empty_stack_witness :
    plainStmts countProgram = true
      ∧ compile countProgram ({} : Chunk Int) = some (true, countChunk 0 3 1)
      ∧ stateAfter (countChunk 0 3 1) anywhere 7 {} = some countAtBody
      ∧ countAtBody.ip ∈ stmtsStarts countProgram 0 ∧ countAtBody.stack = [] :=
  ⟨by decide, by rfl, by rfl, by decide,
   statement_starts_have_empty_stack countProgram (by decide) (countChunk 0 3 1) (by rfl)
     (fun _ => none) 7 countAtBody (by rfl) rfl (Or.inl (by decide))⟩

end Between

/-! ## A number that is unequal to itself -/

section NotANumber

theorem scan_nan : scanTokens nanSource = some nanTokens := by decide

theorem parse_nan (k : Nat) : Parser.parse (k + 30) nanTokens = .ok nanProgram 11 := by rfl

theorem compile_nan : compile nanProgram ({} : Chunk ExtDouble) = some (true, nanChunk) := by rfl

theorem interpret_nan (k : Nat) : interpret (k + 12) nanChunk {} = .finished .OK nanFinal := by
  rfl

/-- C11 fails on the code: in the model of `double` with NaN, `0/0` is NaN and
`valuesEqual` gives false for the number NaN and itself, two values of the same
alternative with the same payload; the source `x = 0/0 print(x == x)` runs to
`OK`, binds `x` to NaN and writes `false`. -/
theorem nan_is_unequal_to_itself :
    DoubleModel.div (ExtDouble.finite 0) (ExtDouble.finite 0) = ExtDouble.nan
      ∧ valuesEqual (Value.Number ExtDouble.nan) (Value.Number ExtDouble.nan) = false
      ∧ ¬ (∀ a b : Value ExtDouble, valuesEqual a b = true ↔
            (a = .Nil ∧ b = .Nil)
            ∨ (∃ x y, a = .Boolean x ∧ b = .Boolean y ∧ x = y)
            ∨ (∃ x y, a = .Number x ∧ b = .Number y ∧ x = y)
            ∨ (∃ x y, a = .Str x ∧ b = .Str y ∧ x = y))
      ∧ (∀ k, Main.run (k + 30) nanSource = .executed (.finished .OK nanFinal))
      ∧ nanFinal.out = ["false"]
      ∧ nanFinal.err = []
      ∧ nanFinal.globals "x" = some (.Number .nan) := by
  refine ⟨rfl, rfl, ?_, ?_, rfl, rfl, rfl⟩
  · intro h
    have h1 := (h (.Number .nan) (.Number .nan)).mpr
      (Or.inr (Or.inr (Or.inl ⟨.nan, .nan, rfl, rfl, rfl⟩)))
    exact absurd h1 (by decide)
  · intro k
    simp only [Main.run, scan_nan, parse_nan, compile_nan]
    rw [show k + 30 = (k + 18) + 12 by omega, interpret_nan]
    rfl

end NotANumber

/-! ## Every word of the source becomes one token -/

section AllWords

theorem length_dropWhile_le {α : Type} (p : α → Bool) :
    ∀ l : List α, (l.dropWhile p).length ≤ l.length
  | [] => Nat.le_refl _
  | a :: l => by
      unfold List.dropWhile
      split
      · exact Nat.le_succ_of_le (length_dropWhile_le p l)
      · exact Nat.le_refl _

theorem wordsFuel_succ : ∀ (n : Nat) (cs : List Char), cs.length ≤ n →
    wordsFuel (n + 1) cs = wordsFuel n cs
  | n, [], _ => by
      cases n <;> rfl
  | 0, c :: rest, h => by
      simp at h
  | n + 1, c :: rest, h => by
      have hr : rest.length ≤ n := by
        simp only [List.length_cons] at h
        omega
      rw [wordsFuel, wordsFuel]
      rw [wordsFuel_succ n _ (by
            have := length_dropWhile_le (fun ch => ch != Char.ofNat 34) rest
            simp only [List.length_drop]
            omega),
        wordsFuel_succ n _ (Nat.le_trans (length_dropWhile_le _ rest) hr),
        wordsFuel_succ n _ (Nat.le_trans (length_dropWhile_le _ rest) hr),
        wordsFuel_succ n rest hr]

theorem wordsFuel_stable (cs : List Char) : ∀ k : Nat,
    wordsFuel (cs.length + k) cs = specWords cs
  | 0 => rfl
  | k + 1 => by
      rw [← Nat.add_assoc, wordsFuel_succ _ cs (Nat.le_add_right _ _)]
      exact wordsFuel_stable cs k

theorem wordsFuel_of_le {n : Nat} {cs : List Char} (h : cs.length ≤ n) :
    wordsFuel n cs = specWords cs := by
  have e : n = cs.length + (n - cs.length) := by omega
  rw [e]
  exact wordsFuel_stable cs _

theorem specWords_nil : specWords [] = [] := rfl

theorem specWords_cons (c : Char) (rest : List Char) :
    specWords (c :: rest)
      = if c = Char.ofNat 34 then
          specWords ((rest.dropWhile (fun ch => ch != Char.ofNat 34)).drop 1)
        else if c = Char.ofNat 45 ∧ rest.head? = some (Char.ofNat 45) then
          specWords (rest.dropWhile (fun ch => ch != Char.ofNat 10))
        else if isWordStart c then
          String.mk (c :: rest.takeWhile isWordChar) :: specWords (rest.dropWhile isWordChar)
        else specWords rest := by
  show wordsFuel (rest.length + 1) (c :: rest) = _
  rw [wordsFuel]
  have h34 : ((rest.dropWhile (fun ch => ch != Char.ofNat 34)).drop 1).length ≤ rest.length := by
    have r0 := length_dropWhile_le (fun ch => ch != Char.ofNat 34) rest
    simp only [List.length_drop]
    omega
  rw [wordsFuel_of_le h34,
    wordsFuel_of_le (length_dropWhile_le _ rest),
    wordsFuel_of_le (length_dropWhile_le _ rest),
    wordsFuel_of_le (Nat.le_refl _)]

theorem specWords_skip (c : Char) (rest : List Char) (h1 : c ≠ Char.ofNat 34)
    (h2 : c ≠ Char.ofNat 45) (h3 : isWordStart c = false) :
    specWords (c :: rest) = specWords rest := by
  rw [specWords_cons, if_neg h1, if_neg (fun h => h2 h.1), h3]
  rfl

theorem specWords_minus (rest : List Char) (h : rest.head? ≠ some (Char.ofNat 45)) :
    specWords (Char.ofNat 45 :: rest) = specWords rest := by
  rw [specWords_cons, if_neg (by decide), if_neg (fun hh => h hh.2)]
  rfl

theorem dropWhile_head {α : Type} (p : α → Bool) : ∀ (l : List α) (q : α) (t : List α),
    l.dropWhile p = q :: t → p q = false
  | [], _, _, h => by simp at h
  | a :: l, q, t, h => by
      unfold List.dropWhile at h
      split at h
      · exact dropWhile_head p l q t h
      · rename_i hp
        simp only [List.cons.injEq] at h
        rw [← h.1]
        simpa using hp

theorem drop_of_append {α : Type} (l : List α) (i : Nat) (a b : List α)
    (h : l.drop i = a ++ b) : l.drop (i + a.length) = b := by
  rw [← List.drop_drop, h, List.drop_left]

theorem digit_facts (c : Char) (h : c.isDigit = true) :
    c ≠ Char.ofNat 34 ∧ c ≠ Char.ofNat 45 ∧ c ≠ Char.ofNat 46 ∧ isWordStart c = false := by
  refine ⟨?_, ?_, ?_, ?_⟩
  · intro e
    rw [e] at h
    exact absurd h (by decide)
  · intro e
    rw [e] at h
    exact absurd h (by decide)
  · intro e
    rw [e] at h
    exact absurd h (by decide)
  · have ha : c.isAlpha = false := by
      cases hx : c.isAlpha with
      | false => rfl
      | true =>
        rw [alpha_not_digit c hx] at h
        cases h
    have hu : (c == Char.ofNat 95) = false := by
      rw [beq_eq_false_iff_ne]
      intro e
      rw [e] at h
      exact absurd h (by decide)
    simp only [isWordStart, ha, hu, Bool.or_self]

theorem specWords_digits : ∀ (ds : List Char) (t : List Char),
    (∀ ch ∈ ds, ch.isDigit = true) → specWords (ds ++ t) = specWords t
  | [], _, _ => rfl
  | d :: ds, t, h => by
      obtain ⟨h1, h2, _, h4⟩ := digit_facts d (h d (List.mem_cons_self _ _))
      rw [List.cons_append, specWords_skip d _ h1 h2 h4]
      exact specWords_digits ds t (fun ch hc => h ch (List.mem_cons_of_mem _ hc))

theorem wordTokens_append (a b : List Token) :
    wordTokens (a ++ b) = wordTokens a ++ wordTokens b := by
  simp only [wordTokens, List.filter_append, List.map_append]

theorem wordTokens_other (t : Token) (h : isWordKind t.type = false) : wordTokens [t] = [] := by
  simp [wordTokens, h]

theorem wordTokens_word (t : Token) (h : isWordKind t.type = true) :
    wordTokens [t] = [(t.lexeme, t.type)] := by
  simp [wordTokens, h]

theorem isWordKind_wordKind (w : String) : isWordKind (wordKind w) = true := by
  unfold wordKind
  cases hl : keywords.lookup w with
  | none => rfl
  | some k =>
    have hm := lookup_mem_pair w k keywords hl
    have hall : ∀ p ∈ keywords, isWordKind p.2 = true := by decide
    exact hall (w, k) hm

/-- The state `r` follows `lx0` by reading up to `suffix` and adding the tokens
`added`: what is pending stays the same when the word tokens added are the words
of the text read. -/
theorem pending_of (lx0 r : Lexer) (added : List Token) (suffix : List Char)
    (hs : r.source = lx0.source) (ht : r.tokens = lx0.tokens ++ added)
    (hd : lx0.source.drop r.current = suffix)
    (hw : wordTokens added ++ (specWords suffix).map (fun w => (w, wordKind w))
      = (specWords (lx0.source.drop lx0.current)).map (fun w => (w, wordKind w))) :
    r.pending = lx0.pending := by
  unfold Lexer.pending
  rw [hs, ht, hd, wordTokens_append, List.append_assoc, hw]

theorem matchChar_nil (lx : Lexer) (h : lx.source.drop lx.current = []) (e : Char) :
    lx.matchChar e = (false, lx) := by
  unfold Lexer.matchChar
  rw [if_pos (lexer_at_nil lx h).1]

theorem matchChar_hit (lx : Lexer) (t : List Char) (e : Char)
    (h : lx.source.drop lx.current = e :: t) :
    lx.matchChar e
      = (true, { lx with current := lx.current + 1, column := lx.column + 1 }) := by
  have hat := lexer_at_cons lx e t h
  unfold Lexer.matchChar
  rw [hat.1, hat.2.1]
  simp

theorem matchChar_miss (lx : Lexer) (d : Char) (t : List Char) (e : Char)
    (h : lx.source.drop lx.current = d :: t) (hne : d ≠ e) :
    lx.matchChar e = (false, lx) := by
  have hat := lexer_at_cons lx d t h
  unfold Lexer.matchChar
  rw [hat.1, hat.2.1]
  simp [hne]

/-- The loop of a comment reads up to the next newline, or up to the end of the
source when there is none; it moves the cursor and changes the column only. -/
theorem skipComment_run : ∀ (body : List Char) (n : Nat) (lx : Lexer) (post : List Char),
    (∀ ch ∈ body, ch ≠ Char.ofNat 10) →
    (∀ ch, post.head? = some ch → ch = Char.ofNat 10) →
    lx.source.drop lx.current = body ++ post →
    ∃ col : Int, Lexer.skipComment (body.length + n) lx
      = { lx with current := lx.current + body.length, column := col }
  | [], n, lx, post, _, hpost, hsrc => by
      refine ⟨lx.column, ?_⟩
      rw [List.length_nil, Nat.zero_add]
      cases n with
      | zero => rfl
      | succ n =>
        unfold Lexer.skipComment
        rw [if_neg]
        · rfl
        · cases post with
          | nil => simp [(lexer_at_nil lx hsrc).1]
          | cons ch tail =>
            rw [(lexer_at_cons lx ch tail hsrc).2.2.1, hpost ch rfl]
            simp
  | ch :: rest, n, lx, post, hbody, hpost, hsrc => by
      have hat := lexer_at_cons lx ch (rest ++ post) hsrc
      have e : (ch :: rest).length + n = (rest.length + n) + 1 := by
        simp only [List.length_cons]
        omega
      obtain ⟨col, hrec⟩ := skipComment_run rest n lx.advance.2 post
        (fun x hx => hbody x (List.mem_cons_of_mem _ hx)) hpost hat.2.2.2
      refine ⟨col, ?_⟩
      rw [e]
      unfold Lexer.skipComment
      rw [if_pos (by
        rw [hat.2.2.1, hat.1]
        exact ⟨hbody ch (List.mem_cons_self _ _), rfl⟩), hrec]
      simp only [Lexer.advance, List.length_cons]
      congr 1
      omega

/-- The loop of digits reads a run of digits up to a character that is none, or
up to the end. -/
theorem digits_run : ∀ (run : List Char) (n : Nat) (lx : Lexer) (post : List Char),
    (∀ ch ∈ run, ch.isDigit = true) →
    (∀ ch, post.head? = some ch → ch.isDigit = false) →
    lx.source.drop lx.current = run ++ post →
    ∃ col : Int, Lexer.digits (run.length + n) lx
      = { lx with current := lx.current + run.length, column := col }
  | [], n, lx, post, _, hpost, hsrc => by
      refine ⟨lx.column, ?_⟩
      rw [List.length_nil, Nat.zero_add]
      cases n with
      | zero => rfl
      | succ n =>
        unfold Lexer.digits
        rw [if_neg]
        · rfl
        · cases post with
          | nil =>
            rw [(lexer_at_nil lx hsrc).2]
            decide
          | cons ch tail =>
            rw [(lexer_at_cons lx ch tail hsrc).2.2.1, hpost ch rfl]
            decide
  | ch :: rest, n, lx, post, hrun, hpost, hsrc => by
      have hat := lexer_at_cons lx ch (rest ++ post) hsrc
      have e : (ch :: rest).length + n = (rest.length + n) + 1 := by
        simp only [List.length_cons]
        omega
      obtain ⟨col, hrec⟩ := digits_run rest n lx.advance.2 post
        (fun x hx => hrun x (List.mem_cons_of_mem _ hx)) hpost hat.2.2.2
      refine ⟨col, ?_⟩
      rw [e]
      unfold Lexer.digits
      rw [if_pos (by rw [hat.2.2.1]; exact hrun ch (List.mem_cons_self _ _)), hrec]
      simp only [Lexer.advance, List.length_cons]
      congr 1
      omega

theorem peekNext_cons (lx : Lexer) (q d : Char) (t : List Char)
    (h : lx.source.drop lx.current = q :: d :: t) : lx.peekNext = d := by
  have hat := lexer_at_cons lx q (d :: t) h
  have hat2 := lexer_at_cons lx.advance.2 d t hat.2.2.2
  have h1 : ¬ (lx.current + 1 ≥ lx.source.length) := by
    have := hat2.1
    simp only [Lexer.isAtEnd, decide_eq_false_iff_not] at this
    exact this
  unfold Lexer.peekNext
  rw [if_neg h1]
  exact hat2.2.1

theorem peekNext_single (lx : Lexer) (q : Char)
    (h : lx.source.drop lx.current = [q]) : lx.peekNext = Char.ofNat 0 := by
  have hat := lexer_at_cons lx q [] h
  have h1 : lx.current + 1 ≥ lx.source.length := List.drop_eq_nil_iff.mp hat.2.2.2
  unfold Lexer.peekNext
  rw [if_pos h1]

theorem takeWhile_digits (l : List Char) : ∀ ch ∈ l.takeWhile Char.isDigit, ch.isDigit = true :=
  fun _ h => List.mem_takeWhile_imp h

theorem dropWhile_digits (l : List Char) :
    ∀ ch, (l.dropWhile Char.isDigit).head? = some ch → ch.isDigit = false := by
  intro ch h
  cases hd : l.dropWhile Char.isDigit with
  | nil =>
    rw [hd] at h
    cases h
  | cons q t =>
    rw [hd] at h
    simp only [List.head?_cons, Option.some.injEq] at h
    rw [← h]
    exact dropWhile_head _ l q t hd

/-- The method `Lexer::number` adds one `NUMBER` token and reads digits and at
most one dot, none of which belongs to a word. -/
theorem number_spec (lx : Lexer) :
    ∃ r : Lexer, lx.number = r ∧ r.source = lx.source
      ∧ (∃ tok : Token, r.tokens = lx.tokens ++ [tok] ∧ tok.type = .NUMBER)
      ∧ specWords (lx.source.drop r.current) = specWords (lx.source.drop lx.current) := by
  have hsplit : lx.source.drop lx.current
      = (lx.source.drop lx.current).takeWhile Char.isDigit
        ++ (lx.source.drop lx.current).dropWhile Char.isDigit :=
    (List.takeWhile_append_dropWhile _ _).symm
  have hdig := takeWhile_digits (lx.source.drop lx.current)
  have hpost := dropWhile_digits (lx.source.drop lx.current)
  generalize (lx.source.drop lx.current).takeWhile Char.isDigit = ds at hsplit hdig
  generalize (lx.source.drop lx.current).dropWhile Char.isDigit = t1 at hsplit hpost
  have hlen : lx.source.length - lx.current = ds.length + t1.length := by
    have h := congrArg List.length hsplit
    simp only [List.length_drop, List.length_append] at h
    exact h
  obtain ⟨col, hA⟩ := digits_run ds t1.length lx t1 hdig hpost hsplit
  have hdropA : lx.source.drop (lx.current + ds.length) = t1 := drop_of_append _ _ _ _ hsplit
  have hw1 : specWords t1 = specWords (lx.source.drop lx.current) := by
    rw [hsplit, specWords_digits ds t1 hdig]
  by_cases hcond : (⟨lx.source, lx.tokens, lx.start, lx.current + ds.length, lx.line, col,
        lx.errors⟩ : Lexer).peek = Char.ofNat 46
      ∧ (⟨lx.source, lx.tokens, lx.start, lx.current + ds.length, lx.line, col,
          lx.errors⟩ : Lexer).peekNext.isDigit = true
  · obtain ⟨hp1, hp2⟩ := hcond
    cases t1 with
    | nil =>
      rw [(lexer_at_nil _ hdropA).2] at hp1
      exact absurd hp1 (by decide)
    | cons q t2 =>
      rw [(lexer_at_cons _ q t2 hdropA).2.2.1] at hp1
      subst hp1
      cases t2 with
      | nil =>
        rw [peekNext_single _ _ hdropA] at hp2
        exact absurd hp2 (by decide)
      | cons d t3 =>
        rw [peekNext_cons _ _ d t3 hdropA] at hp2
        have hat := lexer_at_cons (⟨lx.source, lx.tokens, lx.start, lx.current + ds.length,
          lx.line, col, lx.errors⟩ : Lexer) (Char.ofNat 46) (d :: t3) hdropA
        have hsplit2 : d :: t3
            = (d :: t3).takeWhile Char.isDigit ++ (d :: t3).dropWhile Char.isDigit :=
          (List.takeWhile_append_dropWhile _ _).symm
        have hdig2 := takeWhile_digits (d :: t3)
        have hpost2 := dropWhile_digits (d :: t3)
        generalize (d :: t3).takeWhile Char.isDigit = ds2 at hsplit2 hdig2
        generalize (d :: t3).dropWhile Char.isDigit = t4 at hsplit2 hpost2
        have hsrc2 : (⟨lx.source, lx.tokens, lx.start, lx.current + ds.length + 1, lx.line,
            col + 1, lx.errors⟩ : Lexer).source.drop (lx.current + ds.length + 1)
            = ds2 ++ t4 := by
          rw [← hsplit2]
          exact hat.2.2.2
        have hlen2 : lx.source.length - (lx.current + ds.length + 1) = ds2.length + t4.length := by
          have h := congrArg List.length hsrc2
          simp only [List.length_drop, List.length_append] at h
          exact h
        obtain ⟨col2, hB⟩ := digits_run ds2 t4.length
          (⟨lx.source, lx.tokens, lx.start, lx.current + ds.length + 1, lx.line, col + 1,
            lx.errors⟩ : Lexer) t4 hdig2 hpost2 hsrc2
        have hdropB : lx.source.drop (lx.current + ds.length + 1 + ds2.length) = t4 :=
          drop_of_append _ _ _ _ hsrc2
        have hnum : lx.number
            = (⟨lx.source, lx.tokens, lx.start, lx.current + ds.length + 1 + ds2.length, lx.line,
                col2, lx.errors⟩ : Lexer).addToken .NUMBER := by
          unfold Lexer.number
          simp only [hlen, hA]
          rw [if_pos ⟨(lexer_at_cons _ _ _ hdropA).2.2.1, by
            rw [peekNext_cons _ _ d t3 hdropA]
            exact hp2⟩]
          simp only [Lexer.advance, hlen2, hB]
        refine ⟨_, hnum, rfl, ⟨_, rfl, rfl⟩, ?_⟩
        show specWords (lx.source.drop (lx.current + ds.length + 1 + ds2.length)) = _
        rw [hdropB, ← hw1, specWords_skip (Char.ofNat 46) _ (by decide) (by decide) (by decide),
          hsplit2, specWords_digits ds2 t4 hdig2]
  · have hnum : lx.number
        = (⟨lx.source, lx.tokens, lx.start, lx.current + ds.length, lx.line, col,
            lx.errors⟩ : Lexer).addToken .NUMBER := by
      unfold Lexer.number
      simp only [hlen, hA, if_neg hcond]
    refine ⟨_, hnum, rfl, ⟨_, rfl, rfl⟩, ?_⟩
    show specWords (lx.source.drop (lx.current + ds.length)) = _
    rw [hdropA, hw1]

theorem wordStart_facts (c : Char) (h : c.isAlpha = true ∨ c = Char.ofNat 95) :
    c ≠ Char.ofNat 34 ∧ c ≠ Char.ofNat 45 ∧ isWordStart c = true := by
  refine ⟨?_, ?_, ?_⟩
  · intro e
    rw [e] at h
    exact absurd h (by decide)
  · intro e
    rw [e] at h
    exact absurd h (by decide)
  · rcases h with h | h
    · simp [isWordStart, h]
    · simp [isWordStart, h]

theorem wordChar_iff (c : Char) :
    isWordChar c = true ↔ (c.isAlphanum = true ∨ c = Char.ofNat 95) := by
  simp [isWordChar]

/-- One call of `scanToken` at a character of the source, with `start` at the
cursor: the word tokens it adds are the words of the text it reads. -/
theorem scanToken_pending (lx0 : Lexer) (hstart : lx0.start = lx0.current)
    (hne : lx0.isAtEnd = false) : lx0.scanToken.pending = lx0.pending := by
  cases hsrc : lx0.source.drop lx0.current with
  | nil =>
    rw [(lexer_at_nil lx0 hsrc).1] at hne
    cases hne
  | cons c rest =>
    have hat := lexer_at_cons lx0 c rest hsrc
    have hc0 : lx0.advance.1 = c := hat.2.1
    have hrest : lx0.source.drop (lx0.current + 1) = rest := hat.2.2.2
    have ite : ∀ (p : Prop) [Decidable p] (x y : Lexer),
        (p → x.pending = lx0.pending) → (¬ p → y.pending = lx0.pending) →
        (if p then x else y).pending = lx0.pending := by
      intro p _ x y hx hy
      split
      · exact hx ‹_›
      · exact hy ‹_›
    have skip : c ≠ Char.ofNat 34 → c ≠ Char.ofNat 45 → isWordStart c = false →
        (specWords rest).map (fun w => (w, wordKind w))
          = (specWords (lx0.source.drop lx0.current)).map (fun w => (w, wordKind w)) := by
      intro h1 h2 h3
      rw [hsrc, specWords_skip c rest h1 h2 h3]
    have lit : ∀ k : Char, lx0.advance.1 = k → k ≠ Char.ofNat 34 → k ≠ Char.ofNat 45 →
        isWordStart k = false →
        (specWords rest).map (fun w => (w, wordKind w))
          = (specWords (lx0.source.drop lx0.current)).map (fun w => (w, wordKind w)) := by
      intro k hk h1 h2 h3
      have e : c = k := hc0.symm.trans hk
      subst e
      exact skip h1 h2 h3
    have tok : ∀ (ty : TokenType) (k : Char), isWordKind ty = false → lx0.advance.1 = k →
        k ≠ Char.ofNat 34 → k ≠ Char.ofNat 45 → isWordStart k = false →
        (lx0.advance.2.addToken ty).pending = lx0.pending := by
      intro ty k hty hk h1 h2 h3
      refine pending_of lx0 _ [_] rest rfl rfl hrest ?_
      rw [wordTokens_other _ hty, List.nil_append]
      exact lit k hk h1 h2 h3
    have two : ∀ (t1 t2 : TokenType) (k : Char), isWordKind t1 = false → isWordKind t2 = false →
        lx0.advance.1 = k → k ≠ Char.ofNat 34 → k ≠ Char.ofNat 45 → isWordStart k = false →
        ((lx0.advance.2.matchChar (Char.ofNat 61)).2.addToken
          (if (lx0.advance.2.matchChar (Char.ofNat 61)).1 = true then t1 else t2)).pending
          = lx0.pending := by
      intro t1 t2 k ht1 ht2 hk h1 h2 h3
      have hl := lit k hk h1 h2 h3
      cases hr : rest with
      | nil =>
        rw [hr] at hrest
        rw [matchChar_nil _ hrest]
        refine pending_of lx0 _ [_] [] rfl rfl hrest ?_
        rw [wordTokens_other _ ht2, List.nil_append, ← hr]
        exact hl
      | cons d t =>
        rw [hr] at hrest
        by_cases hd : d = Char.ofNat 61
        · subst hd
          rw [matchChar_hit _ t _ hrest]
          refine pending_of lx0 _ [_] t rfl rfl
            (drop_of_append lx0.source (lx0.current + 1) [Char.ofNat 61] t hrest) ?_
          rw [wordTokens_other _ ht1, List.nil_append, ← hl, hr,
            specWords_skip (Char.ofNat 61) t (by decide) (by decide) (by decide)]
        · rw [matchChar_miss _ d t _ hrest hd]
          refine pending_of lx0 _ [_] (d :: t) rfl rfl hrest ?_
          rw [wordTokens_other _ ht2, List.nil_append, ← hr]
          exact hl
    unfold Lexer.scanToken
    refine ite _ _ _ (fun h => tok _ _ rfl h (by decide) (by decide) (by decide)) (fun _ => ?_)
    refine ite _ _ _ (fun h => tok _ _ rfl h (by decide) (by decide) (by decide)) (fun _ => ?_)
    refine ite _ _ _ (fun h => tok _ _ rfl h (by decide) (by decide) (by decide)) (fun _ => ?_)
    refine ite _ _ _ (fun h => tok _ _ rfl h (by decide) (by decide) (by decide)) (fun _ => ?_)
    refine ite _ _ _ (fun h => tok _ _ rfl h (by decide) (by decide) (by decide)) (fun _ => ?_)
    refine ite _ _ _ (fun h => tok _ _ rfl h (by decide) (by decide) (by decide)) (fun _ => ?_)
    refine ite _ _ _ (fun h => ?_) (fun n45 => ?_)
    · -- a minus sign: a comment or the token `-`
      have e : c = Char.ofNat 45 := hc0.symm.trans h
      subst e
      cases hr : rest with
      | nil =>
        rw [hr] at hrest
        rw [matchChar_nil _ hrest]
        refine pending_of lx0 _ [_] [] rfl rfl hrest ?_
        rw [wordTokens_other _ (by rfl), List.nil_append, hsrc, hr,
          specWords_minus [] (by simp)]
      | cons d t =>
        rw [hr] at hrest
        by_cases hd : d = Char.ofNat 45
        · subst hd
          rw [matchChar_hit _ t _ hrest]
          have hsplit : t = t.takeWhile (fun ch => ch != Char.ofNat 10)
              ++ t.dropWhile (fun ch => ch != Char.ofNat 10) :=
            (List.takeWhile_append_dropWhile _ _).symm
          have hbody : ∀ ch ∈ t.takeWhile (fun ch => ch != Char.ofNat 10),
              ch ≠ Char.ofNat 10 := by
            intro ch hch
            have := List.mem_takeWhile_imp hch
            simpa using this
          have hpost : ∀ ch, (t.dropWhile (fun ch => ch != Char.ofNat 10)).head? = some ch →
              ch = Char.ofNat 10 := by
            intro ch hch
            cases hdw : t.dropWhile (fun ch => ch != Char.ofNat 10) with
            | nil =>
              rw [hdw] at hch
              cases hch
            | cons q u =>
              rw [hdw] at hch
              simp only [List.head?_cons, Option.some.injEq] at hch
              rw [← hch]
              have := dropWhile_head _ t q u hdw
              simpa using this
          generalize t.takeWhile (fun ch => ch != Char.ofNat 10) = body at hsplit hbody
          have hw : specWords (lx0.source.drop lx0.current)
              = specWords (t.dropWhile (fun ch => ch != Char.ofNat 10)) := by
            rw [hsrc, hr, specWords_cons, if_neg (by decide), if_pos ⟨rfl, rfl⟩]
            rfl
          generalize t.dropWhile (fun ch => ch != Char.ofNat 10) = post at hsplit hpost hw
          have hdrop2 : lx0.source.drop (lx0.current + 1 + 1) = body ++ post := by
            rw [← hsplit]
            exact drop_of_append lx0.source (lx0.current + 1) [Char.ofNat 45] t hrest
          have hlen : lx0.source.length - (lx0.current + 1 + 1) = body.length + post.length := by
            have h2 := congrArg List.length hdrop2
            simp only [List.length_drop, List.length_append] at h2
            exact h2
          obtain ⟨col, hrun⟩ := skipComment_run body post.length
            (⟨lx0.source, lx0.tokens, lx0.start, lx0.current + 1 + 1, lx0.line,
              lx0.column + 1 + 1, lx0.errors⟩ : Lexer) post hbody hpost hdrop2
          simp only [Lexer.advance, if_true, hlen, hrun]
          refine pending_of lx0 _ [] post rfl (List.append_nil _).symm
            (drop_of_append lx0.source (lx0.current + 1 + 1) body post hdrop2) ?_
          rw [hw]
          rfl
        · rw [matchChar_miss _ d t _ hrest hd]
          refine pending_of lx0 _ [_] (d :: t) rfl rfl hrest ?_
          rw [wordTokens_other _ (by rfl), List.nil_append, hsrc, hr,
            specWords_minus (d :: t) (by simpa using hd)]
    refine ite _ _ _ (fun h => tok _ _ rfl h (by decide) (by decide) (by decide)) (fun _ => ?_)
    refine ite _ _ _ (fun h => tok _ _ rfl h (by decide) (by decide) (by decide)) (fun _ => ?_)
    refine ite _ _ _ (fun h => tok _ _ rfl h (by decide) (by decide) (by decide)) (fun _ => ?_)
    refine ite _ _ _
      (fun h => two _ _ _ rfl rfl h (by decide) (by decide) (by decide)) (fun _ => ?_)
    refine ite _ _ _
      (fun h => two _ _ _ rfl rfl h (by decide) (by decide) (by decide)) (fun _ => ?_)
    refine ite _ _ _
      (fun h => two _ _ _ rfl rfl h (by decide) (by decide) (by decide)) (fun _ => ?_)
    refine ite _ _ _
      (fun h => two _ _ _ rfl rfl h (by decide) (by decide) (by decide)) (fun _ => ?_)
    refine ite _ _ _ (fun h => tok _ _ rfl h (by decide) (by decide) (by decide)) (fun _ => ?_)
    refine ite _ _ _ (fun h => ?_) (fun _ => ?_)
    · -- a blank
      refine pending_of lx0 _ [] rest rfl (List.append_nil _).symm hrest ?_
      refine (List.nil_append _).trans ?_
      rcases h with h | h | h
      · exact lit _ h (by decide) (by decide) (by decide)
      · exact lit _ h (by decide) (by decide) (by decide)
      · exact lit _ h (by decide) (by decide) (by decide)
    refine ite _ _ _ (fun h => ?_) (fun _ => ?_)
    · -- a newline
      refine pending_of lx0 _ [] rest rfl (List.append_nil _).symm hrest ?_
      refine (List.nil_append _).trans ?_
      exact lit _ h (by decide) (by decide) (by decide)
    refine ite _ _ _ (fun h => ?_) (fun n34 => ?_)
    · -- a double quote
      rw [← scanToken_of_quote lx0 h]
      have e : c = Char.ofNat 34 := hc0.symm.trans h
      subst e
      have hsplit : rest = rest.takeWhile (fun ch => ch != Char.ofNat 34)
          ++ rest.dropWhile (fun ch => ch != Char.ofNat 34) :=
        (List.takeWhile_append_dropWhile _ _).symm
      have hbody : ∀ ch ∈ rest.takeWhile (fun ch => ch != Char.ofNat 34),
          ch ≠ Char.ofNat 34 := by
        intro ch hch
        have := List.mem_takeWhile_imp hch
        simpa using this
      have hw : specWords (lx0.source.drop lx0.current)
          = specWords ((rest.dropWhile (fun ch => ch != Char.ofNat 34)).drop 1) := by
        rw [hsrc, specWords_cons, if_pos rfl]
      generalize rest.takeWhile (fun ch => ch != Char.ofNat 34) = body at hsplit hbody
      cases hdw : rest.dropWhile (fun ch => ch != Char.ofNat 34) with
      | nil =>
        rw [hdw, List.append_nil] at hsplit
        rw [hdw] at hw
        subst hsplit
        obtain ⟨l, col, hrun⟩ := scanToken_open_string lx0 rest hsrc hbody
        rw [hrun]
        refine pending_of lx0 _ [] [] rfl (List.append_nil _).symm
          (List.drop_length _) ?_
        rw [hw]
        rfl
      | cons q post =>
        have hq : q = Char.ofNat 34 := by
          have := dropWhile_head _ rest q post hdw
          simpa using this
        subst hq
        rw [hdw] at hsplit hw
        have hsrc2 : lx0.source.drop lx0.current
            = Char.ofNat 34 :: body ++ Char.ofNat 34 :: post := by
          rw [hsrc, hsplit]
          rfl
        obtain ⟨l, col, hrun⟩ := scanToken_closed_string lx0 body post hstart hsrc2 hbody
        rw [hrun]
        refine pending_of lx0 _ [_] post rfl rfl ?_ ?_
        · show lx0.source.drop (lx0.current + body.length + 2) = post
          have h1 : lx0.source.drop lx0.current
              = (Char.ofNat 34 :: body ++ [Char.ofNat 34]) ++ post := by
            rw [hsrc2]
            simp
          have h2 := drop_of_append lx0.source lx0.current _ post h1
          have e2 : lx0.current + (Char.ofNat 34 :: body ++ [Char.ofNat 34]).length
              = lx0.current + body.length + 2 := by
            simp only [List.length_cons, List.length_append, List.length_nil]
            omega
          rw [e2] at h2
          exact h2
        · rw [wordTokens_other _ (by rfl), List.nil_append, hw]
          rfl
    refine ite _ _ _ (fun h => ?_) (fun _ => ?_)
    · -- a digit
      obtain ⟨r, hr, hs, ⟨tk, htk, hty⟩, hw⟩ := number_spec lx0.advance.2
      rw [hr]
      refine pending_of lx0 r [tk] _ hs htk rfl ?_
      rw [wordTokens_other tk (by rw [hty]; rfl), List.nil_append]
      have hw2 : specWords (lx0.source.drop r.current) = specWords rest := by
        rw [← hrest]
        exact hw
      rw [hw2]
      rw [hc0] at h
      obtain ⟨h1, h2, _, h4⟩ := digit_facts c h
      exact skip h1 h2 h4
    refine ite _ _ _ (fun h => ?_) (fun nL => ?_)
    · -- a letter or an underscore
      rw [← scanToken_of_letter lx0 h]
      rw [hc0] at h
      obtain ⟨h1, h2, h3⟩ := wordStart_facts c h
      have hsplit : rest = rest.takeWhile isWordChar ++ rest.dropWhile isWordChar :=
        (List.takeWhile_append_dropWhile _ _).symm
      have hrun : ∀ ch ∈ rest.takeWhile isWordChar,
          ch.isAlphanum = true ∨ ch = Char.ofNat 95 :=
        fun ch hch => (wordChar_iff ch).mp (List.mem_takeWhile_imp hch)
      have hpost : ∀ ch, (rest.dropWhile isWordChar).head? = some ch →
          ¬ (ch.isAlphanum = true ∨ ch = Char.ofNat 95) := by
        intro ch hch
        cases hdw : rest.dropWhile isWordChar with
        | nil =>
          rw [hdw] at hch
          cases hch
        | cons q u =>
          rw [hdw] at hch
          simp only [List.head?_cons, Option.some.injEq] at hch
          rw [← hch]
          intro hq
          have h5 := dropWhile_head _ rest q u hdw
          rw [(wordChar_iff q).mpr hq] at h5
          cases h5
      have hw : specWords (lx0.source.drop lx0.current)
          = String.mk (c :: rest.takeWhile isWordChar)
            :: specWords (rest.dropWhile isWordChar) := by
        rw [hsrc, specWords_cons, if_neg h1, if_neg (fun hh => h2 hh.1), h3]
        rfl
      generalize rest.takeWhile isWordChar = run at hsplit hrun hw
      generalize rest.dropWhile isWordChar = post at hsplit hpost hw
      have hsrc2 : lx0.source.drop lx0.current = c :: run ++ post := by
        rw [hsrc, hsplit]
        rfl
      rw [scanToken_word lx0 c run post hstart hsrc2 h hrun hpost]
      refine pending_of lx0 _ [_] post rfl rfl ?_ ?_
      · show lx0.source.drop (lx0.current + 1 + run.length) = post
        have h6 : lx0.source.drop (lx0.current + 1) = run ++ post := by
          rw [hrest]
          exact hsplit
        exact drop_of_append lx0.source (lx0.current + 1) run post h6
      · rw [wordTokens_word _ (isWordKind_wordKind _), hw]
        rfl
    · -- any other character
      refine pending_of lx0 _ [] rest rfl (List.append_nil _).symm hrest ?_
      refine (List.nil_append _).trans ?_
      refine skip (fun e => n34 (hc0.trans e)) (fun e => n45 (hc0.trans e)) ?_
      have ha : c.isAlpha = false := by
        cases hx : c.isAlpha with
        | false => rfl
        | true => exact absurd (Or.inl (by rw [hc0]; exact hx)) nL
      have hu : (c == Char.ofNat 95) = false := by
        rw [beq_eq_false_iff_ne]
        intro e
        exact nL (Or.inr (hc0.trans e))
      simp only [isWordStart, ha, hu, Bool.or_self]

theorem scanLoop_pending : ∀ (budget : Nat) (lx lx1 : Lexer),
    Lexer.scanLoop budget lx = some lx1 → lx1.pending = lx.pending
  | 0, lx, lx1, h => by
      unfold Lexer.scanLoop at h
      by_cases he : lx.isAtEnd = true
      · rw [if_pos he] at h
        cases h
        rfl
      · rw [if_neg he] at h
        cases h
  | budget + 1, lx, lx1, h => by
      unfold Lexer.scanLoop at h
      by_cases he : lx.isAtEnd = true
      · rw [if_pos he] at h
        cases h
        rfl
      · rw [if_neg he] at h
        have h1 := scanLoop_pending budget _ lx1 h
        rw [h1]
        have hne : ({ lx with start := lx.current } : Lexer).isAtEnd = false := by
          cases hx : lx.isAtEnd with
          | false => exact hx
          | true => exact absurd hx he
        exact scanToken_pending { lx with start := lx.current } rfl hne

theorem wordsFuel_shape : ∀ (n : Nat) (cs : List Char) (w : String), w ∈ wordsFuel n cs →
    ∃ (c : Char) (r : List Char), w = String.mk (c :: r)
      ∧ (c.isAlpha = true ∨ c = Char.ofNat 95)
      ∧ ∀ ch ∈ r, ch.isAlphanum = true ∨ ch = Char.ofNat 95
  | 0, _, w, h => by
      simp [wordsFuel] at h
  | _ + 1, [], w, h => by
      simp [wordsFuel] at h
  | n + 1, c :: rest, w, h => by
      unfold wordsFuel at h
      split at h
      · exact wordsFuel_shape n _ w h
      · split at h
        · exact wordsFuel_shape n _ w h
        · split at h
          · rcases List.mem_cons.mp h with h | h
            · refine ⟨c, rest.takeWhile isWordChar, h, ?_, ?_⟩
              · have hc : isWordStart c = true := ‹_›
                simpa [isWordStart] using hc
              · intro ch hch
                exact (wordChar_iff ch).mp (List.mem_takeWhile_imp hch)
            · exact wordsFuel_shape n _ w h
          · exact wordsFuel_shape n _ w h

theorem scanTokens_words (source : String) :
    ∃ tokens : List Token, scanTokens source = some tokens
      ∧ wordTokens tokens = (specWords source.toList).map (fun w => (w, wordKind w)) := by
  obtain ⟨b, hb, _, hend⟩ := scanLoop_total source.length { source := source.toList } (by
    show source.toList.length - 0 ≤ source.toList.length
    omega)
  refine ⟨b.tokens ++ [{ type := .TOKEN_EOF, lexeme := "", line := b.line, column := b.column }],
    ?_, ?_⟩
  · unfold scanTokens Lexer.scan
    rw [hb]
    rfl
  · have hp := scanLoop_pending _ _ b hb
    have hnil : b.source.drop b.current = [] := by
      apply List.drop_eq_nil_iff.mpr
      simpa [Lexer.isAtEnd] using hend
    rw [wordTokens_append, wordTokens_other _ (by rfl), List.append_nil]
    have h1 : b.pending = wordTokens b.tokens := by
      unfold Lexer.pending
      rw [hnil]
      exact List.append_nil _
    rw [← h1, hp]
    rfl

/-- C23: for every source, `scanTokens` returns a token list, and its tokens of
kind `IDENTIFIER` or of a reserved-word kind are, in the order of the source,
exactly the words of the source: the maximal runs of letters, digits and
underscores that start at a letter or an underscore outside string literals and
comments (`specWords`). There is one token for each run, its lexeme is the run,
and its kind is the kind the table of the 21 reserved words gives for the run,
`IDENTIFIER` exactly when the run is none of the 21 words. Every such run starts
with a letter or an underscore and goes on with letters, digits and
underscores. On the source `wordsSource` the runs are `x1`, `while`, `_z2` and
`or`. -/
theorem word_scans_to_one_token (source : String) :
    (∃ tokens : List Token, scanTokens source = some tokens
      ∧ (tokens.filter (fun t => isWordKind t.type)).map (fun t => (t.lexeme, t.type))
          = (specWords source.toList).map (fun w => (w, wordKind w)))
      ∧ (∀ t : TokenType, isWordKind t = true
          ↔ (t = .IDENTIFIER
              ∨ t ∈ [TokenType.AND, .BREAK, .DO, .ELSE, .ELSEIF, .END, .FALSE, .FOR, .FUNCTION,
                     .IF, .IN, .LOCAL, .NIL, .NOT, .OR, .REPEAT, .RETURN, .THEN, .TRUE, .UNTIL,
                     .WHILE]))
      ∧ (∀ (w : String) (k : TokenType),
            (w, k) ∈ [("and", TokenType.AND), ("break", .BREAK), ("do", .DO), ("else", .ELSE),
                   ("elseif", .ELSEIF), ("end", .END), ("false", .FALSE), ("for", .FOR),
                   ("function", .FUNCTION), ("if", .IF), ("in", .IN), ("local", .LOCAL),
                   ("nil", .NIL), ("not", .NOT), ("or", .OR), ("repeat", .REPEAT),
                   ("return", .RETURN), ("then", .THEN), ("true", .TRUE), ("until", .UNTIL),
                   ("while", .WHILE)] →
            wordKind w = k)
      ∧ (∀ w : String, wordKind w = .IDENTIFIER
            ↔ w ∉ ["and", "break", "do", "else", "elseif", "end", "false", "for", "function",
                   "if", "in", "local", "nil", "not", "or", "repeat", "return", "then", "true",
                   "until", "while"])
      ∧ (∀ w ∈ specWords source.toList, ∃ (c : Char) (r : List Char), w = String.mk (c :: r)
            ∧ (c.isAlpha = true ∨ c = Char.ofNat 95)
            ∧ ∀ ch ∈ r, ch.isAlphanum = true ∨ ch = Char.ofNat 95)
      ∧ specWords wordsSource.toList = ["x1", "while", "_z2", "or"]
      ∧ (scanTokens wordsSource).map
            (fun tokens => (tokens.filter (fun t => isWordKind t.type)).map
              (fun t => (t.lexeme, t.type)))
          = some [("x1", .IDENTIFIER), ("while", .WHILE), ("_z2", .IDENTIFIER), ("or", .OR)] := by
  refine ⟨scanTokens_words source, ?_, ?_, ?_, wordsFuel_shape _ _, by decide, by decide⟩
  · intro t
    cases t <;> decide
  · intro w k hk
    unfold wordKind
    rw [keywords_lookup_of_mem _ k hk]
    rfl
  · intro w
    unfold wordKind
    constructor
    · intro hkind hmem
      have hm : w ∈ keywords.map Prod.fst := hmem
      obtain ⟨p, hp, hp1⟩ := List.mem_map.mp hm
      have hl := keywords_lookup_of_mem p.1 p.2 hp
      rw [hp1] at hl
      rw [hl] at hkind
      simp only [Option.getD_some] at hkind
      have hall : ∀ q ∈ keywords, q.2 ≠ TokenType.IDENTIFIER := by decide
      exact hall p hp hkind
    · intro hmem
      rw [keywords_lookup_none _ hmem]
      rfl

end AllWords

end LuaProj
